import Mathlib

/-!
# Valhalla `midgard/util.cc`: base64 codec, point-in-polygon, tile-region boundary,
polyline resampling and trimming

A shallow embedding of the routines of `src/midgard/util.cc` together with theorems
about them.  `std::string` is a list of bytes, the Boost dataflow iterators used by
`encode64` / `decode64` are explicit state machines over the unread input, and
undefined behaviour or a thrown exception is the result `none`.
-/

namespace Valhalla

/-! ## Base64 codec -/

/-- One `char` of a `std::string`, taken as its unsigned value. -/
abbrev Byte := Fin 256

/-- The constant `PADDING_ENCODED = '='`. -/
def PADDING_ENCODED : Byte := 61

/-- The constant `ZERO_ENCODED = 'A'`. -/
def ZERO_ENCODED : Byte := 65

/-- The loop of `transform_width::fill()`: gathers `missing` more bits into `out`.
The iterator's members are `buf` (`m_buffer_in`), `rem` (`m_remaining_bits`) and
`eos` (`m_end_of_sequence`); `base` is the unread input of the underlying iterator and
`next` is its `*base++` (`none` when that read is undefined or throws).  The
`do ... while (0 < missing_bits)` body runs once per unit of `fuel`. -/
def fillLoop (bitsIn : Nat) (next : List Byte → Option (Nat × List Byte)) :
    Nat → Nat → Nat → Nat → Nat → Bool → List Byte →
      Option (Nat × Nat × Nat × List Byte)
  | 0, _, _, _, _, _, _ => none
  | fuel + 1, missing, out, buf, rem, eos, base =>
    let refill : Option (Nat × Nat × List Byte) :=
      if rem = 0 then
        if eos then some (0, missing, base)
        else
          match next base with
          | none => none
          | some (v, base') => some (v, bitsIn, base')
      else some (buf, rem, base)
    match refill with
    | none => none
    | some (buf, rem, base) =>
      let i := min missing rem
      let j := (buf >>> (rem - i)) &&& ((1 <<< i) - 1)
      let out := (out <<< i) ||| j
      let missing := missing - i
      let rem := rem - i
      if 0 < missing then fillLoop bitsIn next fuel missing out buf rem eos base
      else some (out, buf, rem, base)

/-- The call `transform_width::fill()`: one output value of `bitsOut` bits. -/
def fill (bitsOut bitsIn : Nat) (next : List Byte → Option (Nat × List Byte))
    (buf rem : Nat) (eos : Bool) (base : List Byte) :
    Option (Nat × Nat × Nat × List Byte) :=
  fillLoop bitsIn next bitsOut bitsOut 0 buf rem eos base

/-- The range constructor `std::string(first, last)` over a
`transform_width<Base, bitsOut, bitsIn>` input iterator:
`while (first != last) { push_back(*first); ++first; }`.
`first != last` is `transform_width::equal_impl`: for `bitsIn < bitsOut` the leftover
bits are discarded and the iterators are equal when the bases are; otherwise reaching the
end of the base sets `m_end_of_sequence` and the iterators are equal once no bits
remain.  The dereference is one `fill()`. -/
def collect (bitsOut bitsIn : Nat) (next : List Byte → Option (Nat × List Byte)) :
    Nat → Nat → Nat → Bool → List Byte → Option (List Nat)
  | 0, _, _, _, _ => none
  | fuel + 1, buf, rem, eos, base =>
    let eos' : Bool := if bitsIn < bitsOut then eos else (eos || base.isEmpty)
    let equal : Bool :=
      if bitsIn < bitsOut then base.isEmpty else (base.isEmpty && rem == 0)
    if equal then some []
    else
      match fill bitsOut bitsIn next buf rem eos' base with
      | none => none
      | some (out, buf, rem, base) =>
        match collect bitsOut bitsIn next fuel buf rem eos' base with
        | none => none
        | some rest => some (out :: rest)

/-- Dereference and post-increment of a `std::string::const_iterator`; reading at the
end of the string is undefined. -/
def nextChar : List Byte → Option (Nat × List Byte)
  | [] => none
  | c :: cs => some (c.val, cs)

/-- The table of `base64_from_binary` (`detail::from_6_bit`). -/
def from_6_bit_table : List Nat :=
  "ABCDEFGHIJKLMNOPQRSTUVWXYZabcdefghijklmnopqrstuvwxyz0123456789+/".toList.map Char.toNat

/-- The function `detail::from_6_bit`: the character of a 6-bit value
(the source asserts `t < 64`). -/
def from_6_bit (t : Nat) : Byte := Fin.ofNat (from_6_bit_table.getD t 0)

/-- The function `encode64` of `util.cc`. -/
def encode64 (text : List Byte) : Option (List Byte) :=
  match collect 6 8 nextChar (2 * text.length + 1) 0 0 false text with
  | none => none
  | some sextets =>
    let encoded := sextets.map from_6_bit
    let num_pad_chars := (3 - text.length % 3) % 3
    some (encoded ++ List.replicate num_pad_chars PADDING_ENCODED)

/-- The table of `binary_from_base64` (`detail::to_6_bit`), 128 signed entries. -/
def to_6_bit_table : List Int :=
  [-1,-1,-1,-1,-1,-1,-1,-1,-1,-1,-1,-1,-1,-1,-1,-1,
   -1,-1,-1,-1,-1,-1,-1,-1,-1,-1,-1,-1,-1,-1,-1,-1,
   -1,-1,-1,-1,-1,-1,-1,-1,-1,-1,-1,62,-1,-1,-1,63,
   52,53,54,55,56,57,58,59,60,61,-1,-1,-1, 0,-1,-1,
   -1, 0, 1, 2, 3, 4, 5, 6, 7, 8, 9,10,11,12,13,14,
   15,16,17,18,19,20,21,22,23,24,25,-1,-1,-1,-1,-1,
   -1,26,27,28,29,30,31,32,33,34,35,36,37,38,39,40,
   41,42,43,44,45,46,47,48,49,50,51,-1,-1,-1,-1,-1]

/-- The function `detail::to_6_bit`: the 6-bit value of a character; a character above
127 or with table entry `-1` throws `dataflow_exception`. -/
def to_6_bit (c : Byte) : Option Nat :=
  let value : Int := if c.val ≤ 127 then to_6_bit_table.getD c.val (-1) else -1
  if value = -1 then none else some value.toNat

/-- The predicate of `remove_whitespace` is `!std::isspace(c)` (C locale). -/
def isspace (c : Byte) : Bool :=
  c.val == 32 || (9 ≤ c.val && c.val ≤ 13)

/-- Dereference and post-increment of
`binary_from_base64<remove_whitespace<std::string::const_iterator>>`: the filter skips
whitespace when dereferenced (running off the end of the string is undefined), the
character found is mapped by `to_6_bit`, and the position moves one past it. -/
def nextSextet : List Byte → Option (Nat × List Byte)
  | [] => none
  | c :: cs =>
    if isspace c then nextSextet cs
    else
      match to_6_bit c with
      | none => none
      | some v => some (v, cs)

/-- The function `decode64` of `util.cc`.  `erase(end() - pad_chars, end())` is
undefined when `pad_chars` exceeds the decoded size. -/
def decode64 (encoded : List Byte) : Option (List Byte) :=
  let num_pad_chars := (4 - encoded.length % 4) % 4
  let padded := encoded ++ List.replicate num_pad_chars PADDING_ENCODED
  let pad_chars := padded.count PADDING_ENCODED
  let padded := padded.map (fun c => if c = PADDING_ENCODED then ZERO_ENCODED else c)
  match collect 8 6 nextSextet (padded.length + 1) 0 0 false padded with
  | none => none
  | some octets =>
    let decoded : List Byte := octets.map Fin.ofNat
    if pad_chars ≤ decoded.length then some (decoded.take (decoded.length - pad_chars))
    else none

/-- The bytes of a string literal (all characters below 256). -/
def bytes (s : String) : List Byte := s.toList.map (fun c => Fin.ofNat c.toNat)

/-- The 6-bit groups of a byte string, the last group filled with zero bits. -/
def sextets : List Byte → List Nat
  | [] => []
  | [a] => [a.val / 4, a.val % 4 * 16]
  | [a, b] => [a.val / 4, a.val % 4 * 16 + b.val / 16, b.val % 16 * 4]
  | a :: b :: c :: rest =>
    a.val / 4 :: (a.val % 4 * 16 + b.val / 16) :: (b.val % 16 * 4 + c.val / 64) ::
      c.val % 64 :: sextets rest

/-- The octets of a sequence of 6-bit values, four values to three octets. -/
def octets : List Nat → List Nat
  | s1 :: s2 :: s3 :: s4 :: rest =>
    (s1 % 64 * 4 + s2 / 16 % 4) :: (s2 % 16 * 16 + s3 / 4 % 16) ::
      (s3 % 4 * 64 + s4 % 64) :: octets rest
  | _ => []

/-- RFC 4648, Table 1: the character of a 6-bit value. -/
def rfcAlphabet (v : Nat) : Byte :=
  if v < 26 then Fin.ofNat (65 + v)
  else if v < 52 then Fin.ofNat (97 + (v - 26))
  else if v < 62 then Fin.ofNat (48 + (v - 52))
  else if v = 62 then 43
  else 47

/-- The number of padding characters of `encode64`. -/
def numPad (text : List Byte) : Nat := (3 - text.length % 3) % 3

/-- RFC 4648 section 4: the encoding of a byte string.  Each 24-bit group of three
bytes is read as four 6-bit groups; a final group of 8 bits is filled with zero bits to
12 bits and followed by two `=`, a final group of 16 bits is filled to 18 bits and
followed by one `=`. -/
def rfc4648 : List Byte → List Byte
  | [] => []
  | [a] =>
    let g := a.val * 16
    [rfcAlphabet (g / 64), rfcAlphabet (g % 64), 61, 61]
  | [a, b] =>
    let g := (a.val * 256 + b.val) * 4
    [rfcAlphabet (g / 4096), rfcAlphabet (g / 64 % 64), rfcAlphabet (g % 64), 61]
  | a :: b :: c :: rest =>
    let g := a.val * 65536 + b.val * 256 + c.val
    rfcAlphabet (g / 262144) :: rfcAlphabet (g / 4096 % 64) :: rfcAlphabet (g / 64 % 64) ::
      rfcAlphabet (g % 64) :: rfc4648 rest

/-- An encoded string with its trailing `=` characters removed. -/
def stripPadding (e : List Byte) : List Byte :=
  (e.reverse.dropWhile (fun c => c = PADDING_ENCODED)).reverse

/-! ## Tile-region boundary (`to_boundary`) and planar predicates -/

/-- A coordinate pair `(first, second)` = `(x, y)`; the source's `PointLL` holds
floating-point numbers, taken here as exact rationals. -/
abbrev Point := ℚ × ℚ

/-- The bounding box `AABB2` of a tile. -/
structure AABB2 where
  minx : ℚ
  miny : ℚ
  maxx : ℚ
  maxy : ℚ

/-- Modelled from the spec: the class `Tiles<PointLL>` (`midgard/tiles.h`), the TileGrid
of the data model: `nrows`, `ncolumns` and the bounds of each tile; tile id is
`row * ncolumns + column`. -/
structure Tiles where
  nrows : Int
  ncolumns : Int
  TileBounds : Nat → AABB2

/-- Modelled from the spec: `Tiles::GetRowColumn`, the `(row, column)` of a tile id with
tile id = `row * ncolumns + column`. -/
def Tiles.GetRowColumn (tiles : Tiles) (tile : Int) : Int × Int :=
  (tile / tiles.ncolumns, tile % tiles.ncolumns)

/-- Modelled from the spec: a regular lattice of `nrows` by `ncolumns` tiles of width
`dx` and height `dy` with lower left corner `(x0, y0)`; x grows with the column and y
with the row. -/
def Tiles.lattice (x0 y0 dx dy : ℚ) (nrows ncolumns : Nat) : Tiles where
  nrows := nrows
  ncolumns := ncolumns
  TileBounds := fun tile =>
    { minx := x0 + ((tile % ncolumns : Nat) : ℚ) * dx
      miny := y0 + ((tile / ncolumns : Nat) : ℚ) * dy
      maxx := x0 + (((tile % ncolumns : Nat) : ℚ) + 1) * dx
      maxy := y0 + (((tile / ncolumns : Nat) : ℚ) + 1) * dy }

/-- Conversion of an `int32_t` to `uint32_t`. -/
def toU32 (t : Int) : Nat := (t % 4294967296).toNat

/-- Conversion of a `uint32_t` to `int32_t`. -/
def toI32 (n : Nat) : Int := if n < 2147483648 then n else (n : Int) - 4294967296

/-- The lambda `member` of `to_boundary`: `region.find(tile) != region.cend()`, the
`int32_t` argument converted to the set's `uint32_t` key. -/
def member (region : List Nat) (tile : Int) : Bool := region.contains (toU32 tile)

/-- The lambda `neighbor` of `to_boundary`: the neighbor tile, `-1` if there is none. -/
def neighbor (tiles : Tiles) (tile : Int) (side : Int) : Int :=
  if tile = -1 then -1
  else
    let rc := tiles.GetRowColumn tile
    if side = 1 then (if rc.1 = 0 then -1 else tile - tiles.ncolumns)
    else if side = 2 then (if rc.2 = tiles.ncolumns - 1 then -1 else tile + 1)
    else if side = 3 then (if rc.1 = tiles.nrows - 1 then -1 else tile + tiles.ncolumns)
    else (if rc.2 = 0 then -1 else tile - 1)

/-- The lambda `coord` of `to_boundary`: the first coordinate, in counter-clockwise
winding, of the given side of the given tile. -/
def coord (tiles : Tiles) (tile : Nat) (side : Int) : Point :=
  let box := tiles.TileBounds tile
  if side = 1 then (box.minx, box.miny)
  else if side = 2 then (box.maxx, box.miny)
  else if side = 3 then (box.maxx, box.maxy)
  else (box.minx, box.maxy)

/-- How a run of `to_boundary` ends without a polygon: the `std::logic_error` thrown
by `trace`, or the loop bound of this model reached. -/
inductive TraceError where
  | logic_error
  | out_of_fuel
  deriving DecidableEq, Repr

/-- The successor rule of `trace`: with `adjc` the neighbor across the next side and `diag`
its neighbor across the current side, go to `diag` and the previous side if `diag` is in
the region, else to `adjc` on the same side if `adjc` is in the region, else stay on
the tile and go to the next side. -/
def nextEdge (region : List Nat) (tiles : Tiles) (tile : Nat) (side : Int) : Nat × Int :=
  let adjc := neighbor tiles (toI32 tile) ((side + 1) % 4)
  let diag := neighbor tiles adjc side
  if member region diag then (toU32 diag, (side + 3) % 4)
  else if member region adjc then (toU32 adjc, side)
  else (tile, (side + 1) % 4)

/-- The `do ... while (tile != start_tile || side != start_side)` loop of the lambda
`trace`.  `used` holds the pairs `(side, tile)` with `tile` in `used[side]`; one
iteration runs per unit of `fuel`. -/
def traceLoop (region : List Nat) (tiles : Tiles) (start_tile : Nat) (start_side : Int)
    (ccw : Bool) :
    Nat → Nat → Int → List Point → List (Int × Nat) →
      Except TraceError (List Point × List (Int × Nat))
  | 0, _, _, _, _ => .error .out_of_fuel
  | fuel + 1, tile, side, ring, used =>
    let ring := if ccw then ring ++ [coord tiles tile side] else coord tiles tile side :: ring
    if used.contains (side, tile) then .error .logic_error
    else
      let used := (side, tile) :: used
      let next := nextEdge region tiles tile side
      if next.1 ≠ start_tile ∨ next.2 ≠ start_side then
        traceLoop region tiles start_tile start_side ccw fuel next.1 next.2 ring used
      else .ok (ring, used)

/-- The lambda `trace` of `to_boundary`: appends one ring to the polygon and records
the sides it used.  No tile side is used twice, so the loop body runs at most
`4 * region.size() + 1` times. -/
def trace (region : List Nat) (tiles : Tiles) (polygon : List (List Point))
    (used : List (Int × Nat)) (start_tile : Nat) (start_side : Int) (ccw : Bool) :
    Except TraceError (List (List Point) × List (Int × Nat)) :=
  match traceLoop region tiles start_tile start_side ccw (4 * region.length + 1)
      start_tile start_side [] used with
  | .error e => .error e
  | .ok (ring, used) => .ok (polygon ++ [ring], used)

/-- The loop `for (start_side = 0; start_side < 4; ++start_side)` of the inner-ring
search for one tile (`sides` are the values of `start_side` still to visit). -/
def traceInnerSides (region : List Nat) (tiles : Tiles) (start_tile : Nat) :
    List Int → List (List Point) → List (Int × Nat) →
      Except TraceError (List (List Point) × List (Int × Nat))
  | [], polygon, used => .ok (polygon, used)
  | start_side :: sides, polygon, used =>
    if !member region (neighbor tiles (toI32 start_tile) start_side) ∧
        !used.contains (start_side, start_tile) then
      if start_side ≠ -1 then
        match trace region tiles polygon used start_tile start_side false with
        | .error e => .error e
        | .ok (polygon, used) => traceInnerSides region tiles start_tile sides polygon used
      else traceInnerSides region tiles start_tile sides polygon used
    else traceInnerSides region tiles start_tile sides polygon used

/-- The loop `for (auto start_tile : region)` of the inner-ring search (`todo` are the
tiles still to visit, in the iteration order of the set). -/
def traceInners (region : List Nat) (tiles : Tiles) :
    List Nat → List (List Point) → List (Int × Nat) →
      Except TraceError (List (List Point) × List (Int × Nat))
  | [], polygon, used => .ok (polygon, used)
  | start_tile :: todo, polygon, used =>
    match traceInnerSides region tiles start_tile [0, 1, 2, 3] polygon used with
    | .error e => .error e
    | .ok (polygon, used) => traceInners region tiles todo polygon used

/-- The loop that finds the smallest tile of the region. -/
def smallestTile (region : List Nat) (start_tile : Nat) : Nat :=
  region.foldl (fun start_tile tile => if tile < start_tile then tile else start_tile)
    start_tile

/-- The function `to_boundary` of `util.cc`.  The region is given by the order in
which the `std::unordered_set` iterates its tiles; `*region.cbegin()` of an empty
region is undefined, so the region is `first :: rest`. -/
def to_boundary (first : Nat) (rest : List Nat) (tiles : Tiles) :
    Except TraceError (List (List Point)) :=
  let region := first :: rest
  let start_tile := smallestTile region first
  match trace region tiles [] [] start_tile 0 true with
  | .error e => .error e
  | .ok (polygon, used) =>
    match traceInners region tiles region polygon used with
    | .error e => .error e
    | .ok (polygon, _) => .ok (polygon.map (fun ring => ring ++ ring.head?.toList))

/-- The function `polygon_area` of `util.cc` (shoelace formula) in exact arithmetic; the
loop over consecutive points.  `Double.shoelaceLoop` is the loop on `double`. -/
def shoelace : List Point → ℚ
  | p1 :: p2 :: rest => (p1.1 * p2.2 - p1.2 * p2.1) + shoelace (p2 :: rest)
  | _ => 0

/-- The function `polygon_area` of `util.cc` in exact arithmetic, for a non-empty polygon
`front :: rest`.  `Double.polygon_area` is the function on `double`. -/
def polygon_area (front : Point) (rest : List Point) : ℚ :=
  let back := (front :: rest).getLast (List.cons_ne_nil _ _)
  let area : ℚ := if back = front then 0 else back.1 * front.2 - back.2 * front.1
  (area + shoelace (front :: rest)) * (1 / 2)

deriving instance DecidableEq for Except

/-- The bookkeeping invariant of `to_boundary`: no `(side, tile)` pair is recorded
twice, every recorded side is one of `0..3` and every recorded tile is in the region. -/
def UsedOk (region : List Nat) (used : List (Int × Nat)) : Prop :=
  used.Nodup ∧ ∀ p ∈ used, p.1 ∈ [(0 : Int), 1, 2, 3] ∧ p.2 ∈ region

/-- The eight begin-vertices of the ring around the block `{5, 6, 9, 10}`. -/
def blockRing (tiles : Tiles) : List Point :=
  [coord tiles 5 0, coord tiles 5 1, coord tiles 6 1, coord tiles 6 2,
    coord tiles 10 2, coord tiles 10 3, coord tiles 9 3, coord tiles 9 0]

/-- The sides recorded by the trace around the block `{5, 6, 9, 10}`. -/
def blockUsed : List (Int × Nat) :=
  [(0, 9), (3, 9), (3, 10), (2, 10), (2, 6), (1, 6), (1, 5), (0, 5)]

/-- The function `quadrant_type` of `util.cc`: the quadrant of `pt1` relative to `pt2`. -/
def quadrant_type (pt1 pt2 : Point) : Int :=
  if pt1.1 > pt2.1 then (if pt1.2 > pt2.2 then 0 else 3)
  else (if pt1.2 > pt2.2 then 1 else 2)

/-- The function `x_intercept` of `util.cc` in exact arithmetic: the x intercept of the
edge `{pt1, pt2}` with the horizontal line at `y`.  `Double.x_intercept` is the function
on `double`. -/
def x_intercept (pt1 pt2 : Point) (y : ℚ) : ℚ :=
  pt2.1 - ((pt2.2 - y) * ((pt1.1 - pt2.1) / (pt1.2 - pt2.2)))

/-- The function `adjust_delta` of `util.cc` in exact arithmetic, returning the new value
of `delta`. -/
def adjust_delta (delta : Int) (vertex next_vertex p : Point) : Int :=
  if delta = 3 then -1
  else if delta = -3 then 1
  else if delta = 2 ∨ delta = -2 then
    (if x_intercept vertex next_vertex p.2 > p.1 then -delta else delta)
  else delta

/-- Conversion of an `int` to `int8_t`. -/
def toInt8 (z : Int) : Int := (z + 128) % 256 - 128

/-- The loop of `point_in_poly`: `todo` holds the vertices from `*it` on, and the
iterator wraps to `poly.begin()` (`front`) at the end. -/
def windLoop (pt front : Point) : List Point → Int → Int → Int
  | [], _, angle => angle
  | vertex :: todo, quad, angle =>
    let next_vertex := todo.headD front
    let next_quad := quadrant_type next_vertex pt
    let delta := adjust_delta (toInt8 (next_quad - quad)) vertex next_vertex pt
    windLoop pt front todo next_quad (toInt8 (angle + delta))

/-- The function `point_in_poly` of `util.cc` in exact arithmetic; `poly.front()` of an
empty polygon is undefined.  `Double.point_in_poly` is the function on `double`. -/
def point_in_poly (pt : Point) (poly : List Point) : Option Bool :=
  match poly with
  | [] => none
  | front :: _ =>
    let angle := windLoop pt front poly (quadrant_type front pt) 0
    some (angle == 4 || angle == -4)

/-- Twice the signed area of the triangle `a b c`: positive when `c` is strictly to the
left of the directed line from `a` to `b`. -/
def cross (a b c : Point) : ℚ :=
  (b.1 - a.1) * (c.2 - a.2) - (b.2 - a.2) * (c.1 - a.1)

/-- The edges walked from the vertices `todo`, the last one closing to `front`. -/
def edgesFrom (front : Point) : List Point → List (Point × Point)
  | [] => []
  | vertex :: todo => (vertex, todo.headD front) :: edgesFrom front todo

/-- The edges of a ring: each vertex with its successor, the last with the first. -/
def ringEdges (ring : List Point) : List (Point × Point) :=
  edgesFrom (ring.headD (0, 0)) ring

/-- The unit square of scenario S4. -/
def unitSquare : List Point := [(0, 0), (1, 0), (1, 1), (0, 1)]

/-- The adjusted quadrant delta that `point_in_poly` adds for the edge `e`. -/
def edgeDelta (pt : Point) (e : Point × Point) : Int :=
  adjust_delta (quadrant_type e.2 pt - quadrant_type e.1 pt) e.1 e.2 pt

/-- The body of `adjust_delta` with the outcome of its `x_intercept` test as `flip`. -/
def adjustBy (delta : Int) (flip : Bool) : Int :=
  if delta = 3 then -1
  else if delta = -3 then 1
  else if delta = 2 ∨ delta = -2 then (if flip then -delta else delta)
  else delta

/-- The quadrant that the open half-plane `{v | 0 < α * (v.x - p.x) + β * (v.y - p.y)}`
through `p` does not meet. -/
def missedQuadrant (α β : ℚ) : Int :=
  if 0 ≤ α then (if 0 ≤ β then 2 else 1) else (if 0 ≤ β then 3 else 0)

/-- The position of quadrant `q` on the arc of the three quadrants after `m`. -/
def liftQuadrant (m q : Int) : Int := (q - m - 1) % 4

/-- For a ring wound counter-clockwise: every vertex is on the closed left of every
edge. -/
def ConvexCCW (ring : List Point) : Prop :=
  ∀ e ∈ ringEdges ring, ∀ v ∈ ring, 0 ≤ cross e.1 e.2 v

/-- For a ring wound clockwise: every vertex is on the closed right of every edge. -/
def ConvexCW (ring : List Point) : Prop :=
  ∀ e ∈ ringEdges ring, ∀ v ∈ ring, cross e.1 e.2 v ≤ 0

/-- The point `p` is strictly outside the convex ring: strictly on the outer side of the
line through one of its edges. -/
def StrictlyOutside (p : Point) (ring : List Point) : Prop :=
  (ConvexCCW ring ∧ ∃ e ∈ ringEdges ring, cross e.1 e.2 p < 0) ∨
    (ConvexCW ring ∧ ∃ e ∈ ringEdges ring, 0 < cross e.1 e.2 p)

/-- The edge `e` crosses the horizontal line through `p` upwards: it starts at or below
the line and ends strictly above it. -/
def upEdge (p : Point) (e : Point × Point) : Bool :=
  decide (e.1.2 ≤ p.2) && decide (p.2 < e.2.2)

/-- A quantity that strictly increases along every edge that stays in one quadrant and
has `p` strictly on its left: a ratio of the offsets of `v` from `p`, chosen by the
half-plane of the quadrant. -/
def quadrantKey (p v : Point) : ℚ :=
  if p.2 < v.2 then -(v.1 - p.1) / (v.2 - p.2)
  else if p.1 < v.1 then (v.2 - p.2) / (v.1 - p.1)
  else ((v.1 - p.1) - (v.2 - p.2)) / (-(v.1 - p.1) - (v.2 - p.2))

/-- The point `p` is strictly inside the convex ring (given without a repeated closing
point): the points of the ring are pairwise different, every vertex is on the closed
inner side of every edge, and `p` is strictly on the inner side of every edge. -/
def StrictlyInside (p : Point) (ring : List Point) : Prop :=
  ring.Nodup ∧
    ((ConvexCCW ring ∧ ∀ e ∈ ringEdges ring, 0 < cross e.1 e.2 p) ∨
      (ConvexCW ring ∧ ∀ e ∈ ringEdges ring, cross e.1 e.2 p < 0))

/-- The column step of a side: west is `-1`, east is `+1`. -/
def dirX (s : Int) : Int := if s = 0 then -1 else if s = 2 then 1 else 0

/-- The row step of a side: south is `-1`, north is `+1`. -/
def dirY (s : Int) : Int := if s = 1 then -1 else if s = 3 then 1 else 0

/-- The tile at column `x` and row `y` lies on the grid and belongs to the region. -/
def inRegion (region : List Nat) (tiles : Tiles) (x y : Int) : Bool :=
  decide (0 ≤ x) && decide (x < tiles.ncolumns) && decide (0 ≤ y) && decide (y < tiles.nrows) &&
    region.contains (y * tiles.ncolumns + x).toNat

/-- The successor rule of `trace` on `(column, row, side)`. -/
def stepSide (region : List Nat) (tiles : Tiles) (v : Int × Int × Int) : Int × Int × Int :=
  let ax := v.1 + dirX ((v.2.2 + 1) % 4)
  let ay := v.2.1 + dirY ((v.2.2 + 1) % 4)
  if inRegion region tiles (ax + dirX v.2.2) (ay + dirY v.2.2) then
    (ax + dirX v.2.2, ay + dirY v.2.2, (v.2.2 + 3) % 4)
  else if inRegion region tiles ax ay then (ax, ay, v.2.2)
  else (v.1, v.2.1, (v.2.2 + 1) % 4)

/-- The `(column, row, side)` of a tile side. -/
def sideOf (tiles : Tiles) (tile : Nat) (side : Int) : Int × Int × Int :=
  ((tile : Int) % tiles.ncolumns, (tile : Int) / tiles.ncolumns, side)

/-- The grid holds the region: positive size, tile ids that fit `int32_t`, and every
tile of the region on the grid. -/
def ValidRegion (region : List Nat) (tiles : Tiles) : Prop :=
  0 < tiles.ncolumns ∧ 0 < tiles.nrows ∧ tiles.nrows * tiles.ncolumns < 2147483648 ∧
    ∀ t ∈ region, (t : Int) < tiles.nrows * tiles.ncolumns

/-- The list `walk` holds the states `a, next a, next (next a), ...` and `next` of its
last state is `b`. -/
def IsWalk {α : Type} (next : α → α) (b : α) : α → List α → Prop
  | _, [] => False
  | a, [v] => v = a ∧ next a = b
  | a, v :: w :: rest => v = a ∧ IsWalk next b (next a) (w :: rest)

/-- The lattice point where the side `v = (column, row, side)` begins, in
counter-clockwise winding. -/
def beginPt (v : Int × Int × Int) : Int × Int :=
  if v.2.2 = 1 then (v.1, v.2.1)
  else if v.2.2 = 2 then (v.1 + 1, v.2.1)
  else if v.2.2 = 3 then (v.1 + 1, v.2.1 + 1)
  else (v.1, v.2.1 + 1)

/-- The lattice point where the side `v` ends. -/
def endPt (v : Int × Int × Int) : Int × Int :=
  if v.2.2 = 1 then (v.1 + 1, v.2.1)
  else if v.2.2 = 2 then (v.1 + 1, v.2.1 + 1)
  else if v.2.2 = 3 then (v.1, v.2.1 + 1)
  else (v.1, v.2.1)

/-- The positions that are not in the region and are joined, through positions not in
the region that share a side, to the positions below, above or to the east of the
grid. -/
inductive Outside (region : List Nat) (tiles : Tiles) : Int → Int → Prop where
  | far (x y : Int) : (y < 0 ∨ tiles.nrows ≤ y ∨ tiles.ncolumns ≤ x) → Outside region tiles x y
  | step (x y x' y' : Int) : Outside region tiles x' y' →
      ((x' = x ∧ (y' = y + 1 ∨ y' = y - 1)) ∨ (y' = y ∧ (x' = x + 1 ∨ x' = x - 1))) →
      inRegion region tiles x y = false → Outside region tiles x y

/-- A side of a region tile that faces a position outside. -/
def FacesOutside (region : List Nat) (tiles : Tiles) (v : Int × Int × Int) : Prop :=
  (v.2.2 = 0 ∨ v.2.2 = 1 ∨ v.2.2 = 2 ∨ v.2.2 = 3) ∧ inRegion region tiles v.1 v.2.1 = true ∧
    Outside region tiles (v.1 + dirX v.2.2) (v.2.1 + dirY v.2.2)

/-- The contribution of the side `v` to the winding number of the walk around the
position `(x, y)`, counted along the ray from the position to the east. -/
def windAt (x y : Int) (v : Int × Int × Int) : Int :=
  if v.2.2 = 2 ∧ v.2.1 = y ∧ x ≤ v.1 then 1
  else if v.2.2 = 0 ∧ v.2.1 = y ∧ x < v.1 then -1
  else 0

/-- The winding number of the walk `V` around the position `(x, y)`. -/
def winding (V : List (Int × Int × Int)) (x y : Int) : Int :=
  (V.map (windAt x y)).sum

/-- How often the walk `V` uses the side `c`. -/
def timesUsed (V : List (Int × Int × Int)) (c : Int × Int × Int) : Int :=
  (V.map (fun v => if v = c then (1 : Int) else 0)).sum

/-- The contribution of the side `v` to the area enclosed by the walk, in tiles: the
line integral of `x dy` over the side. -/
def areaAt (v : Int × Int × Int) : Int :=
  if v.2.2 = 2 then v.1 + 1 else if v.2.2 = 0 then -v.1 else 0

/-- The point of the lattice with corner `(x0, y0)` and steps `dx`, `dy` at the
lattice position `P`. -/
def latticePt (x0 y0 dx dy : ℚ) (P : Int × Int) : Point :=
  (x0 + (P.1 : ℚ) * dx, y0 + (P.2 : ℚ) * dy)

/-- The term of the shoelace formula for the side `v` of a lattice tile. -/
def shoelaceAt (x0 y0 dx dy : ℚ) (v : Int × Int × Int) : ℚ :=
  (latticePt x0 y0 dx dy (beginPt v)).1 * (latticePt x0 y0 dx dy (endPt v)).2 -
    (latticePt x0 y0 dx dy (beginPt v)).2 * (latticePt x0 y0 dx dy (endPt v)).1

/-- The region of the 3x3 grid around the hole at tile 4. -/
def holeRegion : List Nat := [0, 1, 2, 3, 5, 6, 7, 8]

/-- The twelve begin-vertices of the outer ring of `holeRegion`. -/
def holeRing (tiles : Tiles) : List Point :=
  [coord tiles 0 0, coord tiles 0 1, coord tiles 1 1, coord tiles 2 1, coord tiles 2 2,
    coord tiles 5 2, coord tiles 8 2, coord tiles 8 3, coord tiles 7 3, coord tiles 6 3,
    coord tiles 6 0, coord tiles 3 0]

/-- The sides recorded by the outer trace of `holeRegion`. -/
def holeUsed : List (Int × Nat) :=
  [(0, 3), (0, 6), (3, 6), (3, 7), (3, 8), (2, 8), (2, 5), (2, 2), (1, 2), (1, 1), (1, 0),
    (0, 0)]

/-- The ring that the inner trace started at tile `t` (one of 1, 3, 5, 7) leaves around
the hole, before it is closed. -/
def holeInnerRing (tiles : Tiles) (t : Nat) : List Point :=
  if t = 1 then [coord tiles 5 0, coord tiles 7 1, coord tiles 3 2, coord tiles 1 3]
  else if t = 3 then [coord tiles 1 3, coord tiles 5 0, coord tiles 7 1, coord tiles 3 2]
  else if t = 5 then [coord tiles 7 1, coord tiles 3 2, coord tiles 1 3, coord tiles 5 0]
  else [coord tiles 3 2, coord tiles 1 3, coord tiles 5 0, coord tiles 7 1]

/-- The sides recorded after the inner trace started at tile `t` (one of 1, 3, 5, 7). -/
def holeInnerUsed (t : Nat) : List (Int × Nat) :=
  (if t = 1 then [(0, 5), (1, 7), (2, 3), (3, 1)]
    else if t = 3 then [(3, 1), (0, 5), (1, 7), (2, 3)]
    else if t = 5 then [(1, 7), (2, 3), (3, 1), (0, 5)]
    else [(2, 3), (3, 1), (0, 5), (1, 7)]) ++ holeUsed

/-- The `(tile, side)` pair that `trace` reaches after `k` steps of its successor rule
from the pair `start`. -/
def reached (region : List Nat) (tiles : Tiles) (start : Nat × Int) (k : Nat) : Nat × Int :=
  (fun v => nextEdge region tiles v.1 v.2)^[k] start

/-- The functions of `<cmath>` used by the spherical resamplers, and the degree/radian
constants of `constants.h` (`kRadPerDegD` is pi / 180 and `kDegPerRadD` is 180 / pi).
In the polyline routines `double` and `float` are idealised as exact arithmetic in an
ordered field `F`, and a point is a pair `(first, second)` = `(lng, lat)`.  The functions
of `<cmath>` are parameters, so a theorem over every `SphereMath` holds for each
implementation of them; `acos` answers `none` for NaN. -/
structure SphereMath (F : Type) where
  sin : F → F
  cos : F → F
  acos : F → Option F
  atan2 : F → F → F
  sqrt : F → F
  kRadPerDegD : F
  kDegPerRadD : F

/-- Modelled from the spec: the constant `RAD_PER_METER` of `constants.h`,
`1 / kMetersPerRadian` with `kMetersPerRadian = 6372797.560856`. -/
def RAD_PER_METER (F : Type) [LinearOrderedField F] : F := 1 / (6372797560856 / 1000000)

/-- How a run of a resampler ends without a polyline: the loop bound of this model
reached (the loop of the code does not end), a division by zero (an IEEE infinity or NaN,
outside exact arithmetic), or an undefined conversion of a floating value to `size_t`. -/
inductive ResampleError where
  | out_of_fuel
  | zero_division
  | undefined_conversion
  deriving DecidableEq, Repr

/-- The great arc, in radians, from `last` to `p` as computed at the top of the loop body
of both spherical resamplers; `none` is NaN. -/
def arcTo {F : Type} [LinearOrderedField F] (m : SphereMath F) (last p : F × F) : Option F :=
  let lon2 := p.1 * -m.kRadPerDegD
  let lat2 := p.2 * m.kRadPerDegD
  if last = p then some 0
  else m.acos (m.sin (last.2 * m.kRadPerDegD) * m.sin lat2 +
    m.cos (last.2 * m.kRadPerDegD) * m.cos lat2 * m.cos (last.1 * -m.kRadPerDegD - lon2))

/-- The interpolated point along the arc from `last` to `p`: the body of the `while` loop
of both spherical resamplers up to the assignment of `last`.  The coefficient `b` is
`sin(step) / sd`, where `step` is `remaining` in `resample_spherical_polyline` and
`sample_distance` in `uniform_resample_spherical_polyline`. -/
def interpolate {F : Type} [LinearOrderedField F] (m : SphereMath F) (last p : F × F)
    (d remaining step : F) : F × F :=
  let lon2 := p.1 * -m.kRadPerDegD
  let lat2 := p.2 * m.kRadPerDegD
  let lon1 := last.1 * -m.kRadPerDegD
  let lat1 := last.2 * m.kRadPerDegD
  let sd := m.sin d
  let a := m.sin (d - remaining) / sd
  let acs1 := a * m.cos lat1
  let b := m.sin step / sd
  let bcs2 := b * m.cos lat2
  let x := acs1 * m.cos lon1 + bcs2 * m.cos lon2
  let y := acs1 * m.sin lon1 + bcs2 * m.sin lon2
  let z := a * m.sin lat1 + b * m.sin lat2
  (m.atan2 y x * -m.kDegPerRadD, m.atan2 z (m.sqrt (x * x + y * y)) * m.kDegPerRadD)

/-- The loop `while (d > remaining)` of `resample_spherical_polyline` in exact arithmetic;
one iteration runs per unit of `fuel`.  It yields `d`, `remaining`, `last` and
`resampled`.  `Double.placeLoop` is the loop on `double`. -/
def placeLoop {F : Type} [LinearOrderedField F] (m : SphereMath F) (resolution : F)
    (p : F × F) :
    Nat → F → F → F × F → List (F × F) →
      Except ResampleError (F × F × (F × F) × List (F × F))
  | 0, d, remaining, last, resampled =>
    if d > remaining then .error .out_of_fuel else .ok (d, remaining, last, resampled)
  | fuel + 1, d, remaining, last, resampled =>
    if d > remaining then
      let last := interpolate m last p d remaining remaining
      placeLoop m resolution p fuel (d - remaining) resolution last (resampled ++ [last])
    else .ok (d, remaining, last, resampled)

/-- The loop `for (auto p = std::next(polyline.cbegin()); ...)` of
`resample_spherical_polyline` over the points still to visit.  With `remaining >= 0`
and `resolution > 0` the inner loop runs at most `ceil(d / resolution)` times. -/
def resampleFrom {F : Type} [LinearOrderedField F] [FloorRing F] (m : SphereMath F)
    (resolution : F) (preserve : Bool) :
    List (F × F) → F → F × F → List (F × F) → Except ResampleError (List (F × F))
  | [], _, _, resampled => .ok resampled
  | p :: rest, remaining, last, resampled =>
    let d := (arcTo m last p).getD 0
    match placeLoop m resolution p (⌈d / resolution⌉₊ + 1) d remaining last resampled with
    | .error e => .error e
    | .ok (d, remaining, _, resampled) =>
      resampleFrom m resolution preserve rest (remaining - d) p
        (if preserve then resampled ++ [p] else resampled)

/-- The function `resample_spherical_polyline` of `util.cc` in exact arithmetic.
`Double.resample_spherical_polyline` is the function on `double`. -/
def resample_spherical_polyline {F : Type} [LinearOrderedField F] [FloorRing F]
    (m : SphereMath F) (polyline : List (F × F)) (resolution : F) (preserve : Bool) :
    Except ResampleError (List (F × F)) :=
  match polyline with
  | [] => .ok []
  | front :: rest =>
    let resolution := resolution * RAD_PER_METER F
    resampleFrom m resolution preserve rest resolution front [front]

/-- The loop `while (remaining < d)` of `uniform_resample_spherical_polyline`; one
iteration runs per unit of `fuel`. -/
def uniformPlaceLoop {F : Type} [LinearOrderedField F] (m : SphereMath F)
    (sample_distance : F) (p : F × F) :
    Nat → F → F → F × F → List (F × F) →
      Except ResampleError (F × F × (F × F) × List (F × F))
  | 0, d, remaining, last, resampled =>
    if remaining < d then .error .out_of_fuel else .ok (d, remaining, last, resampled)
  | fuel + 1, d, remaining, last, resampled =>
    if remaining < d then
      let last := interpolate m last p d remaining sample_distance
      uniformPlaceLoop m sample_distance p fuel (d - remaining) sample_distance last
        (resampled ++ [last])
    else .ok (d, remaining, last, resampled)

/-- The loop over the points of `uniform_resample_spherical_polyline`; a NaN arc skips
the point (`continue`) without moving `last`. -/
def uniformFrom {F : Type} [LinearOrderedField F] [FloorRing F] (m : SphereMath F)
    (sample_distance : F) :
    List (F × F) → F → F × F → List (F × F) → Except ResampleError (List (F × F))
  | [], _, _, resampled => .ok resampled
  | p :: rest, remaining, last, resampled =>
    match arcTo m last p with
    | none => uniformFrom m sample_distance rest remaining last resampled
    | some d =>
      match uniformPlaceLoop m sample_distance p (⌈d / sample_distance⌉₊ + 1) d remaining
          last resampled with
      | .error e => .error e
      | .ok (d, remaining, _, resampled) =>
        uniformFrom m sample_distance rest (remaining - d) p resampled

/-- The function `uniform_resample_spherical_polyline` of `util.cc` in exact arithmetic;
`n` is a `uint32_t`, so `n - 1` wraps for `n = 0`.  For `n = 1` the code divides by zero:
with `length >= 0` the sample distance is an infinity or NaN, no comparison
`remaining < d` holds, and the one point of the result is overwritten by the last vertex;
with `length < 0` the sample distance is the negative infinity, which this model does not
follow (`zero_division`). -/
def uniform_resample_spherical_polyline {F : Type} [LinearOrderedField F] [FloorRing F]
    (m : SphereMath F) (polyline : List (F × F)) (length : F) (n : Nat) :
    Except ResampleError (List (F × F)) :=
  match polyline with
  | [] => .ok []
  | front :: rest =>
    let divisor : Nat := (n + 4294967295) % 4294967296
    if divisor = 0 then
      if 0 ≤ length then .ok [(front :: rest).getLast (List.cons_ne_nil _ _)]
      else .error .zero_division
    else
      let sample_distance := length / (divisor : F) * RAD_PER_METER F
      match uniformFrom m sample_distance rest sample_distance front [front] with
      | .error e => .error e
      | .ok resampled =>
        let back := (front :: rest).getLast (List.cons_ne_nil _ _)
        if resampled.length < n then .ok (resampled ++ [back])
        else if resampled.length = n then .ok (resampled.dropLast ++ [back])
        else .ok resampled

/-- The function `std::round` (halfway cases away from zero). -/
def cround {F : Type} [LinearOrderedField F] [FloorRing F] (x : F) : Int :=
  if 0 ≤ x then ⌊x + 1 / 2⌋ else -⌊-x + 1 / 2⌋

/-- The loop `while (p + dp < 1.0f && resampled.size() < n)` of `resample_polyline`; it
yields `p` and `resampled`. -/
def fillSegment {F : Type} [LinearOrderedField F] (n : Nat) (p0 : F × F) (dlon dlat dp : F) :
    Nat → F → List (F × F) → Except ResampleError (F × List (F × F))
  | 0, p, resampled =>
    if p + dp < 1 ∧ resampled.length < n then .error .out_of_fuel else .ok (p, resampled)
  | fuel + 1, p, resampled =>
    if p + dp < 1 ∧ resampled.length < n then
      fillSegment n p0 dlon dlat dp fuel (p + dp)
        (resampled ++ [(p0.1 + (p + dp) * dlon, p0.2 + (p + dp) * dlat)])
    else .ok (p, resampled)

/-- The loop over the segments `(p0, p1)` of `resample_polyline`; `Distance` is the
method of the point type.  The inner loop adds a point per iteration and stops at `n`
points, so it runs at most `n` times. -/
def resamplePolylineFrom {F : Type} [LinearOrderedField F] (Distance : F × F → F × F → F)
    (n : Nat) (sample_distance : F) :
    List (F × F) → F → List (F × F) → Except ResampleError (List (F × F))
  | p0 :: p1 :: rest, accumulated_d, resampled =>
    if resampled.length = n then .ok resampled
    else
      let d := Distance p0 p1
      if d + accumulated_d > sample_distance then
        if d = 0 then .error .zero_division
        else
          let dlon := p1.1 - p0.1
          let dlat := p1.2 - p0.2
          let p := (sample_distance - accumulated_d) / d
          let resampled := resampled ++ [(p0.1 + p * dlon, p0.2 + p * dlat)]
          match fillSegment n p0 dlon dlat (sample_distance / d) n p resampled with
          | .error e => .error e
          | .ok (p, resampled) =>
            resamplePolylineFrom Distance n sample_distance (p1 :: rest) (d * (1 - p)) resampled
      else
        resamplePolylineFrom Distance n sample_distance (p1 :: rest) (accumulated_d + d)
          resampled
  | _, _, resampled => .ok resampled

/-- The function `resample_polyline` of `util.cc` in exact arithmetic.  Where
`round(length / resolution)` is 0 the code divides by zero: with `length >= 0` the sample
distance is an infinity or NaN, no comparison `d + accumulated_d > sample_distance`
holds, and the result is the first and the last vertex; with `length < 0` the sample
distance is the negative infinity, which this model does not follow
(`zero_division`). -/
def resample_polyline {F : Type} [LinearOrderedField F] [FloorRing F]
    (Distance : F × F → F × F → F) (polyline : List (F × F)) (length resolution : F) :
    Except ResampleError (List (F × F)) :=
  match polyline with
  | [] => .ok []
  | front :: rest =>
    if resolution = 0 then .error .zero_division
    else if cround (length / resolution) < 0 ∨ 18446744073709551616 ≤ cround (length / resolution)
    then .error .undefined_conversion
    else
      let n := (cround (length / resolution)).toNat
      if n = 0 then
        if 0 ≤ length then .ok [front, (front :: rest).getLast (List.cons_ne_nil _ _)]
        else .error .zero_division
      else
        match resamplePolylineFrom Distance n (length / (n : F)) (front :: rest) 0 [front] with
        | .error e => .error e
        | .ok resampled => .ok (resampled ++ [(front :: rest).getLast (List.cons_ne_nil _ _)])

/-- The loop of `trim_front` over the segments `(p1, p2)`, from the points `p1 :: ...`
still to visit.  It yields the returned polyline and the polyline left in `pts`; `none`
is a division by zero (`frac` is an IEEE infinity or NaN). -/
def trimLoop {P F : Type} [LinearOrderedField F] (Distance : P → P → F)
    (PointAlongSegment : P → P → F → P) (dist : F) :
    List P → F → List P → Option (List P × List P)
  | p1 :: p2 :: rest, d, result =>
    let segdist := Distance p1 p2
    if d + segdist > dist then
      if segdist = 0 then none
      else
        let frac := (dist - d) / segdist
        let midpoint := PointAlongSegment p1 p2 frac
        some (result ++ [midpoint], midpoint :: p2 :: rest)
    else trimLoop Distance PointAlongSegment dist (p2 :: rest) (d + segdist) (result ++ [p2])
  | _, _, result => some (result, [])

/-- The function `trim_front` of `util.cc` in exact arithmetic: the returned polyline and
the polyline left in `pts`.  `Distance` and `PointAlongSegment` are the methods of the
point type.  `Double.trim_front` is the function on `double`. -/
def trim_front {P F : Type} [LinearOrderedField F] (Distance : P → P → F)
    (PointAlongSegment : P → P → F → P) (pts : List P) (dist : F) :
    Option (List P × List P) :=
  match pts with
  | front :: _ :: _ => trimLoop Distance PointAlongSegment dist pts 0 [front]
  | _ => some ([], pts)

/-- Modelled from the spec: the length of a polyline, the sum of the `Distance` values of
its consecutive points. -/
def polylineLength {P F : Type} [LinearOrderedField F] (Distance : P → P → F) : List P → F
  | p1 :: p2 :: rest => Distance p1 p2 + polylineLength Distance (p2 :: rest)
  | _ => 0

/-- Modelled from the spec: the total great arc of a polyline in radians, the sum of the
arcs of its consecutive points; `none` if one of them is NaN. -/
def arcLength {F : Type} [LinearOrderedField F] (m : SphereMath F) : List (F × F) → Option F
  | p1 :: p2 :: rest =>
    match arcTo m p1 p2, arcLength m (p2 :: rest) with
    | some d, some l => some (d + l)
    | _, _ => none
  | _ => some 0

/-- The functions of `m` are the exact real functions: `sin`, `cos` and `sqrt`, `acos`
on `[-1, 1]`, `atan2 y x` the argument of `x + y i`, and the constants are pi / 180 and
180 / pi. -/
def ExactReal (m : SphereMath ℝ) : Prop :=
  (∀ x, m.sin x = Real.sin x) ∧ (∀ x, m.cos x = Real.cos x) ∧
    (∀ x, -1 ≤ x → x ≤ 1 → m.acos x = some (Real.arccos x)) ∧
    (∀ y x, m.atan2 y x = Complex.arg ⟨x, y⟩) ∧ (∀ x, m.sqrt x = Real.sqrt x) ∧
    m.kRadPerDegD = Real.pi / 180 ∧ m.kDegPerRadD = 180 / Real.pi

/-- The sample distance of scenario S2 in radians: a tenth of 1113194.9 meters. -/
def sampleArc (F : Type) [LinearOrderedField F] : F :=
  11131949 / 10 / 10 * RAD_PER_METER F

/-- Modelled from the spec: `PointLL::IsValid` (not in `src/`), "`IsValid` iff both
components finite and in range", with lon in [-180, 180] and lat in [-90, 90]. -/
def PointLL_IsValid (p : ℚ × ℚ) : Bool :=
  decide (-180 ≤ p.1 ∧ p.1 ≤ 180 ∧ -90 ≤ p.2 ∧ p.2 ≤ 90)

/-- The two `for` loops of `trim_shape`: `current` (the index `i`, with `todo` the shape
from `current` on) advances while it is not the last point and `along <= limit`; the
result is the index where it stops. -/
def trimAdvance {P F : Type} [LinearOrderedField F] (Distance : P → P → F) (limit : F) :
    List P → Nat → F → Nat
  | p :: q :: rest, i, along =>
    if along ≤ limit then trimAdvance Distance limit (q :: rest) (i + 1) (along + Distance q p)
    else i
  | _, i, _ => i

/-- The function `trim_shape` of `util.cc`, returning the shape after the call.  The
methods `IsValid` and `Distance` of the point type are parameters.  The result is `none`
where the C++ behaviour is undefined: `*(--current)` with `current` still at
`shape.begin()`, and `*(current)` on an empty shape. -/
def trim_shape {P F : Type} [LinearOrderedField F] (IsValid : P → Bool)
    (Distance : P → P → F) (start : F) (start_vertex : P) (end' : F) (end_vertex : P)
    (shape : List P) : Option (List P) :=
  let clipped : Option (List P × F) :=
    if IsValid start_vertex then
      match trimAdvance Distance start shape 0 0 with
      | 0 => none
      | current + 1 => some (start_vertex :: shape.drop (current + 1), start)
    else some (shape, 0)
  match clipped with
  | none => none
  | some (shape, along) =>
    if IsValid end_vertex then
      if shape.isEmpty then none
      else some (shape.take (trimAdvance Distance end' shape 0 along) ++ [end_vertex])
    else some shape

/-- The shoelace sum in the words of the specification: over every index `i` of the ring
the term `x_i * y_(i+1) - x_(i+1) * y_i`, the index after the last one meaning the
first. -/
def cyclicShoelace (ring : List Point) : ℚ :=
  (List.zipWith (fun p q : Point => p.1 * q.2 - q.1 * p.2) ring (ring.rotate 1)).sum

/-- The cross products of consecutive edge vectors of a ring: for every vertex `p_i` the
cross product of `p_(i+1) - p_i` and `p_(i+2) - p_(i+1)`, indices taken cyclically. -/
def turns (ring : List Point) : List ℚ :=
  (List.zip (ringEdges ring) (ring.rotate 2)).map (fun t => cross t.1.1 t.1.2 t.2)

/-- The function `intersect` of `util.cc` in exact arithmetic: `none` when it returns
false, and the point written to `i` when it returns true.  `Double.intersect` is the
function on `double`. -/
def intersect (u v a b : Point) : Option Point :=
  let uv_xd := u.1 - v.1
  let uv_yd := u.2 - v.2
  let ab_xd := a.1 - b.1
  let ab_yd := a.2 - b.2
  let d_cross := uv_xd * ab_yd - ab_xd * uv_yd
  if |d_cross| < 1 / 100000 then none
  else
    let uv_cross := u.1 * v.2 - u.2 * v.1
    let ab_cross := a.1 * b.2 - a.2 * b.1
    some ((uv_cross * ab_xd - uv_xd * ab_cross) / d_cross,
      (uv_cross * ab_yd - uv_yd * ab_cross) / d_cross)

/-- The function `triangle_contains` of `util.cc` in exact arithmetic.
`Double.triangle_contains` is the function on `double`. -/
def triangle_contains (a b c p : Point) : Bool :=
  let v0x := c.1 - a.1
  let v0y := c.2 - a.2
  let v1x := b.1 - a.1
  let v1y := b.2 - a.2
  let v2x := p.1 - a.1
  let v2y := p.2 - a.2
  let dot00 := v0x * v0x + v0y * v0y
  let dot01 := v0x * v1x + v0y * v1y
  let dot02 := v0x * v2x + v0y * v2y
  let dot11 := v1x * v1x + v1y * v1y
  let dot12 := v1x * v2x + v1y * v2y
  let denom := dot00 * dot11 - dot01 * dot01
  if |denom| < 1 / 10 ^ 20 then false
  else
    let u := (dot11 * dot02 - dot01 * dot12) / denom
    let v := (dot00 * dot12 - dot01 * dot02) / denom
    decide (u ≥ 1 / 10 ^ 16) && decide (v ≥ 1 / 10 ^ 16) && decide (u + v < 1)

/-- The point `p` lies on the closed segment from `a` to `b`. -/
def OnSegment (a b p : Point) : Prop :=
  ∃ t : ℚ, 0 ≤ t ∧ t ≤ 1 ∧ p = (a.1 + t * (b.1 - a.1), a.2 + t * (b.2 - a.2))

/-- Modelled from the spec: `ring_queue_t::emplace_back` (not in `src/`), "a ring buffer
of capacity `smoothing` (oldest value evicted on overflow)".  The queue is the list of its
contents, oldest first. -/
def ring_queue_push {α : Type} (limit : Nat) (queue : List α) (x : α) : List α :=
  if queue.length < limit then queue ++ [x] else queue.tail ++ [x]

/-- The lambda `get_noise` of `simulate_gps` in exact arithmetic: the smoothed noise and
the queue `noises` after the call.  `draws` are the successive values of
`distribution(generator)` and `drawn` counts those taken before the call; `sqrt` is
`std::sqrt`.  The result is `none` when `len` is zero, where the division gives no
number. -/
def get_noise {F : Type} [LinearOrderedField F] (sqrt : F → F) (draws : Nat → F)
    (accuracy : F) (smoothing : Nat) (noises : List (F × F)) (drawn : Nat) :
    Option ((F × F) × List (F × F)) :=
  let lon_adj := draws drawn
  let lat_adj := draws (drawn + 1)
  let len := sqrt (lon_adj * lon_adj + lat_adj * lat_adj)
  if len = 0 then none
  else
    let lon_adj := lon_adj / len
    let lat_adj := lat_adj / len
    let scale := (draws (drawn + 2) + 1) / 2
    let lon_adj := lon_adj * (scale * accuracy)
    let lat_adj := lat_adj * (scale * accuracy)
    let noises := ring_queue_push smoothing noises (lon_adj, lat_adj)
    let noise := noises.foldl (fun noise n => (noise.1 + n.1, noise.2 + n.2)) ((0 : F), (0 : F))
    some ((noise.1 / (noises.length : F), noise.2 / (noises.length : F)), noises)

/-- The loop `while (!noises.full()) get_noise();` of `simulate_gps`, one call per unit of
`fuel`: the full queue and the number of values drawn. -/
def fillNoises {F : Type} [LinearOrderedField F] (sqrt : F → F) (draws : Nat → F)
    (accuracy : F) (smoothing : Nat) :
    Nat → List (F × F) → Nat → Option (List (F × F) × Nat)
  | 0, _, _ => none
  | fuel + 1, noises, drawn =>
    if noises.length = smoothing then some (noises, drawn)
    else
      match get_noise sqrt draws accuracy smoothing noises drawn with
      | none => none
      | some (_, noises) => fillNoises sqrt draws accuracy smoothing fuel noises (drawn + 3)

/-- The loop `for (size_t i = 0; i < resampled.size(); ++i)` of `simulate_gps` (`todo`
are the points from index `i` on).  The result is `none` when `sample_rate` or a number
of meters per degree is zero, or `get_noise` gives no number. -/
def sampleLoop {F : Type} [LinearOrderedField F] (sqrt : F → F)
    (MetersPerLngDegree : F → F) (kMetersPerDegreeLat : F) (Distance : F × F → F × F → F)
    (draws : Nat → F) (accuracy : F) (smoothing : Nat) (sample_rate : Nat) :
    List (F × F) → Nat → List (F × F) → Nat → List (F × F) → List F →
      Option (List (F × F) × List F)
  | [], _, _, _, simulated, accuracies => some (simulated, accuracies)
  | p :: todo, i, noises, drawn, simulated, accuracies =>
    if sample_rate = 0 then none
    else if i % sample_rate = 0 then
      match get_noise sqrt draws accuracy smoothing noises drawn with
      | none => none
      | some (noise, noises) =>
        let metersPerDegreeLon := MetersPerLngDegree p.2
        if metersPerDegreeLon = 0 ∨ kMetersPerDegreeLat = 0 then none
        else
          let sample := (p.1 + noise.1 / metersPerDegreeLon, p.2 + noise.2 / kMetersPerDegreeLat)
          sampleLoop sqrt MetersPerLngDegree kMetersPerDegreeLat Distance draws accuracy
            smoothing sample_rate todo (i + 1) noises (drawn + 3) (simulated ++ [sample])
            (accuracies ++ [Distance sample p])
    else
      sampleLoop sqrt MetersPerLngDegree kMetersPerDegreeLat Distance draws accuracy
        smoothing sample_rate todo (i + 1) noises drawn simulated accuracies

/-- The function `simulate_gps` of `util.cc` in exact arithmetic, from the points
`resampled` that `resample_at_1hz(segments)` returns: the simulated points and the
values appended to `accuracies`.  `smoothing` is the capacity of the queue (the `float`
converted to `size_t`); `draws` are the successive values of `distribution(generator)`,
each in `[-1, 1]`; `sqrt`, `MetersPerLngDegree`, `kMetersPerDegreeLat` and `Distance`
are parameters.  A queue of capacity zero is undefined. -/
def simulate_gps {F : Type} [LinearOrderedField F] (sqrt : F → F)
    (MetersPerLngDegree : F → F) (kMetersPerDegreeLat : F) (Distance : F × F → F × F → F)
    (draws : Nat → F) (resampled : List (F × F)) (smoothing : Nat) (accuracy : F)
    (sample_rate : Nat) : Option (List (F × F) × List F) :=
  if smoothing = 0 then none
  else
    match fillNoises sqrt draws accuracy smoothing (smoothing + 1) [] 0 with
    | none => none
    | some (noises, drawn) =>
      sampleLoop sqrt MetersPerLngDegree kMetersPerDegreeLat Distance draws accuracy smoothing
        sample_rate resampled 0 noises drawn [] []

/-- A side of a region tile whose neighbor across it is not in the region (or off the
grid): a side on the boundary of the region. -/
def OnBoundary (region : List Nat) (tiles : Tiles) (v : Int × Int × Int) : Prop :=
  (v.2.2 = 0 ∨ v.2.2 = 1 ∨ v.2.2 = 2 ∨ v.2.2 = 3) ∧ inRegion region tiles v.1 v.2.1 = true ∧
    inRegion region tiles (v.1 + dirX v.2.2) (v.2.1 + dirY v.2.2) = false

/-- The predecessor rule on `(column, row, side)`: the side from which the successor rule
of `trace` arrives at the boundary side `v`. -/
def stepBack (region : List Nat) (tiles : Tiles) (v : Int × Int × Int) : Int × Int × Int :=
  let bx := v.1 - dirX ((v.2.2 + 1) % 4)
  let bz := v.2.1 - dirY ((v.2.2 + 1) % 4)
  if inRegion region tiles (bx + dirX v.2.2) (bz + dirY v.2.2) then
    (bx + dirX v.2.2, bz + dirY v.2.2, (v.2.2 + 1) % 4)
  else if inRegion region tiles bx bz then (bx, bz, v.2.2)
  else (v.1, v.2.1, (v.2.2 + 3) % 4)

/-- A `(tile, side)` pair of a tile of the grid whose side is on the boundary of the
region. -/
def BoundarySide (region : List Nat) (tiles : Tiles) (p : Nat × Int) : Prop :=
  (p.1 : Int) < tiles.nrows * tiles.ncolumns ∧ OnBoundary region tiles (sideOf tiles p.1 p.2)

/-- Every recorded `(side, tile)` pair is reached by the successor rule of `trace` from a
recorded pair on the boundary: the recorded pairs are whole closed walks. -/
def UsedClosed (region : List Nat) (tiles : Tiles) (used : List (Int × Nat)) : Prop :=
  ∀ p ∈ used, ∃ q ∈ used, BoundarySide region tiles (q.2, q.1) ∧
    nextEdge region tiles q.2 q.1 = (p.2, p.1)

/-- A boundary side of the region as the lambdas of `to_boundary` test it: the tile is in
the region and `neighbor(tile, side)` is `-1` or not a member of the region. -/
def IsBoundarySide (region : List Nat) (tiles : Tiles) (tile : Nat) (side : Int) : Prop :=
  tile ∈ region ∧ (neighbor tiles (toI32 tile) side = -1 ∨
    member region (neighbor tiles (toI32 tile) side) = false)

/-- The boundary sides of the region: the pairs of a tile of the region and a side
`0, 1, 2, 3` that pass the test `!member(neighbor(tile, side))` of `to_boundary`. -/
def boundarySides (region : List Nat) (tiles : Tiles) : List (Nat × Int) :=
  (region.product [0, 1, 2, 3]).filter
    (fun v => !member region (neighbor tiles (toI32 v.1) v.2))

/-- The function `x_intercept` of `util.cc` with its division trapped: `none` when the
divisor `pt1.second - pt2.second` is zero. -/
def x_intercept_checked (pt1 pt2 : Point) (y : ℚ) : Option ℚ :=
  if pt1.2 - pt2.2 = 0 then none
  else some (pt2.1 - ((pt2.2 - y) * ((pt1.1 - pt2.1) / (pt1.2 - pt2.2))))

/-- The function `adjust_delta` of `util.cc` with the division of `x_intercept` trapped. -/
def adjust_delta_checked (delta : Int) (vertex next_vertex p : Point) : Option Int :=
  if delta = 3 then some (-1)
  else if delta = -3 then some 1
  else if delta = 2 ∨ delta = -2 then
    match x_intercept_checked vertex next_vertex p.2 with
    | none => none
    | some x => some (if x > p.1 then -delta else delta)
  else some delta

/-- The loop of `point_in_poly` with the division of `x_intercept` trapped. -/
def windLoopChecked (pt front : Point) : List Point → Int → Int → Option Int
  | [], _, angle => some angle
  | vertex :: todo, quad, angle =>
    let next_vertex := todo.headD front
    let next_quad := quadrant_type next_vertex pt
    match adjust_delta_checked (toInt8 (next_quad - quad)) vertex next_vertex pt with
    | none => none
    | some delta => windLoopChecked pt front todo next_quad (toInt8 (angle + delta))

/-- How a run of `tangent_angle` ends without a heading: an `assert` of the function
fails, an iterator is read outside the shape, or the loop bound of this model is
reached. -/
inductive TangentError where
  | assertion
  | out_of_bounds
  | out_of_fuel
  deriving DecidableEq, Repr

/-- The two `while (remaining > 0 && i != end)` loops of `tangent_angle`: `step` is what
the loop adds to the iterator `i` (an index into `shape`), `stop` is the end iterator of
the walk and `u` the point moved along the shape.  One iteration runs per unit of `fuel`.
The result is the point reached, what remains of the sample distance, and whether the
loop returned at `remaining <= d` with the interpolated point. -/
def tangentWalk {P F : Type} [LinearOrderedField F] (Distance : P → P → F)
    (PointAlongSegment : P → P → F → P) (shape : List P) (step stop : Int) :
    Nat → Int → P → F → Except TangentError (P × F × Bool)
  | 0, i, u, remaining =>
    if remaining > 0 ∧ i ≠ stop then .error .out_of_fuel else .ok (u, remaining, false)
  | fuel + 1, i, u, remaining =>
    if remaining > 0 ∧ i ≠ stop then
      let i := i + step
      match (if 0 ≤ i then shape[i.toNat]? else none) with
      | none => .error .out_of_bounds
      | some q =>
        let d := Distance u q
        if remaining ≤ d then .ok (PointAlongSegment u q (remaining / d), remaining, true)
        else tangentWalk Distance PointAlongSegment shape step stop fuel i q (remaining - d)
    else .ok (u, remaining, false)

/-- The function `tangent_angle` of `util.cc` in exact arithmetic.  The methods `Distance`,
`PointAlongSegment` and `Heading` of the point type are parameters; each walk has the
loop bound `shape.size()`. -/
def tangent_angle {P F H : Type} [LinearOrderedField F] (Distance : P → P → F)
    (PointAlongSegment : P → P → F → P) (Heading : P → P → H) (index : Nat) (point : P)
    (shape : List P) (sample_distance : F) (forward : Bool)
    (first_segment_index last_segment_index : Nat) : Except TangentError H :=
  if shape.isEmpty ∨ ¬ index < shape.length then .error .assertion
  else
    let first_segment_index := min first_segment_index index
    let last_segment_index := min (max last_segment_index index) (shape.length - 1)
    let increment : Int := if forward then -1 else 1
    let first_end : Int := if forward then first_segment_index else last_segment_index
    let second_end : Int := if forward then last_segment_index else first_segment_index
    match tangentWalk Distance PointAlongSegment shape increment first_end shape.length
        ((index : Int) + (if forward then 1 else 0)) point sample_distance with
    | .error e => .error e
    | .ok (u, _, true) => .ok (Heading u point)
    | .ok (u, remaining, false) =>
      match tangentWalk Distance PointAlongSegment shape (-increment) second_end shape.length
          ((index : Int) + (if forward then 0 else 1)) point remaining with
      | .error e => .error e
      | .ok (v, _, _) => .ok (Heading u v)

/-- The vertices `shape[index], shape[index - 1], ..., shape[first]` that a walk of
`tangent_angle` towards the front of the shape moves along. -/
def walkBack {P : Type} (shape : List P) (first index : Nat) : List P :=
  ((shape.drop first).take (index + 1 - first)).reverse

/-- The vertices `shape[index + 1], ..., shape[last]` that a walk of `tangent_angle`
towards the back of the shape moves along. -/
def walkAhead {P : Type} (shape : List P) (index last : Nat) : List P :=
  (shape.drop (index + 1)).take (last - index)

/-- The enumeration `BuildStage` of `mjolnir/util.h`. -/
inductive BuildStage where
  | kInvalid
  | kInitialize
  | kParseWays
  | kParseRelations
  | kParseNodes
  | kConstructEdges
  | kBuild
  | kEnhance
  | kFilter
  | kTransit
  | kBss
  | kHierarchy
  | kShortcuts
  | kRestrictions
  | kElevation
  | kValidate
  | kCleanup
  deriving DecidableEq, Repr

/-- The `int8_t` value of a `BuildStage`. -/
def BuildStage.value : BuildStage → Int
  | .kInvalid => -1
  | .kInitialize => 0
  | .kParseWays => 1
  | .kParseRelations => 2
  | .kParseNodes => 3
  | .kConstructEdges => 4
  | .kBuild => 5
  | .kEnhance => 6
  | .kFilter => 7
  | .kTransit => 8
  | .kBss => 9
  | .kHierarchy => 10
  | .kShortcuts => 11
  | .kRestrictions => 12
  | .kElevation => 13
  | .kValidate => 14
  | .kCleanup => 15

/-- The map `stringToBuildStage` of `string_to_buildstage`. -/
def stringToBuildStage : List (String × BuildStage) :=
  [("initialize", .kInitialize), ("parseways", .kParseWays),
    ("parserelations", .kParseRelations), ("parsenodes", .kParseNodes),
    ("constructedges", .kConstructEdges), ("build", .kBuild), ("enhance", .kEnhance),
    ("filter", .kFilter), ("transit", .kTransit), ("bss", .kBss),
    ("hierarchy", .kHierarchy), ("shortcuts", .kShortcuts),
    ("restrictions", .kRestrictions), ("elevation", .kElevation),
    ("validate", .kValidate), ("cleanup", .kCleanup)]

/-- The function `string_to_buildstage` of `mjolnir/util.h`. -/
def string_to_buildstage (s : String) : BuildStage :=
  match stringToBuildStage.lookup s with
  | none => .kInvalid
  | some stage => stage

/-- The map `BuildStageStrings` of `to_string`; its keys are `uint8_t`, each the
conversion of the `int8_t` value of a stage. -/
def BuildStageStrings : List (Int × String) :=
  [(BuildStage.kInitialize.value % 256, "initialize"),
    (BuildStage.kParseWays.value % 256, "parseways"),
    (BuildStage.kParseRelations.value % 256, "parserelations"),
    (BuildStage.kParseNodes.value % 256, "parsenodes"),
    (BuildStage.kConstructEdges.value % 256, "constructedges"),
    (BuildStage.kBuild.value % 256, "build"),
    (BuildStage.kEnhance.value % 256, "enhance"),
    (BuildStage.kFilter.value % 256, "filter"),
    (BuildStage.kTransit.value % 256, "transit"),
    (BuildStage.kBss.value % 256, "bss"),
    (BuildStage.kHierarchy.value % 256, "hierarchy"),
    (BuildStage.kShortcuts.value % 256, "shortcuts"),
    (BuildStage.kRestrictions.value % 256, "restrictions"),
    (BuildStage.kElevation.value % 256, "elevation"),
    (BuildStage.kValidate.value % 256, "validate"),
    (BuildStage.kCleanup.value % 256, "cleanup")]

/-- The function `to_string` of `mjolnir/util.h`: the key looked up is the `int8_t` value
of the stage converted to `uint8_t`. -/
def to_string (stg : BuildStage) : String :=
  match BuildStageStrings.lookup (stg.value % 256) with
  | none => "null"
  | some name => name

/-- A `TripLeg_Node_Recost` of the route: whether it has an elapsed cost, and the value of
`elapsed_cost().seconds()`. -/
structure Recost where
  has_elapsed_cost : Bool
  seconds : ℚ

/-- The loop `for (const auto& end_recost : end_node.recosts())` of `legs` in
`route_serializer_valhalla.cc` for one maneuver: the keys and values written, `none` for
`nullptr`.  `recostings` are the names from `recost_itr` on, `begin_recosts` are the
recosts of `begin_node`, of which the code reads `*begin_recost_itr`, the first one, and
`end_recosts` are the recosts still to visit.  The result is `none` where an iterator at
the end of its container is read. -/
def recostTimes (begin_recosts : List Recost) :
    List String → List Recost → Option (List (String × Option ℚ))
  | _, [] => some []
  | [], _ :: _ => none
  | name :: recostings, end_recost :: end_recosts =>
    if end_recost.has_elapsed_cost then
      match begin_recosts.head?, recostTimes begin_recosts recostings end_recosts with
      | some begin_recost, some written =>
        some (("time_" ++ name, some (end_recost.seconds - begin_recost.seconds)) :: written)
      | _, _ => none
    else
      match recostTimes begin_recosts recostings end_recosts with
      | some written => some (("time_" ++ name, none) :: written)
      | none => none

/-- Rounding of a rational number to the nearest integer, a tie going to the even one. -/
def roundHalfEven (x : ℚ) : Int :=
  if x - ⌊x⌋ < 1 / 2 then ⌊x⌋
  else if 1 / 2 < x - ⌊x⌋ then ⌊x⌋ + 1
  else if ⌊x⌋ % 2 = 0 then ⌊x⌋ else ⌊x⌋ + 1

/-- The number of binary digits of `n`, found in at most `fuel` halvings. -/
def bitLength : Nat → Nat → Nat
  | 0, _ => 0
  | fuel + 1, n => if n = 0 then 0 else bitLength fuel (n / 2) + 1

/-- The binary exponent of a positive rational number: the integer `e` with
`2 ^ e <= x < 2 ^ (e + 1)`. -/
def binaryExponent (x : ℚ) : Int :=
  let e : Int := (bitLength x.num.natAbs x.num.natAbs : Int) - (bitLength x.den x.den : Int)
  if (2 : ℚ) ^ e ≤ x then e else e - 1

/-- Rounding to nearest, ties to even, into the IEEE 754 binary format with `p`
significant bits, least normal exponent `emin` (subnormal numbers included) and values
below `2 ^ emax`.  The result is `none` when the rounded value is not finite
(overflow). -/
def roundBinary (p : Nat) (emin emax : Int) (x : ℚ) : Option ℚ :=
  if x = 0 then some 0
  else
    let quantum : ℚ := 2 ^ (max (binaryExponent |x|) emin - ((p : Int) - 1))
    let y : ℚ := roundHalfEven (x / quantum) * quantum
    if |y| < 2 ^ emax then some y else none

/-- The value of type `double` (IEEE 754 binary64) nearest to `x`: the rounding of every
arithmetic operation on `double`. -/
def roundDouble (x : ℚ) : Option ℚ := roundBinary 53 (-1022) 1024 x

/-- The value of type `float` (IEEE 754 binary32) nearest to `x`. -/
def roundFloat (x : ℚ) : Option ℚ := roundBinary 24 (-126) 128 x

/-- A value of type `double`: a finite value is the rational number it stands for, one
that `roundDouble` leaves unchanged, and `none` stands for the values that are not finite
(an infinity or NaN), after which a computation is not followed further. -/
abbrev Double := Option ℚ

/-- The operation `a + b` on `double`. -/
def Double.add (a b : Double) : Double :=
  match a, b with
  | some a, some b => roundDouble (a + b)
  | _, _ => none

/-- The operation `a - b` on `double`. -/
def Double.sub (a b : Double) : Double :=
  match a, b with
  | some a, some b => roundDouble (a - b)
  | _, _ => none

/-- The operation `a * b` on `double`. -/
def Double.mul (a b : Double) : Double :=
  match a, b with
  | some a, some b => roundDouble (a * b)
  | _, _ => none

/-- The operation `a / b` on `double`; a division by zero gives an infinity or NaN. -/
def Double.div (a b : Double) : Double :=
  match a, b with
  | some a, some b => if b = 0 then none else roundDouble (a / b)
  | _, _ => none

/-- The function `x_intercept` of `util.cc` on `double` (the instance for `PointLL`),
every operation rounded. -/
def Double.x_intercept (pt1 pt2 : Point) (y : ℚ) : Double :=
  Double.sub pt2.1
    (Double.mul (Double.sub pt2.2 y)
      (Double.div (Double.sub pt1.1 pt2.1) (Double.sub pt1.2 pt2.2)))

/-- The function `adjust_delta` of `util.cc` on `double`, returning the new value of
`delta`. -/
def Double.adjust_delta (delta : Int) (vertex next_vertex p : Point) : Option Int :=
  if delta = 3 then some (-1)
  else if delta = -3 then some 1
  else if delta = 2 ∨ delta = -2 then
    match Double.x_intercept vertex next_vertex p.2 with
    | some x => some (if x > p.1 then -delta else delta)
    | none => none
  else some delta

/-- The loop of `point_in_poly` on `double`. -/
def Double.windLoop (pt front : Point) : List Point → Int → Int → Option Int
  | [], _, angle => some angle
  | vertex :: todo, quad, angle =>
    let next_vertex := todo.headD front
    let next_quad := quadrant_type next_vertex pt
    match Double.adjust_delta (toInt8 (next_quad - quad)) vertex next_vertex pt with
    | some delta => Double.windLoop pt front todo next_quad (toInt8 (angle + delta))
    | none => none

/-- The function `point_in_poly` of `util.cc` on `double`; `none` also for the empty
polygon, whose `front()` is undefined. -/
def Double.point_in_poly (pt : Point) (poly : List Point) : Option Bool :=
  match poly with
  | [] => none
  | front :: _ =>
    match Double.windLoop pt front poly (quadrant_type front pt) 0 with
    | some angle => some (angle == 4 || angle == -4)
    | none => none

/-- The loop of `polygon_area` on `double`: `area += p1.x * p2.y - p1.y * p2.x` over the
consecutive points. -/
def Double.shoelaceLoop : List Point → Double → Double
  | p1 :: p2 :: rest, area =>
    Double.shoelaceLoop (p2 :: rest)
      (Double.add area (Double.sub (Double.mul p1.1 p2.2) (Double.mul p1.2 p2.1)))
  | _, area => area

/-- The function `polygon_area` of `util.cc` on `double`, for a non-empty polygon
`front :: rest`. -/
def Double.polygon_area (front : Point) (rest : List Point) : Double :=
  let back := (front :: rest).getLast (List.cons_ne_nil _ _)
  let area : Double :=
    if back = front then some 0
    else Double.sub (Double.mul back.1 front.2) (Double.mul back.2 front.1)
  Double.mul (Double.shoelaceLoop (front :: rest) area) (some (1 / 2))

/-- The function `intersect` of `util.cc` on `double`: `some none` when it returns false
and `some (some i)` with the point written to `i` when it returns true.  The constant
`1e-5` is the `double` nearest to it. -/
def Double.intersect (u v a b : Point) : Option (Option Point) :=
  let uv_xd := Double.sub u.1 v.1
  let uv_yd := Double.sub u.2 v.2
  let ab_xd := Double.sub a.1 b.1
  let ab_yd := Double.sub a.2 b.2
  let d_cross := Double.sub (Double.mul uv_xd ab_yd) (Double.mul ab_xd uv_yd)
  match d_cross, roundDouble (1 / 100000) with
  | some d, some eps =>
    if |d| < eps then some none
    else
      let uv_cross := Double.sub (Double.mul u.1 v.2) (Double.mul u.2 v.1)
      let ab_cross := Double.sub (Double.mul a.1 b.2) (Double.mul a.2 b.1)
      match Double.div (Double.sub (Double.mul uv_cross ab_xd) (Double.mul uv_xd ab_cross))
          d_cross,
        Double.div (Double.sub (Double.mul uv_cross ab_yd) (Double.mul uv_yd ab_cross))
          d_cross with
      | some x, some y => some (some (x, y))
      | _, _ => none
  | _, _ => none

/-- The function `triangle_contains` of `util.cc` on `double` (the instance for
`PointXY<double>`); the constants `1e-20` and `1e-16` are the values of type `double`
nearest to them. -/
def Double.triangle_contains (a b c p : Point) : Option Bool :=
  let v0x := Double.sub c.1 a.1
  let v0y := Double.sub c.2 a.2
  let v1x := Double.sub b.1 a.1
  let v1y := Double.sub b.2 a.2
  let v2x := Double.sub p.1 a.1
  let v2y := Double.sub p.2 a.2
  let dot00 := Double.add (Double.mul v0x v0x) (Double.mul v0y v0y)
  let dot01 := Double.add (Double.mul v0x v1x) (Double.mul v0y v1y)
  let dot02 := Double.add (Double.mul v0x v2x) (Double.mul v0y v2y)
  let dot11 := Double.add (Double.mul v1x v1x) (Double.mul v1y v1y)
  let dot12 := Double.add (Double.mul v1x v2x) (Double.mul v1y v2y)
  let denom := Double.sub (Double.mul dot00 dot11) (Double.mul dot01 dot01)
  match denom, roundDouble (1 / 10 ^ 20) with
  | some d, some tiny =>
    if |d| < tiny then some false
    else
      let u := Double.div (Double.sub (Double.mul dot11 dot02) (Double.mul dot01 dot12)) denom
      let v := Double.div (Double.sub (Double.mul dot00 dot12) (Double.mul dot01 dot02)) denom
      match u, v, Double.add u v, roundDouble (1 / 10 ^ 16) with
      | some u, some v, some sum, some small =>
        some (decide (u ≥ small) && decide (v ≥ small) && decide (sum < 1))
      | _, _, _, _ => none
  | _, _ => none

/-- On the edge `e` the x-intercept test of `adjust_delta` on `double` decides as in exact
arithmetic: where the end points of the edge lie in diagonally opposite quadrants around
`p` (the quadrant delta is 2 or -2), the rounded intercept is finite and is greater than
`p.x` exactly when the exact intercept is. -/
def interceptAgrees (p : Point) (e : Point × Point) : Bool :=
  if quadrant_type e.2 p - quadrant_type e.1 p = 2 ∨
      quadrant_type e.2 p - quadrant_type e.1 p = -2 then
    match Double.x_intercept e.1 e.2 p.2 with
    | some x => decide (x > p.1) == decide (x_intercept e.1 e.2 p.2 > p.1)
    | none => false
  else true

/-- The loop of `trim_front` on `double`, over the segments `(p1, p2)` from the points
`p1 :: ...` still to visit: the accumulator `d`, the segment length and `frac` are of
type `double`, and `dist` is the value of the parameter of type `float`, converted to
`double` where it is used.  It yields the returned polyline and the polyline left in
`pts`. -/
def Double.trimLoop {P : Type} (Distance : P → P → Double)
    (PointAlongSegment : P → P → Double → P) (dist : ℚ) :
    List P → Double → List P → Option (List P × List P)
  | p1 :: p2 :: rest, d, result =>
    match Double.add d (Distance p1 p2) with
    | some sum =>
      if sum > dist then
        let frac := Double.div (Double.sub (some dist) d) (Distance p1 p2)
        let midpoint := PointAlongSegment p1 p2 frac
        some (result ++ [midpoint], midpoint :: p2 :: rest)
      else
        Double.trimLoop Distance PointAlongSegment dist (p2 :: rest) (some sum)
          (result ++ [p2])
    | none => none
  | _, _, result => some (result, [])

/-- The function `trim_front` of `util.cc` on `double`: the returned polyline and the
polyline left in `pts`.  `Distance` and `PointAlongSegment` are the methods of the point
type. -/
def Double.trim_front {P : Type} (Distance : P → P → Double)
    (PointAlongSegment : P → P → Double → P) (pts : List P) (dist : ℚ) :
    Option (List P × List P) :=
  match pts with
  | front :: _ :: _ => Double.trimLoop Distance PointAlongSegment dist pts (some 0) [front]
  | _ => some ([], pts)

/-- Modelled from the spec: `Distance` for two points on one meridian, "meters on the
sphere", the difference of their latitudes times the length of one degree of latitude,
`kMetersPerRadian * pi / 180` with `kMetersPerRadian = 6372797.560856`, which as a
`double` is 111226.30000000089. -/
def meridianDistance (a b : Double × Double) : Double :=
  match Double.sub b.2 a.2 with
  | some dlat => Double.mul (some |dlat|) (some (3821706567640709 / 34359738368))
  | none => none

/-- Modelled from the spec: the point-along-segment operation for two points on one
meridian, the latitude interpolated at the fraction `frac`. -/
def meridianPointAlong (a b : Double × Double) (frac : Double) : Double × Double :=
  (a.1, Double.add a.2 (Double.mul frac (Double.sub b.2 a.2)))

/-- The functions of `<cmath>` on `double` used by the spherical resamplers.  They are
parameters: each takes and gives values of type `double`, `none` standing for NaN or an
infinity. -/
structure DoubleMath where
  sin : Double → Double
  cos : Double → Double
  acos : Double → Double
  atan2 : Double → Double → Double
  sqrt : Double → Double

/-- Modelled from the spec: the constant `kRadPerDegD` of `constants.h`, `pi / 180` as a
`double`, 0.017453292519943295. -/
def Double.kRadPerDegD : ℚ := 5030569068109113 / 288230376151711744

/-- Modelled from the spec: the constant `kDegPerRadD` of `constants.h`, `180 / pi` as a
`double`, 57.29577951308232. -/
def Double.kDegPerRadD : ℚ := 1007958012753983 / 17592186044416

/-- Modelled from the spec: the constant `RAD_PER_METER` of `constants.h`,
`1 / kMetersPerRadian` with `kMetersPerRadian = 6372797.560856`, computed on `double`:
1.5691695687030094e-07. -/
def Double.RAD_PER_METER : ℚ := 5928155021745687 / 37778931862957161709568

/-- The great arc, in radians, from `last` to `p` as `resample_spherical_polyline`
computes it on `double` at the top of its loop body; `none` is NaN.  The points are
pairs `(first, second)` = `(lng, lat)` of values of type `double`. -/
def Double.arcTo (m : DoubleMath) (last p : Double × Double) : Double :=
  let lon2 := Double.mul p.1 (some (-Double.kRadPerDegD))
  let lat2 := Double.mul p.2 (some Double.kRadPerDegD)
  if last = p then some 0
  else
    m.acos (Double.add
      (Double.mul (m.sin (Double.mul last.2 (some Double.kRadPerDegD))) (m.sin lat2))
      (Double.mul
        (Double.mul (m.cos (Double.mul last.2 (some Double.kRadPerDegD))) (m.cos lat2))
        (m.cos (Double.sub (Double.mul last.1 (some (-Double.kRadPerDegD))) lon2))))

/-- The interpolated point along the arc from `last` to `p` on `double`: the body of the
loop `while (d > remaining)` of `resample_spherical_polyline` up to the assignment of
`last`. -/
def Double.interpolate (m : DoubleMath) (last p : Double × Double) (d remaining : ℚ) :
    Double × Double :=
  let lon2 := Double.mul p.1 (some (-Double.kRadPerDegD))
  let lat2 := Double.mul p.2 (some Double.kRadPerDegD)
  let lon1 := Double.mul last.1 (some (-Double.kRadPerDegD))
  let lat1 := Double.mul last.2 (some Double.kRadPerDegD)
  let sd := m.sin (some d)
  let a := Double.div (m.sin (Double.sub (some d) (some remaining))) sd
  let acs1 := Double.mul a (m.cos lat1)
  let b := Double.div (m.sin (some remaining)) sd
  let bcs2 := Double.mul b (m.cos lat2)
  let x := Double.add (Double.mul acs1 (m.cos lon1)) (Double.mul bcs2 (m.cos lon2))
  let y := Double.add (Double.mul acs1 (m.sin lon1)) (Double.mul bcs2 (m.sin lon2))
  let z := Double.add (Double.mul a (m.sin lat1)) (Double.mul b (m.sin lat2))
  (Double.mul (m.atan2 y x) (some (-Double.kDegPerRadD)),
    Double.mul (m.atan2 z (m.sqrt (Double.add (Double.mul x x) (Double.mul y y))))
      (some Double.kDegPerRadD))

/-- The loop `while (d > remaining)` of `resample_spherical_polyline` on `double`; one
iteration runs per unit of `fuel`.  It yields `d`, `remaining`, `last` and `resampled`,
and `none` when the fuel is used up or `d` is no longer finite. -/
def Double.placeLoop (m : DoubleMath) (resolution : ℚ) (p : Double × Double) :
    Nat → ℚ → ℚ → Double × Double → List (Double × Double) →
      Option (ℚ × ℚ × (Double × Double) × List (Double × Double))
  | 0, d, remaining, last, resampled =>
    if d > remaining then none else some (d, remaining, last, resampled)
  | fuel + 1, d, remaining, last, resampled =>
    if d > remaining then
      match Double.sub (some d) (some remaining) with
      | some d' =>
        Double.placeLoop m resolution p fuel d' resolution
          (Double.interpolate m last p d remaining)
          (resampled ++ [Double.interpolate m last p d remaining])
      | none => none
    else some (d, remaining, last, resampled)

/-- The loop over the points of `resample_spherical_polyline` on `double`; every run of
the inner loop has the bound `fuel`. -/
def Double.resampleFrom (m : DoubleMath) (fuel : Nat) (resolution : ℚ) (preserve : Bool) :
    List (Double × Double) → ℚ → Double × Double → List (Double × Double) →
      Option (List (Double × Double))
  | [], _, _, resampled => some resampled
  | p :: rest, remaining, last, resampled =>
    match Double.placeLoop m resolution p fuel ((Double.arcTo m last p).getD 0) remaining
        last resampled with
    | none => none
    | some (d, remaining, _, resampled) =>
      match Double.sub (some remaining) (some d) with
      | some remaining =>
        Double.resampleFrom m fuel resolution preserve rest remaining p
          (if preserve then resampled ++ [p] else resampled)
      | none => none

/-- The function `resample_spherical_polyline` of `util.cc` on `double` (the instance for
`PointLL`), with the loop bound `fuel` for every run of its inner loop. -/
def Double.resample_spherical_polyline (m : DoubleMath) (fuel : Nat)
    (polyline : List (Double × Double)) (resolution : ℚ) (preserve : Bool) :
    Option (List (Double × Double)) :=
  match polyline with
  | [] => some []
  | front :: rest =>
    match Double.mul (some resolution) (some Double.RAD_PER_METER) with
    | some resolution =>
      Double.resampleFrom m fuel resolution preserve rest resolution front [front]
    | none => none

/-- The number of iterations of the loop `while (d > remaining)` on `double`, with the
values of `d` and `remaining` after it: the subtractions `d -= remaining` alone. -/
def Double.placeCount (resolution : ℚ) : Nat → ℚ → ℚ → Option (Nat × ℚ × ℚ)
  | 0, d, remaining => if d > remaining then none else some (0, d, remaining)
  | fuel + 1, d, remaining =>
    if d > remaining then
      match Double.sub (some d) (some remaining) with
      | some d' =>
        match Double.placeCount resolution fuel d' resolution with
        | some (n, d'', remaining') => some (n + 1, d'', remaining')
        | none => none
      | none => none
    else some (0, d, remaining)

/-- The values of the C library at the arguments that `resample_spherical_polyline`
evaluates before its loop for the segment from `(0, 0)` to `(0, 5e-06)`:
`sin(0) = 0`, `cos(0) = 1`, `sin(8.726646259971648e-08) = 8.726646259971638e-08`,
`cos(8.726646259971648e-08) = 0.9999999999999962`, which is `1 - 34 * 2^-53`, and
`acos(0.9999999999999962) = 8.688795409866128e-08`.  No value is given elsewhere. -/
def shortArcMath : DoubleMath where
  sin := fun x =>
    if x = some 0 then some 0
    else if x = some (6593667488951977 / 75557863725914323419136) then
      some (6593667488951969 / 75557863725914323419136)
    else none
  cos := fun x =>
    if x = some 0 then some 1
    else if x = some (6593667488951977 / 75557863725914323419136) then
      some (4503599627370479 / 4503599627370496)
    else none
  acos := fun x =>
    if x = some (4503599627370479 / 4503599627370496) then
      some (1641267048802537 / 18889465931478580854784)
    else none
  atan2 := fun _ _ => none
  sqrt := fun _ => none

/-! ## Theorems: base64 codec -/

theorem mask_eq_mod (x i : Nat) : x &&& ((1 <<< i) - 1) = x % 2 ^ i := by
  rw [Nat.one_shiftLeft, Nat.and_pow_two_sub_one_eq_mod]

theorem shl_or_mask (out x i : Nat) :
    (out <<< i) ||| (x &&& ((1 <<< i) - 1)) = out * 2 ^ i + x % 2 ^ i := by
  rw [mask_eq_mod, Nat.shiftLeft_eq, Nat.mul_comm,
    ← Nat.mul_add_lt_is_or (Nat.mod_lt _ (Nat.two_pow_pos i))]

theorem fillLoop_done (bitsIn : Nat) (next : List Byte → Option (Nat × List Byte))
    (fuel missing out buf rem : Nat) (eos : Bool) (base : List Byte)
    (hr : 0 < rem) (hm : missing ≤ rem) :
    fillLoop bitsIn next (fuel + 1) missing out buf rem eos base =
      some (out * 2 ^ missing + buf / 2 ^ (rem - missing) % 2 ^ missing, buf,
        rem - missing, base) := by
  have h0 : rem ≠ 0 := by omega
  simp only [fillLoop, shl_or_mask, Nat.shiftRight_eq_div_pow, h0, if_false,
    Nat.min_eq_left hm]
  simp

theorem fillLoop_more (bitsIn : Nat) (next : List Byte → Option (Nat × List Byte))
    (fuel missing out buf rem : Nat) (eos : Bool) (base : List Byte)
    (hr : 0 < rem) (hm : rem < missing) :
    fillLoop bitsIn next (fuel + 1) missing out buf rem eos base =
      fillLoop bitsIn next fuel (missing - rem) (out * 2 ^ rem + buf % 2 ^ rem) buf 0 eos
        base := by
  have h0 : rem ≠ 0 := by omega
  have h1 : 0 < missing - rem := by omega
  simp only [fillLoop, shl_or_mask, Nat.shiftRight_eq_div_pow, h0, if_false,
    Nat.min_eq_right (Nat.le_of_lt hm), h1, if_true]
  simp

theorem fillLoop_read (bitsIn : Nat) (next : List Byte → Option (Nat × List Byte))
    (fuel missing out buf v : Nat) (base base' : List Byte)
    (hn : next base = some (v, base')) (hb : 0 < bitsIn) :
    fillLoop bitsIn next (fuel + 1) missing out buf 0 false base =
      fillLoop bitsIn next (fuel + 1) missing out v bitsIn false base' := by
  have h0 : bitsIn ≠ 0 := by omega
  simp [fillLoop, hn, h0]

theorem fillLoop_zero (bitsIn : Nat) (next : List Byte → Option (Nat × List Byte))
    (fuel missing out buf : Nat) (base : List Byte) (hm : 0 < missing) :
    fillLoop bitsIn next (fuel + 1) missing out buf 0 true base =
      some (out * 2 ^ missing, 0, 0, base) := by
  have h0 : missing ≠ 0 := by omega
  simp [fillLoop, shl_or_mask, h0, Nat.shiftLeft_eq]

theorem fill_enc_0 (buf : Nat) (a : Byte) (rest : List Byte) :
    fill 6 8 nextChar buf 0 false (a :: rest) = some (a.val / 4, a.val, 2, rest) := by
  have ha := a.isLt
  have h1 : a.val / 4 % 64 = a.val / 4 := by omega
  rw [fill, fillLoop_read 8 nextChar 5 6 0 buf a.val (a :: rest) rest rfl (by decide),
    fillLoop_done _ _ _ _ _ _ _ _ _ (by decide) (by decide)]
  simp [h1]

theorem fill_enc_2 (buf : Nat) (b : Byte) (rest : List Byte) :
    fill 6 8 nextChar buf 2 false (b :: rest) =
      some (buf % 4 * 16 + b.val / 16, b.val, 4, rest) := by
  have hb := b.isLt
  have h1 : b.val / 16 % 16 = b.val / 16 := by omega
  rw [fill, fillLoop_more _ _ 5 _ _ _ _ _ _ (by decide) (by decide),
    fillLoop_read 8 nextChar 4 _ _ buf b.val (b :: rest) rest rfl (by decide),
    fillLoop_done _ _ _ _ _ _ _ _ _ (by decide) (by decide)]
  simp [h1]

theorem fill_enc_4 (buf : Nat) (c : Byte) (rest : List Byte) :
    fill 6 8 nextChar buf 4 false (c :: rest) =
      some (buf % 16 * 4 + c.val / 64, c.val, 6, rest) := by
  have hc := c.isLt
  have h1 : c.val / 64 % 4 = c.val / 64 := by omega
  rw [fill, fillLoop_more _ _ 5 _ _ _ _ _ _ (by decide) (by decide),
    fillLoop_read 8 nextChar 4 _ _ buf c.val (c :: rest) rest rfl (by decide),
    fillLoop_done _ _ _ _ _ _ _ _ _ (by decide) (by decide)]
  simp [h1]

theorem fill_enc_6 (buf : Nat) (eos : Bool) (base : List Byte) :
    fill 6 8 nextChar buf 6 eos base = some (buf % 64, buf, 0, base) := by
  rw [fill, fillLoop_done _ _ 5 _ _ _ _ _ _ (by decide) (by decide)]
  simp

theorem fill_enc_2_end (buf : Nat) :
    fill 6 8 nextChar buf 2 true [] = some (buf % 4 * 16, 0, 0, []) := by
  rw [fill, fillLoop_more _ _ 5 _ _ _ _ _ _ (by decide) (by decide),
    fillLoop_zero _ _ 4 _ _ _ _ (by decide)]
  simp

theorem fill_enc_4_end (buf : Nat) :
    fill 6 8 nextChar buf 4 true [] = some (buf % 16 * 4, 0, 0, []) := by
  rw [fill, fillLoop_more _ _ 5 _ _ _ _ _ _ (by decide) (by decide),
    fillLoop_zero _ _ 4 _ _ _ _ (by decide)]
  simp

theorem collect_enc_three (f buf : Nat) (a b c : Byte) (rest : List Byte) :
    collect 6 8 nextChar (f + 4) buf 0 false (a :: b :: c :: rest) =
      (collect 6 8 nextChar f c.val 0 rest.isEmpty rest).map
        (fun l => a.val / 4 :: (a.val % 4 * 16 + b.val / 16) ::
          (b.val % 16 * 4 + c.val / 64) :: c.val % 64 :: l) := by
  have ha := a.isLt
  have hb := b.isLt
  have h1 : c.val % 64 = c.val % 64 := rfl
  simp [collect, fill_enc_0, fill_enc_2, fill_enc_4, fill_enc_6]
  cases collect 6 8 nextChar f c.val 0 rest.isEmpty rest <;> rfl

theorem collect_enc_nil (f buf : Nat) (eos : Bool) :
    collect 6 8 nextChar (f + 1) buf 0 eos [] = some [] := by
  simp [collect]

theorem collect_enc_one (f buf : Nat) (a : Byte) :
    collect 6 8 nextChar (f + 3) buf 0 false [a] = some [a.val / 4, a.val % 4 * 16] := by
  have ha := a.isLt
  simp [collect, fill_enc_0, fill_enc_2_end]

theorem collect_enc_two (f buf : Nat) (a b : Byte) :
    collect 6 8 nextChar (f + 4) buf 0 false [a, b] =
      some [a.val / 4, a.val % 4 * 16 + b.val / 16, b.val % 16 * 4] := by
  have ha := a.isLt
  have hb := b.isLt
  simp [collect, fill_enc_0, fill_enc_2, fill_enc_4_end]

theorem collect_enc : ∀ (text : List Byte) (fuel buf : Nat) (eos : Bool),
    (eos = true → text = []) → (sextets text).length < fuel →
    collect 6 8 nextChar fuel buf 0 eos text = some (sextets text)
  | [], fuel, buf, eos, _, hf => by
    obtain ⟨f, rfl⟩ : ∃ f, fuel = f + 1 := ⟨fuel - 1, by simp [sextets] at hf; omega⟩
    simp [collect_enc_nil, sextets]
  | [a], fuel, buf, eos, he, hf => by
    obtain ⟨f, rfl⟩ : ∃ f, fuel = f + 3 := ⟨fuel - 3, by simp [sextets] at hf; omega⟩
    cases eos
    · simp [collect_enc_one, sextets]
    · simp at he
  | [a, b], fuel, buf, eos, he, hf => by
    obtain ⟨f, rfl⟩ : ∃ f, fuel = f + 4 := ⟨fuel - 4, by simp [sextets] at hf; omega⟩
    cases eos
    · simp [collect_enc_two, sextets]
    · simp at he
  | a :: b :: c :: rest, fuel, buf, eos, he, hf => by
    obtain ⟨f, rfl⟩ : ∃ f, fuel = f + 4 := ⟨fuel - 4, by simp [sextets] at hf; omega⟩
    cases eos
    · rw [collect_enc_three, collect_enc rest f c.val rest.isEmpty (by simp)
        (by simp [sextets] at hf; omega)]
      simp [sextets]
    · simp at he

theorem sextets_length (text : List Byte) :
    (sextets text).length = (4 * text.length + 2) / 3 := by
  induction text using sextets.induct with
  | case1 => rfl
  | case2 a => simp [sextets]
  | case3 a b => simp [sextets]
  | case4 a b c rest ih => simp [sextets, ih]; omega

theorem encode64_eq (text : List Byte) :
    encode64 text = some ((sextets text).map from_6_bit ++
      List.replicate ((3 - text.length % 3) % 3) PADDING_ENCODED) := by
  have h := collect_enc text (2 * text.length + 1) 0 false (by simp)
    (by rw [sextets_length]; omega)
  simp [encode64, h]

theorem from_6_bit_fin : ∀ t : Fin 64, from_6_bit t.val = rfcAlphabet t.val ∧
    isspace (from_6_bit t.val) = false ∧ to_6_bit (from_6_bit t.val) = some t.val ∧
    from_6_bit t.val ≠ PADDING_ENCODED := by
  decide

theorem from_6_bit_rfc (t : Nat) (h : t < 64) : from_6_bit t = rfcAlphabet t :=
  (from_6_bit_fin ⟨t, h⟩).1

theorem isspace_from_6_bit (t : Nat) (h : t < 64) : isspace (from_6_bit t) = false :=
  (from_6_bit_fin ⟨t, h⟩).2.1

theorem to_6_bit_from_6_bit (t : Nat) (h : t < 64) : to_6_bit (from_6_bit t) = some t :=
  (from_6_bit_fin ⟨t, h⟩).2.2.1

theorem from_6_bit_ne_padding (t : Nat) (h : t < 64) : from_6_bit t ≠ PADDING_ENCODED :=
  (from_6_bit_fin ⟨t, h⟩).2.2.2

theorem nextSextet_from_6_bit (t : Nat) (h : t < 64) (cs : List Byte) :
    nextSextet (from_6_bit t :: cs) = some (t, cs) := by
  simp [nextSextet, isspace_from_6_bit t h, to_6_bit_from_6_bit t h]

theorem fill_dec_0 (buf : Nat) (c1 c2 : Byte) (s1 s2 : Nat)
    (h1 : ∀ cs, nextSextet (c1 :: cs) = some (s1, cs))
    (h2 : ∀ cs, nextSextet (c2 :: cs) = some (s2, cs)) (cs : List Byte) :
    fill 8 6 nextSextet buf 0 false (c1 :: c2 :: cs) =
      some (s1 % 64 * 4 + s2 / 16 % 4, s2, 4, cs) := by
  rw [fill, fillLoop_read 6 nextSextet 7 8 0 buf s1 _ _ (h1 _) (by decide),
    fillLoop_more _ _ 7 _ _ _ _ _ _ (by decide) (by decide),
    fillLoop_read 6 nextSextet 6 _ _ s1 s2 _ _ (h2 _) (by decide),
    fillLoop_done _ _ _ _ _ _ _ _ _ (by decide) (by decide)]
  simp

theorem fill_dec_4 (buf : Nat) (c3 : Byte) (s3 : Nat)
    (h3 : ∀ cs, nextSextet (c3 :: cs) = some (s3, cs)) (cs : List Byte) :
    fill 8 6 nextSextet buf 4 false (c3 :: cs) =
      some (buf % 16 * 16 + s3 / 4 % 16, s3, 2, cs) := by
  rw [fill, fillLoop_more _ _ 7 _ _ _ _ _ _ (by decide) (by decide),
    fillLoop_read 6 nextSextet 6 _ _ buf s3 _ _ (h3 _) (by decide),
    fillLoop_done _ _ _ _ _ _ _ _ _ (by decide) (by decide)]
  simp

theorem fill_dec_2 (buf : Nat) (c4 : Byte) (s4 : Nat)
    (h4 : ∀ cs, nextSextet (c4 :: cs) = some (s4, cs)) (cs : List Byte) :
    fill 8 6 nextSextet buf 2 false (c4 :: cs) =
      some (buf % 4 * 64 + s4 % 64, s4, 0, cs) := by
  rw [fill, fillLoop_more _ _ 7 _ _ _ _ _ _ (by decide) (by decide),
    fillLoop_read 6 nextSextet 6 _ _ buf s4 _ _ (h4 _) (by decide),
    fillLoop_done _ _ _ _ _ _ _ _ _ (by decide) (by decide)]
  simp

theorem collect_dec_step (f buf : Nat) (c1 c2 c3 c4 : Byte) (s1 s2 s3 s4 : Nat)
    (h1 : ∀ cs, nextSextet (c1 :: cs) = some (s1, cs))
    (h2 : ∀ cs, nextSextet (c2 :: cs) = some (s2, cs))
    (h3 : ∀ cs, nextSextet (c3 :: cs) = some (s3, cs))
    (h4 : ∀ cs, nextSextet (c4 :: cs) = some (s4, cs)) (cs : List Byte) :
    collect 8 6 nextSextet (f + 3) buf 0 false (c1 :: c2 :: c3 :: c4 :: cs) =
      (collect 8 6 nextSextet f s4 0 false cs).map
        (fun l => (s1 % 64 * 4 + s2 / 16 % 4) :: (s2 % 16 * 16 + s3 / 4 % 16) ::
          (s3 % 4 * 64 + s4 % 64) :: l) := by
  simp [collect, fill_dec_0 buf c1 c2 s1 s2 h1 h2, fill_dec_4 s2 c3 s3 h3,
    fill_dec_2 s3 c4 s4 h4]
  cases collect 8 6 nextSextet f s4 0 false cs <;> rfl

theorem collect_dec : ∀ (l : List Nat) (fuel buf : Nat),
    l.length % 4 = 0 → (∀ x ∈ l, x < 64) → l.length < fuel →
    collect 8 6 nextSextet fuel buf 0 false (l.map from_6_bit) = some (octets l)
  | [], fuel, buf, _, _, hf => by
    obtain ⟨f, rfl⟩ : ∃ f, fuel = f + 1 := ⟨fuel - 1, by simp at hf; omega⟩
    simp [collect, octets]
  | [_], _, _, hl, _, _ => by simp at hl
  | [_, _], _, _, hl, _, _ => by simp at hl
  | [_, _, _], _, _, hl, _, _ => by simp at hl
  | s1 :: s2 :: s3 :: s4 :: rest, fuel, buf, hl, hx, hf => by
    obtain ⟨f, rfl⟩ : ∃ f, fuel = f + 3 := ⟨fuel - 3, by simp at hf; omega⟩
    have h1 : s1 < 64 := hx s1 (by simp)
    have h2 : s2 < 64 := hx s2 (by simp)
    have h3 : s3 < 64 := hx s3 (by simp)
    have h4 : s4 < 64 := hx s4 (by simp)
    simp only [List.map_cons]
    rw [collect_dec_step f buf _ _ _ _ s1 s2 s3 s4 (nextSextet_from_6_bit s1 h1)
      (nextSextet_from_6_bit s2 h2) (nextSextet_from_6_bit s3 h3)
      (nextSextet_from_6_bit s4 h4),
      collect_dec rest f s4 (by simp at hl; omega)
        (fun x hxr => hx x (by simp [hxr])) (by simp at hf; omega)]
    simp [octets]

theorem sextets_lt (text : List Byte) : ∀ x ∈ sextets text, x < 64 := by
  induction text using sextets.induct with
  | case1 => simp [sextets]
  | case2 a =>
    have ha := a.isLt
    simp [sextets]; omega
  | case3 a b =>
    have ha := a.isLt
    have hb := b.isLt
    simp [sextets]; omega
  | case4 a b c rest ih =>
    have ha := a.isLt
    have hb := b.isLt
    have hc := c.isLt
    intro x hx
    simp only [sextets, List.mem_cons] at hx
    rcases hx with h | h | h | h | h
    · omega
    · omega
    · omega
    · omega
    · exact ih x h

theorem byte_ofNat (a : Byte) (n : Nat) (h : n = a.val) : (Fin.ofNat n : Byte) = a := by
  subst h
  apply Fin.ext
  simp [Fin.ofNat, Nat.mod_eq_of_lt a.isLt]

theorem octets_sextets (text : List Byte) :
    (octets (sextets text ++ List.replicate (numPad text) 0)).map Fin.ofNat =
      text ++ List.replicate (numPad text) (0 : Byte) := by
  induction text using sextets.induct with
  | case1 => simp [sextets, numPad, octets]
  | case2 a =>
    have ha := a.isLt
    have h := byte_ofNat a (a.val / 4 % 64 * 4 + a.val % 4 * 16 / 16 % 4) (by omega)
    simp only [sextets, numPad, octets, List.replicate, List.cons_append, List.nil_append,
      List.map_cons, List.map_nil, List.length_cons, List.length_nil, h]
    simp
    rfl
  | case3 a b =>
    have ha := a.isLt
    have hb := b.isLt
    have h := byte_ofNat a (a.val / 4 % 64 * 4 + (a.val % 4 * 16 + b.val / 16) / 16 % 4)
      (by omega)
    have h2 := byte_ofNat b
      ((a.val % 4 * 16 + b.val / 16) % 16 * 16 + b.val % 16 * 4 / 4 % 16) (by omega)
    simp only [sextets, numPad, octets, List.replicate, List.cons_append, List.nil_append,
      List.map_cons, List.map_nil, List.length_cons, List.length_nil, h, h2]
    simp
    rfl
  | case4 a b c rest ih =>
    have ha := a.isLt
    have hb := b.isLt
    have hc := c.isLt
    have h := byte_ofNat a (a.val / 4 % 64 * 4 + (a.val % 4 * 16 + b.val / 16) / 16 % 4)
      (by omega)
    have h2 := byte_ofNat b
      ((a.val % 4 * 16 + b.val / 16) % 16 * 16 + (b.val % 16 * 4 + c.val / 64) / 4 % 16)
      (by omega)
    have h3 := byte_ofNat c ((b.val % 16 * 4 + c.val / 64) % 4 * 64 + c.val % 64 % 64)
      (by omega)
    have hp : numPad (a :: b :: c :: rest) = numPad rest := by
      simp [numPad]; omega
    rw [hp]
    simp only [sextets, List.cons_append, octets, List.map_cons, h, h2, h3]
    exact congrArg (fun l => a :: b :: c :: l) ih

theorem count_padding_map (l : List Nat) (h : ∀ x ∈ l, x < 64) :
    (l.map from_6_bit).count PADDING_ENCODED = 0 := by
  rw [List.count_eq_zero]
  intro hm
  obtain ⟨x, hx, hxe⟩ := List.mem_map.1 hm
  exact from_6_bit_ne_padding x (h x hx) hxe

theorem replace_map (l : List Nat) (h : ∀ x ∈ l, x < 64) :
    (l.map from_6_bit).map (fun c => if c = PADDING_ENCODED then ZERO_ENCODED else c) =
      l.map from_6_bit := by
  rw [List.map_map]
  apply List.map_congr_left
  intro x hx
  simp [from_6_bit_ne_padding x (h x hx)]

theorem sextets_length_pad (text : List Byte) :
    ((sextets text).length + numPad text) % 4 = 0 ∧ numPad text < 3 := by
  rw [sextets_length, numPad]
  obtain ⟨k, r, hr, hk⟩ : ∃ k r, r < 3 ∧ text.length = 3 * k + r :=
    ⟨text.length / 3, text.length % 3, Nat.mod_lt _ (by decide),
      (Nat.div_add_mod _ _).symm⟩
  rw [hk]
  interval_cases r <;> omega

theorem decode64_of_padded (encoded padded : List Byte) (octs : List Nat) (k : Nat)
    (hp : encoded ++ List.replicate ((4 - encoded.length % 4) % 4) PADDING_ENCODED = padded)
    (hk : padded.count PADDING_ENCODED = k)
    (hc : collect 8 6 nextSextet
        ((padded.map (fun c => if c = PADDING_ENCODED then ZERO_ENCODED else c)).length + 1)
        0 0 false (padded.map (fun c => if c = PADDING_ENCODED then ZERO_ENCODED else c)) =
      some octs) :
    decode64 encoded =
      if k ≤ (octs.map (Fin.ofNat : Nat → Byte)).length then
        some ((octs.map Fin.ofNat).take ((octs.map (Fin.ofNat : Nat → Byte)).length - k))
      else none := by
  subst hp hk
  unfold decode64
  simp only [hc]

/-- Decoding the characters of `sextets text` followed by `n` of the `numPad text`
padding characters: `decode64` supplies the missing ones. -/
theorem decode64_sextets (text : List Byte) (n : Nat) (hn : n ≤ numPad text) :
    decode64 ((sextets text).map from_6_bit ++ List.replicate n PADDING_ENCODED) =
      some text := by
  obtain ⟨h4, h3⟩ := sextets_length_pad text
  have hlt := sextets_lt text
  have hnum : (4 - ((sextets text).map from_6_bit ++
      List.replicate n PADDING_ENCODED).length % 4) % 4 = numPad text - n := by
    simp only [List.length_append, List.length_map, List.length_replicate]
    omega
  have hpadded : ((sextets text).map from_6_bit ++ List.replicate n PADDING_ENCODED) ++
      List.replicate (numPad text - n) PADDING_ENCODED =
      (sextets text).map from_6_bit ++ List.replicate (numPad text) PADDING_ENCODED := by
    rw [List.append_assoc, List.append_replicate_replicate]
    congr 2
    omega
  have hcount : ((sextets text).map from_6_bit ++
      List.replicate (numPad text) PADDING_ENCODED).count PADDING_ENCODED = numPad text := by
    rw [List.count_append, count_padding_map _ hlt]
    simp
  have hrepl : ((sextets text).map from_6_bit ++
      List.replicate (numPad text) PADDING_ENCODED).map
        (fun c => if c = PADDING_ENCODED then ZERO_ENCODED else c) =
      (sextets text ++ List.replicate (numPad text) 0).map from_6_bit := by
    rw [List.map_append, replace_map _ hlt, List.map_append]
    congr 1
    simp only [List.map_replicate, if_true]
    rfl
  have hall : ∀ x ∈ sextets text ++ List.replicate (numPad text) 0, x < 64 := by
    intro x hx
    rcases List.mem_append.1 hx with h | h
    · exact hlt x h
    · rw [(List.mem_replicate.1 h).2]
      decide
  have hcol := collect_dec (sextets text ++ List.replicate (numPad text) 0)
    ((sextets text ++ List.replicate (numPad text) 0).length + 1) 0
    (by simpa using h4) hall (Nat.lt_succ_self _)
  rw [decode64_of_padded _ _ _ _ (by rw [hnum, hpadded]) hcount
    (by rw [hrepl, List.length_map]; exact hcol), octets_sextets]
  simp

theorem rfc4648_eq (text : List Byte) :
    rfc4648 text = (sextets text).map from_6_bit ++
      List.replicate (numPad text) PADDING_ENCODED := by
  induction text using sextets.induct with
  | case1 => simp [rfc4648, sextets, numPad]
  | case2 a =>
    have ha := a.isLt
    have e1 : a.val * 16 / 64 = a.val / 4 := by omega
    have e2 : a.val * 16 % 64 = a.val % 4 * 16 := by omega
    simp only [rfc4648, sextets, numPad, e1, e2, List.map_cons, List.map_nil,
      from_6_bit_rfc (a.val / 4) (by omega), from_6_bit_rfc (a.val % 4 * 16) (by omega)]
    rfl
  | case3 a b =>
    have ha := a.isLt
    have hb := b.isLt
    have e1 : (a.val * 256 + b.val) * 4 / 4096 = a.val / 4 := by omega
    have e2 : (a.val * 256 + b.val) * 4 / 64 % 64 = a.val % 4 * 16 + b.val / 16 := by omega
    have e3 : (a.val * 256 + b.val) * 4 % 64 = b.val % 16 * 4 := by omega
    simp only [rfc4648, sextets, numPad, e1, e2, e3, List.map_cons, List.map_nil,
      from_6_bit_rfc (a.val / 4) (by omega),
      from_6_bit_rfc (a.val % 4 * 16 + b.val / 16) (by omega),
      from_6_bit_rfc (b.val % 16 * 4) (by omega)]
    rfl
  | case4 a b c rest ih =>
    have ha := a.isLt
    have hb := b.isLt
    have hc := c.isLt
    have e1 : (a.val * 65536 + b.val * 256 + c.val) / 262144 = a.val / 4 := by omega
    have e2 : (a.val * 65536 + b.val * 256 + c.val) / 4096 % 64 =
        a.val % 4 * 16 + b.val / 16 := by omega
    have e3 : (a.val * 65536 + b.val * 256 + c.val) / 64 % 64 =
        b.val % 16 * 4 + c.val / 64 := by omega
    have e4 : (a.val * 65536 + b.val * 256 + c.val) % 64 = c.val % 64 := by omega
    have hp : numPad (a :: b :: c :: rest) = numPad rest := by
      simp [numPad]; omega
    simp only [rfc4648, sextets, hp, e1, e2, e3, e4, List.map_cons, List.cons_append, ih,
      from_6_bit_rfc (a.val / 4) (by omega),
      from_6_bit_rfc (a.val % 4 * 16 + b.val / 16) (by omega),
      from_6_bit_rfc (b.val % 16 * 4 + c.val / 64) (by omega),
      from_6_bit_rfc (c.val % 64) (by omega)]

theorem stripPadding_sextets (text : List Byte) :
    stripPadding ((sextets text).map from_6_bit ++
      List.replicate (numPad text) PADDING_ENCODED) = (sextets text).map from_6_bit := by
  have hlt := sextets_lt text
  have hdrop : ∀ (n : Nat) (l : List Byte),
      (List.replicate n PADDING_ENCODED ++ l).dropWhile (fun c => c = PADDING_ENCODED) =
        l.dropWhile (fun c => c = PADDING_ENCODED) := by
    intro n l
    induction n with
    | zero => simp
    | succ n ih => simp [List.replicate_succ, List.dropWhile_cons, ih]
  have hkeep : ∀ l : List Byte, (∀ x ∈ l, x ≠ PADDING_ENCODED) →
      l.dropWhile (fun c => c = PADDING_ENCODED) = l := by
    intro l hl
    cases l with
    | nil => rfl
    | cons x xs => simp [List.dropWhile_cons, hl x (by simp)]
  unfold stripPadding
  rw [List.reverse_append, List.reverse_replicate, hdrop, hkeep, List.reverse_reverse]
  intro x hx
  obtain ⟨y, hy, rfl⟩ := List.mem_map.1 (List.mem_reverse.1 hx)
  exact from_6_bit_ne_padding y (hlt y hy)

/-- C1: for every byte string `s` (the empty string and strings with zero bytes
included), `decode64 (encode64 s)` is `s`. -/
theorem decode64_encode64 (s : List Byte) : (encode64 s).bind decode64 = some s := by
  rw [encode64_eq, Option.some_bind]
  exact decode64_sextets s (numPad s) (Nat.le_refl _)

/-- C2: `encode64 s` is the RFC 4648 section 4 encoding of `s`: its length is
`4 * ceil(|s| / 3)`, it ends in `(3 - |s| mod 3) mod 3` characters `=`, every character
before them is a letter of the alphabet `A-Z a-z 0-9 + /`, and `"Man"`, `"Ma"`, `"M"`
encode to `"TWFu"`, `"TWE="`, `"TQ=="`. -/
theorem encode64_rfc4648 :
    (∀ s : List Byte, encode64 s = some (rfc4648 s) ∧
      (rfc4648 s).length = 4 * ((s.length + 2) / 3) ∧
      ∃ body : List Byte,
        rfc4648 s = body ++ List.replicate ((3 - s.length % 3) % 3) (61 : Byte) ∧
        ∀ c ∈ body, ∃ v, v < 64 ∧ c = rfcAlphabet v) ∧
    encode64 (bytes "Man") = some (bytes "TWFu") ∧
    encode64 (bytes "Ma") = some (bytes "TWE=") ∧
    encode64 (bytes "M") = some (bytes "TQ==") := by
  refine ⟨fun s => ⟨?_, ?_, (sextets s).map from_6_bit, ?_, ?_⟩, by decide, by decide,
    by decide⟩
  · rw [encode64_eq, rfc4648_eq]; rfl
  · have h := sextets_length_pad s
    rw [rfc4648_eq, List.length_append, List.length_map, List.length_replicate]
    rw [sextets_length, numPad] at *
    omega
  · rw [rfc4648_eq]; rfl
  · intro c hc
    obtain ⟨v, hv, rfl⟩ := List.mem_map.1 hc
    exact ⟨v, sextets_lt s v hv, from_6_bit_rfc v (sextets_lt s v hv)⟩

/-- C3 (evaluation at the failing input): `encode64 "Man"` is `"TWFu"`, and with one
space inserted after its second character `decode64` returns `"Ma"`, not `"Man"`. -/
theorem decode64_inserted_space :
    encode64 (bytes "Man") = some (bytes "TWFu") ∧
    decode64 (bytes "TW Fu") = some (bytes "Ma") ∧
    decode64 (bytes "TW Fu") ≠ some (bytes "Man") := by
  decide

/-- C4: for every byte string `s`, `decode64` of `encode64 s` with its trailing `=`
characters removed is `s`. -/
theorem decode64_missing_padding (s : List Byte) :
    (encode64 s).bind (fun e => decode64 (stripPadding e)) = some s := by
  rw [encode64_eq, Option.some_bind]
  show decode64 (stripPadding ((sextets s).map from_6_bit ++
    List.replicate (numPad s) PADDING_ENCODED)) = some s
  rw [stripPadding_sextets]
  simpa using decode64_sextets s 0 (Nat.zero_le _)

/-! ## Theorems: tile-region boundary -/

theorem UsedOk.length_le {region : List Nat} {used : List (Int × Nat)}
    (h : UsedOk region used) : used.length ≤ 4 * region.length := by
  have hsub : used ⊆ ([(0 : Int), 1, 2, 3] ×ˢ region) := by
    intro p hp
    obtain ⟨a, b⟩ := p
    exact List.mem_product.2 (h.2 _ hp)
  have := (List.subperm_of_subset h.1 hsub).length_le
  rw [List.length_product] at this
  simpa using this

theorem member_mem {region : List Nat} {t : Int} (h : member region t = true) :
    toU32 t ∈ region := by
  simpa [member] using h

theorem side_mod_mem (side k : Int) : (side + k) % 4 ∈ [(0 : Int), 1, 2, 3] := by
  simp only [List.mem_cons, List.mem_singleton, List.not_mem_nil, or_false]
  omega

theorem traceLoop_succ (region : List Nat) (tiles : Tiles) (start_tile : Nat)
    (start_side : Int) (ccw : Bool) (fuel tile : Nat) (side : Int) (ring : List Point)
    (used : List (Int × Nat)) :
    traceLoop region tiles start_tile start_side ccw (fuel + 1) tile side ring used =
      if used.contains (side, tile) = true then .error .logic_error
      else if (nextEdge region tiles tile side).1 ≠ start_tile ∨
          (nextEdge region tiles tile side).2 ≠ start_side then
        traceLoop region tiles start_tile start_side ccw fuel
          (nextEdge region tiles tile side).1 (nextEdge region tiles tile side).2
          (if ccw = true then ring ++ [coord tiles tile side] else coord tiles tile side :: ring)
          ((side, tile) :: used)
      else .ok (if ccw = true then ring ++ [coord tiles tile side]
        else coord tiles tile side :: ring, (side, tile) :: used) := rfl

theorem nextEdge_mem {region : List Nat} (tiles : Tiles) {tile : Nat} {side : Int}
    (ht : tile ∈ region) (hs : side ∈ [(0 : Int), 1, 2, 3]) :
    (nextEdge region tiles tile side).1 ∈ region ∧
      (nextEdge region tiles tile side).2 ∈ [(0 : Int), 1, 2, 3] := by
  unfold nextEdge
  dsimp only
  split
  · exact ⟨member_mem (by assumption), side_mod_mem side 3⟩
  · split
    · exact ⟨member_mem (by assumption), hs⟩
    · exact ⟨ht, side_mod_mem side 1⟩

theorem traceLoop_ok (region : List Nat) (tiles : Tiles) (start_tile : Nat)
    (start_side : Int) (ccw : Bool) :
    ∀ (fuel tile : Nat) (side : Int) (ring : List Point) (used : List (Int × Nat)),
      UsedOk region used → tile ∈ region → side ∈ [(0 : Int), 1, 2, 3] →
      4 * region.length + 1 ≤ fuel + used.length →
      traceLoop region tiles start_tile start_side ccw fuel tile side ring used =
          .error .logic_error ∨
        ∃ ring' used', traceLoop region tiles start_tile start_side ccw fuel tile side ring
            used = .ok (ring', used') ∧ UsedOk region used' ∧ ring' ≠ [] := by
  intro fuel
  induction fuel with
  | zero =>
    intro tile side ring used hu _ _ hf
    have := hu.length_le
    omega
  | succ fuel ih =>
    intro tile side ring used hu ht hs hf
    rw [traceLoop_succ]
    by_cases hc : used.contains (side, tile) = true
    · left
      rw [if_pos hc]
    · have hu' : UsedOk region ((side, tile) :: used) := by
        refine ⟨List.nodup_cons.2 ⟨by simpa using hc, hu.1⟩, ?_⟩
        intro p hp
        rcases List.mem_cons.1 hp with rfl | hp
        · exact ⟨hs, ht⟩
        · exact hu.2 p hp
      rw [if_neg hc]
      have hn := nextEdge_mem tiles ht hs
      split
      · exact ih _ _ _ _ hu' hn.1 hn.2 (by simp only [List.length_cons]; omega)
      · right
        refine ⟨_, _, rfl, hu', ?_⟩
        cases ccw <;> simp

theorem trace_ok (region : List Nat) (tiles : Tiles) (polygon : List (List Point))
    (used : List (Int × Nat)) (start_tile : Nat) (start_side : Int) (ccw : Bool)
    (hu : UsedOk region used) (ht : start_tile ∈ region)
    (hs : start_side ∈ [(0 : Int), 1, 2, 3]) (hp : ∀ ring ∈ polygon, ring ≠ []) :
    trace region tiles polygon used start_tile start_side ccw = .error .logic_error ∨
      ∃ polygon' used', trace region tiles polygon used start_tile start_side ccw =
          .ok (polygon', used') ∧ UsedOk region used' ∧ ∀ ring ∈ polygon', ring ≠ [] := by
  unfold trace
  rcases traceLoop_ok region tiles start_tile start_side ccw (4 * region.length + 1)
    start_tile start_side [] used hu ht hs (by omega) with h | ⟨ring, used', h, hu', hr⟩
  · left
    rw [h]
  · right
    rw [h]
    refine ⟨_, _, rfl, hu', ?_⟩
    intro r hr'
    rcases List.mem_append.1 hr' with h1 | h1
    · exact hp r h1
    · rw [List.mem_singleton.1 h1]
      exact hr

theorem traceInnerSides_ok (region : List Nat) (tiles : Tiles) (start_tile : Nat)
    (ht : start_tile ∈ region) :
    ∀ (sides : List Int) (polygon : List (List Point)) (used : List (Int × Nat)),
      (∀ s ∈ sides, s ∈ [(0 : Int), 1, 2, 3]) → UsedOk region used →
      (∀ ring ∈ polygon, ring ≠ []) →
      traceInnerSides region tiles start_tile sides polygon used = .error .logic_error ∨
        ∃ polygon' used', traceInnerSides region tiles start_tile sides polygon used =
            .ok (polygon', used') ∧ UsedOk region used' ∧ ∀ ring ∈ polygon', ring ≠ [] := by
  intro sides
  induction sides with
  | nil =>
    intro polygon used _ hu hp
    exact Or.inr ⟨polygon, used, rfl, hu, hp⟩
  | cons s sides ih =>
    intro polygon used hs hu hp
    have hs' : ∀ x ∈ sides, x ∈ [(0 : Int), 1, 2, 3] := fun x hx => hs x (by simp [hx])
    unfold traceInnerSides
    split
    · split
      · rcases trace_ok region tiles polygon used start_tile s false hu ht
          (hs s (by simp)) hp with h | ⟨polygon', used', h, hu', hp'⟩
        · left
          rw [h]
        · rw [h]
          exact ih polygon' used' hs' hu' hp'
      · exact ih polygon used hs' hu hp
    · exact ih polygon used hs' hu hp

theorem traceInners_ok (region : List Nat) (tiles : Tiles) :
    ∀ (todo : List Nat) (polygon : List (List Point)) (used : List (Int × Nat)),
      (∀ t ∈ todo, t ∈ region) → UsedOk region used → (∀ ring ∈ polygon, ring ≠ []) →
      traceInners region tiles todo polygon used = .error .logic_error ∨
        ∃ polygon' used', traceInners region tiles todo polygon used =
            .ok (polygon', used') ∧ ∀ ring ∈ polygon', ring ≠ [] := by
  intro todo
  induction todo with
  | nil =>
    intro polygon used _ _ hp
    exact Or.inr ⟨polygon, used, rfl, hp⟩
  | cons t todo ih =>
    intro polygon used ht hu hp
    unfold traceInners
    rcases traceInnerSides_ok region tiles t (ht t (by simp)) [0, 1, 2, 3] polygon used
      (fun s hs => hs) hu hp with h | ⟨polygon', used', h, hu', hp'⟩
    · left
      rw [h]
    · rw [h]
      exact ih polygon' used' (fun x hx => ht x (by simp [hx])) hu' hp'

theorem smallestTile_mem (region : List Nat) (start : Nat) :
    smallestTile region start = start ∨ smallestTile region start ∈ region := by
  unfold smallestTile
  induction region generalizing start with
  | nil => exact Or.inl rfl
  | cons t region ih =>
    simp only [List.foldl_cons]
    split
    · rcases ih t with h | h
      · exact Or.inr (by rw [h]; simp)
      · exact Or.inr (List.mem_cons_of_mem _ h)
    · rcases ih start with h | h
      · exact Or.inl h
      · exact Or.inr (List.mem_cons_of_mem _ h)

theorem to_boundary_cases (first : Nat) (rest : List Nat) (tiles : Tiles) :
    to_boundary first rest tiles = .error .logic_error ∨
      ∃ polygon : List (List Point), (∀ ring ∈ polygon, ring ≠ []) ∧
        to_boundary first rest tiles =
          .ok (polygon.map (fun ring => ring ++ ring.head?.toList)) := by
  unfold to_boundary
  have hst : smallestTile (first :: rest) first ∈ first :: rest := by
    rcases smallestTile_mem (first :: rest) first with h | h
    · rw [h]; simp
    · exact h
  rcases trace_ok (first :: rest) tiles [] [] (smallestTile (first :: rest) first) 0 true
    ⟨List.nodup_nil, by simp⟩ hst (by simp) (by simp) with h | ⟨polygon, used, h, hu, hp⟩
  · left
    simp only [h]
  · simp only [h]
    rcases traceInners_ok (first :: rest) tiles (first :: rest) polygon used
      (fun t ht => ht) hu hp with h2 | ⟨polygon', used', h2, hp'⟩
    · left
      simp only [h2]
    · right
      simp only [h2]
      exact ⟨polygon', hp', rfl⟩

/-- C8: `to_boundary` never exhausts the loop bound of `trace`, and every ring of a
polygon it returns is closed: non-empty, with `ring.front() == ring.back()`. -/
theorem to_boundary_rings_closed (first : Nat) (rest : List Nat) (tiles : Tiles) :
    to_boundary first rest tiles ≠ .error .out_of_fuel ∧
    ∀ polygon, to_boundary first rest tiles = .ok polygon →
      ∀ ring ∈ polygon, ring ≠ [] ∧ ring.head? = ring.getLast? := by
  rcases to_boundary_cases first rest tiles with h | ⟨polygon, hp, h⟩
  · rw [h]
    exact ⟨by decide, fun _ hk => by cases hk⟩
  · rw [h]
    refine ⟨by simp, ?_⟩
    intro polygon' hk ring hr
    cases hk
    obtain ⟨r, hr1, rfl⟩ := List.mem_map.1 hr
    cases r with
    | nil => exact absurd rfl (hp [] hr1)
    | cons a l =>
      refine ⟨by simp, ?_⟩
      rw [show a :: l ++ (a :: l).head?.toList = (a :: l) ++ [a] from rfl,
        List.getLast?_append]
      rfl

theorem member_iff (region : List Nat) (t : Int) :
    member region t = true ↔ toU32 t ∈ region := by
  simp [member]

theorem member_congr {r1 r2 : List Nat} (h : ∀ x, x ∈ r1 ↔ x ∈ r2) (t : Int) :
    member r1 t = member r2 t := by
  rw [Bool.eq_iff_iff, member_iff, member_iff]
  exact h _

theorem nextEdge_congr {r1 r2 : List Nat} (h : ∀ x, x ∈ r1 ↔ x ∈ r2) (tiles : Tiles)
    (tile : Nat) (side : Int) : nextEdge r1 tiles tile side = nextEdge r2 tiles tile side := by
  unfold nextEdge
  simp only [member_congr h]

theorem traceLoop_congr {r1 r2 : List Nat} (h : ∀ x, x ∈ r1 ↔ x ∈ r2) (tiles : Tiles)
    (start_tile : Nat) (start_side : Int) (ccw : Bool) :
    ∀ (fuel tile : Nat) (side : Int) (ring : List Point) (used : List (Int × Nat)),
      traceLoop r1 tiles start_tile start_side ccw fuel tile side ring used =
        traceLoop r2 tiles start_tile start_side ccw fuel tile side ring used := by
  intro fuel
  induction fuel with
  | zero => intro _ _ _ _; rfl
  | succ fuel ih =>
    intro tile side ring used
    rw [traceLoop_succ, traceLoop_succ, nextEdge_congr h, ih]

theorem trace_congr {r1 r2 : List Nat} (h : ∀ x, x ∈ r1 ↔ x ∈ r2)
    (hl : r1.length = r2.length) (tiles : Tiles) (polygon : List (List Point))
    (used : List (Int × Nat)) (start_tile : Nat) (start_side : Int) (ccw : Bool) :
    trace r1 tiles polygon used start_tile start_side ccw =
      trace r2 tiles polygon used start_tile start_side ccw := by
  unfold trace
  rw [traceLoop_congr h, hl]

theorem traceInnerSides_congr {r1 r2 : List Nat} (h : ∀ x, x ∈ r1 ↔ x ∈ r2)
    (hl : r1.length = r2.length) (tiles : Tiles) (start_tile : Nat) :
    ∀ (sides : List Int) (polygon : List (List Point)) (used : List (Int × Nat)),
      traceInnerSides r1 tiles start_tile sides polygon used =
        traceInnerSides r2 tiles start_tile sides polygon used := by
  intro sides
  induction sides with
  | nil => intro _ _; rfl
  | cons s sides ih =>
    intro polygon used
    unfold traceInnerSides
    simp only [member_congr h, trace_congr h hl, ih]

theorem smallestTile_le (region : List Nat) (start : Nat) :
    smallestTile region start ≤ start ∧ ∀ x ∈ region, smallestTile region start ≤ x := by
  unfold smallestTile
  induction region generalizing start with
  | nil => simp
  | cons t region ih =>
    simp only [List.foldl_cons]
    split
    · refine ⟨by have := (ih t).1; omega, ?_⟩
      intro x hx
      rcases List.mem_cons.1 hx with rfl | hx
      · exact (ih _).1
      · exact (ih _).2 x hx
    · refine ⟨(ih start).1, ?_⟩
      intro x hx
      rcases List.mem_cons.1 hx with rfl | hx
      · have := (ih start).1; omega
      · exact (ih _).2 x hx

theorem block_trace (tb : Nat → AABB2) :
    trace [5, 6, 9, 10] ⟨4, 4, tb⟩ [] [] 5 0 true =
      .ok ([blockRing ⟨4, 4, tb⟩], blockUsed) := by
  simp [trace, traceLoop, nextEdge, member, neighbor, toI32, toU32, Tiles.GetRowColumn,
    blockRing, blockUsed]

theorem block_inner (tb : Nat → AABB2) (t : Nat) (ht : t ∈ [5, 6, 9, 10]) :
    traceInnerSides [5, 6, 9, 10] ⟨4, 4, tb⟩ t [0, 1, 2, 3] [blockRing ⟨4, 4, tb⟩] blockUsed =
      .ok ([blockRing ⟨4, 4, tb⟩], blockUsed) := by
  simp only [List.mem_cons, List.mem_singleton, List.not_mem_nil, or_false] at ht
  rcases ht with rfl | rfl | rfl | rfl <;>
    simp [traceInnerSides, member, neighbor, toI32, toU32, Tiles.GetRowColumn, blockUsed]

theorem block_inners (tb : Nat → AABB2) (region : List Nat)
    (h : ∀ x, x ∈ region ↔ x ∈ [5, 6, 9, 10]) (hl : region.length = 4) :
    ∀ todo : List Nat, (∀ t ∈ todo, t ∈ [5, 6, 9, 10]) →
      traceInners region ⟨4, 4, tb⟩ todo [blockRing ⟨4, 4, tb⟩] blockUsed =
        .ok ([blockRing ⟨4, 4, tb⟩], blockUsed) := by
  intro todo
  induction todo with
  | nil => intro _; rfl
  | cons t todo ih =>
    intro ht
    unfold traceInners
    rw [traceInnerSides_congr h (by rw [hl]; rfl), block_inner tb t (ht t (by simp))]
    exact ih (fun x hx => ht x (by simp [hx]))

theorem to_boundary_block_eq (tb : Nat → AABB2) (first : Nat) (rest : List Nat)
    (hperm : (first :: rest).Perm [5, 6, 9, 10]) :
    to_boundary first rest ⟨4, 4, tb⟩ =
      .ok [blockRing ⟨4, 4, tb⟩ ++ [coord ⟨4, 4, tb⟩ 5 0]] := by
  have h : ∀ x, x ∈ first :: rest ↔ x ∈ [5, 6, 9, 10] := fun x => hperm.mem_iff
  have hl : (first :: rest).length = 4 := hperm.length_eq
  have hs : smallestTile (first :: rest) first = 5 := by
    have h5 := (smallestTile_le (first :: rest) first).2 5 ((h 5).2 (by simp))
    have hm : smallestTile (first :: rest) first ∈ [5, 6, 9, 10] := by
      rcases smallestTile_mem (first :: rest) first with hm | hm
      · rw [hm]; exact (h _).1 (by simp)
      · exact (h _).1 hm
    simp only [List.mem_cons, List.mem_singleton, List.not_mem_nil, or_false] at hm
    omega
  unfold to_boundary
  simp only [hs]
  rw [trace_congr h (by rw [hl]; rfl), block_trace]
  simp only []
  rw [block_inners tb (first :: rest) h hl (first :: rest) (fun t ht => (h t).1 ht)]
  rfl

theorem block_area (x0 y0 dx dy : ℚ) :
    polygon_area (coord (Tiles.lattice x0 y0 dx dy 4 4) 5 0)
      ((blockRing (Tiles.lattice x0 y0 dx dy 4 4)).tail ++
        [coord (Tiles.lattice x0 y0 dx dy 4 4) 5 0]) = 4 * (dx * dy) := by
  simp [polygon_area, shoelace, blockRing, coord, Tiles.lattice]
  ring

/-- C9 (counterexample): on the 4x4 lattice of unit tiles the polygon returned for the
region `{5, 6, 9, 10}` is not a single ring of five points. -/
theorem to_boundary_block_not_five_points :
    ¬ ∃ ring : List Point,
      to_boundary 5 [6, 9, 10] (Tiles.lattice 0 0 1 1 4 4) = .ok [ring] ∧
        ring.length = 5 := by
  rintro ⟨ring, h, hlen⟩
  rw [show Tiles.lattice 0 0 1 1 4 4 = ⟨4, 4, (Tiles.lattice 0 0 1 1 4 4).TileBounds⟩ from rfl,
    to_boundary_block_eq _ 5 [6, 9, 10] (List.Perm.refl _)] at h
  injection h with h
  injection h with h
  subst h
  simp [blockRing] at hlen

/-- C9 (amended): on a 4x4 lattice of tiles of width `dx > 0` and height `dy > 0`, for
every iteration order of the region `{5, 6, 9, 10}`, `to_boundary` returns exactly one
ring (no inner ring); the ring has exactly nine points, the begin-vertex of each of the
eight tile sides around the block and the first one repeated at the end, and it is
counter-clockwise: its `polygon_area` is `4 * dx * dy > 0`. -/
theorem to_boundary_block (x0 y0 dx dy : ℚ) (hdx : 0 < dx) (hdy : 0 < dy) (first : Nat)
    (rest : List Nat) (hperm : (first :: rest).Perm [5, 6, 9, 10]) :
    ∃ (front : Point) (tail : List Point),
      to_boundary first rest (Tiles.lattice x0 y0 dx dy 4 4) = .ok [front :: tail] ∧
      front :: tail = blockRing (Tiles.lattice x0 y0 dx dy 4 4) ++
        [coord (Tiles.lattice x0 y0 dx dy 4 4) 5 0] ∧
      (front :: tail).length = 9 ∧
      polygon_area front tail = 4 * (dx * dy) ∧ 0 < polygon_area front tail := by
  refine ⟨coord (Tiles.lattice x0 y0 dx dy 4 4) 5 0,
    (blockRing (Tiles.lattice x0 y0 dx dy 4 4)).tail ++
      [coord (Tiles.lattice x0 y0 dx dy 4 4) 5 0], ?_, rfl, rfl, block_area x0 y0 dx dy, ?_⟩
  · exact to_boundary_block_eq _ first rest hperm
  · rw [block_area]
    positivity

theorem to_boundary_block_witness :
    ∃ (front : Point) (tail : List Point),
      to_boundary 5 [6, 9, 10] (Tiles.lattice 0 0 1 1 4 4) = .ok [front :: tail] ∧
      front :: tail = blockRing (Tiles.lattice 0 0 1 1 4 4) ++
        [coord (Tiles.lattice 0 0 1 1 4 4) 5 0] ∧
      (front :: tail).length = 9 ∧
      polygon_area front tail = 4 * (1 * 1) ∧ 0 < polygon_area front tail :=
  to_boundary_block 0 0 1 1 (by norm_num) (by norm_num) 5 [6, 9, 10] (List.Perm.refl _)

theorem to_boundary_rings_closed_witness :
    to_boundary 5 [6, 9, 10] (Tiles.lattice 0 0 1 1 4 4) =
        .ok [blockRing (Tiles.lattice 0 0 1 1 4 4) ++ [coord (Tiles.lattice 0 0 1 1 4 4) 5 0]] ∧
      ∀ ring ∈ [blockRing (Tiles.lattice 0 0 1 1 4 4) ++
          [coord (Tiles.lattice 0 0 1 1 4 4) 5 0]],
        ring ≠ [] ∧ ring.head? = ring.getLast? :=
  ⟨to_boundary_block_eq _ 5 [6, 9, 10] (List.Perm.refl _),
    (to_boundary_rings_closed 5 [6, 9, 10] (Tiles.lattice 0 0 1 1 4 4)).2 _
      (to_boundary_block_eq _ 5 [6, 9, 10] (List.Perm.refl _))⟩

/-! ## Point in polygon (`point_in_poly`) -/

/-! ## Theorems: point in polygon -/

theorem quadrant_type_range (v pt : Point) :
    0 ≤ quadrant_type v pt ∧ quadrant_type v pt ≤ 3 := by
  unfold quadrant_type
  split <;> split <;> omega

theorem toInt8_of_range (z : Int) (h1 : -128 ≤ z) (h2 : z ≤ 127) : toInt8 z = z := by
  unfold toInt8
  omega

theorem windLoop_eq_foldl (pt front : Point) :
    ∀ (todo : List Point) (quad angle : Int),
      quad = quadrant_type (todo.headD front) pt →
      windLoop pt front todo quad angle =
        (edgesFrom front todo).foldl (fun acc e => toInt8 (acc + edgeDelta pt e)) angle := by
  intro todo
  induction todo with
  | nil => intro _ _ _; rfl
  | cons v todo ih =>
    intro quad angle hq
    simp only [List.headD_cons] at hq
    have h1 := quadrant_type_range v pt
    have h2 := quadrant_type_range (todo.headD front) pt
    simp only [windLoop, edgesFrom, List.foldl_cons, edgeDelta, hq]
    rw [toInt8_of_range (quadrant_type (todo.headD front) pt - quadrant_type v pt)
      (by omega) (by omega)]
    exact ih _ _ rfl

theorem point_in_poly_eq (pt front : Point) (rest : List Point) :
    point_in_poly pt (front :: rest) =
      some (decide ((ringEdges (front :: rest)).foldl
          (fun acc e => toInt8 (acc + edgeDelta pt e)) 0 = 4) ||
        decide ((ringEdges (front :: rest)).foldl
          (fun acc e => toInt8 (acc + edgeDelta pt e)) 0 = -4)) := by
  simp only [point_in_poly, ringEdges, List.headD_cons]
  rw [windLoop_eq_foldl pt front (front :: rest) (quadrant_type front pt) 0 rfl]
  rfl

/-- Telescoping: if every edge's delta is the difference of a bounded potential `L`,
the loop ends with `L front - L0` when it starts with `L (first vertex) - L0`. -/
theorem foldl_telescope (pt front : Point) (L : Point → Int)
    (hL : ∀ v, -3 ≤ L v ∧ L v ≤ 3) (L0 : Int) (h0 : -3 ≤ L0 ∧ L0 ≤ 3) :
    ∀ (todo : List Point) (angle : Int), todo ≠ [] →
      (∀ e ∈ edgesFrom front todo, edgeDelta pt e = L e.2 - L e.1) →
      angle = L (todo.headD front) - L0 →
      (edgesFrom front todo).foldl (fun acc e => toInt8 (acc + edgeDelta pt e)) angle =
        L front - L0 := by
  intro todo
  induction todo with
  | nil => intro _ h; exact absurd rfl h
  | cons v todo ih =>
    intro angle _ he ha
    simp only [List.headD_cons] at ha
    have hv := hL v
    have hw := hL (todo.headD front)
    have hd := he (v, todo.headD front) (by simp [edgesFrom])
    simp only [edgesFrom, List.foldl_cons, hd, ha]
    rw [toInt8_of_range _ (by omega) (by omega)]
    cases todo with
    | nil =>
      simp only [edgesFrom, List.foldl_nil, List.headD_nil]
      omega
    | cons w rest =>
      apply ih _ (by simp)
      · intro e hm
        exact he e (List.mem_cons_of_mem _ hm)
      · simp only [List.headD_cons]
        omega

theorem point_in_poly_of_potential (pt front : Point) (rest : List Point) (L : Point → Int)
    (hL : ∀ v, -3 ≤ L v ∧ L v ≤ 3)
    (he : ∀ e ∈ ringEdges (front :: rest), edgeDelta pt e = L e.2 - L e.1) :
    point_in_poly pt (front :: rest) = some false := by
  rw [point_in_poly_eq]
  have h := foldl_telescope pt front L hL (L front) (hL front) (front :: rest) 0 (by simp)
    he (by simp)
  simp only [ringEdges, List.headD_cons] at h ⊢
  simp [h]

theorem mem_of_mem_edgesFrom (front : Point) :
    ∀ (todo : List Point) (e : Point × Point), e ∈ edgesFrom front todo →
      e.1 ∈ todo ∧ (e.2 ∈ todo ∨ e.2 = front) := by
  intro todo
  induction todo with
  | nil => intro e h; simp [edgesFrom] at h
  | cons v todo ih =>
    intro e h
    simp only [edgesFrom, List.mem_cons] at h
    rcases h with rfl | h
    · refine ⟨by simp, ?_⟩
      cases todo with
      | nil => right; rfl
      | cons w rest => left; simp
    · obtain ⟨h1, h2⟩ := ih e h
      exact ⟨List.mem_cons_of_mem _ h1, h2.imp (List.mem_cons_of_mem _) id⟩

theorem mem_of_mem_ringEdges (front : Point) (rest : List Point) (e : Point × Point)
    (h : e ∈ ringEdges (front :: rest)) : e.1 ∈ front :: rest ∧ e.2 ∈ front :: rest := by
  obtain ⟨h1, h2⟩ := mem_of_mem_edgesFrom front (front :: rest) e h
  refine ⟨h1, ?_⟩
  rcases h2 with h2 | h2
  · exact h2
  · rw [h2]; simp

theorem adjust_delta_eq (delta : Int) (a b p : Point) :
    adjust_delta delta a b p = adjustBy delta (decide (x_intercept a b p.2 > p.1)) := by
  unfold adjust_delta adjustBy
  simp only [decide_eq_true_eq]

theorem quadrant_upper_iff (v p : Point) :
    (quadrant_type v p = 0 ∨ quadrant_type v p = 1) ↔ v.2 > p.2 := by
  unfold quadrant_type
  split <;> split <;> simp_all

theorem adjustBy_lift : ∀ (m qa qb : Fin 4) (flip : Bool),
    qa ≠ m → qb ≠ m →
    (((qb.val : Int) - qa.val = 2 ∨ (qb.val : Int) - qa.val = -2) →
      (flip = true ↔ (m.val = 1 ∨ m.val = 2))) →
    adjustBy ((qb.val : Int) - qa.val) flip =
      liftQuadrant m.val qb.val - liftQuadrant m.val qa.val := by
  decide

theorem x_intercept_half_plane (a b p : Point) (α β : ℚ)
    (ha : 0 < α * (a.1 - p.1) + β * (a.2 - p.2))
    (hb : 0 < α * (b.1 - p.1) + β * (b.2 - p.2))
    (hy : (a.2 > p.2 ∧ b.2 ≤ p.2) ∨ (a.2 ≤ p.2 ∧ b.2 > p.2)) :
    0 < α * (x_intercept a b p.2 - p.1) := by
  have hD : a.2 - b.2 ≠ 0 := by
    rcases hy with ⟨h1, h2⟩ | ⟨h1, h2⟩
    · exact ne_of_gt (by linarith)
    · exact ne_of_lt (by linarith)
  have hN : α * (x_intercept a b p.2 - p.1) =
      ((a.2 - p.2) * (α * (b.1 - p.1) + β * (b.2 - p.2)) -
        (b.2 - p.2) * (α * (a.1 - p.1) + β * (a.2 - p.2))) / (a.2 - b.2) := by
    unfold x_intercept
    field_simp
    ring
  rw [hN]
  rcases hy with ⟨h1, h2⟩ | ⟨h1, h2⟩
  · apply div_pos
    · have t1 : 0 < (a.2 - p.2) * (α * (b.1 - p.1) + β * (b.2 - p.2)) :=
        mul_pos (by linarith) hb
      have t2 : (b.2 - p.2) * (α * (a.1 - p.1) + β * (a.2 - p.2)) ≤ 0 :=
        mul_nonpos_of_nonpos_of_nonneg (by linarith) (le_of_lt ha)
      linarith
    · linarith
  · apply div_pos_of_neg_of_neg
    · have t1 : (a.2 - p.2) * (α * (b.1 - p.1) + β * (b.2 - p.2)) ≤ 0 :=
        mul_nonpos_of_nonpos_of_nonneg (by linarith) (le_of_lt hb)
      have t2 : 0 < (b.2 - p.2) * (α * (a.1 - p.1) + β * (a.2 - p.2)) :=
        mul_pos (by linarith) ha
      linarith
    · linarith

theorem quadrant_ne_missed (v p : Point) (α β : ℚ)
    (hv : 0 < α * (v.1 - p.1) + β * (v.2 - p.2)) :
    quadrant_type v p ≠ missedQuadrant α β := by
  unfold quadrant_type missedQuadrant
  intro h
  by_cases hx : v.1 > p.1 <;> by_cases hy : v.2 > p.2 <;>
    by_cases hα : 0 ≤ α <;> by_cases hβ : 0 ≤ β <;>
    simp only [hx, hy, hα, hβ, if_true, if_false] at h <;>
    first
    | omega
    | nlinarith [mul_nonneg hα (le_of_lt (sub_pos.2 hx))]
    | nlinarith

theorem quadrant_fin (v p : Point) :
    ∃ q : Fin 4, quadrant_type v p = (q.val : Int) := by
  have h := quadrant_type_range v p
  exact ⟨⟨(quadrant_type v p).toNat, by omega⟩, by simp; omega⟩

theorem missed_fin (α β : ℚ) :
    ∃ m : Fin 4, missedQuadrant α β = (m.val : Int) ∧
      ((m.val = 1 ∨ m.val = 2) ↔ 0 ≤ α) := by
  unfold missedQuadrant
  by_cases hα : 0 ≤ α <;> by_cases hβ : 0 ≤ β <;> simp only [hα, hβ, if_true, if_false]
  · exact ⟨2, rfl, by decide⟩
  · exact ⟨1, rfl, by decide⟩
  · exact ⟨3, rfl, by decide⟩
  · exact ⟨0, rfl, by decide⟩

theorem edgeDelta_half_plane (a b p : Point) (α β : ℚ)
    (ha : 0 < α * (a.1 - p.1) + β * (a.2 - p.2))
    (hb : 0 < α * (b.1 - p.1) + β * (b.2 - p.2)) :
    edgeDelta p (a, b) =
      liftQuadrant (missedQuadrant α β) (quadrant_type b p) -
        liftQuadrant (missedQuadrant α β) (quadrant_type a p) := by
  obtain ⟨qa, hqa⟩ := quadrant_fin a p
  obtain ⟨qb, hqb⟩ := quadrant_fin b p
  obtain ⟨m, hm, hmα⟩ := missed_fin α β
  have na := quadrant_ne_missed a p α β ha
  have nb := quadrant_ne_missed b p α β hb
  have ua := quadrant_upper_iff a p
  have ub := quadrant_upper_iff b p
  simp only [edgeDelta, adjust_delta_eq]
  rw [hqa, hqb, hm] at *
  apply adjustBy_lift m qa qb _ (fun h => na (by rw [h])) (fun h => nb (by rw [h]))
  intro h2
  have hy : (a.2 > p.2 ∧ b.2 ≤ p.2) ∨ (a.2 ≤ p.2 ∧ b.2 > p.2) := by
    by_cases h1 : a.2 > p.2
    · left
      refine ⟨h1, not_lt.1 fun hb2 => ?_⟩
      have := ua.2 h1
      have := ub.2 hb2
      omega
    · right
      refine ⟨not_lt.1 h1, ?_⟩
      by_contra hb2
      have c1 : ¬ ((qa.val : Int) = 0 ∨ (qa.val : Int) = 1) := fun h => h1 (ua.1 h)
      have c2 : ¬ ((qb.val : Int) = 0 ∨ (qb.val : Int) = 1) := fun h => hb2 (ub.1 h)
      have := qa.isLt
      have := qb.isLt
      omega
  have hx := x_intercept_half_plane a b p α β ha hb hy
  rw [decide_eq_true_eq, hmα]
  constructor
  · intro hgt
    by_contra hα
    have : α * (x_intercept a b p.2 - p.1) < 0 :=
      mul_neg_of_neg_of_pos (not_le.1 hα) (sub_pos.2 hgt)
    linarith
  · intro hα
    by_contra hgt
    have : α * (x_intercept a b p.2 - p.1) ≤ 0 :=
      mul_nonpos_of_nonneg_of_nonpos hα (sub_nonpos.2 (not_lt.1 hgt))
    linarith

/-- A ring inside an open half-plane whose boundary passes through `p` does not contain
`p`. -/
theorem point_in_poly_half_plane (p front : Point) (rest : List Point) (α β : ℚ)
    (h : ∀ v ∈ front :: rest, 0 < α * (v.1 - p.1) + β * (v.2 - p.2)) :
    point_in_poly p (front :: rest) = some false := by
  apply point_in_poly_of_potential p front rest
    (fun v => liftQuadrant (missedQuadrant α β) (quadrant_type v p))
  · intro v
    unfold liftQuadrant
    constructor <;> omega
  · intro e he
    obtain ⟨h1, h2⟩ := mem_of_mem_ringEdges front rest e he
    exact edgeDelta_half_plane e.1 e.2 p α β (h _ h1) (h _ h2)

/-- In exact arithmetic: for every convex ring (wound either way, closed or not) and every
point `p` strictly outside it, `point_in_poly` returns false. -/
theorem point_in_poly_outside (p front : Point) (rest : List Point)
    (h : StrictlyOutside p (front :: rest)) :
    point_in_poly p (front :: rest) = some false := by
  rcases h with ⟨hc, e, he, hp⟩ | ⟨hc, e, he, hp⟩
  · apply point_in_poly_half_plane p front rest (-(e.2.2 - e.1.2)) (e.2.1 - e.1.1)
    intro v hv
    have := hc e he v hv
    unfold cross at this hp
    linarith
  · apply point_in_poly_half_plane p front rest (e.2.2 - e.1.2) (-(e.2.1 - e.1.1))
    intro v hv
    have := hc e he v hv
    unfold cross at this hp
    linarith

theorem point_in_poly_outside_witness :
    StrictlyOutside (2, 2) unitSquare ∧ point_in_poly (2, 2) unitSquare = some false := by
  have h : StrictlyOutside (2, 2) unitSquare := by
    left
    constructor
    · intro e he v hv
      simp only [unitSquare, ringEdges, edgesFrom, List.headD_cons, List.headD_nil,
        List.mem_cons, List.mem_singleton, List.not_mem_nil, or_false] at he hv
      rcases he with rfl | rfl | rfl | rfl <;> rcases hv with rfl | rfl | rfl | rfl <;>
        norm_num [cross]
    · exact ⟨((1, 0), (1, 1)), by simp [unitSquare, ringEdges, edgesFrom], by norm_num [cross]⟩
  exact ⟨h, point_in_poly_outside (2, 2) (0, 0) [(1, 0), (1, 1), (0, 1)] h⟩

theorem cross_eq (a b p : Point) :
    cross a b p = (a.1 - p.1) * (b.2 - p.2) - (a.2 - p.2) * (b.1 - p.1) := by
  unfold cross
  ring

theorem x_intercept_gt_iff (a b p : Point) (hc : 0 < cross a b p) (hy : a.2 ≠ b.2) :
    x_intercept a b p.2 > p.1 ↔ a.2 < b.2 := by
  have hD : a.2 - b.2 ≠ 0 := sub_ne_zero.2 hy
  have hN : x_intercept a b p.2 - p.1 = (-cross a b p) / (a.2 - b.2) := by
    unfold x_intercept cross
    field_simp
    ring
  rw [gt_iff_lt, ← sub_pos, hN]
  constructor
  · intro h
    by_contra hlt
    have hpos : 0 < a.2 - b.2 := by
      rcases lt_or_gt_of_ne hy with h1 | h1
      · exact absurd h1 hlt
      · linarith
    have : (-cross a b p) / (a.2 - b.2) < 0 := div_neg_of_neg_of_pos (by linarith) hpos
    linarith
  · intro h
    exact div_pos_of_neg_of_neg (by linarith) (by linarith)

theorem cross_sign_false (dxa dya dxb dyb : ℚ) (hc : 0 < dxa * dyb - dya * dxb)
    (h1 : dxa * dyb ≤ 0) (h2 : 0 ≤ dya * dxb) : False := by
  linarith

/-- The delta of an edge that has `p` strictly on its left: the quadrant difference,
plus four when the edge crosses the horizontal line through `p` upwards. -/
theorem edgeDelta_left (a b p : Point) (hc : 0 < cross a b p) :
    edgeDelta p (a, b) =
      quadrant_type b p - quadrant_type a p + (if upEdge p (a, b) = true then 4 else 0) := by
  have hc' := hc
  rw [cross_eq] at hc'
  have key : ∀ flip : Bool, (a.2 ≠ b.2 → (flip = true ↔ a.2 < b.2)) →
      adjustBy (quadrant_type b p - quadrant_type a p) flip =
        quadrant_type b p - quadrant_type a p +
          (if upEdge p (a, b) = true then 4 else 0) := by
    intro flip hflip
    by_cases hxa : p.1 < a.1 <;> by_cases hya : p.2 < a.2 <;>
      by_cases hxb : p.1 < b.1 <;> by_cases hyb : p.2 < b.2
    all_goals
      simp only [quadrant_type, upEdge, gt_iff_lt, ← not_lt, hxa, hya, hxb, hyb, if_true,
        if_false, decide_True, decide_False, Bool.and_true, Bool.and_false, Bool.true_and,
        Bool.false_and, Bool.false_eq_true, not_true_eq_false, not_false_eq_true]
    all_goals first
      | rfl
      | (have hf : flip = true := (hflip (by intro h; rw [h] at hya; exact hya hyb)).2
          (lt_of_le_of_lt (not_lt.1 hya) hyb)
         subst hf
         rfl)
      | (have hf : flip = false := by
           have h2 := hflip (by intro h; rw [h] at hya; exact hyb hya)
           cases flip
           · rfl
           · exact absurd (h2.1 rfl) (not_lt.2 (le_of_lt (lt_of_le_of_lt (not_lt.1 hyb) hya)))
         subst hf
         rfl)
      | (exfalso; nlinarith)
  rw [edgeDelta]
  simp only [adjust_delta_eq]
  apply key
  intro hy
  rw [decide_eq_true_eq]
  exact x_intercept_gt_iff a b p hc hy

theorem toInt8_add_toInt8 (x d : Int) : toInt8 (toInt8 x + d) = toInt8 (x + d) := by
  unfold toInt8
  omega

theorem foldl_toInt8 (pt : Point) :
    ∀ (edges : List (Point × Point)) (acc : Int),
      edges.foldl (fun acc e => toInt8 (acc + edgeDelta pt e)) (toInt8 acc) =
        toInt8 (acc + (edges.map (edgeDelta pt)).sum) := by
  intro edges
  induction edges with
  | nil => intro acc; simp
  | cons e edges ih =>
    intro acc
    simp only [List.foldl_cons, List.map_cons, List.sum_cons, toInt8_add_toInt8]
    rw [ih]
    congr 1
    ring

theorem point_in_poly_sum (pt front : Point) (rest : List Point) :
    point_in_poly pt (front :: rest) =
      some (decide (toInt8 ((ringEdges (front :: rest)).map (edgeDelta pt)).sum = 4) ||
        decide (toInt8 ((ringEdges (front :: rest)).map (edgeDelta pt)).sum = -4)) := by
  rw [point_in_poly_eq]
  have h := foldl_toInt8 pt (ringEdges (front :: rest)) 0
  rw [show toInt8 0 = 0 from rfl, zero_add] at h
  rw [h]

theorem edgesFrom_telescope {G : Type} [AddCommGroup G] (f : Point → G) (front : Point) :
    ∀ todo : List Point,
      ((edgesFrom front todo).map (fun e => f e.2 - f e.1)).sum =
        f front - f (todo.headD front) := by
  intro todo
  induction todo with
  | nil => simp [edgesFrom]
  | cons v todo ih =>
    simp only [edgesFrom, List.map_cons, List.sum_cons, ih, List.headD_cons]
    abel

theorem ringEdges_telescope {G : Type} [AddCommGroup G] (f : Point → G)
    (ring : List Point) : ((ringEdges ring).map (fun e => f e.2 - f e.1)).sum = 0 := by
  cases ring with
  | nil => simp [ringEdges, edgesFrom]
  | cons front rest =>
    rw [ringEdges, edgesFrom_telescope]
    simp

theorem climb (a b w w' u p : Point) (hab : a.2 < b.2) (hw : cross a b w = 0)
    (hu : cross a b u = 0) (hwu : w.2 < u.2) (h1 : 0 ≤ cross w w' u)
    (h2 : 0 ≤ cross a b w') (hp : 0 < cross a b p) (hp' : 0 < cross w w' p) :
    cross a b w' = 0 ∧ w.2 < w'.2 := by
  have i1 : (b.2 - a.2) * cross w w' u =
      -(u.2 - w.2) * (cross a b w' - cross a b w) +
        (w'.2 - w.2) * (cross a b u - cross a b w) := by
    unfold cross; ring
  have i2 : (b.2 - a.2) * cross w w' p =
      (w'.2 - w.2) * (cross a b p - cross a b w) -
        (cross a b w' - cross a b w) * (p.2 - w.2) := by
    unfold cross; ring
  rw [hw, hu] at i1
  rw [hw] at i2
  have hD : 0 < b.2 - a.2 := sub_pos.2 hab
  have hU : 0 < u.2 - w.2 := sub_pos.2 hwu
  have hz : cross a b w' = 0 := by
    have t1 := mul_nonneg (le_of_lt hD) h1
    have t2 := mul_nonneg (le_of_lt hU) h2
    have t3 : (u.2 - w.2) * cross a b w' = 0 := by linarith
    rcases mul_eq_zero.1 t3 with t | t
    · linarith
    · exact t
  refine ⟨hz, ?_⟩
  rw [hz] at i2
  have t1 := mul_pos hD hp'
  have t2 : 0 < (w'.2 - w.2) * cross a b p := by linarith
  by_contra hle
  have t3 : w'.2 - w.2 ≤ 0 := by linarith [not_lt.1 hle]
  have := mul_nonpos_of_nonpos_of_nonneg t3 (le_of_lt hp)
  linarith

theorem up_collinear (p a b c d : Point)
    (hab : upEdge p (a, b) = true) (hcd : upEdge p (c, d) = true)
    (h1 : 0 ≤ cross a b c) (h2 : 0 ≤ cross a b d)
    (h3 : 0 ≤ cross c d a) (h4 : 0 ≤ cross c d b) :
    a = c ∨ (cross a b c = 0 ∧ cross a b d = 0) := by
  simp only [upEdge, Bool.and_eq_true, decide_eq_true_eq] at hab hcd
  obtain ⟨ha, hb⟩ := hab
  obtain ⟨hc, hd⟩ := hcd
  have hid : ((d.2 - p.2) * cross a b c + (p.2 - c.2) * cross a b d) +
      ((b.2 - p.2) * cross c d a + (p.2 - a.2) * cross c d b) = 0 := by
    unfold cross
    ring
  have g1 := mul_nonneg (le_of_lt (sub_pos.2 hd)) h1
  have g2 := mul_nonneg (sub_nonneg.2 hc) h2
  have g3 := mul_nonneg (le_of_lt (sub_pos.2 hb)) h3
  have g4 := mul_nonneg (sub_nonneg.2 ha) h4
  have z1 : cross a b c = 0 := by
    have t : (d.2 - p.2) * cross a b c = 0 := by linarith
    rcases mul_eq_zero.1 t with t | t
    · linarith
    · exact t
  have z3 : cross c d a = 0 := by
    have t : (b.2 - p.2) * cross c d a = 0 := by linarith
    rcases mul_eq_zero.1 t with t | t
    · linarith
    · exact t
  by_cases hz : cross a b d = 0
  · exact Or.inr ⟨z1, hz⟩
  · left
    have i3 : (c.2 - a.2) * cross a b d =
        (b.2 - a.2) * cross c d a + cross a b c * (d.2 - a.2) := by
      unfold cross; ring
    rw [z1, z3] at i3
    have e2 : c.2 = a.2 := by
      rcases mul_eq_zero.1 (by linarith : (c.2 - a.2) * cross a b d = 0) with t | t
      · linarith
      · exact absurd t hz
    have e1 : c.1 = a.1 := by
      have t : (b.2 - a.2) * (c.1 - a.1) = 0 := by
        have := z1
        unfold cross at this
        rw [e2] at this
        linarith
      rcases mul_eq_zero.1 t with t | t
      · linarith
      · linarith
    exact Prod.ext e1.symm e2.symm

theorem line_point_unique (a b w u : Point) (hab : a.2 < b.2) (hw : cross a b w = 0)
    (hu : cross a b u = 0) (h : w.2 = u.2) : w = u := by
  have t : (b.2 - a.2) * (w.1 - u.1) = 0 := by
    unfold cross at hw hu
    rw [h] at hw
    linarith
  rcases mul_eq_zero.1 t with t | t
  · linarith
  · exact Prod.ext (by linarith) h

/-- On a closed ring of edges without repeated vertices, with every vertex on the closed
left of every edge and `p` strictly on the left of every edge, at most one edge crosses
the horizontal line through `p` upwards. -/
theorem unique_up_ring (p : Point) (E : List (Point × Point))
    (hF : (E.map Prod.fst).Nodup) (hS : (E.map Prod.snd).Nodup)
    (hcl : ∀ e ∈ E, ∃ f ∈ E, f.1 = e.2)
    (hI : ∀ e ∈ E, 0 < cross e.1 e.2 p)
    (hC : ∀ e ∈ E, ∀ f ∈ E, 0 ≤ cross e.1 e.2 f.1) :
    ∀ e ∈ E, ∀ f ∈ E, upEdge p e = true → upEdge p f = true → e = f := by
  intro e he f hf hue huf
  have hC2 : ∀ g ∈ E, ∀ f' ∈ E, 0 ≤ cross g.1 g.2 f'.2 := by
    intro g hg f' hf'
    obtain ⟨k, hk, hk1⟩ := hcl f' hf'
    rw [← hk1]
    exact hC g hg k hk
  rcases up_collinear p e.1 e.2 f.1 f.2 hue huf (hC e he f hf) (hC2 e he f hf)
    (hC f hf e he) (hC2 f hf e he) with h | ⟨hc, hd⟩
  · exact List.inj_on_of_nodup_map hF he hf h
  · by_contra hne
    have hac : e.1 ≠ f.1 := fun h => hne (List.inj_on_of_nodup_map hF he hf h)
    simp only [upEdge, Bool.and_eq_true, decide_eq_true_eq] at hue huf
    obtain ⟨ha, hb⟩ := hue
    obtain ⟨hc', hd'⟩ := huf
    have hab : e.1.2 < e.2.2 := by linarith
    have hbL : cross e.1 e.2 e.2 = 0 := by unfold cross; ring
    have hmemV : ∀ g ∈ E, g.2 ∈ (E.map Prod.fst).toFinset := by
      intro g hg
      obtain ⟨k, hk, hk1⟩ := hcl g hg
      rw [List.mem_toFinset, ← hk1]
      exact List.mem_map_of_mem _ hk
    obtain ⟨B, hB⟩ : ∃ B : Finset Point, B = (E.map Prod.fst).toFinset.filter
      (fun w => cross e.1 e.2 w = 0 ∧ p.2 < w.2) := ⟨_, rfl⟩
    have hBmem : ∀ w, w ∈ B ↔ (w ∈ (E.map Prod.fst).toFinset ∧
        cross e.1 e.2 w = 0 ∧ p.2 < w.2) := by
      intro w
      rw [hB, Finset.mem_filter]
    have hbB : e.2 ∈ B := (hBmem _).2 ⟨hmemV e he, hbL, hb⟩
    have hdB : f.2 ∈ B := (hBmem _).2 ⟨hmemV f hf, hd, hd'⟩
    obtain ⟨u, huB, humax⟩ := Finset.exists_max_image B (fun w => w.2) ⟨e.2, hbB⟩
    obtain ⟨huV, huL, hup⟩ := (hBmem u).1 huB
    obtain ⟨fu, hfu, hfu1⟩ := List.mem_map.1 (List.mem_toFinset.1 huV)
    obtain ⟨s, hs⟩ : ∃ s : Finset (Point × Point), s = E.toFinset.filter
      (fun g => g.1 ∈ insert e.1 (insert f.1 (B.erase u))) := ⟨_, rfl⟩
    have hsmem : ∀ g, g ∈ s ↔ (g ∈ E ∧ g.1 ∈ insert e.1 (insert f.1 (B.erase u))) := by
      intro g
      rw [hs, Finset.mem_filter, List.mem_toFinset]
    have hmaps : ∀ g ∈ s, g.2 ∈ B := by
      intro g hg
      obtain ⟨hgE, hg1⟩ := (hsmem g).1 hg
      rcases Finset.mem_insert.1 hg1 with h1 | h1
      · rw [List.inj_on_of_nodup_map hF hgE he h1]
        exact hbB
      · rcases Finset.mem_insert.1 h1 with h2 | h2
        · rw [List.inj_on_of_nodup_map hF hgE hf h2]
          exact hdB
        · obtain ⟨hgu, hgB⟩ := Finset.mem_erase.1 h2
          obtain ⟨_, hgL, hgp⟩ := (hBmem g.1).1 hgB
          have hlt : g.1.2 < u.2 := by
            rcases lt_or_eq_of_le (humax g.1 hgB) with h | h
            · exact h
            · exact absurd (line_point_unique e.1 e.2 g.1 u hab hgL huL h) hgu
          have hcu : 0 ≤ cross g.1 g.2 u := by
            rw [← hfu1]
            exact hC g hgE fu hfu
          obtain ⟨k1, k2⟩ := climb e.1 e.2 g.1 g.2 u p hab hgL huL hlt hcu
            (hC2 e he g hgE) (hI e he) (hI g hgE)
          exact (hBmem _).2 ⟨hmemV g hgE, k1, by linarith⟩
    have hinj : Set.InjOn Prod.snd (s : Set (Point × Point)) := by
      intro x hx y hy hxy
      exact List.inj_on_of_nodup_map hS ((hsmem x).1 hx).1 ((hsmem y).1 hy).1 hxy
    have hle1 : s.card ≤ B.card := Finset.card_le_card_of_injOn Prod.snd hmaps hinj
    have hsurj : Set.SurjOn Prod.fst (s : Set (Point × Point))
        (insert e.1 (insert f.1 (B.erase u)) : Finset Point) := by
      intro w hw
      have hw' : w ∈ insert e.1 (insert f.1 (B.erase u)) := hw
      have hwE : ∃ g ∈ E, g.1 = w := by
        rcases Finset.mem_insert.1 hw' with h1 | h1
        · exact ⟨e, he, h1.symm⟩
        · rcases Finset.mem_insert.1 h1 with h2 | h2
          · exact ⟨f, hf, h2.symm⟩
          · obtain ⟨_, hgB⟩ := Finset.mem_erase.1 h2
            obtain ⟨hV, _, _⟩ := (hBmem w).1 hgB
            obtain ⟨g, hg, hg1⟩ := List.mem_map.1 (List.mem_toFinset.1 hV)
            exact ⟨g, hg, hg1⟩
      obtain ⟨g, hg, hg1⟩ := hwE
      exact ⟨g, (hsmem g).2 ⟨hg, by rw [hg1]; exact hw'⟩, hg1⟩
    have hle2 := Finset.card_le_card_of_surjOn Prod.fst hsurj
    have haB : e.1 ∉ B := fun h => by
      have := ((hBmem _).1 h).2.2
      linarith
    have hcB : f.1 ∉ B := fun h => by
      have := ((hBmem _).1 h).2.2
      linarith
    have hcard : (insert e.1 (insert f.1 (B.erase u))).card = B.card + 1 := by
      rw [Finset.card_insert_of_not_mem, Finset.card_insert_of_not_mem,
        Finset.card_erase_of_mem huB]
      · have := Finset.card_pos.2 ⟨u, huB⟩
        omega
      · exact fun h => hcB (Finset.mem_of_mem_erase h)
      · intro h
        rcases Finset.mem_insert.1 h with h1 | h1
        · exact hac h1
        · exact haB (Finset.mem_of_mem_erase h1)
    omega

theorem quadrant_le_of_not_up (a b p : Point) (hc : 0 < cross a b p)
    (hu : upEdge p (a, b) = false) : quadrant_type a p ≤ quadrant_type b p := by
  rw [cross_eq] at hc
  by_cases hxa : p.1 < a.1 <;> by_cases hya : p.2 < a.2 <;>
    by_cases hxb : p.1 < b.1 <;> by_cases hyb : p.2 < b.2
  all_goals
    simp only [quadrant_type, upEdge, gt_iff_lt, ← not_lt, hxa, hya, hxb, hyb, if_true,
      if_false, decide_True, decide_False, Bool.and_true, Bool.and_false, Bool.true_and,
      Bool.false_and, Bool.false_eq_true, not_true_eq_false, not_false_eq_true,
      Bool.true_eq_false] at hu ⊢
  all_goals first
    | decide
    | (exfalso; nlinarith)

theorem quadrantKey_lt (a b p : Point) (hc : 0 < cross a b p)
    (hq : quadrant_type a p = quadrant_type b p) : quadrantKey p a < quadrantKey p b := by
  rw [cross_eq] at hc
  by_cases hxa : p.1 < a.1 <;> by_cases hya : p.2 < a.2 <;>
    by_cases hxb : p.1 < b.1 <;> by_cases hyb : p.2 < b.2
  all_goals
    simp only [quadrant_type, quadrantKey, gt_iff_lt, hxa, hya, hxb, hyb, if_true,
      if_false] at hq ⊢
  all_goals first
    | (exfalso; revert hq; decide)
    | (rw [div_lt_div_iff₀ (by linarith) (by linarith)]; nlinarith)
    | (have hA : 0 < -(a.1 - p.1) - (a.2 - p.2) := by
         rcases lt_or_eq_of_le (not_lt.1 hxa) with h | h
         · linarith [not_lt.1 hya]
         · rcases lt_or_eq_of_le (not_lt.1 hya) with h' | h'
           · linarith
           · exfalso; rw [h, h'] at hc; simp at hc
       have hB : 0 < -(b.1 - p.1) - (b.2 - p.2) := by
         rcases lt_or_eq_of_le (not_lt.1 hxb) with h | h
         · linarith [not_lt.1 hyb]
         · rcases lt_or_eq_of_le (not_lt.1 hyb) with h' | h'
           · linarith
           · exfalso; rw [h, h'] at hc; simp at hc
       rw [div_lt_div_iff₀ hA hB]
       nlinarith)

theorem map_sum_eq_zero_of_nonneg {α : Type} (g : α → Int) :
    ∀ E : List α, (∀ e ∈ E, 0 ≤ g e) → (E.map g).sum = 0 → ∀ e ∈ E, g e = 0 := by
  intro E
  induction E with
  | nil => intro _ _ e he; simp at he
  | cons y E ih =>
    intro hn hs e he
    have hy := hn y (by simp)
    have hl : 0 ≤ (E.map g).sum :=
      List.sum_nonneg (fun z hz => by
        obtain ⟨w, hw, rfl⟩ := List.mem_map.1 hz
        exact hn w (by simp [hw]))
    simp only [List.map_cons, List.sum_cons] at hs
    rcases List.mem_cons.1 he with rfl | he
    · omega
    · exact ih (fun z hz => hn z (by simp [hz])) (by omega) e he

theorem length_le_one_of_all_eq {α : Type} :
    ∀ l : List α, l.Nodup → (∀ x ∈ l, ∀ y ∈ l, x = y) → l.length ≤ 1 := by
  intro l hn h
  match l, hn, h with
  | [], _, _ => simp
  | [_], _, _ => simp
  | x :: y :: _, hn, h =>
    exfalso
    have hxy := h x (by simp) y (by simp)
    rw [List.nodup_cons] at hn
    exact hn.1 (by rw [hxy]; simp)

theorem sum_ite_eq_countP (p : Point) :
    ∀ E : List (Point × Point),
      (E.map (fun e => if upEdge p e = true then (4 : Int) else 0)).sum =
        4 * (E.filter (upEdge p)).length := by
  intro E
  induction E with
  | nil => simp
  | cons e E ih =>
    simp only [List.map_cons, List.sum_cons, ih, List.filter_cons]
    split
    · simp; ring
    · simp

/-- The winding sum of a cycle of edges in strictly convex position around `p`: if `p`
is strictly left of every edge, the edge deltas add up to four. -/
theorem sum_edgeDelta_convex (p : Point) (E : List (Point × Point))
    (hTZ : ∀ f : Point → Int, (E.map (fun e => f e.2 - f e.1)).sum = 0)
    (hTQ : ∀ f : Point → ℚ, (E.map (fun e => f e.2 - f e.1)).sum = 0)
    (hF : (E.map Prod.fst).Nodup) (hS : (E.map Prod.snd).Nodup)
    (hcl : ∀ e ∈ E, ∃ f ∈ E, f.1 = e.2) (hE : E ≠ [])
    (hI : ∀ e ∈ E, 0 < cross e.1 e.2 p)
    (hC : ∀ e ∈ E, ∀ f ∈ E, 0 ≤ cross e.1 e.2 f.1) :
    (E.map (edgeDelta p)).sum = 4 := by
  have hN : E.Nodup := List.Nodup.of_map Prod.fst hF
  have hsum : (E.map (edgeDelta p)).sum = 4 * (E.filter (upEdge p)).length := by
    have h1 : E.map (edgeDelta p) = E.map (fun e =>
        (quadrant_type e.2 p - quadrant_type e.1 p) +
          (if upEdge p e = true then (4 : Int) else 0)) := by
      apply List.map_congr_left
      intro e he
      exact edgeDelta_left e.1 e.2 p (hI e he)
    rw [h1, List.sum_map_add, hTZ (fun v => quadrant_type v p), sum_ite_eq_countP, zero_add]
  have hle : (E.filter (upEdge p)).length ≤ 1 := by
    apply length_le_one_of_all_eq _ (hN.filter _)
    intro e he f hf
    obtain ⟨he1, he2⟩ := List.mem_filter.1 he
    obtain ⟨hf1, hf2⟩ := List.mem_filter.1 hf
    exact unique_up_ring p E hF hS hcl hI hC e he1 f hf1 he2 hf2
  have hge : 1 ≤ (E.filter (upEdge p)).length := by
    by_contra hlt
    have h0 : E.filter (upEdge p) = [] := List.length_eq_zero.1 (by omega)
    have hnu : ∀ e ∈ E, upEdge p e = false := by
      intro e he
      by_contra hu
      have : e ∈ E.filter (upEdge p) := List.mem_filter.2 ⟨he, by simpa using hu⟩
      rw [h0] at this
      simp at this
    have hTq := hTZ (fun v => quadrant_type v p)
    have hq : ∀ e ∈ E, quadrant_type e.1 p = quadrant_type e.2 p := by
      intro e he
      have hz := map_sum_eq_zero_of_nonneg
        (fun e : Point × Point => quadrant_type e.2 p - quadrant_type e.1 p) E
        (fun e' he' => by
          have := quadrant_le_of_not_up e'.1 e'.2 p (hI e' he') (hnu e' he')
          show 0 ≤ quadrant_type e'.2 p - quadrant_type e'.1 p
          omega)
        hTq e he
      have hz' : quadrant_type e.2 p - quadrant_type e.1 p = 0 := hz
      omega
    have hpos : 0 < (E.map (fun e => quadrantKey p e.2 - quadrantKey p e.1)).sum := by
      apply List.sum_pos
      · intro x hx
        obtain ⟨e, he, rfl⟩ := List.mem_map.1 hx
        exact sub_pos.2 (quadrantKey_lt e.1 e.2 p (hI e he) (hq e he))
      · simpa using hE
    rw [hTQ (quadrantKey p)] at hpos
    exact lt_irrefl _ hpos
  rw [hsum]
  omega

theorem x_intercept_symm (a b : Point) (y : ℚ) (h : a.2 ≠ b.2) :
    x_intercept b a y = x_intercept a b y := by
  have h1 : a.2 - b.2 ≠ 0 := sub_ne_zero.2 h
  have h2 : b.2 - a.2 ≠ 0 := sub_ne_zero.2 (Ne.symm h)
  unfold x_intercept
  field_simp
  ring

theorem edgeDelta_swap (a b p : Point) : edgeDelta p (b, a) = -edgeDelta p (a, b) := by
  have key : ∀ f1 f2 : Bool, (a.2 ≠ b.2 → f1 = f2) →
      adjustBy (quadrant_type a p - quadrant_type b p) f1 =
        -adjustBy (quadrant_type b p - quadrant_type a p) f2 := by
    intro f1 f2 hf
    by_cases hxa : p.1 < a.1 <;> by_cases hya : p.2 < a.2 <;>
      by_cases hxb : p.1 < b.1 <;> by_cases hyb : p.2 < b.2
    all_goals
      simp only [quadrant_type, gt_iff_lt, hxa, hya, hxb, hyb, if_true, if_false]
    all_goals first
      | rfl
      | (have h := hf (by intro h; rw [h] at hya; exact hya hyb)
         subst h
         cases f1 <;> rfl)
      | (have h := hf (by intro h; rw [h] at hya; exact hyb hya)
         subst h
         cases f1 <;> rfl)
  simp only [edgeDelta, adjust_delta_eq]
  apply key
  intro h
  rw [x_intercept_symm a b p.2 h]

theorem edgesFrom_map_fst (front : Point) :
    ∀ todo : List Point, (edgesFrom front todo).map Prod.fst = todo := by
  intro todo
  induction todo with
  | nil => rfl
  | cons v todo ih => simp [edgesFrom, ih]

theorem ringEdges_nodup (ring : List Point) (h : ring.Nodup) : (ringEdges ring).Nodup := by
  apply List.Nodup.of_map Prod.fst
  rw [ringEdges, edgesFrom_map_fst]
  exact h

theorem cross_swap (a b p : Point) : cross b a p = -cross a b p := by
  unfold cross
  ring

theorem sum_map_neg_int {α : Type} (g : α → Int) :
    ∀ E : List α, (E.map (fun e => -g e)).sum = -(E.map g).sum := by
  intro E
  induction E with
  | nil => simp
  | cons e E ih =>
    simp only [List.map_cons, List.sum_cons, ih]
    ring

theorem edgesFrom_map_snd (front : Point) :
    ∀ todo : List Point, todo ≠ [] →
      (edgesFrom front todo).map Prod.snd = todo.tail ++ [front] := by
  intro todo
  induction todo with
  | nil => intro h; exact absurd rfl h
  | cons v todo ih =>
    intro _
    cases todo with
    | nil => simp [edgesFrom]
    | cons w rest =>
      have := ih (by simp)
      simp only [edgesFrom, List.map_cons, List.tail_cons, List.headD_cons,
        List.cons_append] at this ⊢
      rw [this]

theorem ringEdges_map_snd (front : Point) (rest : List Point) :
    (ringEdges (front :: rest)).map Prod.snd = rest ++ [front] := by
  rw [ringEdges, List.headD_cons, edgesFrom_map_snd front _ (by simp), List.tail_cons]

theorem ringEdges_snd_nodup (front : Point) (rest : List Point)
    (h : (front :: rest).Nodup) : ((ringEdges (front :: rest)).map Prod.snd).Nodup := by
  rw [ringEdges_map_snd]
  exact (List.perm_append_singleton front rest).nodup_iff.2 h

theorem ringEdges_mem_fst (ring : List Point) (v : Point) (hv : v ∈ ring) :
    ∃ e ∈ ringEdges ring, e.1 = v := by
  have : v ∈ (ringEdges ring).map Prod.fst := by
    rw [ringEdges, edgesFrom_map_fst]
    exact hv
  obtain ⟨e, he, h⟩ := List.mem_map.1 this
  exact ⟨e, he, h⟩

theorem ringEdges_mem_snd (front : Point) (rest : List Point) (v : Point)
    (hv : v ∈ front :: rest) : ∃ e ∈ ringEdges (front :: rest), e.2 = v := by
  have : v ∈ (ringEdges (front :: rest)).map Prod.snd := by
    rw [ringEdges_map_snd]
    rcases List.mem_cons.1 hv with h | h
    · simp [h]
    · simp [h]
  obtain ⟨e, he, h⟩ := List.mem_map.1 this
  exact ⟨e, he, h⟩

theorem sum_edgeDelta_ccw (p front : Point) (rest : List Point)
    (hn : (front :: rest).Nodup) (hc : ConvexCCW (front :: rest))
    (hi : ∀ e ∈ ringEdges (front :: rest), 0 < cross e.1 e.2 p) :
    ((ringEdges (front :: rest)).map (edgeDelta p)).sum = 4 := by
  apply sum_edgeDelta_convex p _ (fun f => ringEdges_telescope f _)
    (fun f => ringEdges_telescope f _)
    (by rw [ringEdges, edgesFrom_map_fst]; exact hn) (ringEdges_snd_nodup front rest hn)
    (fun e he => ringEdges_mem_fst _ e.2 (mem_of_mem_ringEdges front rest e he).2)
    (by simp [ringEdges, edgesFrom]) hi
  intro e he f hf
  exact hc e he f.1 (mem_of_mem_ringEdges front rest f hf).1

theorem sum_edgeDelta_cw (p front : Point) (rest : List Point)
    (hn : (front :: rest).Nodup) (hc : ConvexCW (front :: rest))
    (hi : ∀ e ∈ ringEdges (front :: rest), cross e.1 e.2 p < 0) :
    ((ringEdges (front :: rest)).map (edgeDelta p)).sum = -4 := by
  have hT : ∀ {G : Type} [AddCommGroup G] (f : Point → G),
      (((ringEdges (front :: rest)).map Prod.swap).map (fun e => f e.2 - f e.1)).sum = 0 := by
    intro G _ f
    have h := ringEdges_telescope (fun v => -f v) (front :: rest)
    rw [List.map_map]
    rw [← h]
    congr 1
    apply List.map_congr_left
    intro e _
    simp only [Function.comp, Prod.snd_swap, Prod.fst_swap]
    abel
  have hF : (((ringEdges (front :: rest)).map Prod.swap).map Prod.fst).Nodup := by
    rw [List.map_map, show (Prod.fst ∘ Prod.swap : Point × Point → Point) = Prod.snd from rfl]
    exact ringEdges_snd_nodup front rest hn
  have hS : (((ringEdges (front :: rest)).map Prod.swap).map Prod.snd).Nodup := by
    rw [List.map_map, show (Prod.snd ∘ Prod.swap : Point × Point → Point) = Prod.fst from rfl,
      ringEdges, edgesFrom_map_fst]
    exact hn
  have h4 := sum_edgeDelta_convex p ((ringEdges (front :: rest)).map Prod.swap)
    (fun f => hT f) (fun f => hT f) hF hS
    (by
      intro e he
      obtain ⟨e', he', rfl⟩ := List.mem_map.1 he
      obtain ⟨k, hk, hk2⟩ := ringEdges_mem_snd front rest e'.1
        (mem_of_mem_ringEdges front rest e' he').1
      exact ⟨k.swap, List.mem_map_of_mem _ hk, hk2⟩)
    (by simp [ringEdges, edgesFrom])
    (by
      intro e he
      obtain ⟨e', he', rfl⟩ := List.mem_map.1 he
      simp only [Prod.fst_swap, Prod.snd_swap]
      rw [cross_swap]
      linarith [hi e' he'])
    (by
      intro e he f hf
      obtain ⟨e', he', rfl⟩ := List.mem_map.1 he
      obtain ⟨f', hf', rfl⟩ := List.mem_map.1 hf
      obtain ⟨hf1, hf2⟩ := mem_of_mem_ringEdges front rest f' hf'
      simp only [Prod.fst_swap, Prod.snd_swap]
      rw [cross_swap]
      linarith [hc e' he' f'.2 hf2])
  rw [List.map_map] at h4
  have hneg : (ringEdges (front :: rest)).map (edgeDelta p ∘ Prod.swap) =
      (ringEdges (front :: rest)).map (fun e => -edgeDelta p e) := by
    apply List.map_congr_left
    intro e _
    exact edgeDelta_swap e.1 e.2 p
  rw [hneg, sum_map_neg_int] at h4
  omega

theorem edgesFrom_append_front (front : Point) :
    ∀ todo : List Point, todo ≠ [] →
      edgesFrom front (todo ++ [front]) = edgesFrom front todo ++ [(front, front)] := by
  intro todo
  induction todo with
  | nil => intro h; exact absurd rfl h
  | cons v todo ih =>
    intro _
    cases todo with
    | nil => simp [edgesFrom]
    | cons w rest =>
      show (v, w) :: edgesFrom front (w :: rest ++ [front]) =
        (v, w) :: (edgesFrom front (w :: rest) ++ [(front, front)])
      rw [ih (by simp)]

theorem edgeDelta_self (p v : Point) : edgeDelta p (v, v) = 0 := by
  simp [edgeDelta, adjust_delta]

theorem sum_edgeDelta_closed (p front : Point) (rest : List Point) :
    ((ringEdges (front :: rest ++ [front])).map (edgeDelta p)).sum =
      ((ringEdges (front :: rest)).map (edgeDelta p)).sum := by
  have h := edgesFrom_append_front front (front :: rest) (by simp)
  simp only [ringEdges, List.cons_append, List.headD_cons] at h ⊢
  rw [h, List.map_append, List.sum_append]
  simp [edgeDelta_self]

/-- In exact arithmetic: for every convex ring (wound either way, given open or closed by
repeating its first point; its points pairwise different and every vertex on the closed inner side of
every edge) and every point `p` strictly inside it, `point_in_poly` returns true. -/
theorem point_in_poly_inside (p front : Point) (rest : List Point)
    (h : StrictlyInside p (front :: rest)) :
    point_in_poly p (front :: rest) = some true ∧
      point_in_poly p (front :: rest ++ [front]) = some true := by
  have hs : ((ringEdges (front :: rest)).map (edgeDelta p)).sum = 4 ∨
      ((ringEdges (front :: rest)).map (edgeDelta p)).sum = -4 := by
    obtain ⟨hn, ⟨hc, hi⟩ | ⟨hc, hi⟩⟩ := h
    · exact Or.inl (sum_edgeDelta_ccw p front rest hn hc hi)
    · exact Or.inr (sum_edgeDelta_cw p front rest hn hc hi)
  constructor
  · rw [point_in_poly_sum]
    rcases hs with hs | hs <;> rw [hs] <;> rfl
  · rw [show front :: rest ++ [front] = front :: (rest ++ [front]) from rfl,
      point_in_poly_sum, show front :: (rest ++ [front]) = front :: rest ++ [front] from rfl,
      sum_edgeDelta_closed]
    rcases hs with hs | hs <;> rw [hs] <;> rfl

theorem point_in_poly_inside_witness :
    StrictlyInside (1 / 2, 1 / 2) unitSquare ∧
      point_in_poly (1 / 2, 1 / 2) unitSquare = some true := by
  have h : StrictlyInside (1 / 2, 1 / 2) unitSquare := by
    refine ⟨by norm_num [unitSquare, Prod.ext_iff], Or.inl ⟨?_, ?_⟩⟩
    · intro e he v hv
      simp only [unitSquare, ringEdges, edgesFrom, List.headD_cons, List.headD_nil,
        List.mem_cons, List.mem_singleton, List.not_mem_nil, or_false] at he hv
      rcases he with rfl | rfl | rfl | rfl <;> rcases hv with rfl | rfl | rfl | rfl <;>
        norm_num [cross]
    · intro e he
      simp only [unitSquare, ringEdges, edgesFrom, List.headD_cons, List.headD_nil,
        List.mem_cons, List.mem_singleton, List.not_mem_nil, or_false] at he
      rcases he with rfl | rfl | rfl | rfl <;> norm_num [cross]
  exact ⟨h, (point_in_poly_inside (1 / 2, 1 / 2) (0, 0) [(1, 0), (1, 1), (0, 1)] h).1⟩

/-! ## Theorems: orientation of the outer ring -/


theorem pos_unique (nc x y : Int) (hc : 0 < nc) (hx : 0 ≤ x) (hx' : x < nc) :
    (y * nc + x) % nc = x ∧ (y * nc + x) / nc = y := by
  have := (Int.ediv_emod_unique hc (a := y * nc + x) (q := y) (r := x)).2
    ⟨by ring, hx, hx'⟩
  exact ⟨this.2, this.1⟩

theorem pos_range (nc nr z : Int) (hc : 0 < nc) (h0 : 0 ≤ z) (h1 : z < nr * nc) :
    0 ≤ z % nc ∧ z % nc < nc ∧ 0 ≤ z / nc ∧ z / nc < nr ∧ z / nc * nc + z % nc = z := by
  refine ⟨Int.emod_nonneg _ (ne_of_gt hc), Int.emod_lt_of_pos _ hc,
    Int.ediv_nonneg h0 (le_of_lt hc), Int.ediv_lt_of_lt_mul hc h1, ?_⟩
  rw [mul_comm]; exact Int.ediv_add_emod _ _

theorem id_range (nc nr x y : Int) (hx : 0 ≤ x) (hx' : x < nc) (hy : 0 ≤ y) (hy' : y < nr) :
    0 ≤ y * nc + x ∧ y * nc + x < nr * nc := by
  constructor
  · have := mul_nonneg hy (by omega : (0 : Int) ≤ nc)
    omega
  · have : (y + 1) * nc ≤ nr * nc := Int.mul_le_mul_of_nonneg_right (by omega) (by omega)
    have h2 : (y + 1) * nc = y * nc + nc := by ring
    omega

/-- The lambda `neighbor` in terms of columns and rows. -/
theorem neighbor_pos (tiles : Tiles) (z σ : Int) (hc : 0 < tiles.ncolumns)
    (h0 : 0 ≤ z) (h1 : z < tiles.nrows * tiles.ncolumns)
    (hσ : σ = 0 ∨ σ = 1 ∨ σ = 2 ∨ σ = 3) :
    neighbor tiles z σ =
      if 0 ≤ z % tiles.ncolumns + dirX σ ∧ z % tiles.ncolumns + dirX σ < tiles.ncolumns ∧
          0 ≤ z / tiles.ncolumns + dirY σ ∧ z / tiles.ncolumns + dirY σ < tiles.nrows then
        (z / tiles.ncolumns + dirY σ) * tiles.ncolumns + (z % tiles.ncolumns + dirX σ)
      else -1 := by
  obtain ⟨a1, a2, a3, a4, a5⟩ := pos_range tiles.ncolumns tiles.nrows z hc h0 h1
  have hz : z ≠ -1 := by omega
  have e1 : (z / tiles.ncolumns + -1) * tiles.ncolumns =
      z / tiles.ncolumns * tiles.ncolumns - tiles.ncolumns := by ring
  have e2 : (z / tiles.ncolumns + 1) * tiles.ncolumns =
      z / tiles.ncolumns * tiles.ncolumns + tiles.ncolumns := by ring
  have e3 : (z / tiles.ncolumns + 0) * tiles.ncolumns =
      z / tiles.ncolumns * tiles.ncolumns := by ring
  unfold neighbor dirX dirY Tiles.GetRowColumn
  simp only [hz, if_false]
  rcases hσ with rfl | rfl | rfl | rfl <;> split_ifs <;> omega

theorem member_neg_one (region : List Nat) (tiles : Tiles) (hv : ValidRegion region tiles) :
    member region (-1) = false := by
  obtain ⟨_, _, h3, h4⟩ := hv
  rw [Bool.eq_false_iff]
  intro h
  have hm := (member_iff region (-1)).1 h
  have := h4 _ hm
  have e : toU32 (-1) = 4294967295 := by decide
  rw [e] at this
  omega

theorem member_id (region : List Nat) (tiles : Tiles) (x y : Int)
    (hx : 0 ≤ x) (hx' : x < tiles.ncolumns) (hy : 0 ≤ y) (hy' : y < tiles.nrows)
    (h3 : tiles.nrows * tiles.ncolumns < 2147483648) :
    member region (y * tiles.ncolumns + x) = inRegion region tiles x y ∧
      ((toU32 (y * tiles.ncolumns + x) : Nat) : Int) = y * tiles.ncolumns + x := by
  obtain ⟨r1, r2⟩ := id_range tiles.ncolumns tiles.nrows x y hx hx' hy hy'
  have e : toU32 (y * tiles.ncolumns + x) = (y * tiles.ncolumns + x).toNat := by
    unfold toU32
    rw [Int.emod_eq_of_lt r1 (by omega)]
  constructor
  · simp [member, inRegion, e, hx, hx', hy, hy']
  · rw [e]
    exact Int.toNat_of_nonneg r1

theorem toI32_valid (tiles : Tiles) (t : Nat)
    (h3 : tiles.nrows * tiles.ncolumns < 2147483648)
    (ht : (t : Int) < tiles.nrows * tiles.ncolumns) : toI32 t = t := by
  unfold toI32
  rw [if_pos (by omega)]

theorem inRegion_grid (region : List Nat) (tiles : Tiles) (x y : Int)
    (h : inRegion region tiles x y = true) :
    0 ≤ x ∧ x < tiles.ncolumns ∧ 0 ≤ y ∧ y < tiles.nrows := by
  simp only [inRegion, Bool.and_eq_true, decide_eq_true_eq] at h
  exact ⟨h.1.1.1.1, h.1.1.1.2, h.1.1.2, h.1.2⟩

theorem inRegion_off_grid (region : List Nat) (tiles : Tiles) (x y : Int)
    (h : ¬ (0 ≤ x ∧ x < tiles.ncolumns ∧ 0 ≤ y ∧ y < tiles.nrows)) :
    inRegion region tiles x y = false := by
  rw [Bool.eq_false_iff]
  intro hk
  exact h (inRegion_grid region tiles x y hk)

/-- Membership of the neighbor across side `σ` of a tile, by column and row. -/
theorem member_neighbor (region : List Nat) (tiles : Tiles) (hv : ValidRegion region tiles)
    (z σ : Int) (h0 : 0 ≤ z) (h1 : z < tiles.nrows * tiles.ncolumns)
    (hσ : σ = 0 ∨ σ = 1 ∨ σ = 2 ∨ σ = 3) :
    member region (neighbor tiles z σ) =
        inRegion region tiles (z % tiles.ncolumns + dirX σ) (z / tiles.ncolumns + dirY σ) ∧
      (inRegion region tiles (z % tiles.ncolumns + dirX σ) (z / tiles.ncolumns + dirY σ) = true →
        ((toU32 (neighbor tiles z σ) : Nat) : Int) =
          (z / tiles.ncolumns + dirY σ) * tiles.ncolumns + (z % tiles.ncolumns + dirX σ)) := by
  rw [neighbor_pos tiles z σ hv.1 h0 h1 hσ]
  split
  · rename_i hg
    obtain ⟨g1, g2, g3, g4⟩ := hg
    have := member_id region tiles _ _ g1 g2 g3 g4 hv.2.2.1
    exact ⟨this.1, fun _ => this.2⟩
  · rename_i hg
    have hf := inRegion_off_grid region tiles _ _ hg
    rw [member_neg_one region tiles hv, hf]
    exact ⟨rfl, fun h => by cases h⟩

theorem side_succ_cases (s : Int) (_ : s = 0 ∨ s = 1 ∨ s = 2 ∨ s = 3) :
    (s + 1) % 4 = 0 ∨ (s + 1) % 4 = 1 ∨ (s + 1) % 4 = 2 ∨ (s + 1) % 4 = 3 := by
  omega

/-- Membership of the diagonal tile of the successor rule, by column and row. -/
theorem member_diag (region : List Nat) (tiles : Tiles) (hv : ValidRegion region tiles)
    (z s : Int) (h0 : 0 ≤ z) (h1 : z < tiles.nrows * tiles.ncolumns)
    (hs : s = 0 ∨ s = 1 ∨ s = 2 ∨ s = 3) :
    member region (neighbor tiles (neighbor tiles z ((s + 1) % 4)) s) =
        inRegion region tiles (z % tiles.ncolumns + dirX ((s + 1) % 4) + dirX s)
          (z / tiles.ncolumns + dirY ((s + 1) % 4) + dirY s) ∧
      (inRegion region tiles (z % tiles.ncolumns + dirX ((s + 1) % 4) + dirX s)
          (z / tiles.ncolumns + dirY ((s + 1) % 4) + dirY s) = true →
        ((toU32 (neighbor tiles (neighbor tiles z ((s + 1) % 4)) s) : Nat) : Int) =
          (z / tiles.ncolumns + dirY ((s + 1) % 4) + dirY s) * tiles.ncolumns +
            (z % tiles.ncolumns + dirX ((s + 1) % 4) + dirX s)) := by
  rw [neighbor_pos tiles z _ hv.1 h0 h1 (side_succ_cases s hs)]
  split
  · rename_i hg
    obtain ⟨g1, g2, g3, g4⟩ := hg
    obtain ⟨r1, r2⟩ := id_range tiles.ncolumns tiles.nrows _ _ g1 g2 g3 g4
    obtain ⟨u1, u2⟩ := pos_unique tiles.ncolumns _ (z / tiles.ncolumns + dirY ((s + 1) % 4))
      hv.1 g1 g2
    have := member_neighbor region tiles hv _ s r1 r2 hs
    rw [u1, u2] at this
    exact this
  · rename_i hg
    have hn : neighbor tiles (-1) s = -1 := by simp [neighbor]
    have hf : inRegion region tiles (z % tiles.ncolumns + dirX ((s + 1) % 4) + dirX s)
        (z / tiles.ncolumns + dirY ((s + 1) % 4) + dirY s) = false := by
      apply inRegion_off_grid
      obtain ⟨a1, a2, a3, a4, _⟩ := pos_range tiles.ncolumns tiles.nrows z hv.1 h0 h1
      rcases hs with rfl | rfl | rfl | rfl <;> simp only [dirX, dirY] at hg ⊢ <;>
        norm_num at hg ⊢ <;> omega
    rw [hn, member_neg_one region tiles hv, hf]
    exact ⟨rfl, fun h => by cases h⟩

/-- The successor rule of `trace` agrees with `stepSide` on columns and rows, and
stays on valid tiles. -/
theorem nextEdge_sideOf (region : List Nat) (tiles : Tiles) (hv : ValidRegion region tiles)
    (t : Nat) (s : Int) (ht : (t : Int) < tiles.nrows * tiles.ncolumns)
    (hs : s = 0 ∨ s = 1 ∨ s = 2 ∨ s = 3) :
    sideOf tiles (nextEdge region tiles t s).1 (nextEdge region tiles t s).2 =
        stepSide region tiles (sideOf tiles t s) ∧
      (((nextEdge region tiles t s).1 : Nat) : Int) < tiles.nrows * tiles.ncolumns := by
  have h0 : (0 : Int) ≤ t := Int.natCast_nonneg t
  obtain ⟨d1, d2⟩ := member_diag region tiles hv t s h0 ht hs
  obtain ⟨n1, n2⟩ := member_neighbor region tiles hv t ((s + 1) % 4) h0 ht (side_succ_cases s hs)
  unfold nextEdge stepSide sideOf
  simp only [toI32_valid tiles t hv.2.2.1 ht, d1, n1]
  split
  · rename_i hd
    obtain ⟨g1, g2, g3, g4⟩ := inRegion_grid region tiles _ _ hd
    obtain ⟨u1, u2⟩ := pos_unique tiles.ncolumns _
      (t / tiles.ncolumns + dirY ((s + 1) % 4) + dirY s) hv.1 g1 g2
    have r := id_range tiles.ncolumns tiles.nrows _ _ g1 g2 g3 g4
    simp only [d2 hd, u1, u2]
    exact ⟨trivial, r.2⟩
  · split
    · rename_i ha
      obtain ⟨g1, g2, g3, g4⟩ := inRegion_grid region tiles _ _ ha
      obtain ⟨u1, u2⟩ := pos_unique tiles.ncolumns _
        (t / tiles.ncolumns + dirY ((s + 1) % 4)) hv.1 g1 g2
      have r := id_range tiles.ncolumns tiles.nrows _ _ g1 g2 g3 g4
      simp only [n2 ha, u1, u2]
      exact ⟨trivial, r.2⟩
    · exact ⟨rfl, ht⟩

theorem IsWalk.cons_iff {α : Type} (next : α → α) (b a v : α) (rest : List α) :
    IsWalk next b a (v :: rest) ↔
      v = a ∧ ((rest = [] ∧ next a = b) ∨ (rest ≠ [] ∧ IsWalk next b (next a) rest)) := by
  cases rest with
  | nil => simp [IsWalk]
  | cons w rest => simp [IsWalk]

theorem IsWalk.inv {α : Type} (next : α → α) (b : α) (I : α → Prop)
    (hI : ∀ v, I v → I (next v)) :
    ∀ (V : List α) (a : α), I a → IsWalk next b a V → ∀ v ∈ V, I v := by
  intro V
  induction V with
  | nil => intro a _ h; exact absurd h (by simp [IsWalk])
  | cons w V ih =>
    intro a ha h v hv
    rw [IsWalk.cons_iff] at h
    obtain ⟨rfl, h⟩ := h
    rcases List.mem_cons.1 hv with rfl | hv
    · exact ha
    · rcases h with ⟨h1, _⟩ | ⟨_, h2⟩
      · rw [h1] at hv; simp at hv
      · exact ih (next w) (hI w ha) h2 v hv

theorem IsWalk.telescope {α G : Type} [AddCommGroup G] (next : α → α) (b : α) (φ : α → G) :
    ∀ (V : List α) (a : α), IsWalk next b a V →
      (V.map (fun v => φ (next v) - φ v)).sum = φ b - φ a := by
  intro V
  induction V with
  | nil => intro a h; exact absurd h (by simp [IsWalk])
  | cons w V ih =>
    intro a h
    rw [IsWalk.cons_iff] at h
    obtain ⟨rfl, h⟩ := h
    rcases h with ⟨h1, h2⟩ | ⟨_, h2⟩
    · subst h1
      simp [h2]
    · simp only [List.map_cons, List.sum_cons, ih (next w) h2]
      abel

theorem IsWalk.head {α : Type} (next : α → α) (b a : α) (V : List α)
    (h : IsWalk next b a V) : a ∈ V := by
  cases V with
  | nil => exact absurd h (by simp [IsWalk])
  | cons w V =>
    rw [IsWalk.cons_iff] at h
    rw [h.1]
    simp

theorem IsWalk.map {α β : Type} (next : α → α) (next' : β → β) (f : α → β) (b : α)
    (I : α → Prop) (hI : ∀ v, I v → I (next v))
    (hf : ∀ v, I v → f (next v) = next' (f v)) :
    ∀ (V : List α) (a : α), I a → IsWalk next b a V → IsWalk next' (f b) (f a) (V.map f) := by
  intro V
  induction V with
  | nil => intro a _ h; exact absurd h (by simp [IsWalk])
  | cons w V ih =>
    intro a ha h
    rw [IsWalk.cons_iff] at h
    obtain ⟨rfl, h⟩ := h
    rw [List.map_cons, IsWalk.cons_iff]
    refine ⟨rfl, ?_⟩
    rcases h with ⟨h1, h2⟩ | ⟨h1, h2⟩
    · left
      exact ⟨by simp [h1], by rw [← hf w ha, h2]⟩
    · right
      refine ⟨by simpa using h1, ?_⟩
      rw [← hf w ha]
      exact ih (next w) (hI w ha) h2

/-- A successful run of the loop of `trace` walks the successor rule from its first
side back to the start side, emits the begin-vertex of every side walked and records
these sides. -/
theorem traceLoop_walk (region : List Nat) (tiles : Tiles) (start_tile : Nat)
    (start_side : Int) :
    ∀ (fuel tile : Nat) (side : Int) (ring : List Point) (used : List (Int × Nat))
      (ring' : List Point) (used' : List (Int × Nat)),
      traceLoop region tiles start_tile start_side true fuel tile side ring used =
        .ok (ring', used') →
      ∃ V : List (Nat × Int),
        IsWalk (fun v => nextEdge region tiles v.1 v.2) (start_tile, start_side) (tile, side) V ∧
        ring' = ring ++ V.map (fun v => coord tiles v.1 v.2) ∧
        used' = (V.map (fun v => (v.2, v.1))).reverse ++ used := by
  intro fuel
  induction fuel with
  | zero => intro _ _ _ _ _ _ h; simp [traceLoop] at h
  | succ fuel ih =>
    intro tile side ring used ring' used' h
    rw [traceLoop_succ] at h
    split at h
    · cases h
    · split at h
      · obtain ⟨V, hw, hr, hu⟩ := ih _ _ _ _ _ _ h
        refine ⟨(tile, side) :: V, ?_, ?_, ?_⟩
        · rw [IsWalk.cons_iff]
          refine ⟨rfl, Or.inr ⟨?_, hw⟩⟩
          intro hV
          rw [hV] at hw
          simp [IsWalk] at hw
        · rw [hr]; simp
        · rw [hu]; simp
      · rename_i hne
        have hn : nextEdge region tiles tile side = (start_tile, start_side) := by
          have h1 : (nextEdge region tiles tile side).1 = start_tile := by
            by_contra hc; exact hne (Or.inl hc)
          have h2 : (nextEdge region tiles tile side).2 = start_side := by
            by_contra hc; exact hne (Or.inr hc)
          exact Prod.ext h1 h2
        injection h with h
        injection h with h1 h2
        refine ⟨[(tile, side)], ?_, ?_, ?_⟩
        · simp [IsWalk, hn]
        · rw [← h1]; simp
        · rw [← h2]; simp

theorem beginPt_stepSide (region : List Nat) (tiles : Tiles) (v : Int × Int × Int)
    (hs : v.2.2 = 0 ∨ v.2.2 = 1 ∨ v.2.2 = 2 ∨ v.2.2 = 3) :
    beginPt (stepSide region tiles v) = endPt v := by
  obtain ⟨x, y, s⟩ := v
  simp only at hs
  unfold stepSide
  simp only
  rcases hs with rfl | rfl | rfl | rfl <;> split_ifs <;>
    simp [beginPt, endPt, dirX, dirY]

theorem Outside.not_inRegion (region : List Nat) (tiles : Tiles) (x y : Int)
    (h : Outside region tiles x y) : inRegion region tiles x y = false := by
  cases h with
  | far _ _ hf =>
    apply inRegion_off_grid
    omega
  | step _ _ _ _ _ _ hn => exact hn

theorem dir_add (s : Int) (hs : s = 0 ∨ s = 1 ∨ s = 2 ∨ s = 3) :
    dirX ((s + 3) % 4) = -dirX ((s + 1) % 4) ∧ dirY ((s + 3) % 4) = -dirY ((s + 1) % 4) ∧
      ((dirX ((s + 1) % 4) = 0 ∧ (dirY ((s + 1) % 4) = 1 ∨ dirY ((s + 1) % 4) = -1)) ∨
        (dirY ((s + 1) % 4) = 0 ∧ (dirX ((s + 1) % 4) = 1 ∨ dirX ((s + 1) % 4) = -1))) ∧
      ((dirX s = 0 ∧ (dirY s = 1 ∨ dirY s = -1)) ∨
        (dirY s = 0 ∧ (dirX s = 1 ∨ dirX s = -1))) := by
  rcases hs with rfl | rfl | rfl | rfl <;> simp [dirX, dirY]

/-- The successor rule keeps the walk on sides of region tiles that face outside. -/
theorem FacesOutside.step (region : List Nat) (tiles : Tiles) (v : Int × Int × Int)
    (h : FacesOutside region tiles v) : FacesOutside region tiles (stepSide region tiles v) := by
  obtain ⟨x, y, s⟩ := v
  obtain ⟨hs, hin, hout⟩ := h
  simp only at hs hin hout
  obtain ⟨d1, d2, d3, d4⟩ := dir_add s hs
  unfold stepSide
  simp only
  by_cases hd : inRegion region tiles (x + dirX ((s + 1) % 4) + dirX s)
      (y + dirY ((s + 1) % 4) + dirY s) = true
  · rw [if_pos hd]
    refine ⟨by simp only; omega, hd, ?_⟩
    simp only
    rw [d1, d2]
    have e1 : x + dirX ((s + 1) % 4) + dirX s + -dirX ((s + 1) % 4) = x + dirX s := by ring
    have e2 : y + dirY ((s + 1) % 4) + dirY s + -dirY ((s + 1) % 4) = y + dirY s := by ring
    rw [e1, e2]
    exact hout
  · have hd' : inRegion region tiles (x + dirX ((s + 1) % 4) + dirX s)
        (y + dirY ((s + 1) % 4) + dirY s) = false := by simpa using hd
    have hdo : Outside region tiles (x + dirX ((s + 1) % 4) + dirX s)
        (y + dirY ((s + 1) % 4) + dirY s) := by
      apply Outside.step _ _ _ _ hout _ hd'
      omega
    rw [if_neg hd]
    by_cases ha : inRegion region tiles (x + dirX ((s + 1) % 4)) (y + dirY ((s + 1) % 4)) = true
    · rw [if_pos ha]
      exact ⟨hs, ha, hdo⟩
    · rw [if_neg ha]
      refine ⟨by simp only; omega, hin, ?_⟩
      simp only
      apply Outside.step _ _ _ _ hdo _ (by simpa using ha)
      omega

theorem timesUsed_nodup (V : List (Int × Int × Int)) (c : Int × Int × Int) (h : V.Nodup) :
    timesUsed V c = if c ∈ V then 1 else 0 := by
  unfold timesUsed
  induction V with
  | nil => simp
  | cons w V ih =>
    rw [List.nodup_cons] at h
    simp only [List.map_cons, List.sum_cons, ih h.2, List.mem_cons]
    by_cases hw : w = c
    · subst hw
      simp [h.1]
    · have : ¬ c = w := fun e => hw e.symm
      simp [hw, this]

theorem sum_map_sub_int {α : Type} (f g : α → Int) :
    ∀ V : List α, (V.map (fun v => f v - g v)).sum = (V.map f).sum - (V.map g).sum := by
  intro V
  induction V with
  | nil => simp
  | cons w V ih =>
    simp only [List.map_cons, List.sum_cons, ih]
    ring

theorem windAt_east (x y : Int) (v : Int × Int × Int) :
    windAt x y v - windAt (x + 1) y v =
      (if v = (x, y, 2) then 1 else 0) - (if v = (x + 1, y, 0) then 1 else 0) := by
  obtain ⟨a, b, s⟩ := v
  simp only [windAt, Prod.mk.injEq]
  split_ifs <;> omega

theorem winding_east (V : List (Int × Int × Int)) (x y : Int) :
    winding V x y - winding V (x + 1) y = timesUsed V (x, y, 2) - timesUsed V (x + 1, y, 0) := by
  unfold winding timesUsed
  rw [← sum_map_sub_int, ← sum_map_sub_int]
  congr 1
  apply List.map_congr_left
  intro v _
  exact windAt_east x y v

theorem windAt_north (x y : Int) (v : Int × Int × Int)
    (hs : v.2.2 = 0 ∨ v.2.2 = 1 ∨ v.2.2 = 2 ∨ v.2.2 = 3) :
    windAt x y v - windAt x (y + 1) v =
      ((if v = (x, y, 3) then 1 else 0) - (if v = (x, y + 1, 1) then 1 else 0)) +
        ((if (endPt v).2 = y + 1 ∧ x + 1 ≤ (endPt v).1 then 1 else 0) -
          (if (beginPt v).2 = y + 1 ∧ x + 1 ≤ (beginPt v).1 then (1 : Int) else 0)) := by
  obtain ⟨a, b, s⟩ := v
  simp only at hs
  rcases hs with rfl | rfl | rfl | rfl <;>
    simp only [windAt, beginPt, endPt, Prod.mk.injEq] <;> norm_num <;> split_ifs <;> omega

theorem winding_north (V : List (Int × Int × Int)) (x y : Int)
    (hs : ∀ v ∈ V, v.2.2 = 0 ∨ v.2.2 = 1 ∨ v.2.2 = 2 ∨ v.2.2 = 3)
    (hT : ∀ ψ : Int × Int → Int, (V.map (fun v => ψ (endPt v) - ψ (beginPt v))).sum = 0) :
    winding V x y - winding V x (y + 1) = timesUsed V (x, y, 3) - timesUsed V (x, y + 1, 1) := by
  have h := hT (fun P => if P.2 = y + 1 ∧ x + 1 ≤ P.1 then 1 else 0)
  have key : (V.map (fun v => windAt x y v - windAt x (y + 1) v)).sum =
      (V.map (fun v => (if v = (x, y, 3) then (1 : Int) else 0) -
        (if v = (x, y + 1, 1) then 1 else 0))).sum +
      (V.map (fun v => (if (endPt v).2 = y + 1 ∧ x + 1 ≤ (endPt v).1 then (1 : Int) else 0) -
        (if (beginPt v).2 = y + 1 ∧ x + 1 ≤ (beginPt v).1 then (1 : Int) else 0))).sum := by
    rw [← List.sum_map_add]
    congr 1
    apply List.map_congr_left
    intro v hv
    exact windAt_north x y v (hs v hv)
  rw [h, add_zero, sum_map_sub_int, sum_map_sub_int] at key
  exact key

theorem timesUsed_off_region (region : List Nat) (tiles : Tiles) (V : List (Int × Int × Int))
    (hF : ∀ v ∈ V, FacesOutside region tiles v) (x y s : Int)
    (h : inRegion region tiles x y = false) : timesUsed V (x, y, s) = 0 := by
  unfold timesUsed
  apply List.sum_eq_zero
  intro z hz
  obtain ⟨v, hv, rfl⟩ := List.mem_map.1 hz
  have hin := (hF v hv).2.1
  split
  · rename_i e
    rw [e] at hin
    simp only at hin
    rw [h] at hin
    cases hin
  · rfl

/-- The walk does not wind around positions outside. -/
theorem winding_outside (region : List Nat) (tiles : Tiles) (V : List (Int × Int × Int))
    (hF : ∀ v ∈ V, FacesOutside region tiles v)
    (hT : ∀ ψ : Int × Int → Int, (V.map (fun v => ψ (endPt v) - ψ (beginPt v))).sum = 0)
    (x y : Int) (h : Outside region tiles x y) : winding V x y = 0 := by
  have hs : ∀ v ∈ V, v.2.2 = 0 ∨ v.2.2 = 1 ∨ v.2.2 = 2 ∨ v.2.2 = 3 := fun v hv => (hF v hv).1
  induction h with
  | far x y hf =>
    unfold winding
    apply List.sum_eq_zero
    intro z hz
    obtain ⟨v, hv, rfl⟩ := List.mem_map.1 hz
    obtain ⟨g1, g2, g3, g4⟩ := inRegion_grid region tiles _ _ (hF v hv).2.1
    unfold windAt
    split_ifs <;> omega
  | step x y x' y' ho hadj hn ih =>
    have hn' := Outside.not_inRegion region tiles x' y' ho
    rcases hadj with ⟨rfl, rfl | rfl⟩ | ⟨rfl, rfl | rfl⟩
    · have := winding_north V x' y hs hT
      rw [timesUsed_off_region region tiles V hF _ _ _ hn,
        timesUsed_off_region region tiles V hF _ _ _ hn'] at this
      omega
    · have := winding_north V x' (y - 1) hs hT
      rw [show y - 1 + 1 = y by ring] at this
      rw [timesUsed_off_region region tiles V hF _ _ _ hn,
        timesUsed_off_region region tiles V hF _ _ _ hn'] at this
      omega
    · have := winding_east V x y'
      rw [timesUsed_off_region region tiles V hF _ _ _ hn,
        timesUsed_off_region region tiles V hF _ _ _ hn'] at this
      omega
    · have := winding_east V (x - 1) y'
      rw [show x - 1 + 1 = x by ring] at this
      rw [timesUsed_off_region region tiles V hF _ _ _ hn,
        timesUsed_off_region region tiles V hF _ _ _ hn'] at this
      omega

/-- The walk winds at most once, and counter-clockwise, around every position. -/
theorem winding_zero_or_one (region : List Nat) (tiles : Tiles) (V : List (Int × Int × Int))
    (hF : ∀ v ∈ V, FacesOutside region tiles v)
    (hT : ∀ ψ : Int × Int → Int, (V.map (fun v => ψ (endPt v) - ψ (beginPt v))).sum = 0)
    (hN : V.Nodup) :
    ∀ (n : Nat) (x y : Int), tiles.ncolumns - x ≤ n → winding V x y = 0 ∨ winding V x y = 1 := by
  intro n
  induction n with
  | zero =>
    intro x y hx
    left
    exact winding_outside region tiles V hF hT x y (Outside.far x y (by omega))
  | succ n ih =>
    intro x y hx
    have he := winding_east V x y
    rw [timesUsed_nodup V _ hN, timesUsed_nodup V _ hN] at he
    by_cases h1 : (x, y, (2 : Int)) ∈ V
    · have hf := hF _ h1
      have ho : Outside region tiles (x + 1) y := by
        have := hf.2.2
        simpa [dirX, dirY] using this
      have h0 := winding_outside region tiles V hF hT (x + 1) y ho
      have h2 : (x + 1, y, (0 : Int)) ∉ V := by
        intro hm
        have := (hF _ hm).2.1
        rw [Outside.not_inRegion region tiles _ _ ho] at this
        cases this
      rw [if_pos h1, if_neg h2] at he
      right
      omega
    · by_cases h2 : (x + 1, y, (0 : Int)) ∈ V
      · have hf := hF _ h2
        have ho : Outside region tiles x y := by
          have := hf.2.2
          simpa [dirX, dirY] using this
        left
        exact winding_outside region tiles V hF hT x y ho
      · rw [if_neg h1, if_neg h2] at he
        have := ih (x + 1) y (by omega)
        omega

/-- The walk winds once around a tile whose west side it uses. -/
theorem winding_west_used (region : List Nat) (tiles : Tiles) (V : List (Int × Int × Int))
    (hF : ∀ v ∈ V, FacesOutside region tiles v)
    (hT : ∀ ψ : Int × Int → Int, (V.map (fun v => ψ (endPt v) - ψ (beginPt v))).sum = 0)
    (hN : V.Nodup) (x y : Int) (h : (x, y, (0 : Int)) ∈ V) : winding V x y = 1 := by
  have hf := hF _ h
  have ho : Outside region tiles (x - 1) y := by
    have := hf.2.2
    simpa [dirX, dirY, sub_eq_add_neg] using this
  have h0 := winding_outside region tiles V hF hT (x - 1) y ho
  have he := winding_east V (x - 1) y
  rw [show x - 1 + 1 = x by ring, timesUsed_nodup V _ hN, timesUsed_nodup V _ hN,
    if_pos h] at he
  have h2 : (x - 1, y, (2 : Int)) ∉ V := by
    intro hm
    have := (hF _ hm).2.1
    rw [Outside.not_inRegion region tiles _ _ ho] at this
    cases this
  rw [if_neg h2] at he
  omega

theorem sum_range_le (a : Int) (ha : -1 ≤ a) :
    ∀ n : Nat, (Finset.range n).sum (fun x => if (x : Int) ≤ a then (1 : Int) else 0) =
      min (n : Int) (a + 1) := by
  intro n
  induction n with
  | zero => simp; omega
  | succ n ih =>
    rw [Finset.sum_range_succ, ih]
    split_ifs <;> push_cast <;> omega

theorem sum_range_lt (a : Int) (ha : 0 ≤ a) :
    ∀ n : Nat, (Finset.range n).sum (fun x => if (x : Int) < a then (-1 : Int) else 0) =
      -min (n : Int) a := by
  intro n
  induction n with
  | zero => simp; omega
  | succ n ih =>
    rw [Finset.sum_range_succ, ih]
    split_ifs <;> push_cast <;> omega

theorem sum_range_row (nr : Nat) (b : Int) (hb : 0 ≤ b) (hb' : b < nr) (f : Int → Int)
    (hf : ∀ y : Int, y ≠ b → f y = 0) :
    (Finset.range nr).sum (fun y => f (y : Int)) = f b := by
  rw [Finset.sum_eq_single b.toNat]
  · rw [Int.toNat_of_nonneg hb]
  · intro y _ hy
    apply hf
    intro e
    apply hy
    omega
  · intro h
    exfalso
    apply h
    rw [Finset.mem_range]
    omega

theorem windAt_sum (nc nr : Nat) (v : Int × Int × Int)
    (h1 : 0 ≤ v.1) (h2 : v.1 < nc) (h3 : 0 ≤ v.2.1) (h4 : v.2.1 < nr) :
    (Finset.range nc).sum (fun x => (Finset.range nr).sum (fun y => windAt x y v)) =
      areaAt v := by
  obtain ⟨a, b, s⟩ := v
  simp only at h1 h2 h3 h4
  have hrow : ∀ x : Nat, (Finset.range nr).sum (fun y => windAt x y (a, b, s)) =
      windAt x b (a, b, s) := by
    intro x
    apply sum_range_row nr b h3 h4 (fun y => windAt x y (a, b, s))
    intro y hy
    unfold windAt
    simp only
    split_ifs <;> first | rfl | omega
  simp only [hrow]
  by_cases hs2 : s = 2
  · subst hs2
    have := sum_range_le a (by omega) nc
    simp only [windAt, areaAt, true_and, if_true]
    rw [show (fun x : Nat => if (x : Int) ≤ a then (1 : Int) else
      if (2 : Int) = 0 ∧ (x : Int) < a then -1 else 0) =
      (fun x : Nat => if (x : Int) ≤ a then (1 : Int) else 0) from by
        funext x; split_ifs <;> first | rfl | omega]
    rw [this]
    omega
  · by_cases hs0 : s = 0
    · subst hs0
      have := sum_range_lt a h1 nc
      simp only [windAt, areaAt, true_and]
      rw [show (fun x : Nat => if (0 : Int) = 2 ∧ (x : Int) ≤ a then (1 : Int) else
        if (x : Int) < a then -1 else 0) =
        (fun x : Nat => if (x : Int) < a then (-1 : Int) else 0) from by
          funext x; split_ifs <;> first | rfl | omega]
      rw [this]
      simp
      omega
    · simp [windAt, areaAt, hs2, hs0]

theorem finset_sum_list_sum {α : Type} (s : Finset Nat) (f : Nat → α → Int) :
    ∀ V : List α, s.sum (fun i => (V.map (f i)).sum) = (V.map (fun v => s.sum (fun i => f i v))).sum := by
  intro V
  induction V with
  | nil => simp
  | cons w V ih =>
    simp only [List.map_cons, List.sum_cons, Finset.sum_add_distrib, ih]

/-- The area enclosed by the walk, in tiles, is the sum of its winding numbers over the
grid. -/
theorem areaAt_sum_eq (region : List Nat) (tiles : Tiles) (nc nr : Nat)
    (hc : tiles.ncolumns = nc) (hr : tiles.nrows = nr) (V : List (Int × Int × Int))
    (hF : ∀ v ∈ V, FacesOutside region tiles v) :
    (V.map areaAt).sum =
      (Finset.range nc).sum (fun x => (Finset.range nr).sum (fun y => winding V x y)) := by
  unfold winding
  have h1 : ∀ x : Nat, (Finset.range nr).sum (fun y : Nat => (V.map (windAt x y)).sum) =
      (V.map (fun v => (Finset.range nr).sum (fun y : Nat => windAt x y v))).sum :=
    fun x => finset_sum_list_sum (Finset.range nr) (fun y v => windAt x y v) V
  simp only [h1]
  rw [finset_sum_list_sum (Finset.range nc)
    (fun x v => (Finset.range nr).sum (fun y : Nat => windAt x y v)) V]
  congr 1
  apply List.map_congr_left
  intro v hv
  obtain ⟨g1, g2, g3, g4⟩ := inRegion_grid region tiles _ _ (hF v hv).2.1
  rw [hc] at g2
  rw [hr] at g4
  exact (windAt_sum nc nr v g1 g2 g3 g4).symm

/-- A closed walk along sides facing outside that uses no side twice and uses a west
side encloses a positive area. -/
theorem areaAt_sum_pos (region : List Nat) (tiles : Tiles) (nc nr : Nat)
    (hc : tiles.ncolumns = nc) (hr : tiles.nrows = nr) (V : List (Int × Int × Int))
    (hF : ∀ v ∈ V, FacesOutside region tiles v)
    (hT : ∀ ψ : Int × Int → Int, (V.map (fun v => ψ (endPt v) - ψ (beginPt v))).sum = 0)
    (hN : V.Nodup) (x y : Int) (h : (x, y, (0 : Int)) ∈ V) :
    0 < (V.map areaAt).sum := by
  rw [areaAt_sum_eq region tiles nc nr hc hr V hF]
  obtain ⟨g1, g2, g3, g4⟩ := inRegion_grid region tiles _ _ (hF _ h).2.1
  simp only at g1 g2 g3 g4
  rw [hc] at g2
  rw [hr] at g4
  have hnn : ∀ a b : Int, 0 ≤ winding V a b := by
    intro a b
    rcases winding_zero_or_one region tiles V hF hT hN (tiles.ncolumns - a).toNat a b
      (by omega) with h0 | h0 <;> omega
  have hw := winding_west_used region tiles V hF hT hN x y h
  have hx : x.toNat ∈ Finset.range nc := by rw [Finset.mem_range]; omega
  have hy : y.toNat ∈ Finset.range nr := by rw [Finset.mem_range]; omega
  have s1 : (Finset.range nr).sum (fun b : Nat => winding V (x.toNat : Int) b) ≤
      (Finset.range nc).sum (fun a => (Finset.range nr).sum (fun b : Nat => winding V a b)) :=
    Finset.single_le_sum (f := fun a : Nat =>
        (Finset.range nr).sum (fun b : Nat => winding V a b))
      (fun a _ => Finset.sum_nonneg (fun b _ => hnn a b)) hx
  have s2 : winding V (x.toNat : Int) (y.toNat : Int) ≤
      (Finset.range nr).sum (fun b : Nat => winding V (x.toNat : Int) b) :=
    Finset.single_le_sum (f := fun b : Nat => winding V (x.toNat : Int) b)
      (fun b _ => hnn _ b) hy
  rw [Int.toNat_of_nonneg g1, Int.toNat_of_nonneg g3] at s2
  rw [Int.toNat_of_nonneg g1] at s1
  omega

theorem coord_lattice (x0 y0 dx dy : ℚ) (nr nc : Nat) (t : Nat) (s : Int) :
    coord (Tiles.lattice x0 y0 dx dy nr nc) t s =
      latticePt x0 y0 dx dy (beginPt (sideOf (Tiles.lattice x0 y0 dx dy nr nc) t s)) := by
  have hm : ((t % nc : Nat) : ℚ) = (((t : Int) % (nc : Int) : Int) : ℚ) := by
    rw [← Int.natCast_mod, Int.cast_natCast]
  have hd : ((t / nc : Nat) : ℚ) = (((t : Int) / (nc : Int) : Int) : ℚ) := by
    rw [← Int.natCast_div, Int.cast_natCast]
  unfold coord beginPt sideOf latticePt Tiles.lattice
  simp only [hm, hd]
  split_ifs <;> simp only [Prod.mk.injEq] <;> push_cast <;> constructor <;> ring_nf

theorem shoelace_walk {α : Type} (next : α → α) (c : α → Point) (b : α) :
    ∀ (V : List α) (a : α), IsWalk next b a V →
      shoelace (V.map c ++ [c b]) =
        (V.map (fun v => (c v).1 * (c (next v)).2 - (c v).2 * (c (next v)).1)).sum := by
  intro V
  induction V with
  | nil => intro a h; exact absurd h (by simp [IsWalk])
  | cons w V ih =>
    intro a h
    rw [IsWalk.cons_iff] at h
    obtain ⟨rfl, h | h⟩ := h
    · obtain ⟨rfl, hb⟩ := h
      simp [shoelace, hb]
    · obtain ⟨hne, hw⟩ := h
      obtain ⟨u, U, rfl⟩ := List.exists_cons_of_ne_nil hne
      have hu : u = next w := by
        rw [IsWalk.cons_iff] at hw
        exact hw.1
      have := ih (next w) hw
      simp only [List.map_cons, List.cons_append, shoelace, List.sum_cons, List.append_eq] at this ⊢
      rw [this, hu]

theorem shoelaceAt_eq (x0 y0 dx dy : ℚ) (v : Int × Int × Int)
    (hs : v.2.2 = 0 ∨ v.2.2 = 1 ∨ v.2.2 = 2 ∨ v.2.2 = 3) :
    shoelaceAt x0 y0 dx dy v = 2 * dx * dy * (areaAt v : ℚ) +
      2 * dy * x0 * ((((endPt v).2 : Int) : ℚ) - (((beginPt v).2 : Int) : ℚ)) -
      ((latticePt x0 y0 dx dy (endPt v)).1 * (latticePt x0 y0 dx dy (endPt v)).2 -
        (latticePt x0 y0 dx dy (beginPt v)).1 * (latticePt x0 y0 dx dy (beginPt v)).2) := by
  obtain ⟨a, b, s⟩ := v
  simp only at hs
  rcases hs with rfl | rfl | rfl | rfl <;>
    simp [shoelaceAt, areaAt, endPt, beginPt, latticePt] <;> ring

theorem shoelaceAt_sum (x0 y0 dx dy : ℚ) (V : List (Int × Int × Int))
    (hs : ∀ v ∈ V, v.2.2 = 0 ∨ v.2.2 = 1 ∨ v.2.2 = 2 ∨ v.2.2 = 3)
    (hT : ∀ ψ : Int × Int → ℚ, (V.map (fun v => ψ (endPt v) - ψ (beginPt v))).sum = 0) :
    (V.map (shoelaceAt x0 y0 dx dy)).sum = 2 * dx * dy * (((V.map areaAt).sum : Int) : ℚ) := by
  obtain ⟨ψ1, hψ1⟩ : ∃ ψ1 : Int × Int → ℚ, ∀ P, ψ1 P = ((P.2 : Int) : ℚ) := ⟨_, fun _ => rfl⟩
  obtain ⟨ψ2, hψ2⟩ : ∃ ψ2 : Int × Int → ℚ, ∀ P, ψ2 P =
    (latticePt x0 y0 dx dy P).1 * (latticePt x0 y0 dx dy P).2 := ⟨_, fun _ => rfl⟩
  have key : ∀ W : List (Int × Int × Int),
      (∀ v ∈ W, v.2.2 = 0 ∨ v.2.2 = 1 ∨ v.2.2 = 2 ∨ v.2.2 = 3) →
      (W.map (shoelaceAt x0 y0 dx dy)).sum = 2 * dx * dy * (((W.map areaAt).sum : Int) : ℚ) +
        2 * dy * x0 * (W.map (fun v => ψ1 (endPt v) - ψ1 (beginPt v))).sum -
        (W.map (fun v => ψ2 (endPt v) - ψ2 (beginPt v))).sum := by
    intro W
    induction W with
    | nil => intro _; simp
    | cons w W ih =>
      intro hW
      have h1 := ih (fun v hv => hW v (List.mem_cons_of_mem _ hv))
      have h2 := shoelaceAt_eq x0 y0 dx dy w (hW w (List.mem_cons_self _ _))
      rw [← hψ1, ← hψ1, ← hψ2, ← hψ2] at h2
      simp only [List.map_cons, List.sum_cons, h1, h2]
      push_cast
      ring
  rw [key V hs, hT ψ1, hT ψ2]
  ring

theorem inRegion_mem (region : List Nat) (tiles : Tiles) (x y : Int)
    (h : inRegion region tiles x y = true) : (y * tiles.ncolumns + x).toNat ∈ region := by
  simp only [inRegion, Bool.and_eq_true, decide_eq_true_eq] at h
  simpa using h.2

theorem inRegion_sideOf (region : List Nat) (tiles : Tiles) (hv : ValidRegion region tiles)
    (t : Nat) (ht : t ∈ region) :
    inRegion region tiles ((t : Int) % tiles.ncolumns) ((t : Int) / tiles.ncolumns) = true := by
  obtain ⟨p1, p2, p3, p4, p5⟩ := pos_range tiles.ncolumns tiles.nrows t hv.1
    (Int.natCast_nonneg t) (hv.2.2.2 t ht)
  simp only [inRegion, Bool.and_eq_true, decide_eq_true_eq]
  refine ⟨⟨⟨⟨p1, p2⟩, p3⟩, p4⟩, ?_⟩
  rw [p5]
  simpa using ht

/-- Below the row of the smallest tile of the region every position is outside. -/
theorem outside_below (region : List Nat) (tiles : Tiles) (hv : ValidRegion region tiles)
    (t0 : Nat) (hmin : ∀ x ∈ region, t0 ≤ x) :
    ∀ (n : Nat) (x y : Int), y < n → y < (t0 : Int) / tiles.ncolumns →
      Outside region tiles x y := by
  intro n
  induction n with
  | zero =>
    intro x y h _
    exact Outside.far x y (Or.inl (by simpa using h))
  | succ n ih =>
    intro x y h hy
    by_cases hn : y < n
    · exact ih x y hn hy
    · refine Outside.step x y x (y - 1) (ih x (y - 1) (by push_cast at h; omega) (by omega))
        (Or.inl ⟨rfl, Or.inr rfl⟩) ?_
      rw [Bool.eq_false_iff]
      intro hin
      obtain ⟨g1, g2, g3, g4⟩ := inRegion_grid region tiles x y hin
      have hm := hmin _ (inRegion_mem region tiles x y hin)
      have h1 : (y + 1) * tiles.ncolumns ≤ (t0 : Int) / tiles.ncolumns * tiles.ncolumns :=
        Int.mul_le_mul_of_nonneg_right (by omega) (le_of_lt hv.1)
      have h2 : (t0 : Int) / tiles.ncolumns * tiles.ncolumns ≤ t0 := by
        have := Int.ediv_add_emod (t0 : Int) tiles.ncolumns
        have := Int.emod_nonneg (t0 : Int) (ne_of_gt hv.1)
        rw [mul_comm]
        omega
      have h3 : (y + 1) * tiles.ncolumns = y * tiles.ncolumns + tiles.ncolumns := by ring
      have h4 := (id_range tiles.ncolumns tiles.nrows x y g1 g2 g3 g4).1
      omega

/-- The west side of the smallest tile of the region faces outside. -/
theorem start_faces_outside (region : List Nat) (tiles : Tiles) (hv : ValidRegion region tiles)
    (t0 : Nat) (ht0 : t0 ∈ region) (hmin : ∀ x ∈ region, t0 ≤ x) :
    FacesOutside region tiles (sideOf tiles t0 0) := by
  refine ⟨Or.inl rfl, inRegion_sideOf region tiles hv t0 ht0, ?_⟩
  show Outside region tiles ((t0 : Int) % tiles.ncolumns + dirX 0)
    ((t0 : Int) / tiles.ncolumns + dirY 0)
  rw [show dirX 0 = -1 from by decide, show dirY 0 = 0 from by decide]
  obtain ⟨p1, p2, p3, p4, p5⟩ := pos_range tiles.ncolumns tiles.nrows t0 hv.1
    (Int.natCast_nonneg t0) (hv.2.2.2 t0 ht0)
  have hb := outside_below region tiles hv t0 hmin ((t0 : Int) / tiles.ncolumns).toNat
    ((t0 : Int) % tiles.ncolumns + -1) ((t0 : Int) / tiles.ncolumns - 1) (by omega) (by omega)
  refine Outside.step _ _ _ _ hb (Or.inl ⟨rfl, Or.inr (by norm_num)⟩) ?_
  rw [Bool.eq_false_iff]
  intro hin
  obtain ⟨g1, g2, g3, g4⟩ := inRegion_grid region tiles _ _ hin
  have hm := hmin _ (inRegion_mem region tiles _ _ hin)
  have h4 := (id_range tiles.ncolumns tiles.nrows _ _ g1 g2 g3 g4).1
  have e : ((t0 : Int) / tiles.ncolumns + 0) * tiles.ncolumns +
      ((t0 : Int) % tiles.ncolumns + -1) = (t0 : Int) - 1 := by
    rw [add_zero, ← add_assoc, p5]; ring
  rw [e] at hm h4
  omega

theorem sideOf_injective (tiles : Tiles) (t t' : Nat) (s s' : Int)
    (h : sideOf tiles t s = sideOf tiles t' s') : t = t' ∧ s = s' := by
  simp only [sideOf, Prod.mk.injEq] at h
  obtain ⟨h1, h2, h3⟩ := h
  have e1 := Int.ediv_add_emod (t : Int) tiles.ncolumns
  have e2 := Int.ediv_add_emod (t' : Int) tiles.ncolumns
  rw [h1, h2] at e1
  exact ⟨by omega, h3⟩

/-- The closed walk of `trace` from the west side of the smallest tile of the region:
every side of the walk faces outside, differences along the walk sum to zero, and the
walk encloses a positive number of tiles. -/
theorem outer_walk (region : List Nat) (tiles : Tiles) (hv : ValidRegion region tiles)
    (nc nr : Nat) (hc : tiles.ncolumns = nc) (hr : tiles.nrows = nr)
    (t0 : Nat) (ht0 : t0 ∈ region) (hmin : ∀ x ∈ region, t0 ≤ x) (V0 : List (Nat × Int))
    (hw : IsWalk (fun v => nextEdge region tiles v.1 v.2) (t0, 0) (t0, 0) V0)
    (hN : V0.Nodup) :
    (∀ v ∈ V0, (v.1 : Int) < tiles.nrows * tiles.ncolumns ∧
      FacesOutside region tiles (sideOf tiles v.1 v.2)) ∧
    (∀ ψ : Int × Int → ℚ, ((V0.map (fun v => sideOf tiles v.1 v.2)).map
      (fun v => ψ (endPt v) - ψ (beginPt v))).sum = 0) ∧
    0 < ((V0.map (fun v => sideOf tiles v.1 v.2)).map areaAt).sum := by
  have hI : ∀ v : Nat × Int, ((v.1 : Int) < tiles.nrows * tiles.ncolumns ∧
      FacesOutside region tiles (sideOf tiles v.1 v.2)) →
      (((nextEdge region tiles v.1 v.2).1 : Int) < tiles.nrows * tiles.ncolumns ∧
        FacesOutside region tiles (sideOf tiles (nextEdge region tiles v.1 v.2).1
          (nextEdge region tiles v.1 v.2).2)) := by
    intro v h
    obtain ⟨n1, n2⟩ := nextEdge_sideOf region tiles hv v.1 v.2 h.1 h.2.1
    refine ⟨n2, ?_⟩
    rw [n1]
    exact FacesOutside.step region tiles _ h.2
  have hI0 : ((t0 : Int) < tiles.nrows * tiles.ncolumns ∧
      FacesOutside region tiles (sideOf tiles t0 0)) :=
    ⟨hv.2.2.2 t0 ht0, start_faces_outside region tiles hv t0 ht0 hmin⟩
  have hall := IsWalk.inv (fun v : Nat × Int => nextEdge region tiles v.1 v.2) (t0, 0)
    (fun v => (v.1 : Int) < tiles.nrows * tiles.ncolumns ∧
      FacesOutside region tiles (sideOf tiles v.1 v.2)) hI V0 (t0, 0) hI0 hw
  have hmap := IsWalk.map (fun v : Nat × Int => nextEdge region tiles v.1 v.2)
    (stepSide region tiles) (fun v => sideOf tiles v.1 v.2) (t0, 0)
    (fun v => (v.1 : Int) < tiles.nrows * tiles.ncolumns ∧
      FacesOutside region tiles (sideOf tiles v.1 v.2)) hI
    (fun v h => (nextEdge_sideOf region tiles hv v.1 v.2 h.1 h.2.1).1) V0 (t0, 0) hI0 hw
  have hF : ∀ v ∈ V0.map (fun v => sideOf tiles v.1 v.2), FacesOutside region tiles v := by
    intro v hv'
    obtain ⟨v0, h0, rfl⟩ := List.mem_map.1 hv'
    exact (hall v0 h0).2
  have hT : ∀ (G : Type) [AddCommGroup G] (ψ : Int × Int → G),
      ((V0.map (fun v => sideOf tiles v.1 v.2)).map
        (fun v => ψ (endPt v) - ψ (beginPt v))).sum = 0 := by
    intro G _ ψ
    have := IsWalk.telescope (stepSide region tiles) (sideOf tiles t0 0)
      (fun u => ψ (beginPt u)) _ _ hmap
    rw [sub_self] at this
    rw [← this]
    congr 1
    apply List.map_congr_left
    intro v hv'
    simp only [beginPt_stepSide region tiles v (hF v hv').1]
  have hNV : (V0.map (fun v => sideOf tiles v.1 v.2)).Nodup := by
    apply List.Nodup.map_on _ hN
    intro x _ y _ h
    obtain ⟨h1, h2⟩ := sideOf_injective tiles x.1 y.1 x.2 y.2 h
    exact Prod.ext h1 h2
  refine ⟨hall, hT ℚ, ?_⟩
  exact areaAt_sum_pos region tiles nc nr hc hr _ hF (hT Int) hNV
    ((t0 : Int) % tiles.ncolumns) ((t0 : Int) / tiles.ncolumns)
    (List.mem_map.2 ⟨(t0, 0), IsWalk.head _ _ _ _ hw, rfl⟩)

theorem trace_extends (region : List Nat) (tiles : Tiles) (polygon : List (List Point))
    (used : List (Int × Nat)) (start_tile : Nat) (start_side : Int) (ccw : Bool)
    (polygon' : List (List Point)) (used' : List (Int × Nat))
    (h : trace region tiles polygon used start_tile start_side ccw = .ok (polygon', used')) :
    ∃ extra, polygon' = polygon ++ extra := by
  unfold trace at h
  split at h
  · cases h
  · cases h
    exact ⟨_, rfl⟩

theorem traceInnerSides_extends (region : List Nat) (tiles : Tiles) (start_tile : Nat) :
    ∀ (sides : List Int) (polygon : List (List Point)) (used : List (Int × Nat))
      (polygon' : List (List Point)) (used' : List (Int × Nat)),
      traceInnerSides region tiles start_tile sides polygon used = .ok (polygon', used') →
      ∃ extra, polygon' = polygon ++ extra := by
  intro sides
  induction sides with
  | nil =>
    intro polygon used polygon' used' h
    cases h
    exact ⟨[], by simp⟩
  | cons s sides ih =>
    intro polygon used polygon' used' h
    unfold traceInnerSides at h
    split at h
    · split at h
      · split at h
        · cases h
        · rename_i p u ht
          obtain ⟨e1, rfl⟩ := trace_extends _ _ _ _ _ _ _ _ _ ht
          obtain ⟨e2, rfl⟩ := ih _ _ _ _ h
          exact ⟨e1 ++ e2, by simp⟩
      · exact ih _ _ _ _ h
    · exact ih _ _ _ _ h

theorem traceInners_extends (region : List Nat) (tiles : Tiles) :
    ∀ (todo : List Nat) (polygon : List (List Point)) (used : List (Int × Nat))
      (polygon' : List (List Point)) (used' : List (Int × Nat)),
      traceInners region tiles todo polygon used = .ok (polygon', used') →
      ∃ extra, polygon' = polygon ++ extra := by
  intro todo
  induction todo with
  | nil =>
    intro polygon used polygon' used' h
    cases h
    exact ⟨[], by simp⟩
  | cons t todo ih =>
    intro polygon used polygon' used' h
    unfold traceInners at h
    split at h
    · cases h
    · rename_i p u ht
      obtain ⟨e1, rfl⟩ := traceInnerSides_extends _ _ _ _ _ _ _ _ ht
      obtain ⟨e2, rfl⟩ := ih _ _ _ _ h
      exact ⟨e1 ++ e2, by simp⟩

/-- The first ring of the polygon returned by `to_boundary` is the ring of the outer
trace, closed by its first point. -/
theorem to_boundary_outer (first : Nat) (rest : List Nat) (tiles : Tiles)
    (polygon : List (List Point)) (h : to_boundary first rest tiles = .ok polygon) :
    ∃ ring0 used0 more,
      traceLoop (first :: rest) tiles (smallestTile (first :: rest) first) 0 true
        (4 * (first :: rest).length + 1) (smallestTile (first :: rest) first) 0 [] [] =
          .ok (ring0, used0) ∧
      polygon = (ring0 ++ ring0.head?.toList) :: more := by
  unfold to_boundary at h
  simp only at h
  split at h
  · cases h
  · rename_i p u ht
    split at h
    · cases h
    · rename_i p' u' hi
      cases h
      obtain ⟨e, rfl⟩ := traceInners_extends _ _ _ _ _ _ _ hi
      unfold trace at ht
      split at ht
      · cases ht
      · rename_i ring0 used0 hl
        cases ht
        exact ⟨ring0, _, e.map (fun ring => ring ++ ring.head?.toList), hl, by simp⟩

theorem polygon_area_closed (front : Point) (l : List Point) :
    polygon_area front (l ++ [front]) = shoelace (front :: (l ++ [front])) * (1 / 2) := by
  have hb : (front :: (l ++ [front])).getLast (List.cons_ne_nil _ _) = front :=
    List.getLast_append_singleton (front :: l)
  show ((if (front :: (l ++ [front])).getLast (List.cons_ne_nil _ _) = front then (0 : ℚ)
    else _) + shoelace _) * (1 / 2) = _
  rw [hb, if_pos rfl, zero_add]

/-- The shoelace sum of the closed ring of the outer trace on a lattice is positive. -/
theorem outer_shoelace_pos (x0 y0 dx dy : ℚ) (nr nc : Nat) (hdx : 0 < dx) (hdy : 0 < dy)
    (region : List Nat) (hv : ValidRegion region (Tiles.lattice x0 y0 dx dy nr nc))
    (t0 : Nat) (ht0 : t0 ∈ region) (hmin : ∀ x ∈ region, t0 ≤ x) (V0 : List (Nat × Int))
    (hw : IsWalk (fun v => nextEdge region (Tiles.lattice x0 y0 dx dy nr nc) v.1 v.2)
      (t0, 0) (t0, 0) V0)
    (hN : V0.Nodup) :
    0 < shoelace (V0.map (fun v => coord (Tiles.lattice x0 y0 dx dy nr nc) v.1 v.2) ++
      [coord (Tiles.lattice x0 y0 dx dy nr nc) t0 0]) := by
  obtain ⟨hall, hT, hpos⟩ := outer_walk region (Tiles.lattice x0 y0 dx dy nr nc) hv nc nr rfl rfl
    t0 ht0 hmin V0 hw hN
  have hsw := shoelace_walk (fun v => nextEdge region (Tiles.lattice x0 y0 dx dy nr nc) v.1 v.2)
    (fun v => coord (Tiles.lattice x0 y0 dx dy nr nc) v.1 v.2) (t0, 0) V0 (t0, 0) hw
  simp only at hsw
  rw [hsw]
  have hterm : ∀ v ∈ V0,
      (coord (Tiles.lattice x0 y0 dx dy nr nc) v.1 v.2).1 *
        (coord (Tiles.lattice x0 y0 dx dy nr nc)
          (nextEdge region (Tiles.lattice x0 y0 dx dy nr nc) v.1 v.2).1
          (nextEdge region (Tiles.lattice x0 y0 dx dy nr nc) v.1 v.2).2).2 -
      (coord (Tiles.lattice x0 y0 dx dy nr nc) v.1 v.2).2 *
        (coord (Tiles.lattice x0 y0 dx dy nr nc)
          (nextEdge region (Tiles.lattice x0 y0 dx dy nr nc) v.1 v.2).1
          (nextEdge region (Tiles.lattice x0 y0 dx dy nr nc) v.1 v.2).2).1 =
      shoelaceAt x0 y0 dx dy (sideOf (Tiles.lattice x0 y0 dx dy nr nc) v.1 v.2) := by
    intro v hv'
    obtain ⟨h1, h2⟩ := hall v hv'
    rw [coord_lattice, coord_lattice,
      (nextEdge_sideOf region (Tiles.lattice x0 y0 dx dy nr nc) hv v.1 v.2 h1 h2.1).1,
      beginPt_stepSide region (Tiles.lattice x0 y0 dx dy nr nc) _ h2.1]
    rfl
  rw [List.map_congr_left hterm]
  have hs := shoelaceAt_sum x0 y0 dx dy
    (V0.map (fun v => sideOf (Tiles.lattice x0 y0 dx dy nr nc) v.1 v.2))
    (by
      intro v hv'
      obtain ⟨v0, h0, rfl⟩ := List.mem_map.1 hv'
      exact (hall v0 h0).2.1) hT
  rw [List.map_map] at hs
  rw [show (fun v : Nat × Int => shoelaceAt x0 y0 dx dy
      (sideOf (Tiles.lattice x0 y0 dx dy nr nc) v.1 v.2)) =
    shoelaceAt x0 y0 dx dy ∘ (fun v => sideOf (Tiles.lattice x0 y0 dx dy nr nc) v.1 v.2)
    from rfl, hs]
  have hq : (0 : ℚ) < (((V0.map (fun v => sideOf (Tiles.lattice x0 y0 dx dy nr nc) v.1 v.2)).map
      areaAt).sum : Int) := by exact_mod_cast hpos
  positivity

/-- On a lattice of tiles of positive width and height that holds the region, the first
ring of a polygon returned by `to_boundary` has positive area. -/
theorem to_boundary_outer_area (x0 y0 dx dy : ℚ) (nrows ncolumns : Nat) (first : Nat)
    (rest : List Nat) (hdx : 0 < dx) (hdy : 0 < dy)
    (hgrid : ∀ t ∈ first :: rest, t < nrows * ncolumns)
    (hfit : nrows * ncolumns < 2147483648) (polygon : List (List Point))
    (h : to_boundary first rest (Tiles.lattice x0 y0 dx dy nrows ncolumns) = .ok polygon) :
    ∃ front tail more, polygon = (front :: tail) :: more ∧ 0 < polygon_area front tail := by
  have hfirst := hgrid first (List.mem_cons_self _ _)
  have hnc : 0 < ncolumns := Nat.pos_of_ne_zero (by rintro rfl; simp at hfirst)
  have hnr : 0 < nrows := Nat.pos_of_ne_zero (by rintro rfl; simp at hfirst)
  have hv : ValidRegion (first :: rest) (Tiles.lattice x0 y0 dx dy nrows ncolumns) := by
    refine ⟨?_, ?_, ?_, ?_⟩
    · show (0 : Int) < (ncolumns : Int)
      exact_mod_cast hnc
    · show (0 : Int) < (nrows : Int)
      exact_mod_cast hnr
    · show (nrows : Int) * (ncolumns : Int) < 2147483648
      exact_mod_cast hfit
    · intro t ht
      show (t : Int) < (nrows : Int) * (ncolumns : Int)
      exact_mod_cast hgrid t ht
  have ht0 : smallestTile (first :: rest) first ∈ first :: rest := by
    rcases smallestTile_mem (first :: rest) first with hm | hm
    · rw [hm]; simp
    · exact hm
  have hmin := (smallestTile_le (first :: rest) first).2
  obtain ⟨ring0, used0, more, hl, rfl⟩ := to_boundary_outer first rest _ polygon h
  obtain ⟨V0, hw, hring, hused⟩ := traceLoop_walk _ _ _ _ _ _ _ _ _ _ _ hl
  have hN : V0.Nodup := by
    rcases traceLoop_ok (first :: rest) (Tiles.lattice x0 y0 dx dy nrows ncolumns)
      (smallestTile (first :: rest) first) 0 true (4 * (first :: rest).length + 1)
      (smallestTile (first :: rest) first) 0 [] [] ⟨List.nodup_nil, by simp⟩ ht0 (by simp)
      (by simp) with he | ⟨r, u, he, hu, _⟩
    · rw [he] at hl
      cases hl
    · rw [he] at hl
      cases hl
      have h1 := hu.1
      rw [hused, List.append_nil, List.nodup_reverse] at h1
      exact List.Nodup.of_map _ h1
  have hpos := outer_shoelace_pos x0 y0 dx dy nrows ncolumns hdx hdy (first :: rest) hv _ ht0
    hmin V0 hw hN
  obtain ⟨w, W, rfl⟩ : ∃ w W, V0 = w :: W := by
    cases V0 with
    | nil => exact absurd hw (by simp [IsWalk])
    | cons w W => exact ⟨w, W, rfl⟩
  have hw0 : w = (smallestTile (first :: rest) first, 0) := by
    rw [IsWalk.cons_iff] at hw
    exact hw.1
  subst hw0
  subst hring
  refine ⟨_, _, more, rfl, ?_⟩
  · simp only [List.nil_append, List.map_cons, List.head?_cons, Option.toList_some,
      List.cons_append] at hpos ⊢
    refine lt_of_lt_of_eq ?_ (polygon_area_closed _ _).symm
    linarith

/-- C10: on a lattice of tiles of width `dx > 0` and height `dy > 0` (x grows with the
column, y with the row) that holds the non-empty region, with tile ids that fit
`int32_t`, `to_boundary` does not run out of loop iterations, and the first ring of
every polygon it returns (the outer ring, traced from the smallest tile id at side 0) is
counter-clockwise: its `polygon_area` is positive. -/
theorem to_boundary_outer_ccw (x0 y0 dx dy : ℚ) (nrows ncolumns : Nat) (first : Nat)
    (rest : List Nat) (hdx : 0 < dx) (hdy : 0 < dy)
    (hgrid : ∀ t ∈ first :: rest, t < nrows * ncolumns)
    (hfit : nrows * ncolumns < 2147483648) :
    to_boundary first rest (Tiles.lattice x0 y0 dx dy nrows ncolumns) ≠ .error .out_of_fuel ∧
    ∀ polygon, to_boundary first rest (Tiles.lattice x0 y0 dx dy nrows ncolumns) = .ok polygon →
      ∃ front tail more, polygon = (front :: tail) :: more ∧ 0 < polygon_area front tail := by
  constructor
  · rcases to_boundary_cases first rest (Tiles.lattice x0 y0 dx dy nrows ncolumns) with
      h | ⟨polygon, _, h⟩
    · rw [h]
      decide
    · rw [h]
      simp
  · intro polygon h
    exact to_boundary_outer_area x0 y0 dx dy nrows ncolumns first rest hdx hdy hgrid hfit
      polygon h

theorem to_boundary_outer_ccw_witness :
    to_boundary 5 [6, 9, 10] (Tiles.lattice 0 0 1 1 4 4) =
        .ok [blockRing (Tiles.lattice 0 0 1 1 4 4) ++ [coord (Tiles.lattice 0 0 1 1 4 4) 5 0]] ∧
      ∃ front tail more,
        [blockRing (Tiles.lattice 0 0 1 1 4 4) ++ [coord (Tiles.lattice 0 0 1 1 4 4) 5 0]] =
          (front :: tail) :: more ∧ 0 < polygon_area front tail :=
  ⟨to_boundary_block_eq _ 5 [6, 9, 10] (List.Perm.refl _),
    (to_boundary_outer_ccw 0 0 1 1 4 4 5 [6, 9, 10] (by norm_num) (by norm_num) (by decide)
      (by decide)).2 _ (to_boundary_block_eq _ 5 [6, 9, 10] (List.Perm.refl _))⟩

/-! ## Theorems: inner rings and side bookkeeping of `to_boundary` -/

theorem hole_trace (tb : Nat → AABB2) :
    trace holeRegion ⟨3, 3, tb⟩ [] [] 0 0 true = .ok ([holeRing ⟨3, 3, tb⟩], holeUsed) := by
  simp [-Prod.mk_one_one, -Prod.mk_zero_zero, trace, traceLoop, nextEdge, member, neighbor, toI32, toU32, Tiles.GetRowColumn,
    holeRing, holeUsed, holeRegion]

theorem hole_inner_corner (tb : Nat → AABB2) (t : Nat) (ht : t ∈ [0, 2, 6, 8]) :
    traceInnerSides holeRegion ⟨3, 3, tb⟩ t [0, 1, 2, 3] [holeRing ⟨3, 3, tb⟩] holeUsed =
      .ok ([holeRing ⟨3, 3, tb⟩], holeUsed) := by
  simp only [List.mem_cons, List.mem_singleton, List.not_mem_nil, or_false] at ht
  rcases ht with rfl | rfl | rfl | rfl <;>
    simp [-Prod.mk_one_one, -Prod.mk_zero_zero, traceInnerSides, member, neighbor, toI32, toU32, Tiles.GetRowColumn, holeUsed,
      holeRegion]

theorem hole_inner_start (tb : Nat → AABB2) (t : Nat) (ht : t ∈ [1, 3, 5, 7]) :
    traceInnerSides holeRegion ⟨3, 3, tb⟩ t [0, 1, 2, 3] [holeRing ⟨3, 3, tb⟩] holeUsed =
      .ok ([holeRing ⟨3, 3, tb⟩, holeInnerRing ⟨3, 3, tb⟩ t], holeInnerUsed t) := by
  simp only [List.mem_cons, List.mem_singleton, List.not_mem_nil, or_false] at ht
  rcases ht with rfl | rfl | rfl | rfl <;>
    simp [-Prod.mk_one_one, -Prod.mk_zero_zero, traceInnerSides, trace, traceLoop, nextEdge, member, neighbor, toI32, toU32,
      Tiles.GetRowColumn, holeUsed, holeRegion, holeInnerRing, holeInnerUsed]

theorem hole_inner_done (tb : Nat → AABB2) (k : Nat) (hk : k ∈ [1, 3, 5, 7]) (t : Nat)
    (ht : t ∈ holeRegion) :
    traceInnerSides holeRegion ⟨3, 3, tb⟩ t [0, 1, 2, 3]
        [holeRing ⟨3, 3, tb⟩, holeInnerRing ⟨3, 3, tb⟩ k] (holeInnerUsed k) =
      .ok ([holeRing ⟨3, 3, tb⟩, holeInnerRing ⟨3, 3, tb⟩ k], holeInnerUsed k) := by
  simp only [holeRegion, List.mem_cons, List.mem_singleton, List.not_mem_nil, or_false] at hk ht
  rcases hk with rfl | rfl | rfl | rfl <;>
    rcases ht with rfl | rfl | rfl | rfl | rfl | rfl | rfl | rfl <;>
    simp [-Prod.mk_one_one, -Prod.mk_zero_zero, traceInnerSides, member, neighbor, toI32, toU32, Tiles.GetRowColumn, holeUsed,
      holeRegion, holeInnerUsed]

theorem hole_inners_done (tb : Nat → AABB2) (region : List Nat)
    (h : ∀ x, x ∈ region ↔ x ∈ holeRegion) (hl : region.length = holeRegion.length)
    (k : Nat) (hk : k ∈ [1, 3, 5, 7]) :
    ∀ todo : List Nat, (∀ t ∈ todo, t ∈ holeRegion) →
      traceInners region ⟨3, 3, tb⟩ todo
          [holeRing ⟨3, 3, tb⟩, holeInnerRing ⟨3, 3, tb⟩ k] (holeInnerUsed k) =
        .ok ([holeRing ⟨3, 3, tb⟩, holeInnerRing ⟨3, 3, tb⟩ k], holeInnerUsed k) := by
  intro todo
  induction todo with
  | nil => intro _; rfl
  | cons t todo ih =>
    intro ht
    unfold traceInners
    rw [traceInnerSides_congr h hl, hole_inner_done tb k hk t (ht t (by simp))]
    exact ih (fun x hx => ht x (by simp [hx]))

theorem hole_inners (tb : Nat → AABB2) (region : List Nat)
    (h : ∀ x, x ∈ region ↔ x ∈ holeRegion) (hl : region.length = holeRegion.length) :
    ∀ todo : List Nat, (∀ t ∈ todo, t ∈ holeRegion) → 1 ∈ todo →
      ∃ k ∈ [1, 3, 5, 7], traceInners region ⟨3, 3, tb⟩ todo [holeRing ⟨3, 3, tb⟩] holeUsed =
        .ok ([holeRing ⟨3, 3, tb⟩, holeInnerRing ⟨3, 3, tb⟩ k], holeInnerUsed k) := by
  intro todo
  induction todo with
  | nil => intro _ h1; simp at h1
  | cons t todo ih =>
    intro ht h1
    have htR := ht t (by simp)
    unfold traceInners
    rw [traceInnerSides_congr h hl]
    by_cases hc : t ∈ [0, 2, 6, 8]
    · rw [hole_inner_corner tb t hc]
      have h1' : 1 ∈ todo := by
        rcases List.mem_cons.1 h1 with rfl | h1'
        · simp at hc
        · exact h1'
      exact ih (fun x hx => ht x (by simp [hx])) h1'
    · have hs : t ∈ [1, 3, 5, 7] := by
        simp only [holeRegion, List.mem_cons, List.mem_singleton, List.not_mem_nil,
          or_false] at htR hc ⊢
        omega
      rw [hole_inner_start tb t hs]
      exact ⟨t, hs, hole_inners_done tb region h hl t hs todo
        (fun x hx => ht x (by simp [hx]))⟩

theorem to_boundary_hole_eq (tb : Nat → AABB2) (first : Nat) (rest : List Nat)
    (hperm : (first :: rest).Perm holeRegion) :
    ∃ k ∈ [1, 3, 5, 7], to_boundary first rest ⟨3, 3, tb⟩ =
      .ok [holeRing ⟨3, 3, tb⟩ ++ [coord ⟨3, 3, tb⟩ 0 0],
        holeInnerRing ⟨3, 3, tb⟩ k ++ (holeInnerRing ⟨3, 3, tb⟩ k).head?.toList] := by
  have h : ∀ x, x ∈ first :: rest ↔ x ∈ holeRegion := fun x => hperm.mem_iff
  have hl : (first :: rest).length = holeRegion.length := hperm.length_eq
  have hs : smallestTile (first :: rest) first = 0 := by
    have h0 := (smallestTile_le (first :: rest) first).2 0 ((h 0).2 (by simp [holeRegion]))
    omega
  obtain ⟨k, hk, hi⟩ := hole_inners tb (first :: rest) h hl (first :: rest)
    (fun t ht => (h t).1 ht) ((h 1).2 (by simp [holeRegion]))
  refine ⟨k, hk, ?_⟩
  unfold to_boundary
  simp only [hs]
  rw [trace_congr h hl, hole_trace]
  simp only []
  rw [hi]
  rfl

theorem hole_inner_area (x0 y0 dx dy : ℚ) (k : Nat) (hk : k ∈ [1, 3, 5, 7]) :
    ∃ front tail,
      holeInnerRing (Tiles.lattice x0 y0 dx dy 3 3) k ++
        (holeInnerRing (Tiles.lattice x0 y0 dx dy 3 3) k).head?.toList = front :: tail ∧
      polygon_area front tail = dx * dy := by
  simp only [List.mem_cons, List.mem_singleton, List.not_mem_nil, or_false] at hk
  rcases hk with rfl | rfl | rfl | rfl
  all_goals
    refine ⟨_, _, rfl, ?_⟩
    simp [polygon_area, shoelace, coord, Tiles.lattice, holeInnerRing]
    ring_nf

theorem reached_succ (region : List Nat) (tiles : Tiles) (start : Nat × Int) (k : Nat) :
    reached region tiles start (k + 1) =
      reached region tiles (nextEdge region tiles start.1 start.2) k := by
  unfold reached
  rw [Function.iterate_succ_apply]

theorem next_eq_start {region : List Nat} {tiles : Tiles} {tile start_tile : Nat}
    {side start_side : Int}
    (hne : ¬ ((nextEdge region tiles tile side).1 ≠ start_tile ∨
      (nextEdge region tiles tile side).2 ≠ start_side)) :
    nextEdge region tiles tile side = (start_tile, start_side) := by
  have h1 : (nextEdge region tiles tile side).1 = start_tile := by
    by_contra hc; exact hne (Or.inl hc)
  have h2 : (nextEdge region tiles tile side).2 = start_side := by
    by_contra hc; exact hne (Or.inr hc)
  exact Prod.ext h1 h2

/-- A logic error of the loop of `trace` comes from a step that reaches a used pair. -/
theorem traceLoop_error (region : List Nat) (tiles : Tiles) (start_tile : Nat)
    (start_side : Int) (ccw : Bool) :
    ∀ (fuel tile : Nat) (side : Int) (ring : List Point) (used : List (Int × Nat)),
      traceLoop region tiles start_tile start_side ccw fuel tile side ring used =
        .error .logic_error →
      ∃ k, (∀ j, 1 ≤ j → j ≤ k →
          reached region tiles (tile, side) j ≠ (start_tile, start_side)) ∧
        (((reached region tiles (tile, side) k).2, (reached region tiles (tile, side) k).1)
            ∈ used ∨
          ∃ j, j < k ∧ reached region tiles (tile, side) j =
            reached region tiles (tile, side) k) := by
  intro fuel
  induction fuel with
  | zero => intro _ _ _ _ h; simp [traceLoop] at h
  | succ fuel ih =>
    intro tile side ring used h
    rw [traceLoop_succ] at h
    split at h
    · rename_i hc
      refine ⟨0, fun j h1 h0 => by omega, Or.inl ?_⟩
      simpa [reached] using hc
    · split at h
      · rename_i hc hne
        obtain ⟨k, hk1, hk2⟩ := ih _ _ _ _ h
        refine ⟨k + 1, ?_, ?_⟩
        · intro j h1 hj
          obtain ⟨i, rfl⟩ : ∃ i, j = i + 1 := ⟨j - 1, by omega⟩
          rw [reached_succ]
          by_cases hi : i = 0
          · subst hi
            intro he
            apply hne.elim
            · intro hx; exact hx (by simpa [reached] using congrArg Prod.fst he)
            · intro hx; exact hx (by simpa [reached] using congrArg Prod.snd he)
          · exact hk1 i (by omega) (by omega)
        · rw [reached_succ]
          rcases hk2 with hk2 | ⟨j, hj, he⟩
          · rcases List.mem_cons.1 hk2 with hk2 | hk2
            · right
              refine ⟨0, by omega, ?_⟩
              have e1 := congrArg Prod.fst hk2
              have e2 := congrArg Prod.snd hk2
              simp only at e1 e2
              show (tile, side) = _
              exact Prod.ext e2.symm e1.symm
            · exact Or.inl hk2
          · right
            refine ⟨j + 1, by omega, ?_⟩
            rw [reached_succ]
            exact he
      · cases h

/-- The pairs walked by the loop of `trace`, for either winding. -/
theorem traceLoop_walk_any (region : List Nat) (tiles : Tiles) (start_tile : Nat)
    (start_side : Int) (ccw : Bool) :
    ∀ (fuel tile : Nat) (side : Int) (ring : List Point) (used : List (Int × Nat))
      (ring' : List Point) (used' : List (Int × Nat)),
      traceLoop region tiles start_tile start_side ccw fuel tile side ring used =
        .ok (ring', used') →
      ∃ V : List (Nat × Int),
        IsWalk (fun v => nextEdge region tiles v.1 v.2) (start_tile, start_side) (tile, side) V ∧
        (∀ j, 1 ≤ j → j < V.length →
          reached region tiles (tile, side) j ≠ (start_tile, start_side)) ∧
        ring' = (if ccw = true then ring ++ V.map (fun v => coord tiles v.1 v.2)
          else (V.map (fun v => coord tiles v.1 v.2)).reverse ++ ring) ∧
        used' = (V.map (fun v => (v.2, v.1))).reverse ++ used := by
  intro fuel
  induction fuel with
  | zero => intro _ _ _ _ _ _ h; simp [traceLoop] at h
  | succ fuel ih =>
    intro tile side ring used ring' used' h
    rw [traceLoop_succ] at h
    split at h
    · cases h
    · split at h
      · rename_i hc hne
        obtain ⟨V, hw, hs, hr, hu⟩ := ih _ _ _ _ _ _ h
        refine ⟨(tile, side) :: V, ?_, ?_, ?_, ?_⟩
        · rw [IsWalk.cons_iff]
          refine ⟨rfl, Or.inr ⟨?_, hw⟩⟩
          intro hV
          rw [hV] at hw
          simp [IsWalk] at hw
        · intro j h1 hj
          obtain ⟨i, rfl⟩ : ∃ i, j = i + 1 := ⟨j - 1, by omega⟩
          rw [reached_succ]
          by_cases hi : i = 0
          · subst hi
            intro he
            apply hne.elim
            · intro hx; exact hx (by simpa [reached] using congrArg Prod.fst he)
            · intro hx; exact hx (by simpa [reached] using congrArg Prod.snd he)
          · exact hs i (by omega) (by simpa using hj)
        · rw [hr]
          cases ccw <;> simp
        · rw [hu]; simp
      · rename_i hc hne
        have hn := next_eq_start hne
        injection h with h
        injection h with h1 h2
        refine ⟨[(tile, side)], ?_, ?_, ?_, ?_⟩
        · simp [IsWalk, hn]
        · intro j h1 hj
          simp at hj
          omega
        · rw [← h1]
          cases ccw <;> simp
        · rw [← h2]; simp

theorem IsWalk.getElem {α : Type} (next : α → α) (b : α) :
    ∀ (V : List α) (a : α), IsWalk next b a V →
      next^[V.length] a = b ∧ ∀ i (hi : i < V.length), V[i] = next^[i] a := by
  intro V
  induction V with
  | nil => intro a h; exact absurd h (by simp [IsWalk])
  | cons w V ih =>
    intro a h
    rw [IsWalk.cons_iff] at h
    obtain ⟨rfl, h | h⟩ := h
    · obtain ⟨rfl, hb⟩ := h
      refine ⟨by simpa using hb, ?_⟩
      intro i hi
      have : i = 0 := by simpa using hi
      subst this
      rfl
    · obtain ⟨hne, hw⟩ := h
      obtain ⟨h1, h2⟩ := ih _ hw
      refine ⟨by rw [List.length_cons, Function.iterate_succ_apply]; exact h1, ?_⟩
      intro i hi
      cases i with
      | zero => rfl
      | succ i =>
        rw [List.getElem_cons_succ, Function.iterate_succ_apply]
        exact h2 i (by simpa using hi)

/-- A call of `trace` raises the logic error exactly when one of its steps, before the
walk is back at the start, reaches a pair that is already marked used: a pair used
before the call or a pair of an earlier step of the call. -/
theorem trace_error_iff (region : List Nat) (tiles : Tiles) (polygon : List (List Point))
    (used : List (Int × Nat)) (start_tile : Nat) (start_side : Int) (ccw : Bool)
    (hu : UsedOk region used) (ht : start_tile ∈ region)
    (hs : start_side ∈ [(0 : Int), 1, 2, 3]) :
    trace region tiles polygon used start_tile start_side ccw = .error .logic_error ↔
      ∃ k, (∀ j, 1 ≤ j → j ≤ k →
          reached region tiles (start_tile, start_side) j ≠ (start_tile, start_side)) ∧
        (((reached region tiles (start_tile, start_side) k).2,
            (reached region tiles (start_tile, start_side) k).1) ∈ used ∨
          ∃ j, j < k ∧ reached region tiles (start_tile, start_side) j =
            reached region tiles (start_tile, start_side) k) := by
  constructor
  · intro h
    unfold trace at h
    split at h
    · rename_i e he
      injection h with h
      subst h
      exact traceLoop_error region tiles start_tile start_side ccw _ _ _ _ _ he
    · cases h
  · rintro ⟨k, hk1, hk2⟩
    rcases traceLoop_ok region tiles start_tile start_side ccw (4 * region.length + 1)
      start_tile start_side [] used hu ht hs (by omega) with he | ⟨ring', used', hok, hu', _⟩
    · unfold trace
      rw [he]
    · exfalso
      obtain ⟨V, hw, hne, _, hused⟩ :=
        traceLoop_walk_any region tiles start_tile start_side ccw _ _ _ _ _ _ _ hok
      obtain ⟨hlen, hget⟩ := IsWalk.getElem _ _ V _ hw
      have hpos : 0 < V.length := by
        cases V with
        | nil => exact absurd hw (by simp [IsWalk])
        | cons w V => simp
      have hkl : k < V.length := by
        by_contra hge
        exact hk1 V.length hpos (by omega) hlen
      have hnd := hu'.1
      rw [hused, List.nodup_append] at hnd
      obtain ⟨hn1, _, hdis⟩ := hnd
      rw [List.nodup_reverse] at hn1
      have hnV : V.Nodup := List.Nodup.of_map _ hn1
      have hVk : V[k] = reached region tiles (start_tile, start_side) k := hget k hkl
      rcases hk2 with hk2 | ⟨j, hj, he⟩
      · apply hdis _ hk2
        rw [List.mem_reverse, ← hVk]
        exact List.mem_map.2 ⟨V[k], List.getElem_mem _, rfl⟩
      · have hVj : V[j] = reached region tiles (start_tile, start_side) j :=
          hget j (by omega)
        have : V[j] = V[k] := by rw [hVj, hVk, he]
        have := (List.Nodup.getElem_inj_iff hnV).1 this
        omega

theorem trace_sides (region : List Nat) (tiles : Tiles) (polygon : List (List Point))
    (used : List (Int × Nat)) (start_tile : Nat) (start_side : Int) (ccw : Bool)
    (polygon' : List (List Point)) (used' : List (Int × Nat))
    (h : trace region tiles polygon used start_tile start_side ccw = .ok (polygon', used'))
    (hi : ∃ sides : List (List (Nat × Int)),
      polygon = sides.map (fun ring => ring.map (fun v => coord tiles v.1 v.2)) ∧
        (sides.flatten.map (fun v => (v.2, v.1))).Perm used) :
    ∃ sides : List (List (Nat × Int)),
      polygon' = sides.map (fun ring => ring.map (fun v => coord tiles v.1 v.2)) ∧
        (sides.flatten.map (fun v => (v.2, v.1))).Perm used' := by
  obtain ⟨sides, hp, hperm⟩ := hi
  unfold trace at h
  split at h
  · cases h
  · rename_i ring0 used0 hl
    cases h
    obtain ⟨V, _, _, hr, hu⟩ := traceLoop_walk_any _ _ _ _ _ _ _ _ _ _ _ _ hl
    refine ⟨sides ++ [if ccw = true then V else V.reverse], ?_, ?_⟩
    · rw [hp, hr]
      cases ccw <;> simp [List.map_reverse]
    · rw [hu, List.flatten_append, List.map_append]
      refine List.perm_append_comm.trans (List.Perm.append ?_ hperm)
      cases ccw
      · simp [List.map_reverse]
      · simp only [if_true, List.flatten_cons, List.flatten_nil, List.append_nil]
        exact (List.reverse_perm _).symm

theorem traceInnerSides_sides (region : List Nat) (tiles : Tiles) (start_tile : Nat) :
    ∀ (todo : List Int) (polygon : List (List Point)) (used : List (Int × Nat))
      (polygon' : List (List Point)) (used' : List (Int × Nat)),
      traceInnerSides region tiles start_tile todo polygon used = .ok (polygon', used') →
      (∃ sides : List (List (Nat × Int)),
        polygon = sides.map (fun ring => ring.map (fun v => coord tiles v.1 v.2)) ∧
          (sides.flatten.map (fun v => (v.2, v.1))).Perm used) →
      ∃ sides : List (List (Nat × Int)),
        polygon' = sides.map (fun ring => ring.map (fun v => coord tiles v.1 v.2)) ∧
          (sides.flatten.map (fun v => (v.2, v.1))).Perm used' := by
  intro todo
  induction todo with
  | nil =>
    intro polygon used polygon' used' h hi
    cases h
    exact hi
  | cons s todo ih =>
    intro polygon used polygon' used' h hi
    unfold traceInnerSides at h
    split at h
    · split at h
      · split at h
        · cases h
        · rename_i p u ht
          exact ih _ _ _ _ h (trace_sides _ _ _ _ _ _ _ _ _ ht hi)
      · exact ih _ _ _ _ h hi
    · exact ih _ _ _ _ h hi

theorem traceInners_sides (region : List Nat) (tiles : Tiles) :
    ∀ (todo : List Nat) (polygon : List (List Point)) (used : List (Int × Nat))
      (polygon' : List (List Point)) (used' : List (Int × Nat)),
      traceInners region tiles todo polygon used = .ok (polygon', used') →
      UsedOk region used → (∀ t ∈ todo, t ∈ region) → (∀ ring ∈ polygon, ring ≠ []) →
      (∃ sides : List (List (Nat × Int)),
        polygon = sides.map (fun ring => ring.map (fun v => coord tiles v.1 v.2)) ∧
          (sides.flatten.map (fun v => (v.2, v.1))).Perm used) →
      UsedOk region used' ∧ ∃ sides : List (List (Nat × Int)),
        polygon' = sides.map (fun ring => ring.map (fun v => coord tiles v.1 v.2)) ∧
          (sides.flatten.map (fun v => (v.2, v.1))).Perm used' := by
  intro todo
  induction todo with
  | nil =>
    intro polygon used polygon' used' h hu _ _ hi
    cases h
    exact ⟨hu, hi⟩
  | cons t todo ih =>
    intro polygon used polygon' used' h hu ht hp hi
    unfold traceInners at h
    split at h
    · cases h
    · rename_i p u hs
      have hi' := traceInnerSides_sides _ _ _ _ _ _ _ _ hs hi
      have hu' : UsedOk region u ∧ ∀ ring ∈ p, ring ≠ [] := by
        rcases traceInnerSides_ok region tiles t (ht t (by simp)) [0, 1, 2, 3] polygon used
          (fun s hs => hs) hu hp with he | ⟨p2, u2, he, hu2, hp2⟩
        · rw [he] at hs
          cases hs
        · rw [he] at hs
          cases hs
          exact ⟨hu2, hp2⟩
      exact ih _ _ _ _ h hu'.1 (fun x hx => ht x (by simp [hx])) hu'.2 hi'

/-- The rings of a polygon returned by `to_boundary` come from pairwise different
`(tile, side)` pairs, one vertex per pair, each ring closed by its first vertex. -/
theorem to_boundary_sides (first : Nat) (rest : List Nat) (tiles : Tiles)
    (polygon : List (List Point)) (h : to_boundary first rest tiles = .ok polygon) :
    ∃ sides : List (List (Nat × Int)), sides.flatten.Nodup ∧
      polygon = sides.map (fun ring => ring.map (fun v => coord tiles v.1 v.2) ++
        (ring.head?.map (fun v => coord tiles v.1 v.2)).toList) := by
  have hst : smallestTile (first :: rest) first ∈ first :: rest := by
    rcases smallestTile_mem (first :: rest) first with h | h
    · rw [h]; simp
    · exact h
  unfold to_boundary at h
  simp only at h
  split at h
  · cases h
  · rename_i p u ht
    split at h
    · cases h
    · rename_i p' u' hi
      cases h
      have h0 : UsedOk (first :: rest) u ∧ ∀ ring ∈ p, ring ≠ [] := by
        rcases trace_ok (first :: rest) tiles [] [] (smallestTile (first :: rest) first) 0 true
          ⟨List.nodup_nil, by simp⟩ hst (by simp) (by simp) with he | ⟨p2, u2, he, hu2, hp2⟩
        · rw [he] at ht
          cases ht
        · rw [he] at ht
          cases ht
          exact ⟨hu2, hp2⟩
      have h1 := trace_sides _ _ _ _ _ _ _ _ _ ht ⟨[], by simp, by simp⟩
      obtain ⟨hu', sides, hp', hperm⟩ := traceInners_sides _ _ _ _ _ _ _ hi h0.1
        (fun t ht => ht) h0.2 h1
      refine ⟨sides, ?_, ?_⟩
      · have := (List.Perm.nodup_iff hperm).2 hu'.1
        exact List.Nodup.of_map _ this
      · rw [hp', List.map_map]
        apply List.map_congr_left
        intro ring _
        cases ring <;> simp

/-- C11 (code bug): on a 3x3 lattice of tiles of width `dx > 0` and height `dy > 0`, for
every iteration order of the region `{0, 1, 2, 3, 5, 6, 7, 8}`, `to_boundary` returns
two rings and the second one, the inner ring around the hole at tile 4, has
`polygon_area` equal to `dx * dy > 0`: it is counter-clockwise, not clockwise. -/
theorem to_boundary_hole_inner_ccw (x0 y0 dx dy : ℚ) (hdx : 0 < dx) (hdy : 0 < dy)
    (first : Nat) (rest : List Nat) (hperm : (first :: rest).Perm holeRegion) :
    ∃ outer front tail,
      to_boundary first rest (Tiles.lattice x0 y0 dx dy 3 3) = .ok [outer, front :: tail] ∧
        polygon_area front tail = dx * dy ∧ ¬ polygon_area front tail < 0 := by
  obtain ⟨k, hk, h⟩ := to_boundary_hole_eq (Tiles.lattice x0 y0 dx dy 3 3).TileBounds
    first rest hperm
  obtain ⟨front, tail, he, ha⟩ := hole_inner_area x0 y0 dx dy k hk
  refine ⟨holeRing (Tiles.lattice x0 y0 dx dy 3 3) ++
    [coord (Tiles.lattice x0 y0 dx dy 3 3) 0 0], front, tail, ?_, ha, ?_⟩
  · rw [← he]
    exact h
  · rw [ha]
    have := mul_pos hdx hdy
    linarith

theorem to_boundary_hole_inner_ccw_witness :
    ∃ outer front tail,
      to_boundary 0 [1, 2, 3, 5, 6, 7, 8] (Tiles.lattice 0 0 1 1 3 3) =
          .ok [outer, front :: tail] ∧
        polygon_area front tail = 1 * 1 ∧ ¬ polygon_area front tail < 0 :=
  to_boundary_hole_inner_ccw 0 0 1 1 (by norm_num) (by norm_num) 0 [1, 2, 3, 5, 6, 7, 8]
    (List.Perm.refl _)

/-- Every call of `trace` made with consistent bookkeeping raises the logic error
exactly when one of its steps reaches a `(tile, side)` pair that is already marked used
(before the call or by an earlier step of the call); `to_boundary` ends with the logic
error or a polygon; and the rings of a returned polygon are the coordinates of a family
of pairwise different `(tile, side)` pairs, each ring closed by its first vertex. -/
theorem to_boundary_side_used_once (first : Nat) (rest : List Nat) (tiles : Tiles) :
    (∀ (polygon : List (List Point)) (used : List (Int × Nat)) (start_tile : Nat)
        (start_side : Int) (ccw : Bool),
      UsedOk (first :: rest) used → start_tile ∈ first :: rest →
      start_side ∈ [(0 : Int), 1, 2, 3] →
      (trace (first :: rest) tiles polygon used start_tile start_side ccw =
          .error .logic_error ↔
        ∃ k, (∀ j, 1 ≤ j → j ≤ k →
            reached (first :: rest) tiles (start_tile, start_side) j ≠
              (start_tile, start_side)) ∧
          (((reached (first :: rest) tiles (start_tile, start_side) k).2,
              (reached (first :: rest) tiles (start_tile, start_side) k).1) ∈ used ∨
            ∃ j, j < k ∧ reached (first :: rest) tiles (start_tile, start_side) j =
              reached (first :: rest) tiles (start_tile, start_side) k))) ∧
    to_boundary first rest tiles ≠ .error .out_of_fuel ∧
    ∀ polygon, to_boundary first rest tiles = .ok polygon →
      ∃ sides : List (List (Nat × Int)), sides.flatten.Nodup ∧
        polygon = sides.map (fun ring => ring.map (fun v => coord tiles v.1 v.2) ++
          (ring.head?.map (fun v => coord tiles v.1 v.2)).toList) := by
  refine ⟨?_, ?_, ?_⟩
  · intro polygon used start_tile start_side ccw hu ht hs
    exact trace_error_iff (first :: rest) tiles polygon used start_tile start_side ccw hu ht hs
  · rcases to_boundary_cases first rest tiles with h | ⟨polygon, _, h⟩
    · rw [h]
      decide
    · rw [h]
      simp
  · intro polygon h
    exact to_boundary_sides first rest tiles polygon h

theorem to_boundary_side_used_once_witness :
    to_boundary 5 [6, 9, 10] (Tiles.lattice 0 0 1 1 4 4) =
        .ok [blockRing (Tiles.lattice 0 0 1 1 4 4) ++ [coord (Tiles.lattice 0 0 1 1 4 4) 5 0]] ∧
      ∃ sides : List (List (Nat × Int)), sides.flatten.Nodup ∧
        [blockRing (Tiles.lattice 0 0 1 1 4 4) ++ [coord (Tiles.lattice 0 0 1 1 4 4) 5 0]] =
          sides.map (fun ring =>
            ring.map (fun v => coord (Tiles.lattice 0 0 1 1 4 4) v.1 v.2) ++
              (ring.head?.map (fun v => coord (Tiles.lattice 0 0 1 1 4 4) v.1 v.2)).toList) :=
  ⟨to_boundary_block_eq _ 5 [6, 9, 10] (List.Perm.refl _),
    (to_boundary_side_used_once 5 [6, 9, 10] (Tiles.lattice 0 0 1 1 4 4)).2.2 _
      (to_boundary_block_eq _ 5 [6, 9, 10] (List.Perm.refl _))⟩

/-! ## Theorems: resampling and trimming of polylines -/

theorem RAD_PER_METER_pos (F : Type) [LinearOrderedField F] : 0 < RAD_PER_METER F := by
  unfold RAD_PER_METER
  positivity

/-- With enough fuel the loop `while (d > remaining)` ends, it only appends points, and
on exit `d` is at most `remaining`. -/
theorem placeLoop_ok {F : Type} [LinearOrderedField F] (m : SphereMath F) (resolution : F)
    (p : F × F) :
    ∀ (fuel : Nat) (d remaining : F) (last : F × F) (resampled : List (F × F)),
      d ≤ remaining + fuel * resolution →
      ∃ d' remaining' last' extra,
        placeLoop m resolution p fuel d remaining last resampled =
          .ok (d', remaining', last', resampled ++ extra) ∧ d' ≤ remaining' := by
  intro fuel
  induction fuel with
  | zero =>
    intro d remaining last resampled h
    have h' : ¬ d > remaining := by
      simp only [Nat.cast_zero, zero_mul, add_zero] at h
      exact not_lt.2 h
    exact ⟨d, remaining, last, [], by simp [placeLoop, h'], not_lt.1 h'⟩
  | succ fuel ih =>
    intro d remaining last resampled h
    by_cases hc : d > remaining
    · obtain ⟨d', r', l', extra, he, hle⟩ := ih (d - remaining) resolution
        (interpolate m last p d remaining remaining)
        (resampled ++ [interpolate m last p d remaining remaining])
        (by push_cast at h; linarith)
      refine ⟨d', r', l', interpolate m last p d remaining remaining :: extra, ?_, hle⟩
      rw [placeLoop, if_pos hc]
      simp only [he, List.append_assoc, List.singleton_append]
    · exact ⟨d, remaining, last, [], by simp [placeLoop, hc], not_lt.1 hc⟩

theorem ceil_fuel {F : Type} [LinearOrderedField F] [FloorRing F] (d remaining resolution : F)
    (hres : 0 < resolution) (hrem : 0 ≤ remaining) :
    d ≤ remaining + ((⌈d / resolution⌉₊ + 1 : Nat) : F) * resolution := by
  have h1 : d / resolution ≤ (⌈d / resolution⌉₊ : F) := Nat.le_ceil _
  have h2 : d ≤ (⌈d / resolution⌉₊ : F) * resolution := by
    rwa [div_le_iff₀ hres] at h1
  push_cast
  nlinarith

/-- For a positive resolution the loop of `resample_spherical_polyline` over the points
ends; it appends, for each point, the samples placed before it and, if `preserve`, the
point. -/
theorem resampleFrom_ok {F : Type} [LinearOrderedField F] [FloorRing F] (m : SphereMath F)
    (resolution : F) (preserve : Bool) (hres : 0 < resolution) :
    ∀ (rest : List (F × F)) (remaining : F) (last : F × F) (resampled : List (F × F)),
      0 ≤ remaining →
      ∃ samples : List (List (F × F)), samples.length = rest.length ∧
        resampleFrom m resolution preserve rest remaining last resampled =
          .ok (resampled ++ (List.zipWith
            (fun s p => s ++ (if preserve = true then [p] else [])) samples rest).flatten) := by
  intro rest
  induction rest with
  | nil =>
    intro remaining last resampled _
    exact ⟨[], rfl, by simp [resampleFrom]⟩
  | cons p rest ih =>
    intro remaining last resampled hrem
    obtain ⟨d', r', l', extra, he, hle⟩ := placeLoop_ok m resolution p
      (⌈(arcTo m last p).getD 0 / resolution⌉₊ + 1) ((arcTo m last p).getD 0) remaining last
      resampled (ceil_fuel _ _ _ hres hrem)
    obtain ⟨samples, hl, hs⟩ := ih (r' - d') p
      (if preserve = true then resampled ++ extra ++ [p] else resampled ++ extra)
      (by linarith)
    refine ⟨extra :: samples, by simp [hl], ?_⟩
    rw [resampleFrom]
    simp only [he, hs]
    cases preserve <;> simp

theorem sublist_zipWith_append {α : Type} :
    ∀ (rest : List α) (samples : List (List α)), samples.length = rest.length →
      rest.Sublist (List.zipWith (fun s p => s ++ [p]) samples rest).flatten ∧
        (rest ≠ [] →
          (List.zipWith (fun s p => s ++ [p]) samples rest).flatten.getLast? =
            rest.getLast?) := by
  intro rest
  induction rest with
  | nil => intro samples _; simp
  | cons p rest ih =>
    intro samples hl
    cases samples with
    | nil => simp at hl
    | cons s samples =>
      have hl' : samples.length = rest.length := by simpa using hl
      obtain ⟨h1, h2⟩ := ih samples hl'
      simp only [List.zipWith_cons_cons, List.flatten_cons, List.append_assoc,
        List.singleton_append]
      refine ⟨?_, fun _ => ?_⟩
      · exact (List.Sublist.cons₂ p h1).trans (List.sublist_append_right s _)
      · cases rest with
        | nil =>
          cases samples with
          | nil => simp
          | cons _ _ => simp at hl'
        | cons q rest =>
          have hz := h2 (by simp)
          have hne : (List.zipWith (fun s p => s ++ [p]) samples (q :: rest)).flatten ≠ [] := by
            intro h0
            rw [h0] at hz
            cases rest <;> simp [List.getLast?] at hz
          obtain ⟨a, l, hal⟩ := List.exists_cons_of_ne_nil hne
          rw [List.getLast?_append_of_ne_nil _ (by simp), List.getLast?_cons_cons, ← hz, hal,
            List.getLast?_cons_cons]

theorem arcTo_nonneg {F : Type} [LinearOrderedField F] (m : SphereMath F)
    (hacos : ∀ x y, m.acos x = some y → 0 ≤ y) (last p : F × F) (d : F)
    (h : arcTo m last p = some d) : 0 ≤ d := by
  unfold arcTo at h
  simp only at h
  split at h
  · injection h with h
    rw [← h]
  · exact hacos _ _ h

/-- The loop `while (remaining < d)` of the uniform resampler, with `total` the arc of the
polyline still ahead after the current segment: the arc ahead stays equal to `remaining`
plus the sample distance times the number of samples still to place after the next. -/
theorem uniformPlaceLoop_count {F : Type} [LinearOrderedField F] (m : SphereMath F)
    (S : F) (p : F × F) (n : Nat) (total : F) :
    ∀ (fuel : Nat) (d remaining : F) (last : F × F) (resampled : List (F × F)),
      d ≤ remaining + fuel * S → 0 ≤ d → remaining - d ≤ S →
      (2 ≤ resampled.length → remaining - d < S) →
      d + total = remaining + ((n : F) - 1 - (resampled.length : F)) * S →
      ∃ d' remaining' last' resampled',
        uniformPlaceLoop m S p fuel d remaining last resampled =
          .ok (d', remaining', last', resampled') ∧
        d' ≤ remaining' ∧ remaining' - d' ≤ S ∧
        (2 ≤ resampled'.length → remaining' - d' < S) ∧
        resampled.length ≤ resampled'.length ∧
        total = remaining' - d' + ((n : F) - 1 - (resampled'.length : F)) * S := by
  intro fuel
  induction fuel with
  | zero =>
    intro d remaining last resampled hf hd h3 h4 h1
    have hc : ¬ remaining < d := by
      simp only [Nat.cast_zero, zero_mul, add_zero] at hf
      exact not_lt.2 hf
    refine ⟨d, remaining, last, resampled, by simp [uniformPlaceLoop, hc], not_lt.1 hc, h3, h4,
      le_refl _, by linarith⟩
  | succ fuel ih =>
    intro d remaining last resampled hf hd h3 h4 h1
    by_cases hc : remaining < d
    · obtain ⟨d', r', l', res', he, g1, g2, g3, g4, g5⟩ := ih (d - remaining) S
        (interpolate m last p d remaining S)
        (resampled ++ [interpolate m last p d remaining S])
        (by push_cast at hf; linarith) (by linarith) (by linarith)
        (fun _ => by linarith)
        (by
          rw [List.length_append, List.length_singleton]
          push_cast
          linarith)
      refine ⟨d', r', l', res', ?_, g1, g2, g3, ?_, g5⟩
      · rw [uniformPlaceLoop, if_pos hc]
        exact he
      · rw [List.length_append, List.length_singleton] at g4
        omega
    · refine ⟨d, remaining, last, resampled, by simp [uniformPlaceLoop, hc], not_lt.1 hc, h3, h4,
        le_refl _, by linarith⟩

/-- The loop over the points of the uniform resampler leaves one point less than `n`
when the sample distance times `n - 1` is the arc of the polyline. -/
theorem uniformFrom_count {F : Type} [LinearOrderedField F] [FloorRing F] (m : SphereMath F)
    (hacos : ∀ x y, m.acos x = some y → 0 ≤ y) (S : F) (hS : 0 < S) (n : Nat) (hn : 2 ≤ n) :
    ∀ (rest : List (F × F)) (remaining : F) (last : F × F) (resampled : List (F × F))
      (total : F),
      arcLength m (last :: rest) = some total → 0 ≤ remaining → remaining ≤ S →
      (2 ≤ resampled.length → remaining < S) → 1 ≤ resampled.length →
      total = remaining + ((n : F) - 1 - (resampled.length : F)) * S →
      ∃ res, uniformFrom m S rest remaining last resampled = .ok res ∧
        res.length + 1 = n := by
  intro rest
  induction rest with
  | nil =>
    intro remaining last resampled total ha h0 h3 h4 hl h1
    refine ⟨resampled, by simp [uniformFrom], ?_⟩
    simp only [arcLength] at ha
    injection ha with ha
    rw [← ha] at h1
    have hn' : (2 : F) ≤ (n : F) := by exact_mod_cast hn
    have hl' : (1 : F) ≤ (resampled.length : F) := by exact_mod_cast hl
    have e1 : ((n : F) - 1 - (resampled.length : F)) * S = -remaining := by linarith
    have u1 : (n : F) - 1 - (resampled.length : F) ≤ 0 := by
      by_contra hc
      have := mul_pos (not_le.1 hc) hS
      linarith
    have u2 : -1 ≤ (n : F) - 1 - (resampled.length : F) := by
      by_contra hc
      have hc' : (n : F) - 1 - (resampled.length : F) < -1 := not_le.1 hc
      have := mul_lt_mul_of_pos_right hc' hS
      linarith
    have v1 : n ≤ resampled.length + 1 := by
      have : (n : F) ≤ ((resampled.length + 1 : Nat) : F) := by push_cast; linarith
      exact_mod_cast this
    have v2 : resampled.length ≤ n := by
      have : (resampled.length : F) ≤ (n : F) := by linarith
      exact_mod_cast this
    by_contra hne
    have hlen : resampled.length = n := by omega
    have h2 : 2 ≤ resampled.length := by omega
    have h5 := h4 h2
    have : (n : F) - 1 - (resampled.length : F) = -1 := by
      rw [hlen]; ring
    rw [this] at e1
    linarith
  | cons p rest ih =>
    intro remaining last resampled total ha h0 h3 h4 hl h1
    rw [arcLength] at ha
    cases hd : arcTo m last p with
    | none => simp [hd] at ha
    | some d =>
      cases hr : arcLength m (p :: rest) with
      | none => simp [hd, hr] at ha
      | some after =>
        simp only [hd, hr] at ha
        injection ha with ha
        have hdn := arcTo_nonneg m hacos last p d hd
        obtain ⟨d', r', l', res', he, g1, g2, g3, g4, g5⟩ :=
          uniformPlaceLoop_count m S p n after (⌈d / S⌉₊ + 1) d remaining last resampled
            (ceil_fuel d remaining S hS h0) hdn (by linarith) (fun h => by
              have := h4 h
              linarith) (by linarith)
        obtain ⟨res, hres, hlen⟩ := ih (r' - d') p res' after hr (by linarith) g2 g3
          (by omega) g5
        refine ⟨res, ?_, hlen⟩
        rw [uniformFrom]
        simp only [hd, he]
        exact hres

theorem arg_cos_sin (θ : ℝ) (h1 : -Real.pi < θ) (h2 : θ ≤ Real.pi) :
    Complex.arg ⟨Real.cos θ, Real.sin θ⟩ = θ := by
  have e : (⟨Real.cos θ, Real.sin θ⟩ : ℂ) =
      Complex.cos θ + Complex.sin θ * Complex.I := by
    apply Complex.ext <;> simp [Complex.cos_ofReal_re, Complex.sin_ofReal_re]
  rw [e]
  exact Complex.arg_cos_add_sin_mul_I ⟨h1, h2⟩

theorem arg_pos_real (x : ℝ) (h : 0 ≤ x) : Complex.arg ⟨x, 0⟩ = 0 := by
  have e : (⟨x, 0⟩ : ℂ) = (x : ℂ) := by
    apply Complex.ext <;> simp
  rw [e]
  exact Complex.arg_ofReal_of_nonneg h

theorem slerp_cos (θ d s : ℝ) (hd : Real.sin d ≠ 0) :
    Real.sin (d - s) / Real.sin d * Real.cos θ + Real.sin s / Real.sin d * Real.cos (θ + d) =
      Real.cos (θ + s) := by
  rw [Real.sin_sub, Real.cos_add, Real.cos_add]
  field_simp
  ring

theorem slerp_sin (θ d s : ℝ) (hd : Real.sin d ≠ 0) :
    Real.sin (d - s) / Real.sin d * Real.sin θ + Real.sin s / Real.sin d * Real.sin (θ + d) =
      Real.sin (θ + s) := by
  rw [Real.sin_sub, Real.sin_add, Real.sin_add]
  field_simp
  ring

/-- Along the meridian of longitude 0 the interpolated point is the point at latitude
`θ + s`. -/
theorem interpolate_meridian (m : SphereMath ℝ) (hm : ExactReal m) (θ Φ s : ℝ)
    (h1 : 0 < Φ - θ) (h2 : Φ - θ < Real.pi) (h3 : -(Real.pi / 2) < θ + s)
    (h4 : θ + s < Real.pi / 2) :
    interpolate m (0, θ * (180 / Real.pi)) (0, Φ * (180 / Real.pi)) (Φ - θ) s s =
      (0, (θ + s) * (180 / Real.pi)) := by
  obtain ⟨hsin, hcos, _, hatan, hsqrt, hrad, hdeg⟩ := hm
  have hpi : Real.pi ≠ 0 := Real.pi_ne_zero
  have hd : Real.sin (Φ - θ) ≠ 0 := ne_of_gt (Real.sin_pos_of_pos_of_lt_pi h1 h2)
  have hc : 0 < Real.cos (θ + s) := Real.cos_pos_of_mem_Ioo ⟨h3, h4⟩
  have e1 : θ * (180 / Real.pi) * (Real.pi / 180) = θ := by field_simp
  have e2 : Φ * (180 / Real.pi) * (Real.pi / 180) = Φ := by field_simp
  have eΦ : Φ = θ + (Φ - θ) := by ring
  have ex := slerp_cos θ (Φ - θ) s hd
  have ez := slerp_sin θ (Φ - θ) s hd
  rw [← eΦ] at ex ez
  unfold interpolate
  simp only [hsin, hcos, hatan, hsqrt, hrad, hdeg, e1, e2, zero_mul, Real.cos_zero,
    Real.sin_zero, mul_zero, mul_one, add_zero, ex, ez]
  rw [Real.sqrt_mul_self (le_of_lt hc), arg_pos_real _ (le_of_lt hc),
    arg_cos_sin _ (by linarith [Real.pi_pos]) (by linarith [Real.pi_pos])]
  simp

/-- The loop `while (remaining < d)` of the uniform resampler along the meridian of
longitude 0, from latitude `i * s` towards latitude `Φ` with `remaining = s`: it places the
points at the latitudes `(i + 1) * s, ..., (i + j) * s`, the multiples of `s` below `Φ`. -/
theorem meridian_loop (m : SphereMath ℝ) (hm : ExactReal m) (Φ s : ℝ) (hs : 0 < s)
    (hΦ : Φ < Real.pi / 2) :
    ∀ (j fuel i : Nat) (resampled : List (ℝ × ℝ)), j ≤ fuel →
      ((i : ℝ) + j) * s < Φ → Φ ≤ ((i : ℝ) + j + 1) * s →
      uniformPlaceLoop m s (0, Φ * (180 / Real.pi)) fuel (Φ - i * s) s
          (0, (i : ℝ) * s * (180 / Real.pi)) resampled =
        .ok (Φ - ((i : ℝ) + j) * s, s, (0, ((i : ℝ) + j) * s * (180 / Real.pi)),
          resampled ++ (List.range j).map
            (fun t : Nat => ((0 : ℝ), ((i : ℝ) + (t : ℝ) + 1) * s * (180 / Real.pi)))) := by
  intro j
  induction j with
  | zero =>
    intro fuel i resampled _ h1 h2
    have hc : ¬ s < Φ - i * s := by
      rw [not_lt]
      simp only [Nat.cast_zero, add_zero] at h2
      linarith
    cases fuel <;> simp [uniformPlaceLoop, hc]
  | succ j ih =>
    intro fuel i resampled hf h1 h2
    obtain ⟨fuel, rfl⟩ : ∃ f, fuel = f + 1 := ⟨fuel - 1, by omega⟩
    have hi : (0 : ℝ) ≤ (i : ℝ) * s := mul_nonneg (Nat.cast_nonneg i) (le_of_lt hs)
    have hj : (0 : ℝ) ≤ (j : ℝ) * s := mul_nonneg (Nat.cast_nonneg j) (le_of_lt hs)
    push_cast at h1 h2
    have hc : s < Φ - i * s := by nlinarith
    have hstep := interpolate_meridian m hm ((i : ℝ) * s) Φ s (by linarith)
      (by linarith [Real.pi_pos]) (by linarith [Real.pi_pos]) (by nlinarith)
    have hnext := ih fuel (i + 1)
      (resampled ++ [(0, ((i + 1 : Nat) : ℝ) * s * (180 / Real.pi))]) (by omega)
      (by push_cast; nlinarith) (by push_cast; nlinarith)
    rw [uniformPlaceLoop, if_pos hc]
    simp only [hstep]
    have e1 : Φ - (i : ℝ) * s - s = Φ - ((i + 1 : Nat) : ℝ) * s := by push_cast; ring
    have e2 : ((i : ℝ) * s + s) = ((i + 1 : Nat) : ℝ) * s := by push_cast; ring
    rw [e1, e2, hnext]
    congr 1
    refine Prod.ext ?_ (Prod.ext rfl (Prod.ext ?_ ?_))
    · simp only; push_cast; ring
    · simp only; push_cast
      refine Prod.ext rfl ?_
      simp only
      ring
    · simp only
      rw [List.range_succ_eq_map, List.map_cons, List.map_map, List.append_assoc]
      congr 1
      simp only [List.singleton_append, List.cons.injEq]
      constructor
      · refine Prod.ext rfl ?_
        simp
      · apply List.map_congr_left
        intro t _
        refine Prod.ext rfl ?_
        simp only [Function.comp, Nat.succ_eq_add_one]
        push_cast
        ring

theorem sampleArc_bounds :
    0 < sampleArc ℝ ∧ 9 * sampleArc ℝ < 10 * (Real.pi / 180) ∧
      10 * (Real.pi / 180) ≤ 10 * sampleArc ℝ ∧
      (1 + 8 / 10000) * (Real.pi / 180) < sampleArc ℝ ∧
      sampleArc ℝ < (1 + 9 / 10000) * (Real.pi / 180) := by
  have h1 := Real.pi_gt_d6
  have h2 := Real.pi_lt_d6
  have e : sampleArc ℝ = 11131949 / 100 / (6372797560856 / 1000000) := by
    unfold sampleArc RAD_PER_METER
    norm_num
  rw [e]
  refine ⟨by norm_num, ?_, ?_, ?_, ?_⟩ <;> norm_num at h1 h2 ⊢ <;> linarith

theorem arcTo_meridian (m : SphereMath ℝ) (hm : ExactReal m) :
    arcTo m (0, 0) (0, 10) = some (10 * (Real.pi / 180)) := by
  obtain ⟨hsin, hcos, hacos, _, _, hrad, _⟩ := hm
  have hne : ((0 : ℝ), (0 : ℝ)) ≠ (0, 10) := by
    intro h
    have := congrArg Prod.snd h
    norm_num at this
  unfold arcTo
  simp only [if_neg hne, hsin, hcos, hrad, zero_mul, Real.sin_zero, Real.cos_zero, sub_zero,
    one_mul, mul_one, zero_add]
  rw [hacos _ (Real.neg_one_le_cos _) (Real.cos_le_one _),
    Real.arccos_cos (by positivity) (by linarith [Real.pi_pos])]

/-- Scenario S2 in exact real arithmetic: the uniform resampler returns the points of
longitude 0 at the latitudes `k * s * 180 / pi` for `k = 0 .. 9`, where `s` is the sample
distance in radians, and then the last point of the polyline. -/
theorem uniform_meridian (m : SphereMath ℝ) (hm : ExactReal m) :
    uniform_resample_spherical_polyline m [(0, 0), (0, 10)] (11131949 / 10) 11 =
      .ok ((0, 0) :: (List.range 9).map
        (fun t : Nat => ((0 : ℝ), ((t : ℝ) + 1) * sampleArc ℝ * (180 / Real.pi))) ++
          [(0, 10)]) := by
  obtain ⟨hs0, hs9, hs10, _, _⟩ := sampleArc_bounds
  have hS : (11131949 / 10 : ℝ) / ((10 : Nat) : ℝ) * RAD_PER_METER ℝ = sampleArc ℝ := by
    unfold sampleArc
    norm_num
  have hp : ((0 : ℝ), (10 : ℝ)) = (0, 10 * (Real.pi / 180) * (180 / Real.pi)) := by
    refine Prod.ext rfl ?_
    simp only
    field_simp
  have hl : ((0 : ℝ), (0 : ℝ)) = (0, ((0 : Nat) : ℝ) * sampleArc ℝ * (180 / Real.pi)) := by
    simp
  have hfuel : 9 ≤ ⌈10 * (Real.pi / 180) / sampleArc ℝ⌉₊ + 1 := by
    have : (9 : ℝ) < 10 * (Real.pi / 180) / sampleArc ℝ := by
      rw [lt_div_iff₀ hs0]
      exact hs9
    have := (Nat.lt_ceil).2 (by exact_mod_cast this : ((9 : Nat) : ℝ) <
      10 * (Real.pi / 180) / sampleArc ℝ)
    omega
  have hloop := meridian_loop m hm (10 * (Real.pi / 180)) (sampleArc ℝ) hs0
    (by linarith [Real.pi_pos]) 9 (⌈10 * (Real.pi / 180) / sampleArc ℝ⌉₊ + 1) 0 [(0, 0)] hfuel
    (by push_cast; linarith) (by push_cast; linarith)
  simp only [Nat.cast_zero, zero_mul, sub_zero, zero_add] at hloop
  rw [← hp] at hloop
  unfold uniform_resample_spherical_polyline
  simp only [show (11 + 4294967295) % 4294967296 = 10 from by norm_num,
    show ¬ (10 : Nat) = 0 from by norm_num, if_false, hS]
  rw [uniformFrom]
  simp only [arcTo_meridian m hm, hloop, uniformFrom]
  simp

/-- For a polyline of two equal points, whose total length is 0, the uniform resampler
with `n = 3` returns two points, whatever the functions of `<cmath>` are. -/
theorem uniform_resample_two_equal {F : Type} [LinearOrderedField F] [FloorRing F]
    (m : SphereMath F) (a : F × F) :
    arcLength m [a, a] = some 0 ∧
      uniform_resample_spherical_polyline m [a, a] 0 3 = .ok [a, a] := by
  constructor
  · simp [arcLength, arcTo]
  · simp [uniform_resample_spherical_polyline, uniformFrom, arcTo, uniformPlaceLoop]

/-- For the polyline `[(0,0),(0,0)]`, whose total length is 0,
`uniform_resample_spherical_polyline` with `n = 3` returns two points, not three (here
with the exact real functions for `<cmath>`). -/
theorem uniform_resample_short :
    arcLength
        (⟨Real.sin, Real.cos, fun x => if -1 ≤ x ∧ x ≤ 1 then some (Real.arccos x) else none,
          fun y x => Complex.arg ⟨x, y⟩, Real.sqrt, Real.pi / 180, 180 / Real.pi⟩ :
          SphereMath ℝ) [(0, 0), (0, 0)] = some 0 ∧
      uniform_resample_spherical_polyline
        (⟨Real.sin, Real.cos, fun x => if -1 ≤ x ∧ x ≤ 1 then some (Real.arccos x) else none,
          fun y x => Complex.arg ⟨x, y⟩, Real.sqrt, Real.pi / 180, 180 / Real.pi⟩ :
          SphereMath ℝ) [(0, 0), (0, 0)] 0 3 = .ok [(0, 0), (0, 0)] :=
  uniform_resample_two_equal _ (0, 0)

/-- In exact arithmetic, with an `acos` that is never negative, for every
polyline whose arcs are all defined and whose total length is positive, and every `n`
from 2 up to the largest `uint32_t`, `uniform_resample_spherical_polyline` called with
that total length (in meters) returns exactly `n` points, the last of which is the last
point of the polyline. -/
theorem uniform_resample_count {F : Type} [LinearOrderedField F] [FloorRing F]
    (m : SphereMath F) (hacos : ∀ x y, m.acos x = some y → 0 ≤ y) (front : F × F)
    (rest : List (F × F)) (length total : F) (n : Nat) (hn : 2 ≤ n) (hn32 : n < 4294967296)
    (htotal : arcLength m (front :: rest) = some total) (hpos : 0 < total)
    (hlength : length * RAD_PER_METER F = total) :
    ∃ res, uniform_resample_spherical_polyline m (front :: rest) length n = .ok res ∧
      res.length = n ∧ res.getLast? = (front :: rest).getLast? := by
  have hdiv : (n + 4294967295) % 4294967296 = n - 1 := by omega
  have hne : n - 1 ≠ 0 := by omega
  have hcast : ((n - 1 : Nat) : F) = (n : F) - 1 := Nat.cast_pred (by omega)
  have hn1 : (0 : F) < (n : F) - 1 := by
    have : (2 : F) ≤ (n : F) := by exact_mod_cast hn
    linarith
  have hS : length / ((n - 1 : Nat) : F) * RAD_PER_METER F = total / ((n : F) - 1) := by
    rw [hcast, ← hlength]
    ring
  have hSpos : 0 < total / ((n : F) - 1) := div_pos hpos hn1
  obtain ⟨res, hres, hlen⟩ := uniformFrom_count m hacos (total / ((n : F) - 1)) hSpos n hn
    rest (total / ((n : F) - 1)) front [front] total htotal (le_of_lt hSpos) (le_refl _)
    (fun h => by simp at h) (by simp) (by
      simp only [List.length_singleton, Nat.cast_one]
      field_simp
      ring)
  refine ⟨res ++ [(front :: rest).getLast (List.cons_ne_nil _ _)], ?_, ?_, ?_⟩
  · unfold uniform_resample_spherical_polyline
    simp only [hdiv, hne, if_false, hS, hres]
    rw [if_pos (by omega)]
  · rw [List.length_append, List.length_singleton]
    exact hlen
  · rw [List.getLast?_append_of_ne_nil _ (by simp), List.getLast?_singleton,
      List.getLast?_eq_getLast _ (List.cons_ne_nil _ _)]

theorem uniform_resample_count_witness :
    ∃ res,
      uniform_resample_spherical_polyline
          (⟨Real.sin, Real.cos,
            fun x => if -1 ≤ x ∧ x ≤ 1 then some (Real.arccos x) else none,
            fun y x => Complex.arg ⟨x, y⟩, Real.sqrt, Real.pi / 180, 180 / Real.pi⟩ :
            SphereMath ℝ)
          ((0, 0) :: [(0, 10)]) (10 * (Real.pi / 180) / RAD_PER_METER ℝ) 2 = .ok res ∧
        res.length = 2 ∧ res.getLast? = ((0, 0) :: [((0 : ℝ), (10 : ℝ))]).getLast? :=
  uniform_resample_count _ (fun x y h => by
      simp only at h
      split at h
      · injection h with h
        rw [← h]
        exact Real.arccos_nonneg x
      · cases h) (0, 0) [(0, 10)] (10 * (Real.pi / 180) / RAD_PER_METER ℝ)
    (10 * (Real.pi / 180)) 2 (by norm_num) (by norm_num)
    (by
      rw [arcLength, arcTo_meridian _ ⟨fun _ => rfl, fun _ => rfl,
        fun _ h1 h2 => if_pos ⟨h1, h2⟩, fun _ _ => rfl, fun _ => rfl, rfl, rfl⟩]
      simp [arcLength])
    (by positivity) (div_mul_cancel₀ _ (ne_of_gt (RAD_PER_METER_pos ℝ)))

/-- C14 (counterexample): in exact real arithmetic, scenario S2 returns 11 points and the
latitude of the third one exceeds 2 by more than 1e-3 degrees. -/
theorem uniform_meridian_off :
    ∃ res,
      uniform_resample_spherical_polyline
          (⟨Real.sin, Real.cos, fun x => if -1 ≤ x ∧ x ≤ 1 then some (Real.arccos x) else none,
            fun y x => Complex.arg ⟨x, y⟩, Real.sqrt, Real.pi / 180, 180 / Real.pi⟩ :
            SphereMath ℝ)
          [(0, 0), (0, 10)] (11131949 / 10) 11 = .ok res ∧
        res.length = 11 ∧ ∃ p, res[2]? = some p ∧ 2 + 1 / 1000 < p.2 := by
  have hm : ExactReal (⟨Real.sin, Real.cos,
      fun x => if -1 ≤ x ∧ x ≤ 1 then some (Real.arccos x) else none,
      fun y x => Complex.arg ⟨x, y⟩, Real.sqrt, Real.pi / 180, 180 / Real.pi⟩ :
      SphereMath ℝ) :=
    ⟨fun _ => rfl, fun _ => rfl, fun _ h1 h2 => if_pos ⟨h1, h2⟩, fun _ _ => rfl,
      fun _ => rfl, rfl, rfl⟩
  obtain ⟨_, _, _, h8, _⟩ := sampleArc_bounds
  refine ⟨_, uniform_meridian _ hm, by simp,
    (0, ((1 : ℝ) + 1) * sampleArc ℝ * (180 / Real.pi)), by simp [List.range_succ], ?_⟩
  simp only
  have hpi := Real.pi_pos
  have : (1 + 8 / 10000 : ℝ) < sampleArc ℝ * (180 / Real.pi) := by
    rw [mul_div_assoc', lt_div_iff₀ hpi]
    linarith
  norm_num
  linarith

/-- C14 (amended): in exact real arithmetic, scenario S2 returns 11 points of longitude
0: the first ten at the latitudes `k * s * 180 / pi`, `k = 0 .. 9`, where `s` is the
sample distance in radians, and the last at latitude 10; each latitude is within 1e-2
degrees of its index. -/
theorem uniform_meridian_latitudes (m : SphereMath ℝ) (hm : ExactReal m) :
    ∃ res, uniform_resample_spherical_polyline m [(0, 0), (0, 10)] (11131949 / 10) 11 =
        .ok res ∧ res.length = 11 ∧
      (∀ k : Nat, k < 10 → res[k]? = some (0, (k : ℝ) * sampleArc ℝ * (180 / Real.pi))) ∧
      res[10]? = some (0, 10) ∧
      ∀ (k : Nat) (p : ℝ × ℝ), res[k]? = some p → |p.2 - (k : ℝ)| < 1 / 100 := by
  obtain ⟨_, _, _, h8, h9⟩ := sampleArc_bounds
  have hpi := Real.pi_pos
  have b1 : (1 + 8 / 10000 : ℝ) < sampleArc ℝ * (180 / Real.pi) := by
    rw [mul_div_assoc', lt_div_iff₀ hpi]
    linarith
  have b2 : sampleArc ℝ * (180 / Real.pi) < (1 + 9 / 10000 : ℝ) := by
    rw [mul_div_assoc', div_lt_iff₀ hpi]
    linarith
  have hk : ∀ k : Nat, k < 10 →
      ((0, 0) :: (List.range 9).map
        (fun t : Nat => ((0 : ℝ), ((t : ℝ) + 1) * sampleArc ℝ * (180 / Real.pi))) ++
          [(0, 10)])[k]? = some (0, (k : ℝ) * sampleArc ℝ * (180 / Real.pi)) := by
    intro k hk
    cases k with
    | zero => simp
    | succ t =>
      rw [List.cons_append, List.getElem?_cons_succ,
        List.getElem?_append_left (by simp; omega), List.getElem?_map,
        List.getElem?_range (by omega)]
      simp
  refine ⟨_, uniform_meridian m hm, by simp, hk, by simp [List.range_succ], ?_⟩
  intro k p hp
  by_cases h10 : k < 10
  · rw [hk k h10] at hp
    injection hp with hp
    rw [← hp]
    simp only
    have hkr : (k : ℝ) ≤ 9 := by exact_mod_cast (by omega : k ≤ 9)
    have hk0 : (0 : ℝ) ≤ (k : ℝ) := Nat.cast_nonneg k
    have e : (k : ℝ) * sampleArc ℝ * (180 / Real.pi) - k =
        k * (sampleArc ℝ * (180 / Real.pi) - 1) := by ring
    rw [e, abs_lt]
    constructor <;> nlinarith
  · by_cases h11 : k = 10
    · subst h11
      simp [List.range_succ] at hp
      rw [← hp]
      norm_num
    · exfalso
      have : 11 ≤ k := by omega
      rw [List.getElem?_eq_none (by simpa using this)] at hp
      cases hp

theorem uniform_meridian_latitudes_witness :
    ∃ res,
      uniform_resample_spherical_polyline
          (⟨Real.sin, Real.cos, fun x => if -1 ≤ x ∧ x ≤ 1 then some (Real.arccos x) else none,
            fun y x => Complex.arg ⟨x, y⟩, Real.sqrt, Real.pi / 180, 180 / Real.pi⟩ :
            SphereMath ℝ)
          [(0, 0), (0, 10)] (11131949 / 10) 11 = .ok res ∧ res.length = 11 ∧
      (∀ k : Nat, k < 10 → res[k]? = some (0, (k : ℝ) * sampleArc ℝ * (180 / Real.pi))) ∧
      res[10]? = some (0, 10) ∧
      ∀ (k : Nat) (p : ℝ × ℝ), res[k]? = some p → |p.2 - (k : ℝ)| < 1 / 100 :=
  uniform_meridian_latitudes _
    ⟨fun _ => rfl, fun _ => rfl, fun _ h1 h2 => if_pos ⟨h1, h2⟩, fun _ _ => rfl,
      fun _ => rfl, rfl, rfl⟩

theorem polylineLength_nonneg {P F : Type} [LinearOrderedField F] (Distance : P → P → F)
    (hD : ∀ a b, 0 ≤ Distance a b) : ∀ pts : List P, 0 ≤ polylineLength Distance pts := by
  intro pts
  induction pts with
  | nil => simp [polylineLength]
  | cons p pts ih =>
    cases pts with
    | nil => simp [polylineLength]
    | cons q pts =>
      rw [polylineLength]
      have := hD p q
      linarith

theorem trimLoop_all {P F : Type} [LinearOrderedField F] (Distance : P → P → F)
    (PointAlongSegment : P → P → F → P) (dist : F) (hD : ∀ a b, 0 ≤ Distance a b) :
    ∀ (pts : List P) (d : F) (result : List P),
      d + polylineLength Distance pts < dist →
      trimLoop Distance PointAlongSegment dist pts d result = some (result ++ pts.tail, []) := by
  intro pts
  induction pts with
  | nil => intro d result _; simp [trimLoop]
  | cons p pts ih =>
    intro d result h
    cases pts with
    | nil => simp [trimLoop]
    | cons q pts =>
      rw [polylineLength] at h
      have h0 := polylineLength_nonneg Distance hD (q :: pts)
      have hc : ¬ d + Distance p q > dist := by
        rw [not_lt]
        linarith
      rw [trimLoop]
      simp only [hc, if_false]
      rw [ih (d + Distance p q) (result ++ [q]) (by linarith)]
      simp

/-- C15: for every non-empty polyline, every resolution `r > 0` and either value of
`preserve`, `resample_spherical_polyline` returns a polyline and its first point is the
first point of the input. -/
theorem resample_first_point {F : Type} [LinearOrderedField F] [FloorRing F]
    (m : SphereMath F) (front : F × F) (rest : List (F × F)) (resolution : F)
    (preserve : Bool) (h : 0 < resolution) :
    ∃ res, resample_spherical_polyline m (front :: rest) resolution preserve = .ok res ∧
      res.head? = some front := by
  have hres : 0 < resolution * RAD_PER_METER F := mul_pos h (RAD_PER_METER_pos F)
  obtain ⟨samples, _, hs⟩ := resampleFrom_ok m (resolution * RAD_PER_METER F) preserve hres
    rest (resolution * RAD_PER_METER F) front [front] (le_of_lt hres)
  exact ⟨_, hs, by simp⟩

theorem resample_first_point_witness :
    (0 : ℝ) < 1 ∧ ∃ res,
      resample_spherical_polyline
          (⟨Real.sin, Real.cos,
            fun x => if -1 ≤ x ∧ x ≤ 1 then some (Real.arccos x) else none,
            fun y x => Complex.arg ⟨x, y⟩, Real.sqrt, Real.pi / 180, 180 / Real.pi⟩ :
            SphereMath ℝ)
          ((0, 0) :: [(0, 1)]) 1 false = .ok res ∧
        res.head? = some (0, 0) :=
  ⟨by norm_num, resample_first_point _ (0, 0) [(0, 1)] 1 false (by norm_num)⟩

/-- C16: for the empty polyline and any other arguments, `resample_spherical_polyline`,
`uniform_resample_spherical_polyline` and `resample_polyline` each return the empty
polyline, without an error. -/
theorem resample_empty {F : Type} [LinearOrderedField F] [FloorRing F] (m : SphereMath F)
    (Distance : F × F → F × F → F) (resolution length : F) (preserve : Bool) (n : Nat) :
    resample_spherical_polyline m [] resolution preserve = .ok [] ∧
      uniform_resample_spherical_polyline m [] length n = .ok [] ∧
      resample_polyline Distance [] length resolution = .ok [] :=
  ⟨rfl, rfl, rfl⟩

/-- C17: for every non-empty polyline and resolution `r > 0`,
`resample_spherical_polyline` with `preserve = true` returns the first point followed,
for each later vertex, by the samples placed on the segment that ends at it and then the
vertex itself; so the input is a subsequence of the output and both end in the same
point. -/
theorem resample_preserve {F : Type} [LinearOrderedField F] [FloorRing F]
    (m : SphereMath F) (front : F × F) (rest : List (F × F)) (resolution : F)
    (h : 0 < resolution) :
    ∃ (res : List (F × F)) (samples : List (List (F × F))),
      resample_spherical_polyline m (front :: rest) resolution true = .ok res ∧
        samples.length = rest.length ∧
        res = front :: (List.zipWith (fun s p => s ++ [p]) samples rest).flatten ∧
        (front :: rest).Sublist res ∧ res.getLast? = (front :: rest).getLast? := by
  have hres : 0 < resolution * RAD_PER_METER F := mul_pos h (RAD_PER_METER_pos F)
  obtain ⟨samples, hl, hs⟩ := resampleFrom_ok m (resolution * RAD_PER_METER F) true hres
    rest (resolution * RAD_PER_METER F) front [front] (le_of_lt hres)
  obtain ⟨h1, h2⟩ := sublist_zipWith_append rest samples hl
  refine ⟨_, samples, hs, hl, by simp, ?_, ?_⟩
  · simpa using h1
  · cases rest with
    | nil =>
      cases samples with
      | nil => simp
      | cons _ _ => simp at hl
    | cons q rest =>
      have hz := h2 (by simp)
      have hne : (List.zipWith (fun s p => s ++ [p]) samples (q :: rest)).flatten ≠ [] := by
        intro h0
        rw [h0] at hz
        cases rest <;> simp [List.getLast?] at hz
      obtain ⟨a, l, hal⟩ := List.exists_cons_of_ne_nil hne
      simp only [if_true, List.singleton_append]
      rw [List.getLast?_cons_cons, ← hz, hal, List.getLast?_cons_cons]

theorem resample_preserve_witness :
    (0 : ℝ) < 1 ∧ ∃ (res : List (ℝ × ℝ)) (samples : List (List (ℝ × ℝ))),
      resample_spherical_polyline
          (⟨Real.sin, Real.cos,
            fun x => if -1 ≤ x ∧ x ≤ 1 then some (Real.arccos x) else none,
            fun y x => Complex.arg ⟨x, y⟩, Real.sqrt, Real.pi / 180, 180 / Real.pi⟩ :
            SphereMath ℝ)
          ((0, 0) :: [(0, 1)]) 1 true = .ok res ∧
        samples.length = [((0 : ℝ), (1 : ℝ))].length ∧
        res = (0, 0) :: (List.zipWith (fun s p => s ++ [p]) samples [(0, 1)]).flatten ∧
        ((0, 0) :: [(0, 1)]).Sublist res ∧ res.getLast? = ((0, 0) :: [(0, 1)]).getLast? :=
  ⟨by norm_num, resample_preserve _ (0, 0) [(0, 1)] 1 (by norm_num)⟩

/-- C18: for the empty polyline and for a polyline of a single point, and every `dist`,
`trim_front` returns the empty polyline and leaves the polyline unchanged. -/
theorem trim_front_short {P F : Type} [LinearOrderedField F] (Distance : P → P → F)
    (PointAlongSegment : P → P → F → P) (dist : F) (p : P) :
    trim_front Distance PointAlongSegment [] dist = some ([], []) ∧
      trim_front Distance PointAlongSegment [p] dist = some ([], [p]) :=
  ⟨rfl, rfl⟩

/-- C19: for every polyline with at least two points, with distances that are not
negative, and every `dist` greater than its total length, `trim_front` returns all the
points of the polyline in order and leaves the polyline empty. -/
theorem trim_front_all {P F : Type} [LinearOrderedField F] (Distance : P → P → F)
    (PointAlongSegment : P → P → F → P) (hD : ∀ a b, 0 ≤ Distance a b)
    (p1 p2 : P) (rest : List P) (dist : F)
    (h : polylineLength Distance (p1 :: p2 :: rest) < dist) :
    trim_front Distance PointAlongSegment (p1 :: p2 :: rest) dist =
      some (p1 :: p2 :: rest, []) := by
  unfold trim_front
  simp only
  rw [trimLoop_all Distance PointAlongSegment dist hD _ 0 [p1] (by linarith)]
  simp

theorem trim_front_all_witness :
    (∀ a b : ℚ × ℚ, 0 ≤ |b.1 - a.1| + |b.2 - a.2|) ∧
      polylineLength (fun a b : ℚ × ℚ => |b.1 - a.1| + |b.2 - a.2|)
        ((0, 0) :: (0, 1) :: [(0, 2)]) < 3 ∧
      trim_front (fun a b : ℚ × ℚ => |b.1 - a.1| + |b.2 - a.2|)
          (fun a b t => (a.1 + t * (b.1 - a.1), a.2 + t * (b.2 - a.2)))
          ((0, 0) :: (0, 1) :: [(0, 2)]) 3 = some ((0, 0) :: (0, 1) :: [(0, 2)], []) :=
  ⟨fun a b => by positivity, by norm_num [polylineLength],
    trim_front_all _ _ (fun a b => by positivity) (0, 0) (0, 1) [(0, 2)] 3
      (by norm_num [polylineLength])⟩

/-- Whatever `Distance` and `PointAlongSegment` are, `trim_front` of
`[(0,0),(0,1),(0,2)]` by the length of the first segment returns three points. -/
theorem trim_front_vertex_length {F : Type} [LinearOrderedField F]
    (Distance : F × F → F × F → F) (PointAlongSegment : F × F → F × F → F → F × F) :
    (∃ result left,
      trim_front Distance PointAlongSegment [(0, 0), (0, 1), (0, 2)]
          (Distance (0, 0) (0, 1)) = some (result, left) ∧ result.length = 3) ∧
      ∀ left, trim_front Distance PointAlongSegment [(0, 0), (0, 1), (0, 2)]
        (Distance (0, 0) (0, 1)) ≠ some ([(0, 0), (0, 1)], left) := by
  have key : ∃ result left,
      trim_front Distance PointAlongSegment [(0, 0), (0, 1), (0, 2)]
          (Distance (0, 0) (0, 1)) = some (result, left) ∧ result.length = 3 := by
    by_cases hc : 0 < Distance (0, 1) (0, 2)
    · refine ⟨[(0, 0), (0, 1), PointAlongSegment (0, 1) (0, 2) 0],
        [PointAlongSegment (0, 1) (0, 2) 0, (0, 2)], ?_, by simp⟩
      simp [-Prod.mk_zero_zero, trim_front, trimLoop, hc, ne_of_gt hc]
    · refine ⟨[(0, 0), (0, 1), (0, 2)], [], ?_, by simp⟩
      simp [-Prod.mk_zero_zero, trim_front, trimLoop, hc]
  refine ⟨key, ?_⟩
  intro left h
  obtain ⟨result, left', he, hl⟩ := key
  rw [he] at h
  injection h with h
  injection h with h1 h2
  rw [h1] at hl
  simp at hl

/-- In exact real arithmetic: for planar points with the Euclidean `Distance` and the linear
`PointAlongSegment`, `trim_front` of `[(0,0),(0,1),(0,2)]` by the length of the first
segment returns three points, so not `[(0,0),(0,1)]`. -/
theorem trim_front_vertex_three_points :
    (∃ result left,
      trim_front (fun a b : ℝ × ℝ => Real.sqrt ((b.1 - a.1) ^ 2 + (b.2 - a.2) ^ 2))
          (fun a b t => (a.1 + t * (b.1 - a.1), a.2 + t * (b.2 - a.2)))
          [(0, 0), (0, 1), (0, 2)] (Real.sqrt (((0 : ℝ) - 0) ^ 2 + ((1 : ℝ) - 0) ^ 2)) =
        some (result, left) ∧ result.length = 3) ∧
      ∀ left,
        trim_front (fun a b : ℝ × ℝ => Real.sqrt ((b.1 - a.1) ^ 2 + (b.2 - a.2) ^ 2))
          (fun a b t => (a.1 + t * (b.1 - a.1), a.2 + t * (b.2 - a.2)))
          [(0, 0), (0, 1), (0, 2)] (Real.sqrt (((0 : ℝ) - 0) ^ 2 + ((1 : ℝ) - 0) ^ 2)) ≠
        some ([(0, 0), (0, 1)], left) :=
  trim_front_vertex_length (fun a b : ℝ × ℝ => Real.sqrt ((b.1 - a.1) ^ 2 + (b.2 - a.2) ^ 2))
    (fun a b t => (a.1 + t * (b.1 - a.1), a.2 + t * (b.2 - a.2)))

/-- In exact arithmetic: if the second segment has a positive length and the point along it
at fraction 0 is its first point, `trim_front` of `[(0,0),(0,1),(0,2)]` by the length of
the first segment returns `[(0,0),(0,1),(0,1)]` and leaves `[(0,1),(0,2)]`. -/
theorem trim_front_vertex {F : Type} [LinearOrderedField F]
    (Distance : F × F → F × F → F) (PointAlongSegment : F × F → F × F → F → F × F)
    (hpos : 0 < Distance (0, 1) (0, 2))
    (hfrac : PointAlongSegment (0, 1) (0, 2) 0 = (0, 1)) :
    trim_front Distance PointAlongSegment [(0, 0), (0, 1), (0, 2)] (Distance (0, 0) (0, 1)) =
      some ([(0, 0), (0, 1), (0, 1)], [(0, 1), (0, 2)]) := by
  simp [-Prod.mk_zero_zero, trim_front, trimLoop, hpos, ne_of_gt hpos, hfrac]

theorem trim_front_vertex_witness :
    (0 : ℚ) < |(0 : ℚ) - 0| + |(2 : ℚ) - 1| ∧
      trim_front (fun a b : ℚ × ℚ => |b.1 - a.1| + |b.2 - a.2|)
          (fun a b t => (a.1 + t * (b.1 - a.1), a.2 + t * (b.2 - a.2)))
          [(0, 0), (0, 1), (0, 2)] (|(0 : ℚ) - 0| + |(1 : ℚ) - 0|) =
        some ([(0, 0), (0, 1), (0, 1)], [(0, 1), (0, 2)]) :=
  ⟨by norm_num, trim_front_vertex (fun a b : ℚ × ℚ => |b.1 - a.1| + |b.2 - a.2|)
    (fun a b t => (a.1 + t * (b.1 - a.1), a.2 + t * (b.2 - a.2)))
    (by norm_num) (by norm_num)⟩

/-! ## Theorems: mass balance of `trim_front` -/

theorem polylineLength_snoc {P F : Type} [LinearOrderedField F] (Distance : P → P → F) :
    ∀ (init : List P) (a b : P),
      polylineLength Distance (init ++ [a] ++ [b]) =
        polylineLength Distance (init ++ [a]) + Distance a b := by
  intro init
  induction init with
  | nil => intro a b; simp [polylineLength]
  | cons x t ih =>
    intro a b
    cases t with
    | nil => simp [polylineLength]
    | cons y t =>
      have h := ih a b
      simp only [List.cons_append, polylineLength, List.append_eq] at h ⊢
      rw [h]
      ring

theorem trimLoop_balance {P F : Type} [LinearOrderedField F] (Distance : P → P → F)
    (PointAlongSegment : P → P → F → P) (dist : F)
    (hadd : ∀ a b f, 0 ≤ f → f ≤ 1 →
      Distance a (PointAlongSegment a b f) = f * Distance a b ∧
        Distance (PointAlongSegment a b f) b = (1 - f) * Distance a b) :
    ∀ (rest : List P) (p1 : P) (init : List P),
      polylineLength Distance (init ++ [p1]) ≤ dist →
      ∃ trimmed left,
        trimLoop Distance PointAlongSegment dist (p1 :: rest)
            (polylineLength Distance (init ++ [p1])) (init ++ [p1]) = some (trimmed, left) ∧
          polylineLength Distance trimmed ≤ dist ∧
          polylineLength Distance trimmed + polylineLength Distance left =
            polylineLength Distance (init ++ [p1]) + polylineLength Distance (p1 :: rest) := by
  intro rest
  induction rest with
  | nil =>
    intro p1 init h
    exact ⟨init ++ [p1], [], by simp [trimLoop], h, by simp [polylineLength]⟩
  | cons p2 rest ih =>
    intro p1 init h
    rw [trimLoop]
    simp only
    by_cases hc : polylineLength Distance (init ++ [p1]) + Distance p1 p2 > dist
    · rw [if_pos hc]
      have hpos : 0 < Distance p1 p2 := by linarith
      rw [if_neg (ne_of_gt hpos)]
      have f0 : 0 ≤ (dist - polylineLength Distance (init ++ [p1])) / Distance p1 p2 :=
        div_nonneg (by linarith) (le_of_lt hpos)
      have f1 : (dist - polylineLength Distance (init ++ [p1])) / Distance p1 p2 ≤ 1 := by
        rw [div_le_one hpos]
        linarith
      obtain ⟨a1, a2⟩ := hadd p1 p2 _ f0 f1
      have e : (dist - polylineLength Distance (init ++ [p1])) / Distance p1 p2 *
          Distance p1 p2 = dist - polylineLength Distance (init ++ [p1]) :=
        div_mul_cancel₀ _ (ne_of_gt hpos)
      refine ⟨_, _, rfl, ?_, ?_⟩
      · rw [polylineLength_snoc, a1, e]
        linarith
      · rw [polylineLength_snoc, a1, e]
        simp only [polylineLength]
        rw [a2, sub_mul, e]
        ring
    · rw [if_neg hc]
      have h' : polylineLength Distance (init ++ [p1] ++ [p2]) ≤ dist := by
        rw [polylineLength_snoc]
        exact not_lt.1 hc
      obtain ⟨trimmed, left, e, b1, b2⟩ := ih p2 (init ++ [p1]) h'
      rw [polylineLength_snoc] at e b2
      refine ⟨trimmed, left, e, b1, ?_⟩
      rw [b2]
      simp only [polylineLength]
      ring

/-- C21: trim mass balance. With `Distance` additive along `PointAlongSegment`, for every
polyline with at least two points and every `dist >= 0`, `trim_front` returns a polyline
of length at most `dist`, and the lengths of the returned polyline and of the polyline
left behind add up to the length of the polyline before the call. -/
theorem trim_front_mass_balance {P F : Type} [LinearOrderedField F] (Distance : P → P → F)
    (PointAlongSegment : P → P → F → P)
    (hadd : ∀ a b f, 0 ≤ f → f ≤ 1 →
      Distance a (PointAlongSegment a b f) = f * Distance a b ∧
        Distance (PointAlongSegment a b f) b = (1 - f) * Distance a b)
    (front second : P) (rest : List P) (dist : F) (hd : 0 ≤ dist) :
    ∃ trimmed left,
      trim_front Distance PointAlongSegment (front :: second :: rest) dist =
          some (trimmed, left) ∧
        polylineLength Distance trimmed ≤ dist ∧
        polylineLength Distance trimmed + polylineLength Distance left =
          polylineLength Distance (front :: second :: rest) := by
  have h := trimLoop_balance Distance PointAlongSegment dist hadd (second :: rest) front []
    (by simpa [polylineLength] using hd)
  simpa [trim_front, polylineLength] using h

theorem trim_front_mass_balance_witness :
    (0 : ℚ) ≤ 3 / 2 ∧ ∃ trimmed left,
      trim_front (fun a b : ℚ => |b - a|) (fun a b f => a + f * (b - a)) [0, 1, 3] (3 / 2) =
          some (trimmed, left) ∧
        polylineLength (fun a b : ℚ => |b - a|) trimmed ≤ 3 / 2 ∧
        polylineLength (fun a b : ℚ => |b - a|) trimmed +
            polylineLength (fun a b : ℚ => |b - a|) left =
          polylineLength (fun a b : ℚ => |b - a|) [0, 1, 3] :=
  ⟨by norm_num,
    trim_front_mass_balance (fun a b : ℚ => |b - a|) (fun a b f => a + f * (b - a))
      (by
        intro a b f h0 h1
        constructor
        · show |a + f * (b - a) - a| = f * |b - a|
          rw [show a + f * (b - a) - a = f * (b - a) by ring, abs_mul, abs_of_nonneg h0]
        · show |b - (a + f * (b - a))| = (1 - f) * |b - a|
          rw [show b - (a + f * (b - a)) = (1 - f) * (b - a) by ring, abs_mul,
            abs_of_nonneg (by linarith : (0 : ℚ) ≤ 1 - f)])
      0 1 [3] (3 / 2) (by norm_num)⟩

/-! ## Theorems: trimming a shape between two markers -/

theorem trimAdvance_bounds {P F : Type} [LinearOrderedField F] (Distance : P → P → F)
    (limit : F) :
    ∀ (todo : List P) (i : Nat) (along : F),
      i ≤ trimAdvance Distance limit todo i along ∧
        trimAdvance Distance limit todo i along ≤ i + (todo.length - 1) := by
  intro todo
  induction todo with
  | nil => intro i along; simp [trimAdvance]
  | cons p todo ih =>
    intro i along
    cases todo with
    | nil => simp [trimAdvance]
    | cons q rest =>
      rw [trimAdvance]
      split
      · have := ih (i + 1) (along + Distance q p)
        simp only [List.length_cons] at this ⊢
        omega
      · simp

theorem trimAdvance_pos {P F : Type} [LinearOrderedField F] (Distance : P → P → F)
    (limit : F) (p q : P) (rest : List P) (i : Nat) (along : F) (h : along ≤ limit) :
    i + 1 ≤ trimAdvance Distance limit (p :: q :: rest) i along := by
  rw [trimAdvance, if_pos h]
  exact (trimAdvance_bounds Distance limit (q :: rest) (i + 1) _).1

/-- The first clip of `trim_shape` with a valid `start_vertex`, at least two points and
`start >= 0`: the shape becomes `start_vertex` followed by a non-empty tail of the
shape. -/
theorem trim_shape_start {P F : Type} [LinearOrderedField F] (Distance : P → P → F)
    (start : F) (front second : P) (rest : List P) (hs : 0 ≤ start) :
    ∃ k q tail, trimAdvance Distance start (front :: second :: rest) 0 0 = k + 1 ∧
      (front :: second :: rest).drop (k + 1) = q :: tail := by
  have h1 := trimAdvance_pos Distance start front second rest 0 0 hs
  have h2 := (trimAdvance_bounds Distance start (front :: second :: rest) 0 0).2
  obtain ⟨k, hk⟩ : ∃ k, trimAdvance Distance start (front :: second :: rest) 0 0 = k + 1 :=
    ⟨trimAdvance Distance start (front :: second :: rest) 0 0 - 1, by omega⟩
  have hlen : ((front :: second :: rest).drop (k + 1)).length ≠ 0 := by
    rw [List.length_drop]
    simp only [List.length_cons] at h2 ⊢
    omega
  cases hd : (front :: second :: rest).drop (k + 1) with
  | nil => rw [hd] at hlen; exact absurd rfl hlen
  | cons q tail => exact ⟨k, q, tail, hk, hd⟩

/-- C22, as the claim states it, fails: with an invalid `start_vertex` and a valid
`end_vertex`, the only point of a one-point shape is replaced by `end_vertex`, so the
first vertex after the call is not the first vertex before. -/
theorem trim_shape_first_replaced :
    PointLL_IsValid (50159344557, 50159344557) = false ∧
      trim_shape PointLL_IsValid (fun a b : ℚ × ℚ => |a.1 - b.1| + |a.2 - b.2|)
        0 (50159344557, 50159344557) 0 (5, 5) [(1, 1)] = some [(5, 5)] := by
  constructor
  · decide
  · decide

/-- C22 (amended): in `trim_shape` an invalid endpoint leaves that end of a shape with at
least two points alone when the other marker is not negative: with `start_vertex`
invalid and `end >= 0` the first vertex is unchanged, with `end_vertex` invalid and
`start >= 0` the last vertex is unchanged, and with both invalid every shape is exactly
unchanged. -/
theorem trim_shape_invalid {P F : Type} [LinearOrderedField F] (IsValid : P → Bool)
    (Distance : P → P → F) (start : F) (start_vertex : P) (end' : F) (end_vertex : P)
    (front second : P) (rest : List P) :
    (IsValid start_vertex = false → 0 ≤ end' →
      ∃ res, trim_shape IsValid Distance start start_vertex end' end_vertex
          (front :: second :: rest) = some res ∧ res.head? = some front) ∧
    (IsValid end_vertex = false → 0 ≤ start →
      ∃ res, trim_shape IsValid Distance start start_vertex end' end_vertex
          (front :: second :: rest) = some res ∧
        res.getLast? = (front :: second :: rest).getLast?) ∧
    (IsValid start_vertex = false → IsValid end_vertex = false →
      ∀ shape, trim_shape IsValid Distance start start_vertex end' end_vertex shape =
        some shape) := by
  refine ⟨?_, ?_, ?_⟩
  · intro h1 h2
    by_cases he : IsValid end_vertex = true
    · have hp := trimAdvance_pos Distance end' front second rest 0 0 h2
      obtain ⟨j, hj⟩ : ∃ j, trimAdvance Distance end' (front :: second :: rest) 0 0 = j + 1 :=
        ⟨trimAdvance Distance end' (front :: second :: rest) 0 0 - 1, by omega⟩
      refine ⟨_, by simp only [trim_shape, h1, he, if_true, List.isEmpty_cons]; rfl, ?_⟩
      rw [hj]
      simp
    · exact ⟨front :: second :: rest, by simp [trim_shape, h1, he], by simp⟩
  · intro h1 h2
    by_cases hs : IsValid start_vertex = true
    · obtain ⟨k, q, tail, hk, hd⟩ := trim_shape_start Distance start front second rest h2
      refine ⟨start_vertex :: q :: tail, by simp [trim_shape, h1, hs, hk, hd], ?_⟩
      have e : front :: second :: rest =
          (front :: second :: rest).take (k + 1) ++ q :: tail := by
        rw [← hd, List.take_append_drop]
      rw [e, List.getLast?_cons_cons, List.getLast?_append_of_ne_nil _ (List.cons_ne_nil _ _)]
    · exact ⟨front :: second :: rest, by simp [trim_shape, h1, hs], rfl⟩
  · intro h1 h2 shape
    simp [trim_shape, h1, h2]

theorem trim_shape_invalid_witness :
    PointLL_IsValid (50159344557, 50159344557) = false ∧ (0 : ℚ) ≤ 1 ∧
      ∃ res, trim_shape PointLL_IsValid (fun a b : ℚ × ℚ => |a.1 - b.1| + |a.2 - b.2|)
          0 (50159344557, 50159344557) 1 (0, 1) [(0, 0), (0, 2), (0, 3)] = some res ∧
        res.head? = some (0, 0) :=
  have h : PointLL_IsValid (50159344557, 50159344557) = false := by decide
  ⟨h, by norm_num,
    (trim_shape_invalid PointLL_IsValid (fun a b : ℚ × ℚ => |a.1 - b.1| + |a.2 - b.2|)
      0 (50159344557, 50159344557) 1 (0, 1) (0, 0) (0, 2) [(0, 3)]).1 h (by norm_num)⟩

/-- C23: for every shape with at least two points, every `0 <= start <= end` and valid
`start_vertex` and `end_vertex`, after `trim_shape` the shape is `start_vertex`, then a
contiguous run of original vertices in their original order, then `end_vertex`. -/
theorem trim_shape_valid {P F : Type} [LinearOrderedField F] (IsValid : P → Bool)
    (Distance : P → P → F) (start : F) (start_vertex : P) (end' : F) (end_vertex : P)
    (front second : P) (rest : List P) (h0 : 0 ≤ start) (h1 : start ≤ end')
    (hs : IsValid start_vertex = true) (he : IsValid end_vertex = true) :
    ∃ i n, trim_shape IsValid Distance start start_vertex end' end_vertex
        (front :: second :: rest) =
      some (start_vertex :: ((front :: second :: rest).drop i).take n ++ [end_vertex]) := by
  obtain ⟨k, q, tail, hk, hd⟩ := trim_shape_start Distance start front second rest h0
  have hp := trimAdvance_pos Distance end' start_vertex q tail 0 start h1
  obtain ⟨j, hj⟩ : ∃ j, trimAdvance Distance end' (start_vertex :: q :: tail) 0 start = j + 1 :=
    ⟨trimAdvance Distance end' (start_vertex :: q :: tail) 0 start - 1, by omega⟩
  refine ⟨k + 1, j, ?_⟩
  simp only [trim_shape, hs, he, hk, hd, if_true, List.isEmpty_cons]
  rw [show (if false = true then (none : Option (List P))
      else some (List.take (trimAdvance Distance end' (start_vertex :: q :: tail) 0 start)
        (start_vertex :: q :: tail) ++ [end_vertex])) =
    some (List.take (trimAdvance Distance end' (start_vertex :: q :: tail) 0 start)
        (start_vertex :: q :: tail) ++ [end_vertex]) from rfl, hj]
  simp

theorem trim_shape_valid_witness :
    (0 : ℚ) ≤ 1 ∧ (1 : ℚ) ≤ 4 ∧ PointLL_IsValid (0, 1) = true ∧
      PointLL_IsValid (0, 4) = true ∧
      ∃ i n, trim_shape PointLL_IsValid (fun a b : ℚ × ℚ => |a.1 - b.1| + |a.2 - b.2|)
          1 (0, 1) 4 (0, 4) [(0, 0), (0, 2), (0, 3), (0, 5)] =
        some ((0, 1) :: (([(0, 0), (0, 2), (0, 3), (0, 5)] : List (ℚ × ℚ)).drop i).take n ++
          [(0, 4)]) :=
  ⟨by norm_num, by norm_num, by decide, by decide,
    trim_shape_valid PointLL_IsValid (fun a b : ℚ × ℚ => |a.1 - b.1| + |a.2 - b.2|)
      1 (0, 1) 4 (0, 4) (0, 0) (0, 2) [(0, 3), (0, 5)] (by norm_num) (by norm_num)
      (by decide) (by decide)⟩

/-! ## Theorems: planar predicates -/

theorem shoelace_edgesFrom (front : Point) :
    ∀ (todo : List Point) (v : Point),
      ((edgesFrom front (v :: todo)).map (fun e => e.1.1 * e.2.2 - e.1.2 * e.2.1)).sum =
        shoelace (v :: todo) +
          (((v :: todo).getLast (List.cons_ne_nil _ _)).1 * front.2 -
            ((v :: todo).getLast (List.cons_ne_nil _ _)).2 * front.1) := by
  intro todo
  induction todo with
  | nil => intro v; simp [edgesFrom, shoelace]
  | cons w r ih =>
    intro v
    have h := ih w
    simp only [edgesFrom, List.map_cons, List.sum_cons, List.headD_cons] at h ⊢
    rw [h, List.getLast_cons (List.cons_ne_nil w r)]
    simp only [shoelace]
    ring

theorem shoelace_zipWith :
    ∀ (l : List Point) (a c : Point),
      (List.zipWith (fun p q : Point => p.1 * q.2 - q.1 * p.2) (a :: l) (l ++ [c])).sum =
        shoelace (a :: l) +
          (((a :: l).getLast (List.cons_ne_nil _ _)).1 * c.2 -
            ((a :: l).getLast (List.cons_ne_nil _ _)).2 * c.1) := by
  intro l
  induction l with
  | nil => intro a c; simp [shoelace]; ring
  | cons w r ih =>
    intro a c
    have h := ih w c
    simp only [List.cons_append, List.zipWith_cons_cons, List.sum_cons] at h ⊢
    rw [h, List.getLast_cons (List.cons_ne_nil w r)]
    simp only [shoelace]
    ring

theorem polygon_area_back (front : Point) (rest : List Point) :
    polygon_area front rest =
      (shoelace (front :: rest) +
        (((front :: rest).getLast (List.cons_ne_nil _ _)).1 * front.2 -
          ((front :: rest).getLast (List.cons_ne_nil _ _)).2 * front.1)) * (1 / 2) := by
  unfold polygon_area
  simp only
  split
  · next h => rw [h]; ring
  · ring

theorem polygon_area_ringEdges (front : Point) (rest : List Point) :
    polygon_area front rest =
      ((ringEdges (front :: rest)).map (fun e => e.1.1 * e.2.2 - e.1.2 * e.2.1)).sum *
        (1 / 2) := by
  rw [polygon_area_back, ringEdges, List.headD_cons, shoelace_edgesFrom]

theorem polygon_area_cross (o front : Point) (rest : List Point) :
    polygon_area front rest =
      ((ringEdges (front :: rest)).map (fun e => cross e.1 e.2 o)).sum * (1 / 2) := by
  rw [polygon_area_ringEdges]
  have h1 := ringEdges_telescope (fun p : Point => p.1) (front :: rest)
  have h2 := ringEdges_telescope (fun p : Point => p.2) (front :: rest)
  have h : ∀ L : List (Point × Point),
      (L.map (fun e => cross e.1 e.2 o)).sum =
        (L.map (fun e => e.1.1 * e.2.2 - e.1.2 * e.2.1)).sum +
          o.2 * (L.map (fun e => (fun p : Point => p.1) e.2 - (fun p : Point => p.1) e.1)).sum -
          o.1 * (L.map (fun e => (fun p : Point => p.2) e.2 - (fun p : Point => p.2) e.1)).sum := by
    intro L
    induction L with
    | nil => simp
    | cons e L ih =>
      simp only [List.map_cons, List.sum_cons]
      rw [ih]
      simp only [cross]
      ring
  rw [h, h1, h2]
  ring

theorem polygon_area_convex (front : Point) (rest : List Point) :
    (ConvexCCW (front :: rest) → 0 ≤ polygon_area front rest) ∧
      (ConvexCW (front :: rest) → polygon_area front rest ≤ 0) ∧
      (ConvexCCW (front :: rest) →
        ∀ e ∈ ringEdges (front :: rest), ∀ v ∈ front :: rest, 0 < cross e.1 e.2 v →
          0 < polygon_area front rest) := by
  refine ⟨fun h => ?_, fun h => ?_, fun h e he v hv hpos => ?_⟩
  · rw [polygon_area_cross front]
    have : 0 ≤ ((ringEdges (front :: rest)).map (fun e => cross e.1 e.2 front)).sum :=
      List.sum_nonneg (by
        intro x hx
        obtain ⟨e, he, rfl⟩ := List.mem_map.1 hx
        exact h e he front (List.mem_cons_self _ _))
    linarith
  · rw [polygon_area_cross front]
    have : 0 ≤ ((ringEdges (front :: rest)).map (fun e => -cross e.1 e.2 front)).sum :=
      List.sum_nonneg (by
        intro x hx
        obtain ⟨e, he, rfl⟩ := List.mem_map.1 hx
        have := h e he front (List.mem_cons_self _ _)
        linarith)
    have e : ((ringEdges (front :: rest)).map (fun e => -cross e.1 e.2 front)).sum =
        -((ringEdges (front :: rest)).map (fun e => cross e.1 e.2 front)).sum := by
      generalize ringEdges (front :: rest) = L
      induction L with
      | nil => simp
      | cons x L ih => simp only [List.map_cons, List.sum_cons, ih]; ring
    rw [e] at this
    linarith
  · rw [polygon_area_cross v]
    have : 0 < ((ringEdges (front :: rest)).map (fun e => cross e.1 e.2 v)).sum := by
      obtain ⟨l1, l2, hl⟩ := List.append_of_mem he
      rw [hl, List.map_append, List.sum_append, List.map_cons, List.sum_cons]
      have n1 : 0 ≤ (l1.map (fun e => cross e.1 e.2 v)).sum :=
        List.sum_nonneg (by
          intro x hx
          obtain ⟨e', he', rfl⟩ := List.mem_map.1 hx
          exact h e' (by rw [hl]; exact List.mem_append_left _ he') v hv)
      have n2 : 0 ≤ (l2.map (fun e => cross e.1 e.2 v)).sum :=
        List.sum_nonneg (by
          intro x hx
          obtain ⟨e', he', rfl⟩ := List.mem_map.1 hx
          exact h e' (by rw [hl]; exact List.mem_append_right _ (List.mem_cons_of_mem _ he'))
            v hv)
      linarith
    linarith

/-- C24 (amended): in exact arithmetic, for every non-empty ring `polygon_area` is one half
of the cyclic shoelace sum of
`x_i * y_(i+1) - x_(i+1) * y_i`, and appending the first point again does not change the
area. -/
theorem polygon_area_cyclic (front : Point) (rest : List Point) :
    polygon_area front rest = cyclicShoelace (front :: rest) / 2 ∧
      polygon_area front (rest ++ [front]) = polygon_area front rest := by
  have h : ∀ rest : List Point,
      polygon_area front rest = cyclicShoelace (front :: rest) / 2 := by
    intro rest
    rw [polygon_area_back, cyclicShoelace]
    have : (front :: rest).rotate 1 = rest ++ [front] := by
      rw [List.rotate_cons_succ, List.rotate_zero]
    rw [this, shoelace_zipWith]
    ring
  refine ⟨h rest, ?_⟩
  rw [polygon_area_ringEdges, polygon_area_ringEdges]
  have : ringEdges (front :: (rest ++ [front])) = ringEdges (front :: rest) ++ [(front, front)] := by
    simp only [ringEdges, List.headD_cons]
    rw [← List.cons_append, edgesFrom_append_front _ _ (List.cons_ne_nil _ _)]
  rw [this, List.map_append, List.sum_append]
  simp
  ring

/-- In exact arithmetic the sign of `polygon_area` is the orientation of the ring. For a
triangle
`[a, b, c]` the area is half the cross product of its edge vectors, so it is positive
exactly when the triangle is counter-clockwise; for a convex ring whose consecutive edge
vectors are never parallel the area is positive exactly when every cross product of
consecutive edge vectors is positive. -/
theorem polygon_area_sign (a b c front : Point) (rest : List Point) :
    (polygon_area a [b, c] = cross a b c / 2 ∧
      (0 < polygon_area a [b, c] ↔ 0 < cross a b c)) ∧
    (ConvexCCW (front :: rest) ∨ ConvexCW (front :: rest) →
      (∀ t ∈ turns (front :: rest), t ≠ 0) →
        (0 < polygon_area front rest ↔ ∀ t ∈ turns (front :: rest), 0 < t)) := by
  have ht : polygon_area a [b, c] = cross a b c / 2 := by
    rw [polygon_area_back]
    simp [shoelace, cross]
    ring
  refine ⟨⟨ht, by rw [ht]; constructor <;> intro h <;> linarith⟩, ?_⟩
  intro hconv hne
  have hmem : ∀ t ∈ turns (front :: rest),
      ∃ e ∈ ringEdges (front :: rest), ∃ v ∈ front :: rest, t = cross e.1 e.2 v := by
    intro t ht
    obtain ⟨x, hx, rfl⟩ := List.mem_map.1 ht
    obtain ⟨e, v⟩ := x
    have := List.of_mem_zip hx
    exact ⟨e, this.1, v, List.mem_rotate.1 this.2, rfl⟩
  obtain ⟨hccw, hcw, hstrict⟩ := polygon_area_convex front rest
  constructor
  · intro hpos t ht
    have hc : ConvexCCW (front :: rest) := by
      rcases hconv with h | h
      · exact h
      · exact absurd (hcw h) (not_le.2 hpos)
    obtain ⟨e, he, v, hv, rfl⟩ := hmem t ht
    exact lt_of_le_of_ne (hc e he v hv) (Ne.symm (hne _ ht))
  · intro hall
    have hne' : turns (front :: rest) ≠ [] := by
      simp [turns, ringEdges, edgesFrom, List.rotate_eq_nil_iff]
    obtain ⟨t, ht⟩ := List.exists_mem_of_ne_nil _ hne'
    obtain ⟨e, he, v, hv, rfl⟩ := hmem t ht
    have hp := hall _ ht
    have hc : ConvexCCW (front :: rest) := by
      rcases hconv with h | h
      · exact h
      · exact absurd (h e he v hv) (not_le.2 hp)
    exact hstrict hc e he v hv hp

theorem polygon_area_sign_witness :
    (ConvexCCW unitSquare ∨ ConvexCW unitSquare) ∧ (∀ t ∈ turns unitSquare, t ≠ 0) ∧
      (0 < polygon_area (0, 0) [(1, 0), (1, 1), (0, 1)] ↔ ∀ t ∈ turns unitSquare, 0 < t) := by
  have h1 : ConvexCCW unitSquare := by
    intro e he v hv
    simp only [unitSquare, ringEdges, edgesFrom, List.headD_cons, List.headD_nil,
      List.mem_cons, List.mem_singleton, List.not_mem_nil, or_false] at he hv
    rcases he with rfl | rfl | rfl | rfl <;> rcases hv with rfl | rfl | rfl | rfl <;>
      norm_num [cross]
  have h2 : ∀ t ∈ turns unitSquare, t ≠ 0 := by
    intro t ht
    simp [turns, unitSquare, ringEdges, edgesFrom, List.rotate, cross] at ht
    rw [ht]
    norm_num
  exact ⟨Or.inl h1, h2,
    (polygon_area_sign (0, 0) (1, 0) (1, 1) (0, 0) [(1, 0), (1, 1), (0, 1)]).2 (Or.inl h1) h2⟩

/-- In exact arithmetic `intersect` returns false exactly when the absolute value of the
cross-determinant `(u.x - v.x) * (a.y - b.y) - (a.x - b.x) * (u.y - v.y)` is below
`1e-5`; this is so for every pair of parallel lines and when `u = v` or `a = b`. -/
theorem intersect_false_iff (u v a b : Point) :
    (intersect u v a b = none ↔
      |(u.1 - v.1) * (a.2 - b.2) - (a.1 - b.1) * (u.2 - v.2)| < 1 / 100000) ∧
    ((∃ k : ℚ, u.1 - v.1 = k * (a.1 - b.1) ∧ u.2 - v.2 = k * (a.2 - b.2)) ∨
      (∃ k : ℚ, a.1 - b.1 = k * (u.1 - v.1) ∧ a.2 - b.2 = k * (u.2 - v.2)) →
        intersect u v a b = none) ∧
    (u = v → intersect u v a b = none) ∧ (a = b → intersect u v a b = none) := by
  have h : intersect u v a b = none ↔
      |(u.1 - v.1) * (a.2 - b.2) - (a.1 - b.1) * (u.2 - v.2)| < 1 / 100000 := by
    unfold intersect
    simp only
    split <;> simp_all
  have h0 : (u.1 - v.1) * (a.2 - b.2) - (a.1 - b.1) * (u.2 - v.2) = 0 →
      intersect u v a b = none := by
    intro h0
    rw [h, h0]
    norm_num
  refine ⟨h, ?_, ?_, ?_⟩
  · rintro (⟨k, h1, h2⟩ | ⟨k, h1, h2⟩) <;> apply h0 <;> rw [h1, h2] <;> ring
  · rintro rfl
    apply h0
    ring
  · rintro rfl
    apply h0
    ring

theorem intersect_false_iff_witness :
    intersect (0, 0) (1, 1) (0, 1) (2, 3) = none ∧ intersect (0, 0) (0, 0) (0, 1) (2, 3) = none :=
  ⟨(intersect_false_iff (0, 0) (1, 1) (0, 1) (2, 3)).2.1 (Or.inr ⟨2, by norm_num, by norm_num⟩),
    (intersect_false_iff (0, 0) (0, 0) (0, 1) (2, 3)).2.2.1 rfl⟩

/-- C27: whenever `intersect` returns true, the point written to `i` is collinear with
`u` and `v` and collinear with `a` and `b`. -/
theorem intersect_on_both_lines (u v a b i : Point) (h : intersect u v a b = some i) :
    cross u v i = 0 ∧ cross a b i = 0 := by
  unfold intersect at h
  simp only at h
  split at h
  · exact absurd h (by simp)
  · next hd =>
    have hne : (u.1 - v.1) * (a.2 - b.2) - (a.1 - b.1) * (u.2 - v.2) ≠ 0 := by
      intro h0
      rw [h0] at hd
      norm_num at hd
    have hi := Option.some.inj h
    subst hi
    simp only [cross]
    constructor
    · field_simp
      ring
    · field_simp
      ring

theorem intersect_on_both_lines_witness :
    intersect (0, 0) (2, 2) (0, 2) (2, 0) = some (1, 1) ∧
      cross (0, 0) (2, 2) ((1, 1) : Point) = 0 ∧ cross (0, 2) (2, 0) ((1, 1) : Point) = 0 :=
  have h : intersect (0, 0) (2, 2) (0, 2) (2, 0) = some (1, 1) := by
    norm_num [intersect, abs_lt]
  ⟨h, intersect_on_both_lines (0, 0) (2, 2) (0, 2) (2, 0) (1, 1) h⟩

theorem triangle_contains_false (a b c p : Point)
    (h : (c.1 - a.1) * (p.2 - a.2) - (c.2 - a.2) * (p.1 - a.1) = 0 ∨
      (b.1 - a.1) * (p.2 - a.2) - (b.2 - a.2) * (p.1 - a.1) = 0 ∨
      (c.1 - b.1) * (p.2 - b.2) - (c.2 - b.2) * (p.1 - b.1) = 0 ∨
      cross a b c = 0) :
    triangle_contains a b c p = false := by
  unfold triangle_contains
  simp only
  split
  · rfl
  · next hd =>
    have hden : ((c.1 - a.1) * (c.1 - a.1) + (c.2 - a.2) * (c.2 - a.2)) *
        ((b.1 - a.1) * (b.1 - a.1) + (b.2 - a.2) * (b.2 - a.2)) -
        ((c.1 - a.1) * (b.1 - a.1) + (c.2 - a.2) * (b.2 - a.2)) *
          ((c.1 - a.1) * (b.1 - a.1) + (c.2 - a.2) * (b.2 - a.2)) = cross a b c ^ 2 := by
      simp only [cross]
      ring
    have hne : cross a b c ≠ 0 := by
      intro h0
      rw [hden, h0] at hd
      norm_num at hd
    have hne2 : cross a b c ^ 2 ≠ 0 := pow_ne_zero 2 hne
    rw [hden]
    rcases h with h | h | h | h
    · -- `p` on the line through `a` and `c`: the weight `v` vanishes
      have hv : ((c.1 - a.1) * (c.1 - a.1) + (c.2 - a.2) * (c.2 - a.2)) *
          ((b.1 - a.1) * (p.1 - a.1) + (b.2 - a.2) * (p.2 - a.2)) -
          ((c.1 - a.1) * (b.1 - a.1) + (c.2 - a.2) * (b.2 - a.2)) *
            ((c.1 - a.1) * (p.1 - a.1) + (c.2 - a.2) * (p.2 - a.2)) =
          -cross a b c * ((c.1 - a.1) * (p.2 - a.2) - (c.2 - a.2) * (p.1 - a.1)) := by
        simp only [cross]
        ring
      rw [hv, h]
      norm_num
    · -- `p` on the line through `a` and `b`: the weight `u` vanishes
      have hu : ((b.1 - a.1) * (b.1 - a.1) + (b.2 - a.2) * (b.2 - a.2)) *
          ((c.1 - a.1) * (p.1 - a.1) + (c.2 - a.2) * (p.2 - a.2)) -
          ((c.1 - a.1) * (b.1 - a.1) + (c.2 - a.2) * (b.2 - a.2)) *
            ((b.1 - a.1) * (p.1 - a.1) + (b.2 - a.2) * (p.2 - a.2)) =
          cross a b c * ((b.1 - a.1) * (p.2 - a.2) - (b.2 - a.2) * (p.1 - a.1)) := by
        simp only [cross]
        ring
      rw [hu, h]
      norm_num
    · -- `p` on the line through `b` and `c`: the weights add up to one
      have huv : (((b.1 - a.1) * (b.1 - a.1) + (b.2 - a.2) * (b.2 - a.2)) *
          ((c.1 - a.1) * (p.1 - a.1) + (c.2 - a.2) * (p.2 - a.2)) -
          ((c.1 - a.1) * (b.1 - a.1) + (c.2 - a.2) * (b.2 - a.2)) *
            ((b.1 - a.1) * (p.1 - a.1) + (b.2 - a.2) * (p.2 - a.2))) / cross a b c ^ 2 +
          (((c.1 - a.1) * (c.1 - a.1) + (c.2 - a.2) * (c.2 - a.2)) *
          ((b.1 - a.1) * (p.1 - a.1) + (b.2 - a.2) * (p.2 - a.2)) -
          ((c.1 - a.1) * (b.1 - a.1) + (c.2 - a.2) * (b.2 - a.2)) *
            ((c.1 - a.1) * (p.1 - a.1) + (c.2 - a.2) * (p.2 - a.2))) / cross a b c ^ 2 =
          1 - ((c.1 - b.1) * (p.2 - b.2) - (c.2 - b.2) * (p.1 - b.1)) / cross a b c := by
        field_simp
        simp only [cross]
        ring
      rw [huv, h]
      simp
    · exact absurd h hne

/-- In exact arithmetic `triangle_contains` returns false for every point that is a vertex
of the
triangle or lies on one of its edges, and for a collinear triangle it returns false for
every point. -/
theorem triangle_contains_boundary (a b c p : Point) :
    (p = a ∨ p = b ∨ p = c ∨ OnSegment a b p ∨ OnSegment b c p ∨ OnSegment c a p →
      triangle_contains a b c p = false) ∧
    (cross a b c = 0 → triangle_contains a b c p = false) := by
  refine ⟨?_, fun h => triangle_contains_false a b c p (Or.inr (Or.inr (Or.inr h)))⟩
  rintro (rfl | rfl | rfl | ⟨t, -, -, rfl⟩ | ⟨t, -, -, rfl⟩ | ⟨t, -, -, rfl⟩)
  · exact triangle_contains_false _ _ _ _ (Or.inl (by ring))
  · exact triangle_contains_false _ _ _ _ (Or.inr (Or.inl (by ring)))
  · exact triangle_contains_false _ _ _ _ (Or.inl (by ring))
  · exact triangle_contains_false _ _ _ _ (Or.inr (Or.inl (by ring)))
  · exact triangle_contains_false _ _ _ _ (Or.inr (Or.inr (Or.inl (by ring))))
  · exact triangle_contains_false _ _ _ _ (Or.inl (by ring))

theorem triangle_contains_boundary_witness :
    OnSegment (0, 0) (4, 0) (1, 0) ∧ triangle_contains (0, 0) (4, 0) (0, 4) (1, 0) = false ∧
      triangle_contains (0, 0) (1, 1) (2, 2) (1, 1) = false :=
  have h : OnSegment (0, 0) (4, 0) (1, 0) := ⟨1 / 4, by norm_num, by norm_num, by norm_num⟩
  ⟨h, (triangle_contains_boundary (0, 0) (4, 0) (0, 4) (1, 0)).1
      (Or.inr (Or.inr (Or.inr (Or.inl h)))),
    (triangle_contains_boundary (0, 0) (1, 1) (2, 2) (1, 1)).2 (by norm_num [cross])⟩

/-! ## Theorems: the noise of the GPS simulation -/

theorem unit_scaled_bound {F : Type} [LinearOrderedField F] (x y len s A : F)
    (hl : len * len = x * x + y * y) (hne : len ≠ 0) (hs0 : 0 ≤ s) (hs1 : s ≤ 1)
    (hA : 0 ≤ A) :
    x / len * (s * A) * (x / len * (s * A)) + y / len * (s * A) * (y / len * (s * A)) ≤
      A * A := by
  have e : x / len * (s * A) * (x / len * (s * A)) + y / len * (s * A) * (y / len * (s * A)) =
      (x * x + y * y) / (len * len) * ((s * A) * (s * A)) := by
    field_simp
    ring
  rw [e, ← hl, div_self (mul_ne_zero hne hne), one_mul]
  have h1 : s * A ≤ A := by
    calc s * A ≤ 1 * A := mul_le_mul_of_nonneg_right hs1 hA
      _ = A := one_mul A
  exact mul_le_mul h1 h1 (mul_nonneg hs0 hA) hA

theorem sum_vectors_bound {F : Type} [LinearOrderedField F] (A : F) (hA : 0 ≤ A) :
    ∀ L : List (F × F), (∀ n ∈ L, n.1 * n.1 + n.2 * n.2 ≤ A * A) →
      (L.map Prod.fst).sum * (L.map Prod.fst).sum + (L.map Prod.snd).sum * (L.map Prod.snd).sum ≤
        ((L.length : F) * A) * ((L.length : F) * A) := by
  intro L
  induction L with
  | nil => intro _; simp
  | cons n L ih =>
    intro h
    have hn := h n (List.mem_cons_self _ _)
    have hL := ih (fun m hm => h m (List.mem_cons_of_mem _ hm))
    simp only [List.map_cons, List.sum_cons, List.length_cons, Nat.cast_add, Nat.cast_one]
    generalize (L.map Prod.fst).sum = X at hL ⊢
    generalize (L.map Prod.snd).sum = Y at hL ⊢
    have hk : (0 : F) ≤ (L.length : F) := Nat.cast_nonneg _
    generalize (L.length : F) = k at hL hk ⊢
    have hkA : 0 ≤ k * A := mul_nonneg hk hA
    -- Cauchy-Schwarz for the two vectors
    have cs : (n.1 * X + n.2 * Y) * (n.1 * X + n.2 * Y) ≤ (A * (k * A)) * (A * (k * A)) := by
      have i1 : (n.1 * X + n.2 * Y) * (n.1 * X + n.2 * Y) ≤
          (n.1 * n.1 + n.2 * n.2) * (X * X + Y * Y) := by
        nlinarith [mul_self_nonneg (n.1 * Y - n.2 * X)]
      have i2 : (n.1 * n.1 + n.2 * n.2) * (X * X + Y * Y) ≤ (A * A) * ((k * A) * (k * A)) :=
        mul_le_mul hn hL (by nlinarith [mul_self_nonneg X, mul_self_nonneg Y])
          (mul_nonneg hA hA)
      calc (n.1 * X + n.2 * Y) * (n.1 * X + n.2 * Y)
          ≤ (n.1 * n.1 + n.2 * n.2) * (X * X + Y * Y) := i1
        _ ≤ (A * A) * ((k * A) * (k * A)) := i2
        _ = (A * (k * A)) * (A * (k * A)) := by ring
    have hdot : n.1 * X + n.2 * Y ≤ A * (k * A) := by
      by_contra hc
      have hc' := not_le.1 hc
      have h0 : 0 ≤ A * (k * A) := mul_nonneg hA hkA
      have := mul_lt_mul'' hc' hc' h0 h0
      exact absurd cs (not_le.2 this)
    nlinarith

theorem foldl_vectors {F : Type} [LinearOrderedField F] :
    ∀ (L : List (F × F)) (a b : F),
      L.foldl (fun noise n => (noise.1 + n.1, noise.2 + n.2)) (a, b) =
        (a + (L.map Prod.fst).sum, b + (L.map Prod.snd).sum) := by
  intro L
  induction L with
  | nil => intro a b; simp
  | cons n L ih =>
    intro a b
    simp only [List.foldl_cons, ih, List.map_cons, List.sum_cons]
    rw [add_assoc, add_assoc]

theorem mean_vectors_bound {F : Type} [LinearOrderedField F] (A : F) (hA : 0 ≤ A)
    (L : List (F × F)) (hL : L ≠ []) (h : ∀ n ∈ L, n.1 * n.1 + n.2 * n.2 ≤ A * A) :
    (L.map Prod.fst).sum / (L.length : F) * ((L.map Prod.fst).sum / (L.length : F)) +
        (L.map Prod.snd).sum / (L.length : F) * ((L.map Prod.snd).sum / (L.length : F)) ≤
      A * A := by
  have hk : (0 : F) < (L.length : F) := by
    rw [Nat.cast_pos]
    exact List.length_pos.2 hL
  have hb := sum_vectors_bound A hA L h
  have e : (L.map Prod.fst).sum / (L.length : F) * ((L.map Prod.fst).sum / (L.length : F)) +
      (L.map Prod.snd).sum / (L.length : F) * ((L.map Prod.snd).sum / (L.length : F)) =
      ((L.map Prod.fst).sum * (L.map Prod.fst).sum +
        (L.map Prod.snd).sum * (L.map Prod.snd).sum) / ((L.length : F) * (L.length : F)) := by
    field_simp
  rw [e, div_le_iff₀ (mul_pos hk hk)]
  calc _ ≤ ((L.length : F) * A) * ((L.length : F) * A) := hb
    _ = A * A * ((L.length : F) * (L.length : F)) := by ring

theorem ring_queue_push_spec {α : Type} (limit : Nat) (queue : List α) (x : α)
    (h1 : 1 ≤ limit) (h2 : queue.length ≤ limit) :
    (∀ n ∈ ring_queue_push limit queue x, n ∈ queue ∨ n = x) ∧
      ring_queue_push limit queue x ≠ [] ∧
      (ring_queue_push limit queue x).length =
        if queue.length < limit then queue.length + 1 else limit := by
  unfold ring_queue_push
  split
  · exact ⟨fun n hn => by simpa using hn, by simp, by simp⟩
  · refine ⟨fun n hn => ?_, by simp, ?_⟩
    · rcases List.mem_append.1 hn with h | h
      · exact Or.inl (List.mem_of_mem_tail h)
      · exact Or.inr (by simpa using h)
    · simp only [List.length_append, List.length_tail, List.length_singleton]
      omega

/-- One call of `get_noise`: with a queue of vectors no longer than `accuracy` it gives
a noise vector no longer than `accuracy` and leaves such a queue. -/
theorem get_noise_spec {F : Type} [LinearOrderedField F] (sqrt : F → F) (draws : Nat → F)
    (accuracy : F) (smoothing : Nat) (noises : List (F × F)) (drawn : Nat)
    (hsqrt : ∀ x, 0 ≤ x → sqrt x * sqrt x = x)
    (hdraws : ∀ i, -1 ≤ draws i ∧ draws i ≤ 1)
    (hnz : ∀ i, draws i ≠ 0 ∨ draws (i + 1) ≠ 0)
    (hs : 1 ≤ smoothing) (ha : 0 ≤ accuracy) (hlen : noises.length ≤ smoothing)
    (hb : ∀ n ∈ noises, n.1 * n.1 + n.2 * n.2 ≤ accuracy * accuracy) :
    ∃ noise noises', get_noise sqrt draws accuracy smoothing noises drawn =
        some (noise, noises') ∧
      noise.1 * noise.1 + noise.2 * noise.2 ≤ accuracy * accuracy ∧
      (∀ n ∈ noises', n.1 * n.1 + n.2 * n.2 ≤ accuracy * accuracy) ∧
      noises'.length = if noises.length < smoothing then noises.length + 1 else smoothing := by
  have hsq : 0 ≤ draws drawn * draws drawn + draws (drawn + 1) * draws (drawn + 1) :=
    add_nonneg (mul_self_nonneg _) (mul_self_nonneg _)
  have hl := hsqrt _ hsq
  have hne : sqrt (draws drawn * draws drawn + draws (drawn + 1) * draws (drawn + 1)) ≠ 0 := by
    intro h0
    rw [h0, mul_zero] at hl
    have z1 : draws drawn * draws drawn = 0 := by
      nlinarith [mul_self_nonneg (draws drawn), mul_self_nonneg (draws (drawn + 1))]
    have z2 : draws (drawn + 1) * draws (drawn + 1) = 0 := by
      nlinarith [mul_self_nonneg (draws drawn), mul_self_nonneg (draws (drawn + 1))]
    rcases hnz drawn with h | h
    · exact h (mul_self_eq_zero.1 z1)
    · exact h (mul_self_eq_zero.1 z2)
  have hv := unit_scaled_bound (draws drawn) (draws (drawn + 1)) _
    ((draws (drawn + 2) + 1) / 2) accuracy hl hne
    (by have := (hdraws (drawn + 2)).1; linarith) (by have := (hdraws (drawn + 2)).2; linarith)
    ha
  obtain ⟨p1, p2, p3⟩ := ring_queue_push_spec smoothing noises
    (draws drawn / sqrt (draws drawn * draws drawn + draws (drawn + 1) * draws (drawn + 1)) *
        ((draws (drawn + 2) + 1) / 2 * accuracy),
      draws (drawn + 1) /
          sqrt (draws drawn * draws drawn + draws (drawn + 1) * draws (drawn + 1)) *
        ((draws (drawn + 2) + 1) / 2 * accuracy)) hs hlen
  have hb' : ∀ n ∈ ring_queue_push smoothing noises
      (draws drawn / sqrt (draws drawn * draws drawn + draws (drawn + 1) * draws (drawn + 1)) *
        ((draws (drawn + 2) + 1) / 2 * accuracy),
      draws (drawn + 1) /
          sqrt (draws drawn * draws drawn + draws (drawn + 1) * draws (drawn + 1)) *
        ((draws (drawn + 2) + 1) / 2 * accuracy)),
      n.1 * n.1 + n.2 * n.2 ≤ accuracy * accuracy := by
    intro n hn
    rcases p1 n hn with h | h
    · exact hb n h
    · rw [h]
      exact hv
  simp only [get_noise, if_neg hne]
  refine ⟨_, _, rfl, ?_, hb', p3⟩
  rw [foldl_vectors]
  simp only [zero_add]
  exact mean_vectors_bound accuracy ha _ p2 hb'

theorem fillNoises_spec {F : Type} [LinearOrderedField F] (sqrt : F → F) (draws : Nat → F)
    (accuracy : F) (smoothing : Nat)
    (hsqrt : ∀ x, 0 ≤ x → sqrt x * sqrt x = x)
    (hdraws : ∀ i, -1 ≤ draws i ∧ draws i ≤ 1)
    (hnz : ∀ i, draws i ≠ 0 ∨ draws (i + 1) ≠ 0)
    (hs : 1 ≤ smoothing) (ha : 0 ≤ accuracy) :
    ∀ (fuel : Nat) (noises : List (F × F)) (drawn : Nat),
      noises.length ≤ smoothing → smoothing + 1 ≤ fuel + noises.length →
      (∀ n ∈ noises, n.1 * n.1 + n.2 * n.2 ≤ accuracy * accuracy) →
      ∃ noises' drawn', fillNoises sqrt draws accuracy smoothing fuel noises drawn =
          some (noises', drawn') ∧ noises'.length = smoothing ∧
        ∀ n ∈ noises', n.1 * n.1 + n.2 * n.2 ≤ accuracy * accuracy := by
  intro fuel
  induction fuel with
  | zero => intro noises drawn h1 h2 _; omega
  | succ fuel ih =>
    intro noises drawn h1 h2 hb
    rw [fillNoises]
    by_cases hfull : noises.length = smoothing
    · rw [if_pos hfull]
      exact ⟨noises, drawn, rfl, hfull, hb⟩
    · rw [if_neg hfull]
      obtain ⟨noise, noises', e, _, hb', hl'⟩ := get_noise_spec sqrt draws accuracy smoothing
        noises drawn hsqrt hdraws hnz hs ha h1 hb
      rw [e]
      rw [if_pos (by omega)] at hl'
      exact ih noises' (drawn + 3) (by omega) (by omega) hb'

theorem sampleLoop_spec {F : Type} [LinearOrderedField F] (sqrt : F → F)
    (MetersPerLngDegree : F → F) (kMetersPerDegreeLat : F) (Distance : F × F → F × F → F)
    (draws : Nat → F) (accuracy : F) (smoothing : Nat) (sample_rate : Nat)
    (resampled : List (F × F))
    (hsqrt : ∀ x, 0 ≤ x → sqrt x * sqrt x = x)
    (hdraws : ∀ i, -1 ≤ draws i ∧ draws i ≤ 1)
    (hnz : ∀ i, draws i ≠ 0 ∨ draws (i + 1) ≠ 0)
    (hlng : ∀ lat, MetersPerLngDegree lat ≠ 0) (hlat : kMetersPerDegreeLat ≠ 0)
    (hs : 1 ≤ smoothing) (ha : 0 ≤ accuracy) (hr : 1 ≤ sample_rate) :
    ∀ (todo : List (F × F)) (i : Nat) (noises : List (F × F)) (drawn : Nat)
      (simulated : List (F × F)) (accuracies : List F),
      resampled.drop i = todo → noises.length = smoothing →
      (∀ n ∈ noises, n.1 * n.1 + n.2 * n.2 ≤ accuracy * accuracy) →
      i ≤ simulated.length * sample_rate → simulated.length * sample_rate < i + sample_rate →
      accuracies.length = simulated.length →
      (∀ (k : Nat) (q : F × F), simulated[k]? = some q →
        ∃ p noise : F × F, resampled[k * sample_rate]? = some p ∧
          noise.1 * noise.1 + noise.2 * noise.2 ≤ accuracy * accuracy ∧
          q = (p.1 + noise.1 / MetersPerLngDegree p.2, p.2 + noise.2 / kMetersPerDegreeLat) ∧
          accuracies[k]? = some (Distance q p)) →
      ∃ simulated' accuracies',
        sampleLoop sqrt MetersPerLngDegree kMetersPerDegreeLat Distance draws accuracy
            smoothing sample_rate todo i noises drawn simulated accuracies =
          some (simulated', accuracies') ∧
        ∀ (k : Nat) (q : F × F), simulated'[k]? = some q →
          ∃ p noise : F × F, resampled[k * sample_rate]? = some p ∧
            noise.1 * noise.1 + noise.2 * noise.2 ≤ accuracy * accuracy ∧
            q = (p.1 + noise.1 / MetersPerLngDegree p.2,
              p.2 + noise.2 / kMetersPerDegreeLat) ∧
            accuracies'[k]? = some (Distance q p) := by
  intro todo
  induction todo with
  | nil =>
    intro i noises drawn simulated accuracies _ _ _ _ _ _ hgood
    exact ⟨simulated, accuracies, rfl, hgood⟩
  | cons p todo ih =>
    intro i noises drawn simulated accuracies hdrop hfull hb hi1 hi2 hacc hgood
    have hp : resampled[i]? = some p := by
      have := congrArg List.head? hdrop
      rw [List.head?_drop] at this
      simpa using this
    have hdrop' : resampled.drop (i + 1) = todo := by
      have := congrArg List.tail hdrop
      rw [List.tail_drop] at this
      simpa using this
    rw [sampleLoop]
    rw [if_neg (by omega)]
    by_cases hmod : i % sample_rate = 0
    · rw [if_pos hmod]
      obtain ⟨noise, noises', e, hn, hb', hl'⟩ := get_noise_spec sqrt draws accuracy smoothing
        noises drawn hsqrt hdraws hnz hs ha (le_of_eq hfull) hb
      rw [if_neg (by omega)] at hl'
      rw [e]
      simp only
      rw [if_neg (by
        intro h
        rcases h with h | h
        · exact hlng _ h
        · exact hlat h)]
      -- the new sample has the index `i / sample_rate`
      obtain ⟨c, hc⟩ := Nat.dvd_of_mod_eq_zero hmod
      have hlenc : simulated.length = c := by
        subst hc
        have h1 : c ≤ simulated.length :=
          Nat.le_of_mul_le_mul_left
            (by rw [Nat.mul_comm sample_rate simulated.length]; exact hi1) hr
        have h2 : simulated.length < c + 1 := by
          apply Nat.lt_of_mul_lt_mul_right (a := sample_rate)
          calc simulated.length * sample_rate < sample_rate * c + sample_rate := hi2
            _ = (c + 1) * sample_rate := by ring
        omega
      apply ih (i + 1) noises' (drawn + 3) _ _ hdrop' hl' hb'
      · rw [List.length_append, List.length_singleton, hlenc, hc]
        have : (c + 1) * sample_rate = sample_rate * c + sample_rate := by ring
        omega
      · rw [List.length_append, List.length_singleton, hlenc, hc]
        have : (c + 1) * sample_rate = sample_rate * c + sample_rate := by ring
        omega
      · simp [hacc]
      · intro k q hk
        by_cases hkl : k < simulated.length
        · rw [List.getElem?_append_left hkl] at hk
          obtain ⟨p', noise', g1, g2, g3, g4⟩ := hgood k q hk
          exact ⟨p', noise', g1, g2, g3, by
            rw [List.getElem?_append_left (by omega)]
            exact g4⟩
        · have hk' : k = simulated.length := by
            by_contra hne
            rw [List.getElem?_eq_none (by simp; omega)] at hk
            exact absurd hk (by simp)
          subst hk'
          rw [List.getElem?_append_right (le_refl _)] at hk
          simp at hk
          refine ⟨p, noise, ?_, hn, hk.symm, ?_⟩
          · rw [hlenc, Nat.mul_comm, ← hc]
            exact hp
          · rw [← hacc, List.getElem?_append_right (le_refl _)]
            simp [hk]
    · rw [if_neg hmod]
      apply ih (i + 1) noises drawn simulated accuracies hdrop' hfull hb _ (by omega) hacc hgood
      have hne : i ≠ simulated.length * sample_rate := by
        intro h
        rw [h] at hmod
        exact hmod (Nat.mul_mod_left _ _)
      omega

/-- Noise bound in exact arithmetic. For `smoothing >= 1`, `accuracy >= 0` and
`sample_rate >= 1`,
with draws in `[-1, 1]` whose vectors are not zero, `simulate_gps` returns, and every
sample it emits is its 1 Hz resampled point offset by a smoothed noise vector of
Euclidean norm at most `accuracy` (in meters, converted to degrees by the
meters-per-degree factors of the code). -/
theorem simulate_gps_noise_bound {F : Type} [LinearOrderedField F] (sqrt : F → F)
    (MetersPerLngDegree : F → F) (kMetersPerDegreeLat : F) (Distance : F × F → F × F → F)
    (draws : Nat → F) (resampled : List (F × F)) (smoothing : Nat) (accuracy : F)
    (sample_rate : Nat)
    (hsqrt : ∀ x, 0 ≤ x → sqrt x * sqrt x = x)
    (hdraws : ∀ i, -1 ≤ draws i ∧ draws i ≤ 1)
    (hnz : ∀ i, draws i ≠ 0 ∨ draws (i + 1) ≠ 0)
    (hlng : ∀ lat, MetersPerLngDegree lat ≠ 0) (hlat : kMetersPerDegreeLat ≠ 0)
    (hs : 1 ≤ smoothing) (ha : 0 ≤ accuracy) (hr : 1 ≤ sample_rate) :
    ∃ simulated accuracies,
      simulate_gps sqrt MetersPerLngDegree kMetersPerDegreeLat Distance draws resampled
          smoothing accuracy sample_rate = some (simulated, accuracies) ∧
        ∀ (k : Nat) (q : F × F), simulated[k]? = some q →
          ∃ p noise : F × F, resampled[k * sample_rate]? = some p ∧
            noise.1 * noise.1 + noise.2 * noise.2 ≤ accuracy * accuracy ∧
            q = (p.1 + noise.1 / MetersPerLngDegree p.2,
              p.2 + noise.2 / kMetersPerDegreeLat) ∧
            accuracies[k]? = some (Distance q p) := by
  obtain ⟨noises, drawn, e, hfull, hb⟩ := fillNoises_spec sqrt draws accuracy smoothing hsqrt
    hdraws hnz hs ha (smoothing + 1) [] 0 (by simp) (by simp) (by simp)
  rw [simulate_gps, if_neg (by omega), e]
  exact sampleLoop_spec sqrt MetersPerLngDegree kMetersPerDegreeLat Distance draws accuracy
    smoothing sample_rate resampled hsqrt hdraws hnz hlng hlat hs ha hr resampled 0 noises
    drawn [] [] rfl hfull hb (by simp) (by simp; omega) rfl (by simp)

theorem simulate_gps_noise_bound_witness :
    1 ≤ 2 ∧ (0 : ℝ) ≤ 5 ∧ 1 ≤ 1 ∧ ∃ simulated accuracies,
      simulate_gps Real.sqrt (fun _ => 100000) 110000 (fun _ _ => 0) (fun _ => 1)
          [(0, 0), (0, 1)] 2 5 1 = some (simulated, accuracies) ∧
        ∀ (k : Nat) (q : ℝ × ℝ), simulated[k]? = some q →
          ∃ p noise : ℝ × ℝ, ([(0, 0), (0, 1)] : List (ℝ × ℝ))[k * 1]? = some p ∧
            noise.1 * noise.1 + noise.2 * noise.2 ≤ 5 * 5 ∧
            q = (p.1 + noise.1 / 100000, p.2 + noise.2 / 110000) ∧
            accuracies[k]? = some 0 :=
  ⟨by norm_num, by norm_num, by norm_num,
    simulate_gps_noise_bound Real.sqrt (fun _ => 100000) 110000 (fun _ _ => 0) (fun _ => 1)
      [(0, 0), (0, 1)] 2 5 1 (fun x hx => Real.mul_self_sqrt hx)
      (fun _ => ⟨by norm_num, by norm_num⟩) (fun _ => Or.inl (by norm_num))
      (fun _ => by norm_num) (by norm_num) (by norm_num) (by norm_num) (by norm_num)⟩

/-! ## Theorems: the tracer never uses a side twice -/

theorem onBoundary_step (region : List Nat) (tiles : Tiles) (v : Int × Int × Int)
    (h : OnBoundary region tiles v) : OnBoundary region tiles (stepSide region tiles v) := by
  obtain ⟨x, y, s⟩ := v
  obtain ⟨hs, hin, hout⟩ := h
  simp only at hs hin hout
  obtain ⟨d1, d2, d3, d4⟩ := dir_add s hs
  unfold stepSide
  simp only
  by_cases hd : inRegion region tiles (x + dirX ((s + 1) % 4) + dirX s)
      (y + dirY ((s + 1) % 4) + dirY s) = true
  · rw [if_pos hd]
    refine ⟨by simp only; omega, hd, ?_⟩
    simp only
    rw [d1, d2]
    have e1 : x + dirX ((s + 1) % 4) + dirX s + -dirX ((s + 1) % 4) = x + dirX s := by ring
    have e2 : y + dirY ((s + 1) % 4) + dirY s + -dirY ((s + 1) % 4) = y + dirY s := by ring
    rw [e1, e2]
    exact hout
  · have hd' : inRegion region tiles (x + dirX ((s + 1) % 4) + dirX s)
        (y + dirY ((s + 1) % 4) + dirY s) = false := by simpa using hd
    rw [if_neg hd]
    by_cases ha : inRegion region tiles (x + dirX ((s + 1) % 4)) (y + dirY ((s + 1) % 4)) = true
    · rw [if_pos ha]
      exact ⟨hs, ha, hd'⟩
    · rw [if_neg ha]
      exact ⟨by simp only; omega, hin, by simpa using ha⟩

theorem stepBack_stepSide (region : List Nat) (tiles : Tiles) (v : Int × Int × Int)
    (h : OnBoundary region tiles v) : stepBack region tiles (stepSide region tiles v) = v := by
  obtain ⟨x, y, s⟩ := v
  obtain ⟨hs, hin, hout⟩ := h
  simp only at hs hin hout
  unfold stepSide
  simp only
  by_cases hd : inRegion region tiles (x + dirX ((s + 1) % 4) + dirX s)
      (y + dirY ((s + 1) % 4) + dirY s) = true
  · rw [if_pos hd]
    unfold stepBack
    simp only
    have e1 : x + dirX ((s + 1) % 4) + dirX s - dirX (((s + 3) % 4 + 1) % 4) +
        dirX ((s + 3) % 4) = x := by
      rcases hs with rfl | rfl | rfl | rfl <;> simp [dirX]
    have e2 : y + dirY ((s + 1) % 4) + dirY s - dirY (((s + 3) % 4 + 1) % 4) +
        dirY ((s + 3) % 4) = y := by
      rcases hs with rfl | rfl | rfl | rfl <;> simp [dirY]
    have e3 : ((s + 3) % 4 + 1) % 4 = s := by omega
    rw [e1, e2, if_pos hin, e3]
  · rw [if_neg hd]
    have hd' : inRegion region tiles (x + dirX ((s + 1) % 4) + dirX s)
        (y + dirY ((s + 1) % 4) + dirY s) = false := by simpa using hd
    by_cases ha : inRegion region tiles (x + dirX ((s + 1) % 4)) (y + dirY ((s + 1) % 4)) = true
    · rw [if_pos ha]
      unfold stepBack
      simp only
      have e1 : x + dirX ((s + 1) % 4) - dirX ((s + 1) % 4) = x := by ring
      have e2 : y + dirY ((s + 1) % 4) - dirY ((s + 1) % 4) = y := by ring
      rw [e1, e2, hout, hin]
      simp
    · rw [if_neg ha]
      have ha' : inRegion region tiles (x + dirX ((s + 1) % 4)) (y + dirY ((s + 1) % 4)) =
          false := by simpa using ha
      unfold stepBack
      simp only
      have e1 : x - dirX (((s + 1) % 4 + 1) % 4) + dirX ((s + 1) % 4) =
          x + dirX ((s + 1) % 4) + dirX s := by
        rcases hs with rfl | rfl | rfl | rfl <;> simp [dirX] <;> omega
      have e2 : y - dirY (((s + 1) % 4 + 1) % 4) + dirY ((s + 1) % 4) =
          y + dirY ((s + 1) % 4) + dirY s := by
        rcases hs with rfl | rfl | rfl | rfl <;> simp [dirY] <;> omega
      have e3 : x - dirX (((s + 1) % 4 + 1) % 4) = x + dirX s := by
        rcases hs with rfl | rfl | rfl | rfl <;> simp [dirX] <;> omega
      have e4 : y - dirY (((s + 1) % 4 + 1) % 4) = y + dirY s := by
        rcases hs with rfl | rfl | rfl | rfl <;> simp [dirY] <;> omega
      have e5 : ((s + 1) % 4 + 3) % 4 = s := by omega
      rw [e1, e2, e3, e4, hd', hout, e5]
      simp

theorem next_boundary (region : List Nat) (tiles : Tiles) (hv : ValidRegion region tiles)
    (p : Nat × Int) (h : BoundarySide region tiles p) :
    BoundarySide region tiles (nextEdge region tiles p.1 p.2) := by
  obtain ⟨h1, h2⟩ := h
  obtain ⟨e, hlt⟩ := nextEdge_sideOf region tiles hv p.1 p.2 h1 h2.1
  refine ⟨hlt, ?_⟩
  rw [e]
  exact onBoundary_step region tiles _ h2

theorem next_injective (region : List Nat) (tiles : Tiles) (hv : ValidRegion region tiles)
    (p q : Nat × Int) (hp : BoundarySide region tiles p) (hq : BoundarySide region tiles q)
    (h : nextEdge region tiles p.1 p.2 = nextEdge region tiles q.1 q.2) : p = q := by
  obtain ⟨e1, _⟩ := nextEdge_sideOf region tiles hv p.1 p.2 hp.1 hp.2.1
  obtain ⟨e2, _⟩ := nextEdge_sideOf region tiles hv q.1 q.2 hq.1 hq.2.1
  rw [h, e2] at e1
  have e3 := congrArg (stepBack region tiles) e1
  rw [stepBack_stepSide region tiles _ hp.2, stepBack_stepSide region tiles _ hq.2] at e3
  obtain ⟨a, b⟩ := sideOf_injective tiles q.1 p.1 q.2 p.2 e3
  exact Prod.ext a.symm b.symm

theorem reached_step (region : List Nat) (tiles : Tiles) (start : Nat × Int) (k : Nat) :
    reached region tiles start (k + 1) =
      nextEdge region tiles (reached region tiles start k).1
        (reached region tiles start k).2 := by
  unfold reached
  rw [Function.iterate_succ_apply']

theorem reached_boundary (region : List Nat) (tiles : Tiles) (hv : ValidRegion region tiles)
    (start : Nat × Int) (h : BoundarySide region tiles start) :
    ∀ k, BoundarySide region tiles (reached region tiles start k) := by
  intro k
  induction k with
  | zero => exact h
  | succ k ih =>
    rw [reached_step]
    exact next_boundary region tiles hv _ ih

/-- On the boundary the successor rule is injective, so the first pair that a walk
meets again is the pair it started from. -/
theorem reached_repeat (region : List Nat) (tiles : Tiles) (hv : ValidRegion region tiles)
    (start : Nat × Int) (h : BoundarySide region tiles start) :
    ∀ j k, j < k → reached region tiles start j = reached region tiles start k →
      reached region tiles start (k - j) = start := by
  intro j
  induction j with
  | zero =>
    intro k _ e
    rw [Nat.sub_zero, ← e]
    rfl
  | succ j ih =>
    intro k hk e
    obtain ⟨k', rfl⟩ : ∃ k', k = k' + 1 := ⟨k - 1, by omega⟩
    rw [reached_step, reached_step] at e
    have := next_injective region tiles hv _ _ (reached_boundary region tiles hv start h j)
      (reached_boundary region tiles hv start h k') e
    have r := ih k' (by omega) this
    rw [show k' + 1 - (j + 1) = k' - j by omega]
    exact r

/-- A walk that meets a recorded pair started from a recorded pair. -/
theorem reached_used (region : List Nat) (tiles : Tiles) (hv : ValidRegion region tiles)
    (used : List (Int × Nat)) (hc : UsedClosed region tiles used)
    (start : Nat × Int) (h : BoundarySide region tiles start) :
    ∀ k, ((reached region tiles start k).2, (reached region tiles start k).1) ∈ used →
      (start.2, start.1) ∈ used := by
  intro k
  induction k with
  | zero => intro hk; exact hk
  | succ k ih =>
    intro hk
    obtain ⟨q, hq, hb, e⟩ := hc _ hk
    simp only at e
    rw [reached_step] at e
    have := next_injective region tiles hv _ _ hb (reached_boundary region tiles hv start h k) e
    apply ih
    rw [← this]
    exact hq

theorem walk_closed (region : List Nat) (tiles : Tiles) (hv : ValidRegion region tiles)
    (used : List (Int × Nat)) (hc : UsedClosed region tiles used)
    (start : Nat × Int) (h : BoundarySide region tiles start) (V : List (Nat × Int))
    (hw : IsWalk (fun v => nextEdge region tiles v.1 v.2) start start V) :
    UsedClosed region tiles ((V.map (fun v => (v.2, v.1))).reverse ++ used) := by
  obtain ⟨hlen, hget⟩ := IsWalk.getElem _ _ V _ hw
  have hpos : 0 < V.length := by
    cases V with
    | nil => exact absurd hw (by simp [IsWalk])
    | cons w V => simp
  have hVb : ∀ i (hi : i < V.length), BoundarySide region tiles V[i] := by
    intro i hi
    rw [hget i hi]
    exact reached_boundary region tiles hv start h i
  have hmem : ∀ i (hi : i < V.length),
      (V[i].2, V[i].1) ∈ (V.map (fun v => (v.2, v.1))).reverse ++ used := by
    intro i hi
    apply List.mem_append_left
    rw [List.mem_reverse]
    exact List.mem_map.2 ⟨V[i], List.getElem_mem _, rfl⟩
  intro p hp
  rcases List.mem_append.1 hp with hp | hp
  · rw [List.mem_reverse] at hp
    obtain ⟨v, hvV, rfl⟩ := List.mem_map.1 hp
    obtain ⟨i, hi, rfl⟩ := List.getElem_of_mem hvV
    cases i with
    | zero =>
      refine ⟨_, hmem (V.length - 1) (by omega), hVb (V.length - 1) (by omega), ?_⟩
      simp only
      rw [hget (V.length - 1) (by omega), hget 0 hi, ← Function.iterate_succ_apply'
        (fun v : Nat × Int => nextEdge region tiles v.1 v.2),
        show (V.length - 1).succ = V.length by omega, hlen]
      rfl
    | succ i =>
      refine ⟨_, hmem i (by omega), hVb i (by omega), ?_⟩
      simp only
      rw [hget i (by omega), hget (i + 1) hi, Function.iterate_succ_apply']
  · obtain ⟨q, hq, hb, e⟩ := hc p hp
    exact ⟨q, List.mem_append_right _ hq, hb, e⟩

theorem trace_walk (region : List Nat) (tiles : Tiles) (polygon : List (List Point))
    (used : List (Int × Nat)) (start_tile : Nat) (start_side : Int) (ccw : Bool)
    (polygon' : List (List Point)) (used' : List (Int × Nat))
    (h : trace region tiles polygon used start_tile start_side ccw = .ok (polygon', used')) :
    ∃ V : List (Nat × Int),
      IsWalk (fun v => nextEdge region tiles v.1 v.2) (start_tile, start_side)
        (start_tile, start_side) V ∧
      used' = (V.map (fun v => (v.2, v.1))).reverse ++ used := by
  unfold trace at h
  split at h
  · cases h
  · rename_i ring u2 hok
    injection h with h
    injection h with h1 h2
    subst h2
    obtain ⟨V, hw, _, _, hused⟩ :=
      traceLoop_walk_any region tiles start_tile start_side ccw _ _ _ _ _ _ _ hok
    exact ⟨V, hw, hused⟩

/-- A trace that starts on a boundary side not yet recorded returns without the logic
error, and the recorded pairs stay whole closed walks. -/
theorem trace_no_error (region : List Nat) (tiles : Tiles) (hv : ValidRegion region tiles)
    (polygon : List (List Point)) (used : List (Int × Nat)) (start_tile : Nat)
    (start_side : Int) (ccw : Bool) (hu : UsedOk region used)
    (hc : UsedClosed region tiles used) (ht : start_tile ∈ region)
    (hs : start_side ∈ [(0 : Int), 1, 2, 3])
    (hb : OnBoundary region tiles (sideOf tiles start_tile start_side))
    (hn : (start_side, start_tile) ∉ used) (hp : ∀ ring ∈ polygon, ring ≠ []) :
    ∃ polygon' used', trace region tiles polygon used start_tile start_side ccw =
        .ok (polygon', used') ∧ UsedOk region used' ∧ UsedClosed region tiles used' ∧
      ∀ ring ∈ polygon', ring ≠ [] := by
  have hB : BoundarySide region tiles (start_tile, start_side) := ⟨hv.2.2.2 _ ht, hb⟩
  rcases trace_ok region tiles polygon used start_tile start_side ccw hu ht hs hp with
    h | ⟨polygon', used', h, hu', hp'⟩
  · exfalso
    obtain ⟨k, hk1, hk2⟩ :=
      (trace_error_iff region tiles polygon used start_tile start_side ccw hu ht hs).1 h
    rcases hk2 with h2 | ⟨j, hj, h2⟩
    · exact hn (reached_used region tiles hv used hc _ hB k h2)
    · exact hk1 (k - j) (by omega) (by omega)
        (reached_repeat region tiles hv _ hB j k hj h2)
  · obtain ⟨V, hw, hused⟩ := trace_walk region tiles polygon used start_tile start_side ccw
      polygon' used' h
    refine ⟨polygon', used', h, hu', ?_, hp'⟩
    rw [hused]
    exact walk_closed region tiles hv used hc _ hB V hw

theorem traceInnerSides_no_error (region : List Nat) (tiles : Tiles)
    (hv : ValidRegion region tiles) (start_tile : Nat) (ht : start_tile ∈ region) :
    ∀ (sides : List Int) (polygon : List (List Point)) (used : List (Int × Nat)),
      (∀ s ∈ sides, s ∈ [(0 : Int), 1, 2, 3]) → UsedOk region used →
      UsedClosed region tiles used → (∀ ring ∈ polygon, ring ≠ []) →
      ∃ polygon' used', traceInnerSides region tiles start_tile sides polygon used =
          .ok (polygon', used') ∧ UsedOk region used' ∧ UsedClosed region tiles used' ∧
        ∀ ring ∈ polygon', ring ≠ [] := by
  intro sides
  induction sides with
  | nil =>
    intro polygon used _ hu hc hp
    exact ⟨polygon, used, rfl, hu, hc, hp⟩
  | cons s sides ih =>
    intro polygon used hs hu hc hp
    have hs' : ∀ x ∈ sides, x ∈ [(0 : Int), 1, 2, 3] := fun x hx => hs x (by simp [hx])
    have hs0 : s = 0 ∨ s = 1 ∨ s = 2 ∨ s = 3 := by simpa using hs s (by simp)
    unfold traceInnerSides
    split
    · rename_i hcond
      split
      · have hlt := hv.2.2.2 _ ht
        obtain ⟨m1, _⟩ := member_neighbor region tiles hv (start_tile : Int) s
          (Int.natCast_nonneg _) hlt hs0
        rw [toI32_valid tiles start_tile hv.2.2.1 hlt, m1] at hcond
        simp only [Bool.not_eq_true', decide_eq_true_eq, Bool.not_eq_eq_eq_not, Bool.not_true,
          List.contains_eq_any_beq, List.any_eq_false] at hcond
        have hb : OnBoundary region tiles (sideOf tiles start_tile s) :=
          ⟨hs0, inRegion_sideOf region tiles hv start_tile ht, hcond.1⟩
        have hn : (s, start_tile) ∉ used := by
          intro hm
          have := hcond.2 _ hm
          simp at this
        obtain ⟨polygon', used', h, hu', hc', hp'⟩ := trace_no_error region tiles hv polygon
          used start_tile s false hu hc ht (hs s (by simp)) hb hn hp
        rw [h]
        exact ih polygon' used' hs' hu' hc' hp'
      · exact ih polygon used hs' hu hc hp
    · exact ih polygon used hs' hu hc hp

theorem traceInners_no_error (region : List Nat) (tiles : Tiles)
    (hv : ValidRegion region tiles) :
    ∀ (todo : List Nat) (polygon : List (List Point)) (used : List (Int × Nat)),
      (∀ t ∈ todo, t ∈ region) → UsedOk region used → UsedClosed region tiles used →
      (∀ ring ∈ polygon, ring ≠ []) →
      ∃ polygon' used', traceInners region tiles todo polygon used = .ok (polygon', used') ∧
        ∀ ring ∈ polygon', ring ≠ [] := by
  intro todo
  induction todo with
  | nil =>
    intro polygon used _ _ _ hp
    exact ⟨polygon, used, rfl, hp⟩
  | cons t todo ih =>
    intro polygon used ht hu hc hp
    unfold traceInners
    obtain ⟨polygon', used', h, hu', hc', hp'⟩ := traceInnerSides_no_error region tiles hv t
      (ht t (by simp)) [0, 1, 2, 3] polygon used (fun s hs => hs) hu hc hp
    rw [h]
    exact ih polygon' used' (fun x hx => ht x (by simp [hx])) hu' hc' hp'

/-- C30: for every non-empty region whose tile ids are all valid for the grid,
`to_boundary` terminates with a polygon: no trace raises the "tile edge can only be used
once" logic error and none exhausts its loop bound. -/
theorem to_boundary_no_logic_error (first : Nat) (rest : List Nat) (tiles : Tiles)
    (hv : ValidRegion (first :: rest) tiles) :
    ∃ polygon : List (List Point), to_boundary first rest tiles = .ok polygon ∧
      ∀ ring ∈ polygon, ring ≠ [] := by
  unfold to_boundary
  have hst : smallestTile (first :: rest) first ∈ first :: rest := by
    rcases smallestTile_mem (first :: rest) first with h | h
    · rw [h]; simp
    · exact h
  have hfo := start_faces_outside (first :: rest) tiles hv _ hst
    (smallestTile_le (first :: rest) first).2
  have hb : OnBoundary (first :: rest) tiles
      (sideOf tiles (smallestTile (first :: rest) first) 0) :=
    ⟨hfo.1, hfo.2.1, Outside.not_inRegion _ _ _ _ hfo.2.2⟩
  obtain ⟨polygon, used, h, hu, hc, hp⟩ := trace_no_error (first :: rest) tiles hv [] []
    (smallestTile (first :: rest) first) 0 true ⟨List.nodup_nil, by simp⟩
    (fun p hp => absurd hp (List.not_mem_nil p)) hst (by simp) hb (List.not_mem_nil _)
    (by simp)
  simp only [h]
  obtain ⟨polygon', used', h2, hp'⟩ := traceInners_no_error (first :: rest) tiles hv
    (first :: rest) polygon used (fun t ht => ht) hu hc hp
  simp only [h2]
  refine ⟨_, rfl, ?_⟩
  intro ring hr
  obtain ⟨r, hr1, rfl⟩ := List.mem_map.1 hr
  intro h0
  exact hp' r hr1 (List.append_eq_nil.1 h0).1

theorem to_boundary_no_logic_error_witness :
    ValidRegion [5, 6, 9, 10] (Tiles.lattice 0 0 1 1 4 4) ∧
      ∃ polygon : List (List Point),
        to_boundary 5 [6, 9, 10] (Tiles.lattice 0 0 1 1 4 4) = .ok polygon ∧
          ∀ ring ∈ polygon, ring ≠ [] :=
  have h : ValidRegion [5, 6, 9, 10] (Tiles.lattice 0 0 1 1 4 4) := by
    refine ⟨by decide, by decide, by decide, ?_⟩
    intro t ht
    simp only [List.mem_cons, List.mem_singleton, List.not_mem_nil, or_false] at ht
    rcases ht with rfl | rfl | rfl | rfl <;> decide
  ⟨h, to_boundary_no_logic_error 5 [6, 9, 10] (Tiles.lattice 0 0 1 1 4 4) h⟩

/-! ## Theorems: the sides used by `to_boundary` -/

theorem member_false_iff_onBoundary (region : List Nat) (tiles : Tiles)
    (hv : ValidRegion region tiles) (t : Nat) (s : Int) (ht : t ∈ region)
    (hs : s = 0 ∨ s = 1 ∨ s = 2 ∨ s = 3) :
    member region (neighbor tiles (toI32 t) s) = false ↔
      OnBoundary region tiles (sideOf tiles t s) := by
  have hlt := hv.2.2.2 _ ht
  obtain ⟨m1, _⟩ := member_neighbor region tiles hv (t : Int) s (Int.natCast_nonneg _) hlt hs
  rw [toI32_valid tiles t hv.2.2.1 hlt, m1]
  constructor
  · intro h
    exact ⟨hs, inRegion_sideOf region tiles hv t ht, h⟩
  · intro h
    exact h.2.2

theorem isBoundarySide_iff (region : List Nat) (tiles : Tiles)
    (hv : ValidRegion region tiles) (t : Nat) (s : Int)
    (hs : s = 0 ∨ s = 1 ∨ s = 2 ∨ s = 3) :
    IsBoundarySide region tiles t s ↔
      t ∈ region ∧ OnBoundary region tiles (sideOf tiles t s) := by
  unfold IsBoundarySide
  constructor
  · rintro ⟨ht, h⟩
    refine ⟨ht, (member_false_iff_onBoundary region tiles hv t s ht hs).1 ?_⟩
    rcases h with h | h
    · rw [h]
      exact member_neg_one region tiles hv
    · exact h
  · rintro ⟨ht, h⟩
    exact ⟨ht, Or.inr ((member_false_iff_onBoundary region tiles hv t s ht hs).2 h)⟩

theorem usedClosed_boundary (region : List Nat) (tiles : Tiles)
    (hv : ValidRegion region tiles) (used : List (Int × Nat))
    (hc : UsedClosed region tiles used) :
    ∀ p ∈ used, BoundarySide region tiles (p.2, p.1) := by
  intro p hp
  obtain ⟨q, _, hb, e⟩ := hc p hp
  have := next_boundary region tiles hv _ hb
  simp only at this
  rw [e] at this
  exact this

theorem trace_covers (region : List Nat) (tiles : Tiles) (hv : ValidRegion region tiles)
    (polygon : List (List Point)) (used : List (Int × Nat)) (start_tile : Nat)
    (start_side : Int) (ccw : Bool) (hu : UsedOk region used)
    (hc : UsedClosed region tiles used) (ht : start_tile ∈ region)
    (hs : start_side ∈ [(0 : Int), 1, 2, 3])
    (hb : OnBoundary region tiles (sideOf tiles start_tile start_side))
    (hn : (start_side, start_tile) ∉ used) (hp : ∀ ring ∈ polygon, ring ≠ []) :
    ∃ polygon' used', trace region tiles polygon used start_tile start_side ccw =
        .ok (polygon', used') ∧ UsedOk region used' ∧ UsedClosed region tiles used' ∧
      (∀ ring ∈ polygon', ring ≠ []) ∧ (∀ p ∈ used, p ∈ used') ∧
      (start_side, start_tile) ∈ used' := by
  obtain ⟨polygon', used', h, hu', hc', hp'⟩ := trace_no_error region tiles hv polygon used
    start_tile start_side ccw hu hc ht hs hb hn hp
  obtain ⟨V, hw, hused⟩ := trace_walk region tiles polygon used start_tile start_side ccw
    polygon' used' h
  refine ⟨polygon', used', h, hu', hc', hp', ?_, ?_⟩
  · intro p hp
    rw [hused]
    exact List.mem_append_right _ hp
  · rw [hused]
    apply List.mem_append_left
    rw [List.mem_reverse, List.mem_map]
    exact ⟨(start_tile, start_side), IsWalk.head _ _ _ V hw, rfl⟩

theorem traceInnerSides_covers (region : List Nat) (tiles : Tiles)
    (hv : ValidRegion region tiles) (start_tile : Nat) (ht : start_tile ∈ region) :
    ∀ (sides : List Int) (polygon : List (List Point)) (used : List (Int × Nat)),
      (∀ s ∈ sides, s ∈ [(0 : Int), 1, 2, 3]) → UsedOk region used →
      UsedClosed region tiles used → (∀ ring ∈ polygon, ring ≠ []) →
      ∃ polygon' used', traceInnerSides region tiles start_tile sides polygon used =
          .ok (polygon', used') ∧ UsedOk region used' ∧ UsedClosed region tiles used' ∧
        (∀ ring ∈ polygon', ring ≠ []) ∧ (∀ p ∈ used, p ∈ used') ∧
        ∀ s ∈ sides, member region (neighbor tiles (toI32 start_tile) s) = false →
          (s, start_tile) ∈ used' := by
  intro sides
  induction sides with
  | nil =>
    intro polygon used _ hu hc hp
    exact ⟨polygon, used, rfl, hu, hc, hp, fun p hp => hp,
      fun s hs => absurd hs (List.not_mem_nil s)⟩
  | cons s sides ih =>
    intro polygon used hs hu hc hp
    have hs' : ∀ x ∈ sides, x ∈ [(0 : Int), 1, 2, 3] := fun x hx => hs x (by simp [hx])
    have hs0 : s = 0 ∨ s = 1 ∨ s = 2 ∨ s = 3 := by simpa using hs s (by simp)
    have hne : s ≠ -1 := by omega
    by_cases hcond : member region (neighbor tiles (toI32 start_tile) s) = false ∧
        (s, start_tile) ∉ used
    · have hb : OnBoundary region tiles (sideOf tiles start_tile s) :=
        (member_false_iff_onBoundary region tiles hv start_tile s ht hs0).1 hcond.1
      obtain ⟨polygon1, used1, h, hu1, hc1, hp1, hsub1, hst1⟩ := trace_covers region tiles hv
        polygon used start_tile s false hu hc ht (hs s (by simp)) hb hcond.2 hp
      obtain ⟨polygon', used', h', hu', hc', hp', hsub', hcov'⟩ :=
        ih polygon1 used1 hs' hu1 hc1 hp1
      refine ⟨polygon', used', ?_, hu', hc', hp', fun p hp => hsub' p (hsub1 p hp), ?_⟩
      · rw [traceInnerSides, if_pos (by simpa using hcond), if_pos hne, h]
        exact h'
      · intro x hx hm
        rcases List.mem_cons.1 hx with rfl | hx
        · exact hsub' _ hst1
        · exact hcov' x hx hm
    · obtain ⟨polygon', used', h', hu', hc', hp', hsub', hcov'⟩ :=
        ih polygon used hs' hu hc hp
      refine ⟨polygon', used', ?_, hu', hc', hp', hsub', ?_⟩
      · rw [traceInnerSides, if_neg (by simpa using hcond)]
        exact h'
      · intro x hx hm
        rcases List.mem_cons.1 hx with rfl | hx
        · apply hsub'
          by_contra hnot
          exact hcond ⟨hm, hnot⟩
        · exact hcov' x hx hm

theorem traceInners_covers (region : List Nat) (tiles : Tiles)
    (hv : ValidRegion region tiles) :
    ∀ (todo : List Nat) (polygon : List (List Point)) (used : List (Int × Nat)),
      (∀ t ∈ todo, t ∈ region) → UsedOk region used → UsedClosed region tiles used →
      (∀ ring ∈ polygon, ring ≠ []) →
      ∃ polygon' used', traceInners region tiles todo polygon used = .ok (polygon', used') ∧
        UsedOk region used' ∧ UsedClosed region tiles used' ∧
        (∀ ring ∈ polygon', ring ≠ []) ∧ (∀ p ∈ used, p ∈ used') ∧
        ∀ t ∈ todo, ∀ s ∈ [(0 : Int), 1, 2, 3],
          member region (neighbor tiles (toI32 t) s) = false → (s, t) ∈ used' := by
  intro todo
  induction todo with
  | nil =>
    intro polygon used _ hu hc hp
    exact ⟨polygon, used, rfl, hu, hc, hp, fun p hp => hp,
      fun t ht => absurd ht (List.not_mem_nil t)⟩
  | cons t todo ih =>
    intro polygon used ht hu hc hp
    obtain ⟨polygon1, used1, h, hu1, hc1, hp1, hsub1, hcov1⟩ := traceInnerSides_covers region
      tiles hv t (ht t (by simp)) [0, 1, 2, 3] polygon used (fun s hs => hs) hu hc hp
    obtain ⟨polygon', used', h', hu', hc', hp', hsub', hcov'⟩ :=
      ih polygon1 used1 (fun x hx => ht x (by simp [hx])) hu1 hc1 hp1
    refine ⟨polygon', used', ?_, hu', hc', hp', fun p hp => hsub' p (hsub1 p hp), ?_⟩
    · rw [traceInners, h]
      exact h'
    · intro x hx s hs hm
      rcases List.mem_cons.1 hx with rfl | hx
      · exact hsub' _ (hcov1 s hs hm)
      · exact hcov' x hx s hs hm

/-- The run of `to_boundary` on a valid region: the rings returned are the first
coordinates of lists of `(tile, side)` pairs, closed with their first point, and the pairs
are those recorded as used, which are whole closed walks of boundary sides and hold every
side that passes the test of the inner-ring search. -/
theorem to_boundary_used (first : Nat) (rest : List Nat) (tiles : Tiles)
    (hv : ValidRegion (first :: rest) tiles) :
    ∃ (sides : List (List (Nat × Int))) (used : List (Int × Nat)),
      to_boundary first rest tiles =
        .ok (sides.map (fun ring => ring.map (fun v => coord tiles v.1 v.2) ++
          (ring.head?.map (fun v => coord tiles v.1 v.2)).toList)) ∧
      (sides.flatten.map (fun v => (v.2, v.1))).Perm used ∧
      UsedOk (first :: rest) used ∧ UsedClosed (first :: rest) tiles used ∧
      ∀ t ∈ first :: rest, ∀ s ∈ [(0 : Int), 1, 2, 3],
        member (first :: rest) (neighbor tiles (toI32 t) s) = false → (s, t) ∈ used := by
  have hst : smallestTile (first :: rest) first ∈ first :: rest := by
    rcases smallestTile_mem (first :: rest) first with h | h
    · rw [h]; simp
    · exact h
  have hfo := start_faces_outside (first :: rest) tiles hv _ hst
    (smallestTile_le (first :: rest) first).2
  have hb : OnBoundary (first :: rest) tiles
      (sideOf tiles (smallestTile (first :: rest) first) 0) :=
    ⟨hfo.1, hfo.2.1, Outside.not_inRegion _ _ _ _ hfo.2.2⟩
  obtain ⟨polygon, used, h, hu, hc, hp, _, _⟩ := trace_covers (first :: rest) tiles hv [] []
    (smallestTile (first :: rest) first) 0 true ⟨List.nodup_nil, by simp⟩
    (fun p hp => absurd hp (List.not_mem_nil p)) hst (by simp) hb (List.not_mem_nil _)
    (by simp)
  obtain ⟨polygon', used', h2, hu', hc', _, _, hcov⟩ := traceInners_covers (first :: rest)
    tiles hv (first :: rest) polygon used (fun t ht => ht) hu hc hp
  have h1 := trace_sides _ _ _ _ _ _ _ _ _ h ⟨[], by simp, by simp⟩
  obtain ⟨_, sides, hp', hperm⟩ := traceInners_sides _ _ _ _ _ _ _ h2 hu
    (fun t ht => ht) hp h1
  refine ⟨sides, used', ?_, hperm, hu', hc', hcov⟩
  unfold to_boundary
  simp only [h, h2]
  rw [hp', List.map_map]
  congr 1
  apply List.map_congr_left
  intro ring _
  cases ring <;> simp

theorem closed_rings_count (tiles : Tiles) (sides : List (List (Nat × Int))) :
    ((sides.map (fun ring => ring.map (fun v => coord tiles v.1 v.2) ++
        (ring.head?.map (fun v => coord tiles v.1 v.2)).toList)).map
      (fun ring => ring.length - 1)).sum = sides.flatten.length := by
  induction sides with
  | nil => rfl
  | cons ring sides ih =>
    simp only [List.map_cons, List.sum_cons, List.flatten_cons, List.length_append]
    rw [ih]
    cases ring <;> simp

/-- C31: on a region of valid tile ids, the start of the outer trace, the smallest tile
with side 0, is a boundary side (the tile is in the region and its neighbor on that side
is `-1` or not a member); the successor rule of `trace` (diagonal, adjacent, or stay and
turn) takes a boundary side to a boundary side; and `to_boundary` returns the first
coordinates of `(tile, side)` pairs that are all boundary sides. -/
theorem to_boundary_emits_boundary_sides (first : Nat) (rest : List Nat) (tiles : Tiles)
    (hv : ValidRegion (first :: rest) tiles) :
    IsBoundarySide (first :: rest) tiles (smallestTile (first :: rest) first) 0 ∧
      (∀ (tile : Nat) (side : Int), side ∈ [(0 : Int), 1, 2, 3] →
        IsBoundarySide (first :: rest) tiles tile side →
        IsBoundarySide (first :: rest) tiles (nextEdge (first :: rest) tiles tile side).1
            (nextEdge (first :: rest) tiles tile side).2 ∧
          (nextEdge (first :: rest) tiles tile side).2 ∈ [(0 : Int), 1, 2, 3]) ∧
      ∃ sides : List (List (Nat × Int)),
        to_boundary first rest tiles =
          .ok (sides.map (fun ring => ring.map (fun v => coord tiles v.1 v.2) ++
            (ring.head?.map (fun v => coord tiles v.1 v.2)).toList)) ∧
        ∀ ring ∈ sides, ∀ v ∈ ring, v.2 ∈ [(0 : Int), 1, 2, 3] ∧
          IsBoundarySide (first :: rest) tiles v.1 v.2 := by
  have hst : smallestTile (first :: rest) first ∈ first :: rest := by
    rcases smallestTile_mem (first :: rest) first with h | h
    · rw [h]; simp
    · exact h
  have hfo := start_faces_outside (first :: rest) tiles hv _ hst
    (smallestTile_le (first :: rest) first).2
  refine ⟨?_, ?_, ?_⟩
  · exact (isBoundarySide_iff _ tiles hv _ 0 (Or.inl rfl)).2
      ⟨hst, hfo.1, hfo.2.1, Outside.not_inRegion _ _ _ _ hfo.2.2⟩
  · intro tile side hs hb
    have hs0 : side = 0 ∨ side = 1 ∨ side = 2 ∨ side = 3 := by simpa using hs
    obtain ⟨ht, hon⟩ := (isBoundarySide_iff _ tiles hv tile side hs0).1 hb
    have hmem := nextEdge_mem tiles ht hs
    have hnext := next_boundary (first :: rest) tiles hv (tile, side) ⟨hv.2.2.2 _ ht, hon⟩
    exact ⟨(isBoundarySide_iff _ tiles hv _ _ (by simpa using hmem.2)).2 ⟨hmem.1, hnext.2⟩,
      hmem.2⟩
  · obtain ⟨sides, used, h, hperm, hu, hc, _⟩ := to_boundary_used first rest tiles hv
    refine ⟨sides, h, ?_⟩
    intro ring hr v hvr
    have hin : (v.2, v.1) ∈ used := by
      apply hperm.mem_iff.1
      rw [List.mem_map]
      exact ⟨v, List.mem_flatten.2 ⟨ring, hr, hvr⟩, rfl⟩
    have hside := (hu.2 _ hin).1
    have hb := usedClosed_boundary _ tiles hv used hc _ hin
    exact ⟨hside, (isBoundarySide_iff _ tiles hv _ _ (by simpa using hside)).2
      ⟨(hu.2 _ hin).2, hb.2⟩⟩

theorem to_boundary_emits_boundary_sides_witness :
    ValidRegion [5, 6, 9, 10] (Tiles.lattice 0 0 1 1 4 4) ∧
      IsBoundarySide [5, 6, 9, 10] (Tiles.lattice 0 0 1 1 4 4)
        (smallestTile [5, 6, 9, 10] 5) 0 :=
  have h : ValidRegion [5, 6, 9, 10] (Tiles.lattice 0 0 1 1 4 4) := by
    refine ⟨by decide, by decide, by decide, ?_⟩
    intro t ht
    simp only [List.mem_cons, List.mem_singleton, List.not_mem_nil, or_false] at ht
    rcases ht with rfl | rfl | rfl | rfl <;> decide
  ⟨h, (to_boundary_emits_boundary_sides 5 [6, 9, 10] (Tiles.lattice 0 0 1 1 4 4) h).1⟩

/-- C32: on a non-empty region of distinct valid tile ids, `to_boundary` returns the first
coordinates of lists of `(tile, side)` pairs, each list closed with its first point, and
these pairs are the boundary sides of the region, each exactly once; so the sum over the
rings of the number of points minus one is the number of boundary sides. -/
theorem to_boundary_uses_each_side_once (first : Nat) (rest : List Nat) (tiles : Tiles)
    (hv : ValidRegion (first :: rest) tiles) (hn : (first :: rest).Nodup) :
    ∃ (sides : List (List (Nat × Int))) (polygon : List (List Point)),
      to_boundary first rest tiles = .ok polygon ∧
      polygon = sides.map (fun ring => ring.map (fun v => coord tiles v.1 v.2) ++
        (ring.head?.map (fun v => coord tiles v.1 v.2)).toList) ∧
      sides.flatten.Perm (boundarySides (first :: rest) tiles) ∧
      (boundarySides (first :: rest) tiles).Nodup ∧
      (polygon.map (fun ring => ring.length - 1)).sum =
        (boundarySides (first :: rest) tiles).length := by
  obtain ⟨sides, used, h, hperm, hu, hc, hcov⟩ := to_boundary_used first rest tiles hv
  have hnd : (boundarySides (first :: rest) tiles).Nodup :=
    List.Nodup.filter _ (List.Nodup.product hn (by decide))
  have hsn : sides.flatten.Nodup :=
    List.Nodup.of_map _ ((List.Perm.nodup_iff hperm).2 hu.1)
  have hmem : ∀ v : Nat × Int, v ∈ sides.flatten ↔ (v.2, v.1) ∈ used := by
    intro v
    rw [← hperm.mem_iff, List.mem_map]
    constructor
    · intro hin
      exact ⟨v, hin, rfl⟩
    · rintro ⟨w, hw, e⟩
      have : w = v := by
        obtain ⟨w1, w2⟩ := w
        obtain ⟨v1, v2⟩ := v
        simp only [Prod.mk.injEq] at e
        rw [e.1, e.2]
      rw [← this]
      exact hw
  have hP : sides.flatten.Perm (boundarySides (first :: rest) tiles) := by
    rw [List.perm_ext_iff_of_nodup hsn hnd]
    intro v
    rw [hmem v]
    obtain ⟨t, s⟩ := v
    unfold boundarySides
    rw [List.mem_filter, List.pair_mem_product]
    simp only [Bool.not_eq_true', Bool.not_eq_eq_eq_not, Bool.not_true]
    constructor
    · intro hin
      have hside := (hu.2 _ hin).1
      have hb := usedClosed_boundary _ tiles hv used hc _ hin
      exact ⟨⟨(hu.2 _ hin).2, hside⟩,
        (member_false_iff_onBoundary _ tiles hv t s (hu.2 _ hin).2 (by simpa using hside)).2
          hb.2⟩
    · rintro ⟨⟨ht, hs⟩, hm⟩
      exact hcov t ht s hs hm
  refine ⟨sides, _, h, rfl, hP, hnd, ?_⟩
  rw [closed_rings_count, hP.length_eq]

theorem to_boundary_uses_each_side_once_witness :
    ValidRegion [5, 6, 9, 10] (Tiles.lattice 0 0 1 1 4 4) ∧ [5, 6, 9, 10].Nodup ∧
      (boundarySides [5, 6, 9, 10] (Tiles.lattice 0 0 1 1 4 4)).length = 8 ∧
      ∃ (sides : List (List (Nat × Int))) (polygon : List (List Point)),
        to_boundary 5 [6, 9, 10] (Tiles.lattice 0 0 1 1 4 4) = .ok polygon ∧
        polygon = sides.map (fun ring =>
          ring.map (fun v => coord (Tiles.lattice 0 0 1 1 4 4) v.1 v.2) ++
            (ring.head?.map (fun v => coord (Tiles.lattice 0 0 1 1 4 4) v.1 v.2)).toList) ∧
        sides.flatten.Perm (boundarySides [5, 6, 9, 10] (Tiles.lattice 0 0 1 1 4 4)) ∧
        (boundarySides [5, 6, 9, 10] (Tiles.lattice 0 0 1 1 4 4)).Nodup ∧
        (polygon.map (fun ring => ring.length - 1)).sum =
          (boundarySides [5, 6, 9, 10] (Tiles.lattice 0 0 1 1 4 4)).length :=
  have h : ValidRegion [5, 6, 9, 10] (Tiles.lattice 0 0 1 1 4 4) := by
    refine ⟨by decide, by decide, by decide, ?_⟩
    intro t ht
    simp only [List.mem_cons, List.mem_singleton, List.not_mem_nil, or_false] at ht
    rcases ht with rfl | rfl | rfl | rfl <;> decide
  ⟨h, by decide, by decide,
    to_boundary_uses_each_side_once 5 [6, 9, 10] (Tiles.lattice 0 0 1 1 4 4) h (by decide)⟩

/-! ## Theorems: the division of `x_intercept`, the bounds of `trim_shape` and the
crossing of `trim_front` -/

theorem quadrant_delta_two (vertex next_vertex pt : Point)
    (h : toInt8 (quadrant_type next_vertex pt - quadrant_type vertex pt) = 2 ∨
      toInt8 (quadrant_type next_vertex pt - quadrant_type vertex pt) = -2) :
    (vertex.2 > pt.2 ∧ next_vertex.2 ≤ pt.2) ∨ (vertex.2 ≤ pt.2 ∧ next_vertex.2 > pt.2) := by
  unfold quadrant_type toInt8 at h
  by_cases a1 : vertex.1 > pt.1 <;> by_cases a2 : vertex.2 > pt.2 <;>
    by_cases b1 : next_vertex.1 > pt.1 <;> by_cases b2 : next_vertex.2 > pt.2 <;>
    simp only [a1, a2, b1, b2, if_true, if_false] at h <;>
    first
      | exact Or.inl ⟨a2, not_lt.1 b2⟩
      | exact Or.inr ⟨not_lt.1 a2, b2⟩
      | (exfalso; revert h; decide)

theorem adjust_delta_checked_eq (delta : Int) (vertex next_vertex p : Point)
    (h : delta = 2 ∨ delta = -2 → vertex.2 - next_vertex.2 ≠ 0) :
    adjust_delta_checked delta vertex next_vertex p =
      some (adjust_delta delta vertex next_vertex p) := by
  unfold adjust_delta_checked adjust_delta
  by_cases h3 : delta = 3
  · simp [h3]
  · by_cases h3' : delta = -3
    · simp [h3']
    · by_cases h2 : delta = 2 ∨ delta = -2
      · simp only [h3, h3', h2, if_true, if_false, x_intercept_checked, x_intercept, h h2]
      · simp only [h3, h3', h2, if_false]

theorem windLoopChecked_eq (pt front : Point) :
    ∀ (todo : List Point) (vertex : Point) (angle : Int),
      windLoopChecked pt front (vertex :: todo) (quadrant_type vertex pt) angle =
        some (windLoop pt front (vertex :: todo) (quadrant_type vertex pt) angle) := by
  intro todo
  induction todo with
  | nil =>
    intro vertex angle
    have h := adjust_delta_checked_eq
      (toInt8 (quadrant_type front pt - quadrant_type vertex pt)) vertex front pt
      (fun hd => by
        rcases quadrant_delta_two vertex front pt hd with ⟨a, b⟩ | ⟨a, b⟩
        · exact ne_of_gt (by linarith)
        · exact ne_of_lt (by linarith))
    simp only [windLoopChecked, windLoop, List.headD_nil, h]
  | cons w r ih =>
    intro vertex angle
    have h := adjust_delta_checked_eq
      (toInt8 (quadrant_type w pt - quadrant_type vertex pt)) vertex w pt
      (fun hd => by
        rcases quadrant_delta_two vertex w pt hd with ⟨a, b⟩ | ⟨a, b⟩
        · exact ne_of_gt (by linarith)
        · exact ne_of_lt (by linarith))
    rw [windLoopChecked, windLoop]
    simp only [List.headD_cons, h]
    exact ih w _

/-- C33: in `point_in_poly` the division of `x_intercept` never divides by zero. The
division is evaluated only for a quadrant delta of +2 or -2; for such a delta one end
point of the edge is above `p.y` and the other is not, so their `y` coordinates differ;
and the loop of `point_in_poly`, run with the division trapped, always yields the angle
of the loop. -/
theorem x_intercept_never_divides_by_zero (pt vertex next_vertex front : Point)
    (rest : List Point) (delta : Int) :
    (delta ≠ 2 → delta ≠ -2 →
      adjust_delta_checked delta vertex next_vertex pt =
        some (adjust_delta delta vertex next_vertex pt)) ∧
    (toInt8 (quadrant_type next_vertex pt - quadrant_type vertex pt) = 2 ∨
        toInt8 (quadrant_type next_vertex pt - quadrant_type vertex pt) = -2 →
      ((vertex.2 > pt.2 ∧ next_vertex.2 ≤ pt.2) ∨ (vertex.2 ≤ pt.2 ∧ next_vertex.2 > pt.2)) ∧
        vertex.2 - next_vertex.2 ≠ 0) ∧
    windLoopChecked pt front (front :: rest) (quadrant_type front pt) 0 =
      some (windLoop pt front (front :: rest) (quadrant_type front pt) 0) := by
  refine ⟨?_, ?_, windLoopChecked_eq pt front rest front 0⟩
  · intro h1 h2
    exact adjust_delta_checked_eq delta vertex next_vertex pt
      (fun hd => by rcases hd with hd | hd <;> contradiction)
  · intro hd
    have := quadrant_delta_two vertex next_vertex pt hd
    refine ⟨this, ?_⟩
    rcases this with ⟨a, b⟩ | ⟨a, b⟩
    · exact ne_of_gt (by linarith)
    · exact ne_of_lt (by linarith)

theorem x_intercept_never_divides_by_zero_witness :
    toInt8 (quadrant_type (0, 0) (1 / 2, 1 / 2) - quadrant_type (1, 1) (1 / 2, 1 / 2)) = 2 ∧
      (((1 : ℚ), (1 : ℚ)) : Point).2 - ((0, 0) : Point).2 ≠ 0 :=
  have h : toInt8 (quadrant_type (0, 0) (1 / 2, 1 / 2) -
      quadrant_type (1, 1) (1 / 2, 1 / 2)) = 2 := by
    norm_num [quadrant_type, toInt8]
  ⟨h, ((x_intercept_never_divides_by_zero (1 / 2, 1 / 2) (1, 1) (0, 0) (0, 0) [] 0).2.1
    (Or.inl h)).2⟩

/-- C35: `trim_shape` stays within the bounds of a shape with at least two points when
`start >= 0`, for every `end` and every validity of the two vertices: it returns (no
iterator leaves the shape), the start clip stops at an index of at least 1 so that
`--current` stays in the shape, the end clip stops at an index of an existing element of
every non-empty shape, and the shape afterwards is not empty. -/
theorem trim_shape_in_bounds {P F : Type} [LinearOrderedField F] (IsValid : P → Bool)
    (Distance : P → P → F) (start : F) (start_vertex : P) (end' : F) (end_vertex : P)
    (front second : P) (rest : List P) (hs : 0 ≤ start) :
    (∃ res, trim_shape IsValid Distance start start_vertex end' end_vertex
        (front :: second :: rest) = some res ∧ res ≠ []) ∧
      1 ≤ trimAdvance Distance start (front :: second :: rest) 0 0 ∧
      ∀ (shape : List P) (along : F), shape ≠ [] →
        trimAdvance Distance end' shape 0 along < shape.length := by
  have hend : ∀ (shape : List P) (along : F), shape ≠ [] →
      trimAdvance Distance end' shape 0 along < shape.length := by
    intro shape along hne
    have := (trimAdvance_bounds Distance end' shape 0 along).2
    have hl := List.length_pos.2 hne
    omega
  refine ⟨?_, trimAdvance_pos Distance start front second rest 0 0 hs, hend⟩
  obtain ⟨k, q, tail, hk, hd⟩ := trim_shape_start Distance start front second rest hs
  by_cases h1 : IsValid start_vertex = true <;> by_cases h2 : IsValid end_vertex = true
  · exact ⟨_, by simp only [trim_shape, h1, h2, hk, hd, if_true, List.isEmpty_cons]; rfl,
      by simp⟩
  · exact ⟨start_vertex :: q :: tail, by simp [trim_shape, h1, h2, hk, hd], by simp⟩
  · exact ⟨_, by simp only [trim_shape, h1, h2, if_true, List.isEmpty_cons]; rfl, by simp⟩
  · exact ⟨front :: second :: rest, by simp [trim_shape, h1, h2], by simp⟩

theorem trim_shape_in_bounds_witness :
    (0 : ℚ) ≤ 1 ∧
      (∃ res, trim_shape PointLL_IsValid (fun a b : ℚ × ℚ => |a.1 - b.1| + |a.2 - b.2|)
        1 (0, 1) (-1) (0, 4) [(0, 0), (0, 2), (0, 3)] = some res ∧ res ≠ []) :=
  ⟨by norm_num,
    (trim_shape_in_bounds PointLL_IsValid (fun a b : ℚ × ℚ => |a.1 - b.1| + |a.2 - b.2|)
      1 (0, 1) (-1) (0, 4) (0, 0) (0, 2) [(0, 3)] (by norm_num)).1⟩

theorem trimLoop_cross {P F : Type} [LinearOrderedField F] (Distance : P → P → F)
    (PointAlongSegment : P → P → F → P) (dist : F) :
    ∀ (rest : List P) (p1 : P) (init : List P) (d : F),
      d ≤ dist → dist < d + polylineLength Distance (p1 :: rest) →
      ∃ (k : Nat) (pk pk1 : P), (p1 :: rest)[k]? = some pk ∧ (p1 :: rest)[k + 1]? = some pk1 ∧
        d + polylineLength Distance ((p1 :: rest).take (k + 1)) ≤ dist ∧
        dist < d + polylineLength Distance ((p1 :: rest).take (k + 2)) ∧
        (∀ j, j < k → d + polylineLength Distance ((p1 :: rest).take (j + 2)) ≤ dist) ∧
        trimLoop Distance PointAlongSegment dist (p1 :: rest) d (init ++ [p1]) =
          some (init ++ (p1 :: rest).take (k + 1) ++
              [PointAlongSegment pk pk1
                ((dist - (d + polylineLength Distance ((p1 :: rest).take (k + 1)))) /
                  Distance pk pk1)],
            PointAlongSegment pk pk1
                ((dist - (d + polylineLength Distance ((p1 :: rest).take (k + 1)))) /
                  Distance pk pk1) :: (p1 :: rest).drop (k + 1)) := by
  intro rest
  induction rest with
  | nil =>
    intro p1 init d h1 h2
    simp only [polylineLength, add_zero] at h2
    exact absurd h1 (not_le.2 h2)
  | cons p2 rest ih =>
    intro p1 init d h1 h2
    by_cases hc : d + Distance p1 p2 > dist
    · have hpos : Distance p1 p2 ≠ 0 := by
        intro h0
        rw [h0, add_zero] at hc
        exact absurd h1 (not_le.2 hc)
      refine ⟨0, p1, p2, by simp, by simp, by simpa [polylineLength] using h1,
        by simpa [polylineLength] using hc, fun j hj => absurd hj (Nat.not_lt_zero j), ?_⟩
      rw [trimLoop]
      simp only [hc, if_true, hpos, if_false]
      simp [polylineLength]
    · have h1' : d + Distance p1 p2 ≤ dist := not_lt.1 hc
      have h2' : dist < d + Distance p1 p2 + polylineLength Distance (p2 :: rest) := by
        simp only [polylineLength] at h2
        linarith
      obtain ⟨k, pk, pk1, g1, g2, g3, g4, g5, g6⟩ := ih p2 (init ++ [p1]) _ h1' h2'
      have e : ∀ n, d + polylineLength Distance ((p1 :: p2 :: rest).take (n + 2)) =
          d + Distance p1 p2 + polylineLength Distance ((p2 :: rest).take (n + 1)) := by
        intro n
        simp only [List.take_succ_cons, polylineLength]
        ring
      refine ⟨k + 1, pk, pk1, by simpa using g1, by simpa using g2, ?_, ?_, ?_, ?_⟩
      · rw [e]; exact g3
      · rw [e]; exact g4
      · intro j hj
        cases j with
        | zero => simpa [polylineLength] using h1'
        | succ j =>
          rw [e]
          exact g5 j (by omega)
      · rw [trimLoop]
        simp only [hc, if_false]
        rw [g6, e]
        simp

/-- C38: for every polyline with at least two points and every `0 <= dist` below its
length, with `k` the first segment at which the accumulated length exceeds `dist` and `m`
the interpolated point on that segment, `trim_front` returns `[p0..pk, m]` and leaves
`[m, p(k+1)..p(n-1)]`. -/
theorem trim_front_crossing {P F : Type} [LinearOrderedField F] (Distance : P → P → F)
    (PointAlongSegment : P → P → F → P) (front second : P) (rest : List P) (dist : F)
    (h0 : 0 ≤ dist) (h1 : dist < polylineLength Distance (front :: second :: rest)) :
    ∃ (k : Nat) (pk pk1 : P), (front :: second :: rest)[k]? = some pk ∧
      (front :: second :: rest)[k + 1]? = some pk1 ∧
      polylineLength Distance ((front :: second :: rest).take (k + 1)) ≤ dist ∧
      dist < polylineLength Distance ((front :: second :: rest).take (k + 2)) ∧
      (∀ j, j < k → polylineLength Distance ((front :: second :: rest).take (j + 2)) ≤ dist) ∧
      trim_front Distance PointAlongSegment (front :: second :: rest) dist =
        some ((front :: second :: rest).take (k + 1) ++
            [PointAlongSegment pk pk1
              ((dist - polylineLength Distance ((front :: second :: rest).take (k + 1))) /
                Distance pk pk1)],
          PointAlongSegment pk pk1
              ((dist - polylineLength Distance ((front :: second :: rest).take (k + 1))) /
                Distance pk pk1) :: (front :: second :: rest).drop (k + 1)) := by
  obtain ⟨k, pk, pk1, g1, g2, g3, g4, g5, g6⟩ := trimLoop_cross Distance PointAlongSegment dist
    (second :: rest) front [] 0 h0 (by simpa using h1)
  simp only [zero_add] at g3 g4 g5 g6
  refine ⟨k, pk, pk1, g1, g2, g3, g4, g5, ?_⟩
  rw [trim_front, show ([front] : List P) = [] ++ [front] from rfl, g6]
  simp

theorem trim_front_crossing_witness :
    (0 : ℚ) ≤ 3 / 2 ∧
      (3 / 2 : ℚ) < polylineLength (fun a b : ℚ => |b - a|) [0, 1, 3] ∧
      ∃ (k : Nat) (pk pk1 : ℚ), ([0, 1, 3] : List ℚ)[k]? = some pk ∧
        ([0, 1, 3] : List ℚ)[k + 1]? = some pk1 ∧
        polylineLength (fun a b : ℚ => |b - a|) (([0, 1, 3] : List ℚ).take (k + 1)) ≤ 3 / 2 ∧
        3 / 2 < polylineLength (fun a b : ℚ => |b - a|) (([0, 1, 3] : List ℚ).take (k + 2)) ∧
        (∀ j, j < k →
          polylineLength (fun a b : ℚ => |b - a|) (([0, 1, 3] : List ℚ).take (j + 2)) ≤
            3 / 2) ∧
        trim_front (fun a b : ℚ => |b - a|) (fun a b f => a + f * (b - a)) [0, 1, 3] (3 / 2) =
          some (([0, 1, 3] : List ℚ).take (k + 1) ++
              [(fun a b f => a + f * (b - a)) pk pk1
                ((3 / 2 - polylineLength (fun a b : ℚ => |b - a|)
                  (([0, 1, 3] : List ℚ).take (k + 1))) / (fun a b : ℚ => |b - a|) pk pk1)],
            (fun a b f => a + f * (b - a)) pk pk1
                ((3 / 2 - polylineLength (fun a b : ℚ => |b - a|)
                  (([0, 1, 3] : List ℚ).take (k + 1))) / (fun a b : ℚ => |b - a|) pk pk1) ::
              ([0, 1, 3] : List ℚ).drop (k + 1)) :=
  have h : (3 / 2 : ℚ) < polylineLength (fun a b : ℚ => |b - a|) [0, 1, 3] := by
    norm_num [polylineLength]
  ⟨by norm_num, h,
    trim_front_crossing (fun a b : ℚ => |b - a|) (fun a b f => a + f * (b - a)) 0 1 [3]
      (3 / 2) (by norm_num) h⟩

/-! ## Theorems: the number of points of `resample_spherical_polyline` -/

/-- The loop `while (d > remaining)` with the count of samples: `n` samples are placed
before it, `T` is the arc length up to the end of the segment, and the next sample is due
at `(n + 1) * resolution`. -/
theorem placeLoop_count {F : Type} [LinearOrderedField F] (m : SphereMath F)
    (resolution : F) (p : F × F) (T : F) :
    ∀ (fuel : Nat) (d remaining : F) (last : F × F) (resampled : List (F × F)) (n : Nat),
      d ≤ remaining + fuel * resolution →
      remaining = ((n : F) + 1) * resolution - (T - d) →
      resampled.length = 1 + n →
      (∀ k : Nat, 1 ≤ k → k ≤ n → (k : F) * resolution < T) →
      ∃ (d' remaining' : F) (last' : F × F) (resampled' : List (F × F)) (n' : Nat),
        placeLoop m resolution p fuel d remaining last resampled =
          .ok (d', remaining', last', resampled') ∧ d' ≤ remaining' ∧
        remaining' = ((n' : F) + 1) * resolution - (T - d') ∧
        resampled'.length = 1 + n' ∧
        (∀ k : Nat, 1 ≤ k → k ≤ n' → (k : F) * resolution < T) := by
  intro fuel
  induction fuel with
  | zero =>
    intro d remaining last resampled n h hr hl hk
    have h' : ¬ d > remaining := by
      simp only [Nat.cast_zero, zero_mul, add_zero] at h
      exact not_lt.2 h
    exact ⟨d, remaining, last, resampled, n, by simp [placeLoop, h'], not_lt.1 h', hr, hl, hk⟩
  | succ fuel ih =>
    intro d remaining last resampled n h hr hl hk
    by_cases hc : d > remaining
    · have hT : ((n : F) + 1) * resolution < T := by linarith
      obtain ⟨d', r', l', res', n', he, hle, hr', hl', hk'⟩ := ih (d - remaining) resolution
        (interpolate m last p d remaining remaining)
        (resampled ++ [interpolate m last p d remaining remaining]) (n + 1)
        (by push_cast at h; linarith)
        (by push_cast; rw [hr]; ring)
        (by rw [List.length_append, hl]; simp; ring)
        (by
          intro k hk1 hk2
          rcases Nat.lt_or_ge k (n + 1) with hlt | hge
          · exact hk k hk1 (by omega)
          · have : k = n + 1 := by omega
            rw [this]
            push_cast
            exact hT)
      refine ⟨d', r', l', res', n', ?_, hle, hr', hl', hk'⟩
      rw [placeLoop, if_pos hc]
      exact he
    · exact ⟨d, remaining, last, resampled, n, by simp [placeLoop, hc], not_lt.1 hc, hr, hl, hk⟩

theorem resampleFrom_count {F : Type} [LinearOrderedField F] [FloorRing F]
    (m : SphereMath F) (hacos : ∀ x y, m.acos x = some y → 0 ≤ y) (resolution : F)
    (hres : 0 < resolution) :
    ∀ (rest : List (F × F)) (remaining : F) (last : F × F) (resampled : List (F × F))
      (n : Nat) (S L : F),
      arcLength m (last :: rest) = some L →
      0 ≤ remaining → remaining = ((n : F) + 1) * resolution - S →
      resampled.length = 1 + n →
      (∀ k : Nat, 1 ≤ k → k ≤ n → (k : F) * resolution < S) →
      ∃ (res : List (F × F)) (n' : Nat),
        resampleFrom m resolution false rest remaining last resampled = .ok res ∧
        res.length = 1 + n' ∧
        ∀ k : Nat, 1 ≤ k → (k ≤ n' ↔ (k : F) * resolution < S + L) := by
  intro rest
  induction rest with
  | nil =>
    intro remaining last resampled n S L hL h0 hr hl hk
    simp only [arcLength, Option.some.injEq] at hL
    subst hL
    refine ⟨resampled, n, rfl, hl, ?_⟩
    intro k hk1
    rw [add_zero]
    constructor
    · exact hk k hk1
    · intro hlt
      have h1 : (k : F) * resolution < ((n : F) + 1) * resolution := by linarith
      have h2 : (k : F) < (n : F) + 1 := lt_of_mul_lt_mul_right h1 (le_of_lt hres)
      have h3 : k < n + 1 := by exact_mod_cast h2
      omega
  | cons p rest ih =>
    intro remaining last resampled n S L hL h0 hr hl hk
    rw [arcLength] at hL
    cases hd : arcTo m last p with
    | none => rw [hd] at hL; simp at hL
    | some d =>
      cases hrest : arcLength m (p :: rest) with
      | none => rw [hd, hrest] at hL; simp at hL
      | some Lr =>
        rw [hd, hrest] at hL
        simp only [Option.some.injEq] at hL
        have hd0 : 0 ≤ d := arcTo_nonneg m hacos last p d hd
        obtain ⟨d', r', l', res', n', he, hle, hr', hl', hk'⟩ := placeLoop_count m resolution p
          (S + d) (⌈d / resolution⌉₊ + 1) d remaining last resampled n
          (ceil_fuel d remaining resolution hres h0)
          (by rw [hr]; ring) hl
          (fun k hk1 hk2 => by have := hk k hk1 hk2; linarith)
        obtain ⟨res, n'', e, hlen, hiff⟩ := ih (r' - d') p res' n' (S + d) Lr hrest
          (by linarith) (by rw [hr']; ring) hl' hk'
        refine ⟨res, n'', ?_, hlen, ?_⟩
        · rw [resampleFrom]
          simp only [hd, Option.getD_some, he, Bool.false_eq_true, if_false]
          exact e
        · intro k hk1
          rw [hiff k hk1, ← hL]
          constructor <;> intro h <;> linarith

/-- C34 (amended): in exact arithmetic, for every non-empty polyline whose segment arcs add
up to `L` (in radians) and
every `resolution > 0`, `resample_spherical_polyline` with `preserve = false` returns
exactly `1 + n` points, where `n` is the number of `k >= 1` with `k` times the resolution
(in radians) strictly below `L`: the first vertex and one sample per whole multiple of the
resolution strictly inside the length. -/
theorem resample_count {F : Type} [LinearOrderedField F] [FloorRing F] (m : SphereMath F)
    (hacos : ∀ x y, m.acos x = some y → 0 ≤ y) (front : F × F) (rest : List (F × F))
    (resolution L : F) (h : 0 < resolution) (hL : arcLength m (front :: rest) = some L) :
    ∃ (res : List (F × F)) (n : Nat),
      resample_spherical_polyline m (front :: rest) resolution false = .ok res ∧
      res.length = 1 + n ∧
      ∀ k : Nat, 1 ≤ k → (k ≤ n ↔ (k : F) * (resolution * RAD_PER_METER F) < L) := by
  have hres : 0 < resolution * RAD_PER_METER F := mul_pos h (RAD_PER_METER_pos F)
  obtain ⟨res, n, e, hlen, hiff⟩ := resampleFrom_count m hacos (resolution * RAD_PER_METER F)
    hres rest (resolution * RAD_PER_METER F) front [front] 0 0 L hL (le_of_lt hres)
    (by simp) (by simp) (fun k hk1 hk2 => by omega)
  refine ⟨res, n, e, hlen, ?_⟩
  intro k hk1
  rw [hiff k hk1, zero_add]

theorem resample_count_witness :
    (0 : ℝ) < 1 ∧
      arcLength (⟨Real.sin, Real.cos,
          fun x => if -1 ≤ x ∧ x ≤ 1 then some (Real.arccos x) else none,
          fun y x => Complex.arg ⟨x, y⟩, Real.sqrt, Real.pi / 180, 180 / Real.pi⟩ :
          SphereMath ℝ) ((0, 0) :: [(0, 10)]) = some (10 * (Real.pi / 180) + 0) ∧
      ∃ (res : List (ℝ × ℝ)) (n : Nat),
        resample_spherical_polyline
            (⟨Real.sin, Real.cos,
              fun x => if -1 ≤ x ∧ x ≤ 1 then some (Real.arccos x) else none,
              fun y x => Complex.arg ⟨x, y⟩, Real.sqrt, Real.pi / 180, 180 / Real.pi⟩ :
              SphereMath ℝ)
            ((0, 0) :: [(0, 10)]) 1 false = .ok res ∧
          res.length = 1 + n ∧
          ∀ k : Nat, 1 ≤ k →
            (k ≤ n ↔ (k : ℝ) * (1 * RAD_PER_METER ℝ) < 10 * (Real.pi / 180) + 0) :=
  have hL : arcLength (⟨Real.sin, Real.cos,
      fun x => if -1 ≤ x ∧ x ≤ 1 then some (Real.arccos x) else none,
      fun y x => Complex.arg ⟨x, y⟩, Real.sqrt, Real.pi / 180, 180 / Real.pi⟩ :
      SphereMath ℝ) ((0, 0) :: [(0, 10)]) = some (10 * (Real.pi / 180) + 0) := by
    rw [arcLength, arcTo_meridian _
      ⟨fun _ => rfl, fun _ => rfl, fun _ h1 h2 => if_pos ⟨h1, h2⟩, fun _ _ => rfl,
        fun _ => rfl, rfl, rfl⟩]
    rfl
  ⟨by norm_num, hL,
    resample_count _
      (fun x y hxy => by
        simp only at hxy
        split at hxy
        · rw [← Option.some.inj hxy]
          exact Real.arccos_nonneg x
        · cases hxy)
      (0, 0) [(0, 10)] 1 _ (by norm_num) hL⟩

/-! ## Theorems: the walks of `tangent_angle` -/

theorem tangentWalk_down_ok {P F : Type} [LinearOrderedField F] (Distance : P → P → F)
    (PointAlongSegment : P → P → F → P) (shape : List P) (stop : Int) (h0 : 0 ≤ stop) :
    ∀ (fuel : Nat) (i : Int) (u : P) (remaining : F),
      stop ≤ i → i ≤ shape.length → i - stop ≤ fuel →
      ∃ r, tangentWalk Distance PointAlongSegment shape (-1) stop fuel i u remaining = .ok r := by
  intro fuel
  induction fuel with
  | zero =>
    intro i u remaining h1 h2 h3
    have : i = stop := by omega
    exact ⟨(u, remaining, false), by simp [tangentWalk, this]⟩
  | succ fuel ih =>
    intro i u remaining h1 h2 h3
    rw [tangentWalk]
    split
    · rename_i hc
      have hne : i ≠ stop := hc.2
      have hlt : (i + -1).toNat < shape.length := by omega
      simp only [show 0 ≤ i + -1 by omega, if_true, List.getElem?_eq_getElem hlt]
      split
      · exact ⟨_, rfl⟩
      · exact ih (i + -1) _ _ (by omega) (by omega) (by omega)
    · exact ⟨_, rfl⟩

theorem tangentWalk_up_ok {P F : Type} [LinearOrderedField F] (Distance : P → P → F)
    (PointAlongSegment : P → P → F → P) (shape : List P) (stop : Int)
    (h0 : stop < shape.length) :
    ∀ (fuel : Nat) (i : Int) (u : P) (remaining : F),
      0 ≤ i → i ≤ stop → stop - i ≤ fuel →
      ∃ r, tangentWalk Distance PointAlongSegment shape 1 stop fuel i u remaining = .ok r := by
  intro fuel
  induction fuel with
  | zero =>
    intro i u remaining h1 h2 h3
    have : i = stop := by omega
    exact ⟨(u, remaining, false), by simp [tangentWalk, this]⟩
  | succ fuel ih =>
    intro i u remaining h1 h2 h3
    rw [tangentWalk]
    split
    · rename_i hc
      have hne : i ≠ stop := hc.2
      have hlt : (i + 1).toNat < shape.length := by omega
      simp only [show 0 ≤ i + 1 by omega, if_true, List.getElem?_eq_getElem hlt]
      split
      · exact ⟨_, rfl⟩
      · exact ih (i + 1) _ _ (by omega) (by omega) (by omega)
    · exact ⟨_, rfl⟩

/-- C36: for every non-empty shape, every `index < shape.size()`, either value of
`forward` and all values of `first_segment_index` and `last_segment_index`,
`tangent_angle` returns a heading: no vertex is read outside the shape and each walk ends
within `shape.size()` steps. -/
theorem tangent_angle_in_bounds {P F H : Type} [LinearOrderedField F] (Distance : P → P → F)
    (PointAlongSegment : P → P → F → P) (Heading : P → P → H) (index : Nat) (point : P)
    (shape : List P) (sample_distance : F) (forward : Bool)
    (first_segment_index last_segment_index : Nat)
    (hne : shape ≠ []) (hi : index < shape.length) :
    ∃ h, tangent_angle Distance PointAlongSegment Heading index point shape sample_distance
      forward first_segment_index last_segment_index = .ok h := by
  have hemp : shape.isEmpty = false := by
    cases shape with
    | nil => exact absurd rfl hne
    | cons a l => rfl
  unfold tangent_angle
  rw [if_neg (by simp [hemp, hi])]
  simp only
  have hf : min first_segment_index index ≤ index := Nat.min_le_right _ _
  have hl1 : index ≤ min (max last_segment_index index) (shape.length - 1) := by
    apply Nat.le_min.2
    exact ⟨Nat.le_max_right _ _, by omega⟩
  have hl2 : min (max last_segment_index index) (shape.length - 1) < shape.length := by
    have := Nat.min_le_right (max last_segment_index index) (shape.length - 1)
    omega
  cases forward
  · -- backward: the first walk goes up to `last_segment_index`, the second down
    simp only [Bool.false_eq_true, if_false, add_zero]
    obtain ⟨r, hr⟩ := tangentWalk_up_ok Distance PointAlongSegment shape
      (min (max last_segment_index index) (shape.length - 1) : Nat) (by exact_mod_cast hl2)
      shape.length index point sample_distance (by omega) (by exact_mod_cast hl1) (by omega)
    rw [hr]
    obtain ⟨u, remaining, b⟩ := r
    cases b
    · simp only
      obtain ⟨r2, hr2⟩ := tangentWalk_down_ok Distance PointAlongSegment shape
        (min first_segment_index index : Nat) (by omega) shape.length ((index : Int) + 1) point
        remaining (by omega) (by omega) (by omega)
      rw [hr2]
      exact ⟨_, rfl⟩
    · exact ⟨_, rfl⟩
  · simp only [if_true, add_zero, neg_neg]
    obtain ⟨r, hr⟩ := tangentWalk_down_ok Distance PointAlongSegment shape
      (min first_segment_index index : Nat) (by omega) shape.length ((index : Int) + 1) point
      sample_distance (by omega) (by omega) (by omega)
    rw [hr]
    obtain ⟨u, remaining, b⟩ := r
    cases b
    · simp only
      obtain ⟨r2, hr2⟩ := tangentWalk_up_ok Distance PointAlongSegment shape
        (min (max last_segment_index index) (shape.length - 1) : Nat) (by exact_mod_cast hl2)
        shape.length index point remaining (by omega) (by exact_mod_cast hl1) (by omega)
      rw [hr2]
      exact ⟨_, rfl⟩
    · exact ⟨_, rfl⟩

theorem tangent_angle_in_bounds_witness :
    ([0, 10] : List ℚ) ≠ [] ∧ 1 < ([0, 10] : List ℚ).length ∧
      ∃ h, tangent_angle (fun a b : ℚ => |a - b|) (fun a b f => a + f * (b - a))
        (fun u v : ℚ => (u, v)) 1 7 [0, 10] 100 true 0 1 = .ok h :=
  ⟨by simp, by simp,
    tangent_angle_in_bounds (fun a b : ℚ => |a - b|) (fun a b f => a + f * (b - a))
      (fun u v : ℚ => (u, v)) 1 7 [0, 10] 100 true 0 1 (by simp) (by simp)⟩

theorem tangentWalk_exhaust {P F : Type} [LinearOrderedField F] (Distance : P → P → F)
    (PointAlongSegment : P → P → F → P) (shape : List P) (step : Int) (hstep : step ≠ 0)
    (hD : ∀ a b, 0 ≤ Distance a b) :
    ∀ (path : List P) (fuel : Nat) (i stop : Int) (u : P) (remaining : F),
      (∀ j, j < path.length →
        0 ≤ i + step * ((j : Int) + 1) ∧
          shape[(i + step * ((j : Int) + 1)).toNat]? = path[j]?) →
      stop = i + step * (path.length : Int) →
      path.length ≤ fuel → polylineLength Distance (u :: path) < remaining →
      tangentWalk Distance PointAlongSegment shape step stop fuel i u remaining =
        .ok (path.getLast?.getD u, remaining - polylineLength Distance (u :: path), false) := by
  intro path
  induction path with
  | nil =>
    intro fuel i stop u remaining _ hstop _ _
    have : stop = i := by simpa using hstop
    cases fuel <;> simp [tangentWalk, polylineLength, this]
  | cons q path ih =>
    intro fuel i stop u remaining H hstop hfuel hlen
    obtain ⟨fuel, rfl⟩ : ∃ f, fuel = f + 1 := ⟨fuel - 1, by simp at hfuel; omega⟩
    have hq := polylineLength_nonneg Distance hD (q :: path)
    have hlen' : Distance u q + polylineLength Distance (q :: path) < remaining := by
      simpa [polylineLength] using hlen
    have hpos : remaining > 0 := by
      have := hD u q
      linarith
    have hne : i ≠ stop := by
      rw [hstop]
      intro h
      have h1 : step * ((q :: path).length : Int) = 0 := by linarith
      rcases mul_eq_zero.1 h1 with h2 | h2
      · exact hstep h2
      · simp at h2
        omega
    obtain ⟨h0, hget⟩ := H 0 (by simp)
    simp only [Nat.cast_zero, zero_add, mul_one, List.getElem?_cons_zero] at h0 hget
    rw [tangentWalk, if_pos ⟨hpos, hne⟩]
    simp only [h0, if_true, hget]
    rw [if_neg (by rw [not_le]; linarith)]
    rw [ih fuel (i + step) stop q (remaining - Distance u q) ?_ ?_ (by simpa using hfuel)
      (by linarith)]
    · congr 1
      simp only [polylineLength, Prod.mk.injEq]
      refine ⟨?_, by ring, trivial⟩
      cases path with
      | nil => simp
      | cons a l =>
        rw [List.getLast?_cons_cons, List.getLast?_eq_getLast _ (List.cons_ne_nil _ _)]
        rfl
    · intro j hj
      have := H (j + 1) (by simpa using hj)
      simp only [Nat.cast_add, Nat.cast_one, List.getElem?_cons_succ] at this
      rw [show i + step + step * ((j : Int) + 1) = i + step * ((j : Int) + 1 + 1) by ring]
      exact this
    · rw [hstop]
      simp only [List.length_cons, Nat.cast_add, Nat.cast_one]
      ring

theorem walkBack_spec {P : Type} (shape : List P) (first index : Nat) (h1 : first ≤ index)
    (h2 : index < shape.length) :
    (walkBack shape first index).length = index + 1 - first ∧
      (∀ j, j < index + 1 - first → (walkBack shape first index)[j]? = shape[index - j]?) ∧
      (walkBack shape first index).getLast? = shape[first]? := by
  have hl : ((shape.drop first).take (index + 1 - first)).length = index + 1 - first := by
    rw [List.length_take, List.length_drop]
    omega
  refine ⟨by rw [walkBack, List.length_reverse, hl], ?_, ?_⟩
  · intro j hj
    rw [walkBack, List.getElem?_reverse (by omega), hl, List.getElem?_take_of_lt (by omega),
      List.getElem?_drop]
    congr 1
    omega
  · rw [walkBack, List.getLast?_reverse, List.head?_take, if_neg (by omega), List.head?_drop]

theorem walkAhead_spec {P : Type} (shape : List P) (index last : Nat) (h1 : index ≤ last)
    (h2 : last < shape.length) :
    (walkAhead shape index last).length = last - index ∧
      (∀ j, j < last - index → (walkAhead shape index last)[j]? = shape[index + 1 + j]?) ∧
      (walkAhead shape index last).getLast? = if index < last then shape[last]? else none := by
  have hl : (walkAhead shape index last).length = last - index := by
    rw [walkAhead, List.length_take, List.length_drop]
    omega
  have hg : ∀ j, j < last - index →
      (walkAhead shape index last)[j]? = shape[index + 1 + j]? := by
    intro j hj
    rw [walkAhead, List.getElem?_take_of_lt hj, List.getElem?_drop]
  refine ⟨hl, hg, ?_⟩
  rw [List.getLast?_eq_getElem?, hl]
  split
  · rw [hg _ (by omega)]
    congr 1
    omega
  · rw [List.getElem?_eq_none (by omega)]

theorem tangentWalk_back {P F : Type} [LinearOrderedField F] (Distance : P → P → F)
    (PointAlongSegment : P → P → F → P) (shape : List P) (hD : ∀ a b, 0 ≤ Distance a b)
    (first index : Nat) (h1 : first ≤ index) (h2 : index < shape.length) (u : P)
    (remaining : F)
    (hlen : polylineLength Distance (u :: walkBack shape first index) < remaining) :
    tangentWalk Distance PointAlongSegment shape (-1) (first : Int) shape.length
        ((index : Int) + 1) u remaining =
      .ok (shape[first]?.getD u,
        remaining - polylineLength Distance (u :: walkBack shape first index), false) := by
  obtain ⟨s1, s2, s3⟩ := walkBack_spec shape first index h1 h2
  rw [← s3]
  apply tangentWalk_exhaust Distance PointAlongSegment shape (-1) (by decide) hD
  · intro j hj
    rw [s1] at hj
    refine ⟨by omega, ?_⟩
    rw [s2 j hj]
    congr 1
    omega
  · rw [s1]
    omega
  · rw [s1]
    omega
  · exact hlen

theorem tangentWalk_ahead {P F : Type} [LinearOrderedField F] (Distance : P → P → F)
    (PointAlongSegment : P → P → F → P) (shape : List P) (hD : ∀ a b, 0 ≤ Distance a b)
    (index last : Nat) (h1 : index ≤ last) (h2 : last < shape.length) (u : P)
    (remaining : F)
    (hlen : polylineLength Distance (u :: walkAhead shape index last) < remaining) :
    tangentWalk Distance PointAlongSegment shape 1 (last : Int) shape.length
        (index : Int) u remaining =
      .ok (if index < last then shape[last]?.getD u else u,
        remaining - polylineLength Distance (u :: walkAhead shape index last), false) := by
  obtain ⟨s1, s2, s3⟩ := walkAhead_spec shape index last h1 h2
  have e : (if index < last then shape[last]?.getD u else u) =
      (walkAhead shape index last).getLast?.getD u := by
    rw [s3]
    split <;> rfl
  rw [e]
  apply tangentWalk_exhaust Distance PointAlongSegment shape 1 (by decide) hD
  · intro j hj
    rw [s1] at hj
    refine ⟨by omega, ?_⟩
    rw [s2 j hj]
    congr 1
    omega
  · rw [s1]
    omega
  · rw [s1]
    omega
  · exact hlen

/-- C37, as the claim states it, fails: with `forward = true` and the clamped
`last_segment_index` equal to `index`, the second walk has no step and its terminal point
is `point` itself, not `shape[last_segment_index]`.  Here `Heading` pairs its two
arguments: the result is the heading from `shape[0] = (0, 0)` to `point = (7, 5)`, not to
`shape[1] = (10, 0)`. -/
theorem tangent_angle_anchor_at_last :
    tangent_angle (fun a b : ℚ × ℚ => |a.1 - b.1| + |a.2 - b.2|)
      (fun a b f => (a.1 + f * (b.1 - a.1), a.2 + f * (b.2 - a.2)))
      (fun u v : ℚ × ℚ => (u, v)) 1 (7, 5) [(0, 0), (10, 0)] 100 true 0 1 =
        .ok ((0, 0), (7, 5)) := by
  norm_num [tangent_angle, tangentWalk, abs_eq_max_neg]

/-- C37 (amended): if the distances from `point` along the shape to both ends of the
allowed range add up to less than `sample_distance`, `tangent_angle` returns the heading
from the terminal point `u` of the first walk to the terminal point `v` of the second.
The walk towards the front ends at `shape[first_segment_index]`; the walk towards the
back ends at `shape[last_segment_index]` when that index, after clamping, is greater than
`index`, and stays at `point` when it equals `index`.  For `forward = true` the first
walk is the one towards the front, for `forward = false` the one towards the back. -/
theorem tangent_angle_exhausted {P F H : Type} [LinearOrderedField F] (Distance : P → P → F)
    (PointAlongSegment : P → P → F → P) (Heading : P → P → H) (index : Nat) (point : P)
    (shape : List P) (sample_distance : F) (forward : Bool)
    (first_segment_index last_segment_index : Nat)
    (hD : ∀ a b, 0 ≤ Distance a b) (hi : index < shape.length)
    (hsum : polylineLength Distance
          (point :: walkBack shape (min first_segment_index index) index) +
        polylineLength Distance (point :: walkAhead shape index
          (min (max last_segment_index index) (shape.length - 1))) < sample_distance) :
    tangent_angle Distance PointAlongSegment Heading index point shape sample_distance
        forward first_segment_index last_segment_index =
      .ok (if forward then
          Heading (shape[min first_segment_index index]?.getD point)
            (if index < min (max last_segment_index index) (shape.length - 1) then
              shape[min (max last_segment_index index) (shape.length - 1)]?.getD point
            else point)
        else
          Heading (if index < min (max last_segment_index index) (shape.length - 1) then
              shape[min (max last_segment_index index) (shape.length - 1)]?.getD point
            else point)
            (shape[min first_segment_index index]?.getD point)) := by
  have hemp : shape.isEmpty = false := by
    cases shape with
    | nil => simp at hi
    | cons a l => rfl
  have hf : min first_segment_index index ≤ index := Nat.min_le_right _ _
  have hl1 : index ≤ min (max last_segment_index index) (shape.length - 1) := by
    apply Nat.le_min.2
    exact ⟨Nat.le_max_right _ _, by omega⟩
  have hl2 : min (max last_segment_index index) (shape.length - 1) < shape.length := by
    have := Nat.min_le_right (max last_segment_index index) (shape.length - 1)
    omega
  have n1 := polylineLength_nonneg Distance hD
    (point :: walkBack shape (min first_segment_index index) index)
  have n2 := polylineLength_nonneg Distance hD
    (point :: walkAhead shape index (min (max last_segment_index index) (shape.length - 1)))
  unfold tangent_angle
  rw [if_neg (by simp [hemp, hi])]
  simp only
  cases forward
  · simp only [Bool.false_eq_true, if_false, add_zero]
    rw [tangentWalk_ahead Distance PointAlongSegment shape hD index _ hl1 hl2 point
      sample_distance (by linarith)]
    simp only
    rw [tangentWalk_back Distance PointAlongSegment shape hD _ index hf hi point _
      (by linarith)]
  · simp only [if_true, add_zero, neg_neg]
    rw [tangentWalk_back Distance PointAlongSegment shape hD _ index hf hi point
      sample_distance (by linarith)]
    simp only
    rw [tangentWalk_ahead Distance PointAlongSegment shape hD index _ hl1 hl2 point _
      (by linarith)]

theorem tangent_angle_exhausted_witness :
    tangent_angle (fun a b : ℚ => |a - b|) (fun a b f => a + f * (b - a))
        (fun u v : ℚ => (u, v)) 1 7 [0, 10, 20] 100 true 0 2 =
      .ok (if true = true then
          ((([0, 10, 20] : List ℚ)[min 0 1]?).getD 7,
            if 1 < min (max 2 1) (([0, 10, 20] : List ℚ).length - 1) then
              (([0, 10, 20] : List ℚ)[min (max 2 1)
                (([0, 10, 20] : List ℚ).length - 1)]?).getD 7
            else 7)
        else
          (if 1 < min (max 2 1) (([0, 10, 20] : List ℚ).length - 1) then
              (([0, 10, 20] : List ℚ)[min (max 2 1)
                (([0, 10, 20] : List ℚ).length - 1)]?).getD 7
            else 7,
            (([0, 10, 20] : List ℚ)[min 0 1]?).getD 7)) :=
  tangent_angle_exhausted (fun a b : ℚ => |a - b|) (fun a b f => a + f * (b - a))
    (fun u v : ℚ => (u, v)) 1 7 [0, 10, 20] 100 true 0 2 (fun a b => abs_nonneg _)
    (by simp) (by norm_num [polylineLength, walkBack, walkAhead, abs_of_nonneg, abs_of_nonpos])

/-! ## Theorems: build stage names and recosting times -/

/-- C39: build-stage names round-trip. For every `BuildStage` value `s`,
`string_to_buildstage (to_string s) = s`; `to_string kInvalid` is `"null"`; and
`string_to_buildstage` maps every string that is not one of the 16 stage names to
`kInvalid`. -/
theorem buildstage_round_trip :
    (∀ s : BuildStage, string_to_buildstage (to_string s) = s) ∧
      to_string .kInvalid = "null" ∧
      ∀ str : String, str ∉ stringToBuildStage.map Prod.fst →
        string_to_buildstage str = .kInvalid := by
  refine ⟨?_, by decide, ?_⟩
  · intro s
    cases s <;> decide
  · intro str h
    unfold string_to_buildstage
    have : stringToBuildStage.lookup str = none := by
      rw [List.lookup_eq_none_iff]
      intro p hp
      rw [bne_iff_ne]
      intro hk
      apply h
      rw [List.mem_map]
      exact ⟨p, hp, hk.symm⟩
    rw [this]

theorem buildstage_round_trip_witness :
    "tiles" ∉ stringToBuildStage.map Prod.fst ∧ string_to_buildstage "tiles" = .kInvalid :=
  have h : "tiles" ∉ stringToBuildStage.map Prod.fst := by decide
  ⟨h, buildstage_round_trip.2.2 "tiles" h⟩

theorem recostTimes_values (begin_recost : Recost) (more : List Recost) :
    ∀ (recostings : List String) (end_recosts : List Recost),
      end_recosts.length ≤ recostings.length →
      recostTimes (begin_recost :: more) recostings end_recosts =
        some (List.zipWith (fun name end_recost =>
          ("time_" ++ name,
            if end_recost.has_elapsed_cost then
              some (end_recost.seconds - begin_recost.seconds) else none))
          recostings end_recosts) := by
  intro recostings
  induction recostings with
  | nil =>
    intro end_recosts h
    cases end_recosts with
    | nil => simp [recostTimes]
    | cons e es => simp at h
  | cons name recostings ih =>
    intro end_recosts h
    cases end_recosts with
    | nil => simp [recostTimes]
    | cons e es =>
      have h' : es.length ≤ recostings.length := by simpa using h
      rw [recostTimes]
      by_cases he : e.has_elapsed_cost = true
      · simp [he, ih es h']
      · simp [he, ih es h']

/-- C40 fails in the code: `begin_recost_itr` is never advanced, so for every recosting
`k` with an elapsed cost the value written for `time_<name_k>` is
`end_node.recosts[k]` minus the first recost of `begin_node`, not minus
`begin_node.recosts[k]`. -/
theorem legs_recost_first_begin (begin_recost : Recost) (more : List Recost)
    (recostings : List String) (end_recosts : List Recost)
    (h : end_recosts.length ≤ recostings.length) :
    ∃ written, recostTimes (begin_recost :: more) recostings end_recosts = some written ∧
      ∀ (k : Nat) (name : String) (end_recost : Recost),
        recostings[k]? = some name → end_recosts[k]? = some end_recost →
        end_recost.has_elapsed_cost = true →
        written[k]? = some ("time_" ++ name,
          some (end_recost.seconds - begin_recost.seconds)) := by
  refine ⟨_, recostTimes_values begin_recost more recostings end_recosts h, ?_⟩
  intro k name e hn he hhas
  rw [List.getElem?_zipWith, hn, he]
  simp [hhas]

theorem legs_recost_first_begin_witness :
    recostTimes [⟨true, 10⟩, ⟨true, 20⟩] ["auto", "bicycle"] [⟨true, 15⟩, ⟨true, 50⟩] =
        some [("time_auto", some 5), ("time_bicycle", some 40)] ∧
      ∃ written, recostTimes [⟨true, 10⟩, ⟨true, 20⟩] ["auto", "bicycle"]
          [⟨true, 15⟩, ⟨true, 50⟩] = some written ∧
        ∀ (k : Nat) (name : String) (end_recost : Recost),
          ["auto", "bicycle"][k]? = some name →
          ([⟨true, 15⟩, ⟨true, 50⟩] : List Recost)[k]? = some end_recost →
          end_recost.has_elapsed_cost = true →
          written[k]? = some ("time_" ++ name, some (end_recost.seconds - 10)) :=
  ⟨by norm_num [recostTimes]; decide,
    legs_recost_first_begin ⟨true, 10⟩ [⟨true, 20⟩] ["auto", "bicycle"]
      [⟨true, 15⟩, ⟨true, 50⟩] (by simp)⟩

/-! ## Theorems: the planar predicates on `double` -/

/-- Values of `roundDouble`: `0.1` is rounded to the nearest `double`; `2^53 + 1` is a tie
and goes to the even significand, `2^53`; `2^53 + 3` goes to `2^53 + 4`; the largest
finite `double` is kept and `2^1024` is not finite; half the least subnormal number is a
tie and goes to 0, and three halves of it go to twice the least subnormal number. -/
theorem roundDouble_values :
    roundDouble (1 / 10) = some (3602879701896397 / 36028797018963968) ∧
      roundDouble (2 ^ 53 + 1) = some (2 ^ 53) ∧
      roundDouble (2 ^ 53 + 3) = some (2 ^ 53 + 4) ∧
      roundDouble (-(2 ^ 53 + 1)) = some (-2 ^ 53) ∧
      roundDouble (2 ^ 1024 - 2 ^ 971) = some (2 ^ 1024 - 2 ^ 971) ∧
      roundDouble (2 ^ 1024) = none ∧
      roundDouble (1 / 2 ^ 1075) = some 0 ∧
      roundDouble (3 / 2 ^ 1075) = some (1 / 2 ^ 1073) ∧
      roundFloat (1 / 10) = some (13421773 / 134217728) := by
  refine ⟨by decide!, by decide!, by decide!, by decide!, by decide!, by decide!, by decide!,
    by decide!, by decide!⟩

/-- C5, as the claim states it, fails on `double`: the point is strictly inside the
triangle `(7,5), (7,-3), (11,8)` (strictly on the inner side of each edge, by `2^-47` for
the edge from `(7,-3)` to `(11,8)`), its coordinates are values of type `double`, and
`point_in_poly` on `double` returns false, where exact arithmetic gives true: the rounded
x-intercept of that edge equals the x coordinate of the point. -/
theorem point_in_poly_inside_rounded :
    StrictlyInside (706773095703099 / 70368744177664, 3023371641843987 / 562949953421312)
        [(7, 5), (7, -3), (11, 8)] ∧
      roundDouble (706773095703099 / 70368744177664) =
        some (706773095703099 / 70368744177664) ∧
      roundDouble (3023371641843987 / 562949953421312) =
        some (3023371641843987 / 562949953421312) ∧
      Double.x_intercept (7, -3) (11, 8) (3023371641843987 / 562949953421312) =
        some (706773095703099 / 70368744177664) ∧
      Double.point_in_poly
          (706773095703099 / 70368744177664, 3023371641843987 / 562949953421312)
          [(7, 5), (7, -3), (11, 8)] = some false ∧
      point_in_poly (706773095703099 / 70368744177664, 3023371641843987 / 562949953421312)
        [(7, 5), (7, -3), (11, 8)] = some true := by
  refine ⟨?_, by decide!, by decide!, by decide!, by decide!, by decide!⟩
  unfold StrictlyInside ConvexCCW ConvexCW
  decide!

/-- C6, as the claim states it, fails on `double`: the point is strictly outside the
triangle `(-16,12), (10,-13), (16,15)` (strictly on the outer side of the edge from
`(-16,12)` to `(10,-13)`), its coordinates are values of type `double`, and
`point_in_poly` on `double` returns true, where exact arithmetic gives false. -/
theorem point_in_poly_outside_rounded :
    StrictlyOutside (-1916675076960633 / 140737488355328, 2733229072980535 / 281474976710656)
        [(-16, 12), (10, -13), (16, 15)] ∧
      roundDouble (-1916675076960633 / 140737488355328) =
        some (-1916675076960633 / 140737488355328) ∧
      roundDouble (2733229072980535 / 281474976710656) =
        some (2733229072980535 / 281474976710656) ∧
      Double.point_in_poly
          (-1916675076960633 / 140737488355328, 2733229072980535 / 281474976710656)
          [(-16, 12), (10, -13), (16, 15)] = some true ∧
      point_in_poly (-1916675076960633 / 140737488355328, 2733229072980535 / 281474976710656)
        [(-16, 12), (10, -13), (16, 15)] = some false := by
  refine ⟨?_, by decide!, by decide!, by decide!, by decide!⟩
  unfold StrictlyOutside ConvexCCW ConvexCW
  decide!

theorem adjust_delta_agrees (p : Point) (e : Point × Point)
    (h : interceptAgrees p e = true) :
    Double.adjust_delta (quadrant_type e.2 p - quadrant_type e.1 p) e.1 e.2 p =
      some (adjust_delta (quadrant_type e.2 p - quadrant_type e.1 p) e.1 e.2 p) := by
  unfold interceptAgrees at h
  unfold Double.adjust_delta adjust_delta
  by_cases h3 : quadrant_type e.2 p - quadrant_type e.1 p = 3
  · simp [h3]
  · by_cases h3' : quadrant_type e.2 p - quadrant_type e.1 p = -3
    · simp [h3']
    · by_cases h2 : quadrant_type e.2 p - quadrant_type e.1 p = 2 ∨
          quadrant_type e.2 p - quadrant_type e.1 p = -2
      · rw [if_pos h2] at h
        rw [if_neg h3, if_neg h3', if_pos h2, if_neg h3, if_neg h3', if_pos h2]
        cases hx : Double.x_intercept e.1 e.2 p.2 with
        | none => rw [hx] at h; cases h
        | some x =>
          rw [hx] at h
          simp only [beq_iff_eq, decide_eq_decide] at h
          simp only [Option.some.injEq]
          by_cases hc : x > p.1
          · rw [if_pos hc, if_pos (h.1 hc)]
          · rw [if_neg hc, if_neg (fun hh => hc (h.2 hh))]
      · rw [if_neg h3, if_neg h3', if_neg h2, if_neg h3, if_neg h3', if_neg h2]

theorem windLoop_agrees (pt front : Point) :
    ∀ (todo : List Point) (quad angle : Int),
      quad = quadrant_type (todo.headD front) pt →
      (∀ e ∈ edgesFrom front todo, interceptAgrees pt e = true) →
      Double.windLoop pt front todo quad angle = some (windLoop pt front todo quad angle) := by
  intro todo
  induction todo with
  | nil => intro _ _ _ _; rfl
  | cons v todo ih =>
    intro quad angle hq hx
    simp only [List.headD_cons] at hq
    have h1 := quadrant_type_range v pt
    have h2 := quadrant_type_range (todo.headD front) pt
    have he := adjust_delta_agrees pt (v, todo.headD front)
      (hx _ (by simp [edgesFrom]))
    simp only at he
    simp only [Double.windLoop, windLoop, hq]
    rw [toInt8_of_range (quadrant_type (todo.headD front) pt - quadrant_type v pt)
      (by omega) (by omega), he]
    exact ih _ _ rfl (fun e he' => hx e (by simp [edgesFrom, he']))

/-- Where the x-intercept test decides on every edge as in exact arithmetic,
`point_in_poly` on `double` returns what it returns in exact arithmetic. -/
theorem point_in_poly_agrees (pt front : Point) (rest : List Point)
    (hx : ∀ e ∈ ringEdges (front :: rest), interceptAgrees pt e = true) :
    Double.point_in_poly pt (front :: rest) = point_in_poly pt (front :: rest) := by
  simp only [Double.point_in_poly, point_in_poly]
  rw [windLoop_agrees pt front (front :: rest) (quadrant_type front pt) 0 rfl
    (by simpa [ringEdges] using hx)]

theorem interceptAgrees_self (pt v : Point) : interceptAgrees pt (v, v) = true := by
  simp [interceptAgrees]

theorem ringEdges_closed (front : Point) (rest : List Point) :
    ringEdges (front :: rest ++ [front]) = ringEdges (front :: rest) ++ [(front, front)] := by
  simp only [ringEdges]
  rw [show (front :: rest ++ [front]).headD (0, 0) = front from rfl,
    show (front :: rest).headD (0, 0) = front from rfl,
    edgesFrom_append_front _ _ (List.cons_ne_nil _ _)]

/-- C24, as the claim states it, fails on `double`: for the ring
`(5.1, 39.9), (40.1, 25.0), (-74.8, 10.2)` (each coordinate the `double` nearest to the
decimal) `polygon_area` on `double` gives two different values for the ring as it is and
for the ring with its first point appended, and neither is half the exact cyclic shoelace
sum: the terms are rounded and added in a different order. -/
theorem polygon_area_open_closed_rounded :
    Double.polygon_area (2871044762448691 / 562949953421312, 5615425785377587 / 140737488355328)
        [(5643573283048653 / 140737488355328, 25),
          (-5263582064489267 / 70368744177664, 2871044762448691 / 281474976710656)] =
      some (-4903843850113515 / 4398046511104) ∧
    Double.polygon_area (2871044762448691 / 562949953421312, 5615425785377587 / 140737488355328)
        [(5643573283048653 / 140737488355328, 25),
          (-5263582064489267 / 70368744177664, 2871044762448691 / 281474976710656),
          (2871044762448691 / 562949953421312, 5615425785377587 / 140737488355328)] =
      some (-1225960962528379 / 1099511627776) ∧
    polygon_area (2871044762448691 / 562949953421312, 5615425785377587 / 140737488355328)
        [(5643573283048653 / 140737488355328, 25),
          (-5263582064489267 / 70368744177664, 2871044762448691 / 281474976710656)] =
      -353359189376869209832075637009941 / 316912650057057350374175801344 ∧
    (-4903843850113515 / 4398046511104 : ℚ) ≠ -1225960962528379 / 1099511627776 ∧
    [(2871044762448691 / 562949953421312 : ℚ), 5615425785377587 / 140737488355328,
        5643573283048653 / 140737488355328, 25, -5263582064489267 / 70368744177664,
        2871044762448691 / 281474976710656].map roundDouble =
      [some (2871044762448691 / 562949953421312), some (5615425785377587 / 140737488355328),
        some (5643573283048653 / 140737488355328), some 25,
        some (-5263582064489267 / 70368744177664),
        some (2871044762448691 / 281474976710656)] := by
  refine ⟨by decide!, by decide!, by decide!, by decide!, by decide!⟩

/-- C25, as the claim states it, fails on `double`: the triangle
`(0, 3), (1, 3), (7, 3 + 2^-49)` is counter-clockwise (the cross product of its edge
vectors is `2^-49 > 0`, and the exact area is `2^-50 > 0`), its coordinates are values of
type `double`, and `polygon_area` on `double` returns 0, for the triangle as it is and
closed by its first point. -/
theorem polygon_area_sign_rounded :
    0 < cross (0, 3) (1, 3) (7, 1688849860263937 / 562949953421312) ∧
      0 < polygon_area (0, 3) [(1, 3), (7, 1688849860263937 / 562949953421312)] ∧
      roundDouble (1688849860263937 / 562949953421312) =
        some (1688849860263937 / 562949953421312) ∧
      Double.polygon_area (0, 3) [(1, 3), (7, 1688849860263937 / 562949953421312)] =
        some 0 ∧
      Double.polygon_area (0, 3) [(1, 3), (7, 1688849860263937 / 562949953421312), (0, 3)] =
        some 0 := by
  refine ⟨by decide!, by decide!, by decide!, by decide!, by decide!⟩

/-- C26, as the claim states it, fails on `double`: the lines through `(1, 0)` and
`(9007199254740994, 1)` and through `(1, 0)` and `(27021597764222980, 3)` are parallel
(the second direction is three times the first, the exact cross-determinant is 0), the
coordinates are values of type `double`, and `intersect` on `double` returns true: the
differences `u.x - v.x` and `a.x - b.x` are rounded and the determinant comes out as
`-4`. -/
theorem intersect_parallel_rounded :
    ((1 : ℚ) - 27021597764222980 = 3 * (1 - 9007199254740994) ∧ (0 : ℚ) - 3 = 3 * (0 - 1)) ∧
      intersect (1, 0) (9007199254740994, 1) (1, 0) (27021597764222980, 3) = none ∧
      roundDouble 9007199254740994 = some 9007199254740994 ∧
      roundDouble 27021597764222980 = some 27021597764222980 ∧
      Double.sub (Double.mul (Double.sub (some 1) (some 9007199254740994))
          (Double.sub (some 0) (some 3)))
        (Double.mul (Double.sub (some 1) (some 27021597764222980))
          (Double.sub (some 0) (some 1))) = some (-4) ∧
      Double.intersect (1, 0) (9007199254740994, 1) (1, 0) (27021597764222980, 3) =
        some (some (1, 0)) := by
  refine ⟨by decide!, by decide!, by decide!, by decide!, by decide!, by decide!⟩

/-- C28 fails in the code: the point `p = b + (c - b) / 8 = (3488, -3213.875)` lies on
the edge from `b = (3459, -3566)` to `c = (3691, -749)` of the triangle with
`a = (-1830, 30)`; all coordinates are values of type `double`; in exact arithmetic
`u + v = 1` and the function returns false, but on `double` the sum `u + v` is rounded
below 1 and `triangle_contains` returns true. -/
theorem triangle_contains_edge_rounded :
    OnSegment (3459, -3566) (3691, -749) (3488, -25711 / 8) ∧
      roundDouble (-25711 / 8) = some (-25711 / 8) ∧
      triangle_contains (-1830, 30) (3459, -3566) (3691, -749) (3488, -25711 / 8) = false ∧
      Double.triangle_contains (-1830, 30) (3459, -3566) (3691, -749) (3488, -25711 / 8) =
        some true := by
  refine ⟨⟨1 / 8, by norm_num, by norm_num, by norm_num⟩, by decide!, by decide!, by decide!⟩

/-- C5 (amended): for every convex ring (wound either way, given open or closed by
repeating its first point; its points pairwise different and every vertex on the closed
inner side of every edge) and every point `p` strictly inside it, `point_in_poly` returns
true in exact arithmetic; and it returns true on `double` whenever, on every edge whose
end points lie in diagonally opposite quadrants around `p`, the rounded x-intercept is
finite and compares with `p.x` as the exact intercept does. -/
theorem point_in_poly_inside_double (p front : Point) (rest : List Point)
    (h : StrictlyInside p (front :: rest)) :
    (point_in_poly p (front :: rest) = some true ∧
      point_in_poly p (front :: rest ++ [front]) = some true) ∧
    ((∀ e ∈ ringEdges (front :: rest), interceptAgrees p e = true) →
      Double.point_in_poly p (front :: rest) = some true ∧
        Double.point_in_poly p (front :: rest ++ [front]) = some true) := by
  have hex := point_in_poly_inside p front rest h
  refine ⟨hex, fun hx => ⟨?_, ?_⟩⟩
  · rw [point_in_poly_agrees p front rest hx]
    exact hex.1
  · rw [show front :: rest ++ [front] = front :: (rest ++ [front]) from rfl,
      point_in_poly_agrees p front (rest ++ [front])]
    · exact hex.2
    · intro e he
      rw [show front :: (rest ++ [front]) = front :: rest ++ [front] from rfl,
        ringEdges_closed, List.mem_append, List.mem_singleton] at he
      rcases he with he | rfl
      · exact hx e he
      · exact interceptAgrees_self p front

theorem point_in_poly_inside_double_witness :
    StrictlyInside (1, 1) [(0, 0), (4, 0), (0, 4)] ∧
      (∀ e ∈ ringEdges [(0, 0), (4, 0), (0, 4)], interceptAgrees (1, 1) e = true) ∧
      Double.x_intercept (4, 0) (0, 4) 1 = some 3 ∧
      Double.point_in_poly (1, 1) [(0, 0), (4, 0), (0, 4)] = some true ∧
      Double.point_in_poly (1 / 2, 1 / 2) unitSquare = some true :=
  have h : StrictlyInside (1, 1) [(0, 0), (4, 0), (0, 4)] := by
    unfold StrictlyInside ConvexCCW ConvexCW
    decide!
  have hx : ∀ e ∈ ringEdges [(0, 0), (4, 0), (0, 4)], interceptAgrees (1, 1) e = true := by
    decide!
  ⟨h, hx, by decide!, ((point_in_poly_inside_double (1, 1) (0, 0) [(4, 0), (0, 4)] h).2 hx).1,
    by decide!⟩

/-- C6 (amended): for every convex ring (wound either way, closed or not) and every point
`p` strictly outside it, `point_in_poly` returns false in exact arithmetic; and it
returns false on `double` whenever, on every edge whose end points lie in diagonally
opposite quadrants around `p`, the rounded x-intercept is finite and compares with `p.x`
as the exact intercept does. -/
theorem point_in_poly_outside_double (p front : Point) (rest : List Point)
    (h : StrictlyOutside p (front :: rest)) :
    point_in_poly p (front :: rest) = some false ∧
      ((∀ e ∈ ringEdges (front :: rest), interceptAgrees p e = true) →
        Double.point_in_poly p (front :: rest) = some false) := by
  have hex := point_in_poly_outside p front rest h
  refine ⟨hex, fun hx => ?_⟩
  rw [point_in_poly_agrees p front rest hx]
  exact hex

theorem point_in_poly_outside_double_witness :
    StrictlyOutside (3, 3) [(0, 0), (4, 0), (0, 4)] ∧
      (∀ e ∈ ringEdges [(0, 0), (4, 0), (0, 4)], interceptAgrees (3, 3) e = true) ∧
      Double.x_intercept (4, 0) (0, 4) 3 = some 1 ∧
      Double.point_in_poly (3, 3) [(0, 0), (4, 0), (0, 4)] = some false ∧
      Double.point_in_poly (2, 2) unitSquare = some false :=
  have h : StrictlyOutside (3, 3) [(0, 0), (4, 0), (0, 4)] := by
    unfold StrictlyOutside ConvexCCW ConvexCW
    decide!
  have hx : ∀ e ∈ ringEdges [(0, 0), (4, 0), (0, 4)], interceptAgrees (3, 3) e = true := by
    decide!
  ⟨h, hx, by decide!, (point_in_poly_outside_double (3, 3) (0, 0) [(4, 0), (0, 4)] h).2 hx,
    by decide!⟩

theorem polygon_area_append_front (front : Point) (rest : List Point) :
    polygon_area front (rest ++ [front]) = polygon_area front rest := by
  rw [polygon_area_ringEdges, polygon_area_ringEdges,
    show front :: (rest ++ [front]) = front :: rest ++ [front] from rfl, ringEdges_closed,
    List.map_append, List.sum_append]
  simp
  ring

/-- C25 (amended): in exact arithmetic the sign of `polygon_area` is the orientation of
the ring, for a ring given by its vertices and for the same ring closed by repeating its
first point.  For a triangle `a, b, c` the area is half the cross product of its edge
vectors, so it is positive exactly when the triangle is counter-clockwise; for a convex
ring with vertices `front :: rest` whose consecutive edge vectors are never parallel the
area is positive exactly when every cross product of consecutive edge vectors is
positive. -/
theorem polygon_area_orientation (a b c front : Point) (rest : List Point) :
    (polygon_area a [b, c] = cross a b c / 2 ∧ polygon_area a [b, c, a] = cross a b c / 2 ∧
      (0 < polygon_area a [b, c] ↔ 0 < cross a b c) ∧
      (0 < polygon_area a [b, c, a] ↔ 0 < cross a b c)) ∧
    (ConvexCCW (front :: rest) ∨ ConvexCW (front :: rest) →
      (∀ t ∈ turns (front :: rest), t ≠ 0) →
        (0 < polygon_area front rest ↔ ∀ t ∈ turns (front :: rest), 0 < t) ∧
        (0 < polygon_area front (rest ++ [front]) ↔
          ∀ t ∈ turns (front :: rest), 0 < t)) := by
  obtain ⟨⟨ht, hi⟩, hring⟩ := polygon_area_sign a b c front rest
  have hc : polygon_area a [b, c, a] = polygon_area a [b, c] :=
    polygon_area_append_front a [b, c]
  refine ⟨⟨ht, by rw [hc, ht], hi, by rw [hc]; exact hi⟩, ?_⟩
  intro hconv hne
  have := hring hconv hne
  exact ⟨this, by rw [polygon_area_append_front]; exact this⟩

theorem polygon_area_orientation_witness :
    (ConvexCCW unitSquare ∨ ConvexCW unitSquare) ∧ (∀ t ∈ turns unitSquare, t ≠ 0) ∧
      (∀ t ∈ turns unitSquare, 0 < t) ∧
      0 < polygon_area (0, 0) [(1, 0), (1, 1), (0, 1), (0, 0)] :=
  have h1 : ConvexCCW unitSquare ∨ ConvexCW unitSquare := by
    unfold ConvexCCW ConvexCW
    decide!
  have h2 : ∀ t ∈ turns unitSquare, t ≠ 0 := by decide!
  have h3 : ∀ t ∈ turns unitSquare, 0 < t := by decide!
  ⟨h1, h2, h3,
    ((polygon_area_orientation (0, 0) (0, 0) (0, 0) (0, 0) [(1, 0), (1, 1), (0, 1)]).2
      h1 h2).2.2 h3⟩

theorem roundDouble_zero : roundDouble 0 = some 0 := by
  simp [roundDouble, roundBinary]

theorem double_sub_self (x : ℚ) : Double.sub (some x) (some x) = some 0 := by
  simp [Double.sub, roundDouble_zero]

theorem double_zero_mul (y : ℚ) : Double.mul (some 0) (some y) = some 0 := by
  simp [Double.mul, roundDouble_zero]

theorem double_mul_zero (y : ℚ) : Double.mul (some y) (some 0) = some 0 := by
  simp [Double.mul, roundDouble_zero]

theorem intersect_zero_cross (u v a b : Point) (x1 y1 x2 y2 : ℚ)
    (h1 : Double.sub (some u.1) (some v.1) = some x1)
    (h2 : Double.sub (some u.2) (some v.2) = some y1)
    (h3 : Double.sub (some a.1) (some b.1) = some x2)
    (h4 : Double.sub (some a.2) (some b.2) = some y2)
    (h : Double.sub (Double.mul (some x1) (some y2)) (Double.mul (some x2) (some y1)) =
      some 0) :
    Double.intersect u v a b = some none := by
  have he : roundDouble (1 / 100000) =
      some (5902958103587057 / 590295810358705651712) := by decide!
  unfold Double.intersect
  simp only [h1, h2, h3, h4, h, he]
  rw [if_pos (by norm_num)]

/-- C26 (amended): in exact arithmetic `intersect` returns false exactly when the
absolute value of the cross-determinant
`(u.x - v.x) * (a.y - b.y) - (a.x - b.x) * (u.y - v.y)` is below `1e-5`, which is so for
every pair of parallel lines and when `u = v` or `a = b`; on `double` it returns false
when `u = v` or `a = b` and the differences of the other pair are finite. -/
theorem intersect_false_double (u v a b : Point) :
    ((intersect u v a b = none ↔
        |(u.1 - v.1) * (a.2 - b.2) - (a.1 - b.1) * (u.2 - v.2)| < 1 / 100000) ∧
      ((∃ k : ℚ, u.1 - v.1 = k * (a.1 - b.1) ∧ u.2 - v.2 = k * (a.2 - b.2)) ∨
        (∃ k : ℚ, a.1 - b.1 = k * (u.1 - v.1) ∧ a.2 - b.2 = k * (u.2 - v.2)) →
          intersect u v a b = none) ∧
      (u = v → intersect u v a b = none) ∧ (a = b → intersect u v a b = none)) ∧
    (u = v → Double.sub (some a.1) (some b.1) ≠ none →
      Double.sub (some a.2) (some b.2) ≠ none → Double.intersect u v a b = some none) ∧
    (a = b → Double.sub (some u.1) (some v.1) ≠ none →
      Double.sub (some u.2) (some v.2) ≠ none → Double.intersect u v a b = some none) := by
  refine ⟨intersect_false_iff u v a b, ?_, ?_⟩
  · rintro rfl hx hy
    obtain ⟨x2, hx2⟩ := Option.ne_none_iff_exists'.1 hx
    obtain ⟨y2, hy2⟩ := Option.ne_none_iff_exists'.1 hy
    apply intersect_zero_cross u u a b 0 0 x2 y2 (double_sub_self _) (double_sub_self _)
      hx2 hy2
    rw [double_zero_mul, double_mul_zero, double_sub_self]
  · rintro rfl hx hy
    obtain ⟨x1, hx1⟩ := Option.ne_none_iff_exists'.1 hx
    obtain ⟨y1, hy1⟩ := Option.ne_none_iff_exists'.1 hy
    apply intersect_zero_cross u v a a x1 y1 0 0 hx1 hy1 (double_sub_self _)
      (double_sub_self _)
    rw [double_zero_mul, double_mul_zero, double_sub_self]

theorem intersect_false_double_witness :
    intersect (0, 0) (1, 1) (0, 1) (2, 3) = none ∧
      Double.sub (some 0) (some 2) ≠ none ∧ Double.sub (some 1) (some 3) ≠ none ∧
      Double.intersect (1, 1) (1, 1) (0, 1) (2, 3) = some none :=
  ⟨(intersect_false_double (0, 0) (1, 1) (0, 1) (2, 3)).1.2.1
      (Or.inr ⟨2, by norm_num, by norm_num⟩),
    by decide!, by decide!,
    (intersect_false_double (1, 1) (1, 1) (0, 1) (2, 3)).2.1 rfl
      (by decide!) (by decide!)⟩

/-! ## Theorems: the pairs marked used by `to_boundary` -/

/-- The run behind a polygon returned by `to_boundary`: the outer trace and the search
for inner rings return, the pairs marked used at the end satisfy the bookkeeping
invariant, and the rings before closing are the coordinates of lists of `(tile, side)`
pairs that together are exactly the pairs marked used. -/
theorem to_boundary_run (first : Nat) (rest : List Nat) (tiles : Tiles)
    (polygon : List (List Point)) (h : to_boundary first rest tiles = .ok polygon) :
    ∃ (p0 : List (List Point)) (u0 : List (Int × Nat)) (p1 : List (List Point))
      (used : List (Int × Nat)) (sides : List (List (Nat × Int))),
      trace (first :: rest) tiles [] [] (smallestTile (first :: rest) first) 0 true =
        .ok (p0, u0) ∧
      traceInners (first :: rest) tiles (first :: rest) p0 u0 = .ok (p1, used) ∧
      UsedOk (first :: rest) used ∧
      (sides.flatten.map (fun v => (v.2, v.1))).Perm used ∧
      polygon = sides.map (fun ring => ring.map (fun v => coord tiles v.1 v.2) ++
        (ring.head?.map (fun v => coord tiles v.1 v.2)).toList) := by
  have hst : smallestTile (first :: rest) first ∈ first :: rest := by
    rcases smallestTile_mem (first :: rest) first with h | h
    · rw [h]; simp
    · exact h
  unfold to_boundary at h
  simp only at h
  split at h
  · cases h
  · rename_i p u ht
    split at h
    · cases h
    · rename_i p' u' hi
      cases h
      have h0 : UsedOk (first :: rest) u ∧ ∀ ring ∈ p, ring ≠ [] := by
        rcases trace_ok (first :: rest) tiles [] [] (smallestTile (first :: rest) first) 0 true
          ⟨List.nodup_nil, by simp⟩ hst (by simp) (by simp) with he | ⟨p2, u2, he, hu2, hp2⟩
        · rw [he] at ht
          cases ht
        · rw [he] at ht
          cases ht
          exact ⟨hu2, hp2⟩
      have h1 := trace_sides _ _ _ _ _ _ _ _ _ ht ⟨[], by simp, by simp⟩
      obtain ⟨hu', sides, hp', hperm⟩ := traceInners_sides _ _ _ _ _ _ _ hi h0.1
        (fun t ht => ht) h0.2 h1
      refine ⟨p, u, p', u', sides, ht, hi, hu', hperm, ?_⟩
      rw [hp', List.map_map]
      apply List.map_congr_left
      intro ring _
      cases ring <;> simp

/-- C12: every call of `trace` made with consistent bookkeeping raises the logic error
exactly when one of its steps reaches a `(tile, side)` pair that is already marked used
(before the call or by an earlier step of the call); `to_boundary` ends with the logic
error or a polygon; and when it returns a polygon, the pairs marked used by its run (the
content of the sets `used` when the search for inner rings ends) are pairwise different,
each is a side 0..3 of a tile of the region, and the rings are the coordinates of exactly
these pairs, one vertex per pair, each ring closed by its first vertex: the number of
vertices over all rings, not counting the closing ones, is the number of pairs marked
used, so no pair contributed more than one vertex. -/
theorem to_boundary_marks_once (first : Nat) (rest : List Nat) (tiles : Tiles) :
    (∀ (polygon : List (List Point)) (used : List (Int × Nat)) (start_tile : Nat)
        (start_side : Int) (ccw : Bool),
      UsedOk (first :: rest) used → start_tile ∈ first :: rest →
      start_side ∈ [(0 : Int), 1, 2, 3] →
      (trace (first :: rest) tiles polygon used start_tile start_side ccw =
          .error .logic_error ↔
        ∃ k, (∀ j, 1 ≤ j → j ≤ k →
            reached (first :: rest) tiles (start_tile, start_side) j ≠
              (start_tile, start_side)) ∧
          (((reached (first :: rest) tiles (start_tile, start_side) k).2,
              (reached (first :: rest) tiles (start_tile, start_side) k).1) ∈ used ∨
            ∃ j, j < k ∧ reached (first :: rest) tiles (start_tile, start_side) j =
              reached (first :: rest) tiles (start_tile, start_side) k))) ∧
    to_boundary first rest tiles ≠ .error .out_of_fuel ∧
    ∀ polygon, to_boundary first rest tiles = .ok polygon →
      ∃ (p0 : List (List Point)) (u0 : List (Int × Nat)) (p1 : List (List Point))
        (used : List (Int × Nat)) (sides : List (List (Nat × Int))),
        trace (first :: rest) tiles [] [] (smallestTile (first :: rest) first) 0 true =
          .ok (p0, u0) ∧
        traceInners (first :: rest) tiles (first :: rest) p0 u0 = .ok (p1, used) ∧
        used.Nodup ∧ (∀ q ∈ used, q.1 ∈ [(0 : Int), 1, 2, 3] ∧ q.2 ∈ first :: rest) ∧
        (sides.flatten.map (fun v => (v.2, v.1))).Perm used ∧
        polygon = sides.map (fun ring => ring.map (fun v => coord tiles v.1 v.2) ++
          (ring.head?.map (fun v => coord tiles v.1 v.2)).toList) ∧
        (polygon.map (fun ring => ring.length - 1)).sum = used.length := by
  obtain ⟨h1, h2, _⟩ := to_boundary_side_used_once first rest tiles
  refine ⟨h1, h2, ?_⟩
  intro polygon h
  obtain ⟨p0, u0, p1, used, sides, ht, hi, hu, hperm, hp⟩ :=
    to_boundary_run first rest tiles polygon h
  refine ⟨p0, u0, p1, used, sides, ht, hi, hu.1, hu.2, hperm, hp, ?_⟩
  rw [hp, closed_rings_count, ← hperm.length_eq, List.length_map]

theorem to_boundary_marks_once_witness :
    ∃ polygon, to_boundary 0 [1, 2, 3, 5, 6, 7, 8] (Tiles.lattice 0 0 1 1 3 3) = .ok polygon ∧
      polygon.length = 2 ∧ (polygon.map (fun ring => ring.length - 1)).sum = 16 ∧
      ∃ (p0 : List (List Point)) (u0 : List (Int × Nat)) (p1 : List (List Point))
        (used : List (Int × Nat)) (sides : List (List (Nat × Int))),
        trace [0, 1, 2, 3, 5, 6, 7, 8] (Tiles.lattice 0 0 1 1 3 3) [] []
          (smallestTile [0, 1, 2, 3, 5, 6, 7, 8] 0) 0 true = .ok (p0, u0) ∧
        traceInners [0, 1, 2, 3, 5, 6, 7, 8] (Tiles.lattice 0 0 1 1 3 3)
          [0, 1, 2, 3, 5, 6, 7, 8] p0 u0 = .ok (p1, used) ∧
        used.Nodup ∧
        (∀ q ∈ used, q.1 ∈ [(0 : Int), 1, 2, 3] ∧ q.2 ∈ [0, 1, 2, 3, 5, 6, 7, 8]) ∧
        (sides.flatten.map (fun v => (v.2, v.1))).Perm used ∧
        polygon = sides.map (fun ring =>
          ring.map (fun v => coord (Tiles.lattice 0 0 1 1 3 3) v.1 v.2) ++
            (ring.head?.map (fun v => coord (Tiles.lattice 0 0 1 1 3 3) v.1 v.2)).toList) ∧
        (polygon.map (fun ring => ring.length - 1)).sum = used.length := by
  obtain ⟨k, hk, h⟩ := to_boundary_hole_eq (Tiles.lattice 0 0 1 1 3 3).TileBounds 0
    [1, 2, 3, 5, 6, 7, 8] (List.Perm.refl _)
  refine ⟨_, h, rfl, ?_,
    (to_boundary_marks_once 0 [1, 2, 3, 5, 6, 7, 8] (Tiles.lattice 0 0 1 1 3 3)).2.2 _ h⟩
  simp only [List.mem_cons, List.mem_singleton, List.not_mem_nil, or_false] at hk
  rcases hk with rfl | rfl | rfl | rfl <;> rfl

/-! ## Theorems: the uniform resampler on a polyline of length zero -/

theorem uniformFrom_equal_points {F : Type} [LinearOrderedField F] [FloorRing F]
    (m : SphereMath F) (a : F × F) :
    ∀ (k : Nat) (resampled : List (F × F)),
      uniformFrom m 0 (List.replicate k a) 0 a resampled = .ok resampled := by
  intro k
  induction k with
  | zero => intro resampled; rfl
  | succ k ih =>
    intro resampled
    rw [List.replicate_succ, uniformFrom]
    simp only [arcTo, if_true]
    simp only [div_zero, Nat.ceil_zero, zero_add, uniformPlaceLoop, lt_self_iff_false,
      if_false, sub_zero]
    exact ih resampled

/-- C13 fails in the code: for a polyline of two or more equal points, whose total
great-circle length is 0, and every `n` from 3 up to the largest `uint32_t`,
`uniform_resample_spherical_polyline` called with that length returns two points, not
`n`: every arc is 0 without a call of `acos`, the sample distance is 0, the loop
`while (remaining < d)` never runs, and only the last point is appended.  All values in
this run are zeros, so it is the same on `double`. -/
theorem uniform_resample_zero_length {F : Type} [LinearOrderedField F] [FloorRing F]
    (m : SphereMath F) (a : F × F) (k n : Nat) (hn : 3 ≤ n) (hn32 : n < 4294967296) :
    arcLength m (a :: List.replicate (k + 1) a) = some 0 ∧
      uniform_resample_spherical_polyline m (a :: List.replicate (k + 1) a) 0 n =
        .ok [a, a] ∧
      [a, a].length ≠ n := by
  refine ⟨?_, ?_, by simp; omega⟩
  · induction k with
    | zero => simp [arcLength, arcTo]
    | succ k ih =>
      rw [List.replicate_succ, arcLength]
      simp only [arcTo, if_true]
      rw [ih]
      simp
  · have hdiv : (n + 4294967295) % 4294967296 = n - 1 := by omega
    have hne : n - 1 ≠ 0 := by omega
    have hback : (a :: List.replicate (k + 1) a).getLast (List.cons_ne_nil _ _) = a := by
      have := List.getLast_mem (List.cons_ne_nil a (List.replicate (k + 1) a))
      rcases List.mem_cons.1 this with h | h
      · exact h
      · exact (List.mem_replicate.1 h).2
    unfold uniform_resample_spherical_polyline
    simp only [hdiv, hne, if_false, zero_div, zero_mul]
    rw [uniformFrom_equal_points m a (k + 1) [a]]
    simp only [List.length_singleton, hback]
    rw [if_pos (by omega)]
    rfl

theorem uniform_resample_zero_length_witness :
    (3 : Nat) ≤ 3 ∧ (3 : Nat) < 4294967296 ∧
      arcLength
          (⟨Real.sin, Real.cos, fun x => if -1 ≤ x ∧ x ≤ 1 then some (Real.arccos x) else none,
            fun y x => Complex.arg ⟨x, y⟩, Real.sqrt, Real.pi / 180, 180 / Real.pi⟩ :
            SphereMath ℝ) ((0, 0) :: List.replicate (0 + 1) (0, 0)) = some 0 ∧
      uniform_resample_spherical_polyline
          (⟨Real.sin, Real.cos, fun x => if -1 ≤ x ∧ x ≤ 1 then some (Real.arccos x) else none,
            fun y x => Complex.arg ⟨x, y⟩, Real.sqrt, Real.pi / 180, 180 / Real.pi⟩ :
            SphereMath ℝ) ((0, 0) :: List.replicate (0 + 1) (0, 0)) 0 3 =
        .ok [(0, 0), (0, 0)] ∧
      [((0 : ℝ), (0 : ℝ)), (0, 0)].length ≠ 3 :=
  ⟨by norm_num, by norm_num,
    uniform_resample_zero_length _ (0, 0) 0 3 (by norm_num) (by norm_num)⟩

/-! ## Theorems: `trim_front` at a vertex, on `double` -/

/-- C20, as the claim states it, fails: with the length of one degree of latitude
111226.30000000089 (a `double`), the argument `dist` of type `float` is 111226.296875,
which is less; `trim_front` of `[(0,0),(0,1),(0,2)]` then crosses in the first segment,
at the fraction 0.9999999719041189: it returns two points, the second one before the
vertex `(0,1)`, and leaves three points. -/
theorem trim_front_vertex_rounded :
    meridianDistance (some 0, some 0) (some 0, some 1) =
        some (3821706567640709 / 34359738368) ∧
      roundFloat (3821706567640709 / 34359738368) = some (7118483 / 64) ∧
      Double.trim_front meridianDistance meridianPointAlong
          [(some 0, some 0), (some 0, some 1), (some 0, some 2)] (7118483 / 64) =
        some ([(some 0, some 0), (some 0, some (9007199001675793 / 9007199254740992))],
          [(some 0, some (9007199001675793 / 9007199254740992)), (some 0, some 1),
            (some 0, some 2)]) := by
  refine ⟨by decide!, by decide!, by decide!⟩

theorem double_add_zero (x : ℚ) (h : roundDouble x = some x) :
    Double.add (some 0) (some x) = some x := by
  simp [Double.add, h]

theorem double_sub_zero (x : ℚ) (h : roundDouble x = some x) :
    Double.sub (some x) (some 0) = some x := by
  simp [Double.sub, h]

/-- C20 (amended): `trim_front` on `double` for a polyline of three points and a `dist`
around the length `l1` of the first segment (`l1` and `dist` values of type `double`,
`l2` the length of the second segment and `sum` the rounded `l1 + l2`).  If `dist < l1`
it returns the first point and the point along the first segment at the rounded fraction
`dist / l1` and leaves that point and the last two; if `l1 <= dist < sum` it returns the
first two points and the point along the second segment at the rounded fraction
`(dist - l1) / l2` and leaves that point and the last one; otherwise it returns all three
points and leaves none.  So it never returns two points and leaves two. -/
theorem trim_front_near_vertex {P : Type} (Distance : P → P → Double)
    (PointAlongSegment : P → P → Double → P) (p0 p1 p2 : P) (l1 l2 sum dist : ℚ)
    (h1 : Distance p0 p1 = some l1) (h2 : Distance p1 p2 = some l2)
    (hl1 : roundDouble l1 = some l1) (hd : roundDouble dist = some dist)
    (hs : Double.add (some l1) (some l2) = some sum) :
    (dist < l1 →
      Double.trim_front Distance PointAlongSegment [p0, p1, p2] dist =
        some ([p0, PointAlongSegment p0 p1 (Double.div (some dist) (some l1))],
          [PointAlongSegment p0 p1 (Double.div (some dist) (some l1)), p1, p2])) ∧
    (l1 ≤ dist → dist < sum →
      Double.trim_front Distance PointAlongSegment [p0, p1, p2] dist =
        some ([p0, p1,
            PointAlongSegment p1 p2 (Double.div (Double.sub (some dist) (some l1)) (some l2))],
          [PointAlongSegment p1 p2 (Double.div (Double.sub (some dist) (some l1)) (some l2)),
            p2])) ∧
    (l1 ≤ dist → sum ≤ dist →
      Double.trim_front Distance PointAlongSegment [p0, p1, p2] dist =
        some ([p0, p1, p2], [])) ∧
    ∀ result left, Double.trim_front Distance PointAlongSegment [p0, p1, p2] dist =
      some (result, left) → ¬ (result.length = 2 ∧ left.length = 2) := by
  have ha : dist < l1 →
      Double.trim_front Distance PointAlongSegment [p0, p1, p2] dist =
        some ([p0, PointAlongSegment p0 p1 (Double.div (some dist) (some l1))],
          [PointAlongSegment p0 p1 (Double.div (some dist) (some l1)), p1, p2]) := by
    intro hlt
    simp only [Double.trim_front, Double.trimLoop, h1, double_add_zero l1 hl1,
      double_sub_zero dist hd]
    rw [if_pos hlt]
    rfl
  have hb : l1 ≤ dist → dist < sum →
      Double.trim_front Distance PointAlongSegment [p0, p1, p2] dist =
        some ([p0, p1,
            PointAlongSegment p1 p2 (Double.div (Double.sub (some dist) (some l1)) (some l2))],
          [PointAlongSegment p1 p2 (Double.div (Double.sub (some dist) (some l1)) (some l2)),
            p2]) := by
    intro hle hlt
    simp only [Double.trim_front, Double.trimLoop, h1, h2, double_add_zero l1 hl1, hs]
    rw [if_neg (not_lt.2 hle), if_pos hlt]
    rfl
  have hc : l1 ≤ dist → sum ≤ dist →
      Double.trim_front Distance PointAlongSegment [p0, p1, p2] dist =
        some ([p0, p1, p2], []) := by
    intro hle hle2
    simp only [Double.trim_front, Double.trimLoop, h1, h2, double_add_zero l1 hl1, hs]
    rw [if_neg (not_lt.2 hle), if_neg (not_lt.2 hle2)]
    rfl
  refine ⟨ha, hb, hc, ?_⟩
  intro result left h
  rcases lt_or_le dist l1 with hlt | hle
  · rw [ha hlt] at h
    injection h with h
    injection h with _ hl
    rw [← hl]
    simp
  · rcases lt_or_le dist sum with hlt | hle2
    · rw [hb hle hlt] at h
      injection h with h
      injection h with hr _
      rw [← hr]
      simp
    · rw [hc hle hle2] at h
      injection h with h
      injection h with hr _
      rw [← hr]
      simp

theorem trim_front_near_vertex_witness :
    roundFloat (3821706567640709 / 34359738368) = some (7118483 / 64) ∧
      (7118483 / 64 : ℚ) < 3821706567640709 / 34359738368 ∧
      Double.trim_front meridianDistance meridianPointAlong
          [(some 0, some 0), (some 0, some 1), (some 0, some 2)] (7118483 / 64) =
        some ([(some 0, some 0),
            meridianPointAlong (some 0, some 0) (some 0, some 1)
              (Double.div (some (7118483 / 64)) (some (3821706567640709 / 34359738368)))],
          [meridianPointAlong (some 0, some 0) (some 0, some 1)
              (Double.div (some (7118483 / 64)) (some (3821706567640709 / 34359738368))),
            (some 0, some 1), (some 0, some 2)]) :=
  ⟨by decide!, by decide!,
    (trim_front_near_vertex meridianDistance meridianPointAlong (some 0, some 0)
      (some 0, some 1) (some 0, some 2) (3821706567640709 / 34359738368)
      (3821706567640709 / 34359738368) (3821706567640709 / 17179869184) (7118483 / 64)
      (by decide!) (by decide!) (by decide!) (by decide!) (by decide!)).1 (by decide!)⟩

/-! ## Theorems: the accuracy stored by `simulate_gps` -/

theorem sampleLoop_lengths {F : Type} [LinearOrderedField F] (sqrt : F → F)
    (MetersPerLngDegree : F → F) (kMetersPerDegreeLat : F) (Distance : F × F → F × F → F)
    (draws : Nat → F) (accuracy : F) (smoothing : Nat) (sample_rate : Nat) :
    ∀ (todo : List (F × F)) (i : Nat) (noises : List (F × F)) (drawn : Nat)
      (simulated : List (F × F)) (accuracies : List F) (simulated' : List (F × F))
      (accuracies' : List F),
      sampleLoop sqrt MetersPerLngDegree kMetersPerDegreeLat Distance draws accuracy
          smoothing sample_rate todo i noises drawn simulated accuracies =
        some (simulated', accuracies') →
      accuracies.length = simulated.length → accuracies'.length = simulated'.length := by
  intro todo
  induction todo with
  | nil =>
    intro i noises drawn simulated accuracies simulated' accuracies' h hl
    simp only [sampleLoop, Option.some.injEq, Prod.mk.injEq] at h
    rw [← h.1, ← h.2]
    exact hl
  | cons p todo ih =>
    intro i noises drawn simulated accuracies simulated' accuracies' h hl
    rw [sampleLoop] at h
    split at h
    · cases h
    · split at h
      · split at h
        · cases h
        · simp only at h
          split at h
          · cases h
          · exact ih _ _ _ _ _ _ _ h (by simp [hl])
      · exact ih _ _ _ _ _ _ _ h hl

/-- C29 (amended): in exact arithmetic, for `smoothing >= 1`, `accuracy >= 0` and
`sample_rate >= 1`, with draws in `[-1, 1]` whose vectors are not zero, `simulate_gps`
returns, and every sample it emits is its 1 Hz resampled point offset by a smoothed noise
vector of Euclidean norm at most `accuracy` (in meters, converted to degrees by the
meters-per-degree factors of the code).  The value stored in `accuracies` is the
`Distance` from the sample to the point, and it is at most `accuracy` if `Distance` is
not negative and not more than the length that the same meters-per-degree factors give
to the offset. -/
theorem simulate_gps_accuracy {F : Type} [LinearOrderedField F] (sqrt : F → F)
    (MetersPerLngDegree : F → F) (kMetersPerDegreeLat : F) (Distance : F × F → F × F → F)
    (draws : Nat → F) (resampled : List (F × F)) (smoothing : Nat) (accuracy : F)
    (sample_rate : Nat)
    (hsqrt : ∀ x, 0 ≤ x → sqrt x * sqrt x = x)
    (hdraws : ∀ i, -1 ≤ draws i ∧ draws i ≤ 1)
    (hnz : ∀ i, draws i ≠ 0 ∨ draws (i + 1) ≠ 0)
    (hlng : ∀ lat, MetersPerLngDegree lat ≠ 0) (hlat : kMetersPerDegreeLat ≠ 0)
    (hs : 1 ≤ smoothing) (ha : 0 ≤ accuracy) (hr : 1 ≤ sample_rate) :
    ∃ simulated accuracies,
      simulate_gps sqrt MetersPerLngDegree kMetersPerDegreeLat Distance draws resampled
          smoothing accuracy sample_rate = some (simulated, accuracies) ∧
        accuracies.length = simulated.length ∧
        (∀ (k : Nat) (q : F × F), simulated[k]? = some q →
          ∃ p noise : F × F, resampled[k * sample_rate]? = some p ∧
            noise.1 * noise.1 + noise.2 * noise.2 ≤ accuracy * accuracy ∧
            q = (p.1 + noise.1 / MetersPerLngDegree p.2,
              p.2 + noise.2 / kMetersPerDegreeLat) ∧
            accuracies[k]? = some (Distance q p)) ∧
        ((∀ q p : F × F, 0 ≤ Distance q p ∧
            Distance q p * Distance q p ≤
              (q.1 - p.1) * MetersPerLngDegree p.2 * ((q.1 - p.1) * MetersPerLngDegree p.2) +
                (q.2 - p.2) * kMetersPerDegreeLat * ((q.2 - p.2) * kMetersPerDegreeLat)) →
          ∀ a ∈ accuracies, a ≤ accuracy) := by
  obtain ⟨simulated, accuracies, e, hgood⟩ := simulate_gps_noise_bound sqrt MetersPerLngDegree
    kMetersPerDegreeLat Distance draws resampled smoothing accuracy sample_rate hsqrt hdraws
    hnz hlng hlat hs ha hr
  have hlen : accuracies.length = simulated.length := by
    have e' := e
    rw [simulate_gps, if_neg (by omega)] at e'
    split at e'
    · cases e'
    · exact sampleLoop_lengths _ _ _ _ _ _ _ _ _ _ _ _ _ _ _ _ e' rfl
  refine ⟨simulated, accuracies, e, hlen, hgood, ?_⟩
  intro hD a hmem
  obtain ⟨k, hk, rfl⟩ := List.getElem_of_mem hmem
  have hks : k < simulated.length := by omega
  obtain ⟨p, noise, _, hn, hq, hacc⟩ := hgood k simulated[k] (List.getElem?_eq_getElem hks)
  rw [List.getElem?_eq_getElem hk] at hacc
  injection hacc with hacc
  rw [hacc]
  obtain ⟨h0, hle⟩ := hD simulated[k] p
  have e1 : (simulated[k].1 - p.1) * MetersPerLngDegree p.2 = noise.1 := by
    rw [hq]
    simp only
    field_simp [hlng p.2]
    ring
  have e2 : (simulated[k].2 - p.2) * kMetersPerDegreeLat = noise.2 := by
    rw [hq]
    simp only
    field_simp [hlat]
    ring
  rw [e1, e2] at hle
  by_contra hgt
  have hlt : accuracy < Distance simulated[k] p := not_le.1 hgt
  have := mul_self_lt_mul_self ha hlt
  linarith

theorem simulate_gps_accuracy_witness :
    1 ≤ 2 ∧ (0 : ℝ) ≤ 5 ∧ 1 ≤ 1 ∧ ∃ simulated accuracies,
      simulate_gps Real.sqrt (fun _ => 100000) 110000
          (fun q p => |q.2 - p.2| * 110000) (fun _ => 1) [(0, 0), (0, 1)] 2 5 1 =
        some (simulated, accuracies) ∧ ∀ a ∈ accuracies, a ≤ 5 := by
  obtain ⟨simulated, accuracies, e, _, _, h⟩ := simulate_gps_accuracy Real.sqrt
    (fun _ => 100000) 110000 (fun q p : ℝ × ℝ => |q.2 - p.2| * 110000) (fun _ => 1)
    [(0, 0), (0, 1)] 2 5 1 (fun x hx => Real.mul_self_sqrt hx)
    (fun _ => ⟨by norm_num, by norm_num⟩) (fun _ => Or.inl (by norm_num))
    (fun _ => by norm_num) (by norm_num) (by norm_num) (by norm_num) (by norm_num)
  refine ⟨by norm_num, by norm_num, by norm_num, simulated, accuracies, e, h ?_⟩
  intro q p
  refine ⟨by positivity, ?_⟩
  have : |q.2 - p.2| * 110000 * (|q.2 - p.2| * 110000) =
      (q.2 - p.2) * 110000 * ((q.2 - p.2) * 110000) := by
    have := abs_mul_abs_self (q.2 - p.2)
    nlinarith [this]
  rw [this]
  nlinarith [mul_self_nonneg ((q.1 - p.1) * 100000)]

theorem arcTo_from_meridian (m : SphereMath ℝ) (hm : ExactReal m) (a : ℝ) (h0 : 0 < a)
    (h1 : a ≤ 180) : arcTo m (0, a) (0, 0) = some (a * (Real.pi / 180)) := by
  obtain ⟨hsin, hcos, hacos, _, _, hrad, _⟩ := hm
  have hne : ((0 : ℝ), a) ≠ (0, 0) := by
    intro h
    have := congrArg Prod.snd h
    simp only at this
    linarith
  unfold arcTo
  simp only [if_neg hne, hsin, hcos, hrad, zero_mul, Real.sin_zero, Real.cos_zero, sub_zero,
    one_mul, mul_one, zero_add, mul_zero]
  rw [hacos _ (Real.neg_one_le_cos _) (Real.cos_le_one _),
    Real.arccos_cos (by positivity) (by
      have := Real.pi_pos
      calc a * (Real.pi / 180) ≤ 180 * (Real.pi / 180) :=
            mul_le_mul_of_nonneg_right h1 (by positivity)
        _ = Real.pi := by ring)]

/-- The run of `simulate_gps` in exact real arithmetic on the single point `(0, 0)` with
`smoothing = 1`, `accuracy = 5`, `sample_rate = 1` and draws that give the unit vector
`(0, 1)` at full scale: the noise is 5 meters to the north, the sample is
`(0, 5 / K)` for the number `K` of meters per degree of latitude, and the value stored in
`accuracies` is what `Distance` gives for it. -/
theorem simulate_gps_north (MetersPerLngDegree : ℝ → ℝ) (K : ℝ)
    (Distance : ℝ × ℝ → ℝ × ℝ → ℝ) (hlng : MetersPerLngDegree 0 ≠ 0) (hK : K ≠ 0) :
    simulate_gps Real.sqrt MetersPerLngDegree K Distance
        (fun i => if i % 3 = 0 then 0 else 1) [(0, 0)] 1 5 1 =
      some ([(0, 5 / K)], [Distance (0, 5 / K) (0, 0)]) := by
  simp [simulate_gps, fillNoises, get_noise, sampleLoop, ring_queue_push, hlng, hK,
    -Prod.mk_zero_zero]

/-- C29, as the claim states it, fails: in exact real arithmetic, with 110567 meters per
degree of latitude (the value of `kMetersPerDegreeLat` in `constants.h` of the
repository, which is not in `src/`) and with `Distance` the great-circle arc by the law
of cosines times the `kMetersPerRadian` of the specification, a noise of 5 meters to the
north puts the sample at a distance of more than 5 meters from its point: the stored
accuracy is `5 / 110567` degrees of arc on the sphere, about 5.03 meters. -/
theorem simulate_gps_accuracy_exceeded :
    simulate_gps Real.sqrt (fun _ => 110567) 110567
        (fun q p => ((arcTo (⟨Real.sin, Real.cos,
          fun x => if -1 ≤ x ∧ x ≤ 1 then some (Real.arccos x) else none,
          fun y x => Complex.arg ⟨x, y⟩, Real.sqrt, Real.pi / 180, 180 / Real.pi⟩ :
          SphereMath ℝ) q p).getD 0) / RAD_PER_METER ℝ)
        (fun i => if i % 3 = 0 then 0 else 1) [(0, 0)] 1 5 1 =
      some ([(0, 5 / 110567)], [5 / 110567 * (Real.pi / 180) / RAD_PER_METER ℝ]) ∧
    (5 : ℝ) < 5 / 110567 * (Real.pi / 180) / RAD_PER_METER ℝ := by
  constructor
  · rw [simulate_gps_north _ _ _ (by norm_num) (by norm_num)]
    rw [arcTo_from_meridian _ ⟨fun _ => rfl, fun _ => rfl, fun _ h1 h2 => if_pos ⟨h1, h2⟩,
      fun _ _ => rfl, fun _ => rfl, rfl, rfl⟩ (5 / 110567) (by norm_num) (by norm_num)]
    rfl
  · unfold RAD_PER_METER
    have := Real.pi_gt_d6
    rw [lt_div_iff₀ (by norm_num)]
    nlinarith

/-! ## Theorems: the number of points of `resample_spherical_polyline` on `double` -/

theorem placeLoop_placeCount (m : DoubleMath) (resolution : ℚ) (p : Double × Double) :
    ∀ (fuel : Nat) (d remaining : ℚ) (last : Double × Double)
      (resampled : List (Double × Double)) (n : Nat) (d' remaining' : ℚ),
      Double.placeCount resolution fuel d remaining = some (n, d', remaining') →
      ∃ (last' : Double × Double) (placed : List (Double × Double)),
        Double.placeLoop m resolution p fuel d remaining last resampled =
          some (d', remaining', last', resampled ++ placed) ∧ placed.length = n := by
  intro fuel
  induction fuel with
  | zero =>
    intro d remaining last resampled n d' remaining' h
    simp only [Double.placeCount] at h
    split at h
    · cases h
    · rename_i hc
      simp only [Option.some.injEq, Prod.mk.injEq] at h
      obtain ⟨rfl, rfl, rfl⟩ := h
      exact ⟨last, [], by simp [Double.placeLoop, hc], rfl⟩
  | succ fuel ih =>
    intro d remaining last resampled n d' remaining' h
    simp only [Double.placeCount] at h
    split at h
    · rename_i hc
      split at h
      · rename_i d1 hd1
        split at h
        · rename_i n1 d2 r2 hrec
          simp only [Option.some.injEq, Prod.mk.injEq] at h
          obtain ⟨rfl, rfl, rfl⟩ := h
          obtain ⟨last', placed, hl, hlen⟩ := ih d1 resolution
            (Double.interpolate m last p d remaining)
            (resampled ++ [Double.interpolate m last p d remaining]) n1 d2 r2 hrec
          refine ⟨last', Double.interpolate m last p d remaining :: placed, ?_, by simp [hlen]⟩
          simp only [Double.placeLoop, if_pos hc, hd1, hl]
          simp
        · cases h
      · cases h
    · rename_i hc
      simp only [Option.some.injEq, Prod.mk.injEq] at h
      obtain ⟨rfl, rfl, rfl⟩ := h
      exact ⟨last, [], by simp [Double.placeLoop, hc], rfl⟩

/-- The number of points that `resample_spherical_polyline` on `double` returns for a
polyline of two points: it depends on the functions of `<cmath>` only through the arc
`d` of the segment. -/
theorem resample_segment_count (m : DoubleMath) (fuel : Nat) (front p : Double × Double)
    (resolution res d : ℚ) (n : Nat) (d' remaining' left : ℚ)
    (hres : Double.mul (some resolution) (some Double.RAD_PER_METER) = some res)
    (hd : (Double.arcTo m front p).getD 0 = d)
    (hc : Double.placeCount res fuel d res = some (n, d', remaining'))
    (hl : Double.sub (some remaining') (some d') = some left) :
    ∃ resampled, Double.resample_spherical_polyline m fuel [front, p] resolution false =
      some resampled ∧ resampled.length = 1 + n := by
  obtain ⟨last', placed, hp, hlen⟩ := placeLoop_placeCount m res p fuel d res front [front]
    n d' remaining' hc
  refine ⟨[front] ++ placed, ?_, by simp [hlen]; omega⟩
  simp only [Double.resample_spherical_polyline, hres, Double.resampleFrom, hd, hp, hl,
    Bool.false_eq_true, if_false]

theorem arcTo_to_meridian (m : SphereMath ℝ) (hm : ExactReal m) (b : ℝ) (h0 : 0 < b)
    (h1 : b ≤ 180) : arcTo m (0, 0) (0, b) = some (b * (Real.pi / 180)) := by
  obtain ⟨hsin, hcos, hacos, _, _, hrad, _⟩ := hm
  have hne : ((0 : ℝ), (0 : ℝ)) ≠ (0, b) := by
    intro h
    have := congrArg Prod.snd h
    simp only at this
    linarith
  unfold arcTo
  simp only [if_neg hne, hsin, hcos, hrad, zero_mul, Real.sin_zero, Real.cos_zero, sub_zero,
    one_mul, mul_one, zero_add, mul_zero]
  rw [hacos _ (Real.neg_one_le_cos _) (Real.cos_le_one _),
    Real.arccos_cos (by positivity) (by
      have := Real.pi_pos
      calc b * (Real.pi / 180) ≤ 180 * (Real.pi / 180) :=
            mul_le_mul_of_nonneg_right h1 (by positivity)
        _ = Real.pi := by ring)]

/-- C34, as the claim states it, fails on `double`: for the segment from `(0, 0)` to
`(0, 5e-06)`, 0.556 meters along a meridian, and the resolution `0.001` meters (both the
values of type `double` nearest to the decimals), the arc is `5e-06 * pi / 180` and
exact arithmetic returns 557 points, the first one and a sample for each of the 556
multiples of the resolution below the length.  On `double` the cosine of the arc is
rounded to `1 - 34 * 2^-53`, so `acos` returns `8.688795409866128e-08`, an arc 0.4 %
too short, and for every C library with that value `resample_spherical_polyline` returns
554 points. -/
theorem resample_count_rounded :
    Double.arcTo shortArcMath (some 0, some 0)
        (some 0, some (5902958103587057 / 1180591620717411303424)) =
      some (1641267048802537 / 18889465931478580854784) ∧
    (∀ m : DoubleMath,
      Double.arcTo m (some 0, some 0)
          (some 0, some (5902958103587057 / 1180591620717411303424)) =
        some (1641267048802537 / 18889465931478580854784) →
      ∃ resampled,
        Double.resample_spherical_polyline m 1000
            [(some 0, some 0), (some 0, some (5902958103587057 / 1180591620717411303424))]
            (1152921504606847 / 1152921504606846976) false = some resampled ∧
          resampled.length = 554) ∧
    ∃ res,
      resample_spherical_polyline
          (⟨Real.sin, Real.cos, fun x => if -1 ≤ x ∧ x ≤ 1 then some (Real.arccos x) else none,
            fun y x => Complex.arg ⟨x, y⟩, Real.sqrt, Real.pi / 180, 180 / Real.pi⟩ :
            SphereMath ℝ)
          [(0, 0), (0, 5902958103587057 / 1180591620717411303424)]
          (1152921504606847 / 1152921504606846976) false = .ok res ∧
        res.length = 557 := by
  refine ⟨by decide!, ?_, ?_⟩
  · intro m hm
    have h := resample_segment_count m 1000 (some 0, some 0)
      (some 0, some (5902958103587057 / 1180591620717411303424))
      (1152921504606847 / 1152921504606846976) (94850480347931 / 604462909807314587353088)
      (1641267048802537 / 18889465931478580854784) 553
      (68229929275575 / 604462909807314587353088)
      (94850480347931 / 604462909807314587353088)
      (6655137768089 / 151115727451828646838272)
      (by decide!) (by rw [hm]; rfl) (by decide!) (by decide!)
    exact h
  · have hacos : ∀ x y : ℝ,
        (if -1 ≤ x ∧ x ≤ 1 then some (Real.arccos x) else none) = some y → 0 ≤ y := by
      intro x y hxy
      split at hxy
      · rw [← Option.some.inj hxy]
        exact Real.arccos_nonneg x
      · cases hxy
    have hRpos : (0 : ℝ) < 1152921504606847 / 1152921504606846976 * RAD_PER_METER ℝ :=
      mul_pos (by norm_num) (RAD_PER_METER_pos ℝ)
    have hL : arcLength (⟨Real.sin, Real.cos,
        fun x => if -1 ≤ x ∧ x ≤ 1 then some (Real.arccos x) else none,
        fun y x => Complex.arg ⟨x, y⟩, Real.sqrt, Real.pi / 180, 180 / Real.pi⟩ :
        SphereMath ℝ) [(0, 0), (0, 5902958103587057 / 1180591620717411303424)] =
        some (5902958103587057 / 1180591620717411303424 * (Real.pi / 180) + 0) := by
      rw [arcLength, arcTo_to_meridian _ ⟨fun _ => rfl, fun _ => rfl,
        fun _ h1 h2 => if_pos ⟨h1, h2⟩, fun _ _ => rfl, fun _ => rfl, rfl, rfl⟩ _
        (by norm_num) (by norm_num)]
      rfl
    obtain ⟨res, n, e, hlen, hiff⟩ := resampleFrom_count _ hacos
      (1152921504606847 / 1152921504606846976 * RAD_PER_METER ℝ) hRpos
      [(0, 5902958103587057 / 1180591620717411303424)]
      (1152921504606847 / 1152921504606846976 * RAD_PER_METER ℝ) (0, 0) [(0, 0)] 0 0 _ hL
      (le_of_lt hRpos) (by simp) (by simp) (fun k hk1 hk2 => by omega)
    refine ⟨res, e, ?_⟩
    have hpi1 := Real.pi_gt_d6
    have hpi2 := Real.pi_lt_d6
    have h556 : 556 ≤ n := by
      have := (hiff 556 (by norm_num)).2 (by
        unfold RAD_PER_METER
        norm_num
        nlinarith)
      exact this
    have h557 : ¬ 557 ≤ n := by
      intro hn
      have := (hiff 557 (by norm_num)).1 hn
      unfold RAD_PER_METER at this
      norm_num at this
      nlinarith
    omega

end Valhalla
